import Mathlib

/-!
# MallocLab: a segregated-free-list allocator (`mm.c`)

Shallow embedding of `mm.c`.  Memory is a byte map; a heap word is eight
little-endian bytes.  `size_t` values and pointers are natural numbers with
explicit wrap-around modulo `2^64`.  Every word access is checked against the
current heap bounds `[lo, brk)`: an access outside them makes the operation
fail (`none`).  The `while` loop of `search` takes fuel (the heap size in
bytes); running out of fuel is `none` as well.
-/

set_option linter.unusedVariables false

namespace MallocLab

/-! ## Constants -/

/-- Number of values of a 64-bit word: `size_t` and pointer arithmetic wrap modulo this. -/
abbrev W64 : Nat := 18446744073709551616

/-- Addresses from here on are negative when cast to `long`. -/
abbrev LONG_LIM : Nat := 9223372036854775808

def ALIGNMENT : Nat := 16
def WSIZE : Nat := 8
def DSIZE : Nat := 16
def SEGLISTNUM : Nat := 16
def CHUNKSIZE : Nat := 4096

/-- The null pointer. -/
def NULL : Nat := 0

/-! ## Heap state -/

/-- Allocator state: byte memory, the provider's bounds `[lo, brk)` and the two
global pointers of `mm.c`. -/
structure Heap where
  mem : Nat → Nat
  lo : Nat
  brk : Nat
  heap_listp : Nat
  list_header_ptr : Nat

/-- Little-endian read of the eight bytes at `a`. -/
def rd64 (m : Nat → Nat) (a : Nat) : Nat :=
  m a % 256 + m (a + 1) % 256 * 256 + m (a + 2) % 256 * 65536
    + m (a + 3) % 256 * 16777216 + m (a + 4) % 256 * 4294967296
    + m (a + 5) % 256 * 1099511627776 + m (a + 6) % 256 * 281474976710656
    + m (a + 7) % 256 * 72057594037927936

/-- Little-endian write of the low 64 bits of `v` to the eight bytes at `a`. -/
def wr64 (m : Nat → Nat) (a v : Nat) : Nat → Nat :=
  fun c => if a ≤ c ∧ c < a + 8 then v / 256 ^ (c - a) % 256 else m c

/-- A state before `mm_init`: empty heap starting at `base`, both globals `NULL`. -/
def fresh (base : Nat) (m : Nat → Nat) : Heap :=
  { mem := m, lo := base, brk := base, heap_listp := NULL, list_header_ptr := NULL }

/-- Modelled from the spec: the heap memory provider's `extend(byteCount)`
(`mem_sbrk`, declared in `memlib.h`, not part of `mm.c`).  When the provider
grants the request the old break is returned and the break moves up by
`incr`, so granted ranges are contiguous; otherwise `(void *)-1` is returned
and nothing changes.  Whether it grants is the provider's choice (`grant`);
it never grants a range reaching address `2^63`. -/
def mem_sbrk (h : Heap) (incr : Nat) (grant : Bool) : Nat × Heap :=
  if grant = true ∧ h.brk + incr < LONG_LIM then
    (h.brk, { h with brk := h.brk + incr })
  else (W64 - 1, h)

/-- Modelled from the spec: `mem_memcpy` of `memlib.h` (not part of `mm.c`),
a copy of `n` bytes from `src` to `dst`, source bytes taken from the memory
before the call.  Like every other access, it has no result when it reads or
writes a byte outside the heap `[lo, brk)`; a copy of no byte accesses
nothing. -/
def mem_memcpy (h : Heap) (dst src n : Nat) : Option Heap :=
  if n = 0 ∨ (h.lo ≤ dst ∧ dst + n ≤ h.brk ∧ h.lo ≤ src ∧ src + n ≤ h.brk) then
    some { h with
      mem := fun c => if dst ≤ c ∧ c < dst + n then h.mem (src + (c - dst)) else h.mem c }
  else none

/-- Modelled from the spec: `mem_memset` of `memlib.h` (not part of `mm.c`),
which fills `n` bytes from `dst` with the byte `v`.  It has no result when it
writes a byte outside the heap `[lo, brk)`. -/
def mem_memset (h : Heap) (dst v n : Nat) : Option Heap :=
  if n = 0 ∨ (h.lo ≤ dst ∧ dst + n ≤ h.brk) then
    some { h with mem := fun c => if dst ≤ c ∧ c < dst + n then v % 256 else h.mem c }
  else none

/-- Sequencing of a step that may fail with the rest of the function body. -/
@[noinline]
def andThen {α β : Type} (x : Option α) (f : α → Option β) : Option β :=
  match x with
  | none => none
  | some a => f a

/-! ## Helper functions of `mm.c` -/

def align (x : Nat) : Nat := (ALIGNMENT * (((x + ALIGNMENT - 1) % W64) / ALIGNMENT)) % W64

def PACK (size alloc : Nat) : Nat := size ||| alloc

def GET (h : Heap) (p : Nat) : Option Nat :=
  if h.lo ≤ p ∧ p + 8 ≤ h.brk then some (rd64 h.mem p) else none

def PUT (h : Heap) (p val : Nat) : Option Heap :=
  if h.lo ≤ p ∧ p + 8 ≤ h.brk then some { h with mem := wr64 h.mem p val } else none

def PUT_ADDRESS (h : Heap) (p val : Nat) : Option Heap := PUT h p val

/-- The mask is `~0x7` as a `size_t`. -/
def GET_SIZE (h : Heap) (p : Nat) : Option Nat :=
  (GET h p).map (fun v => v &&& 18446744073709551608)

def GET_ALLOC (h : Heap) (p : Nat) : Option Nat :=
  (GET h p).map (fun v => v &&& 1)

def PREV_ALLOC (h : Heap) (p : Nat) : Option Nat :=
  (GET h p).map (fun v => v &&& 2)

def HDRP (bp : Nat) : Nat := (bp + W64 - WSIZE) % W64

def FTRP (h : Heap) (bp : Nat) : Option Nat :=
  (GET_SIZE h (HDRP bp)).map (fun s => (bp + (s + W64 - DSIZE) % W64) % W64)

def N_ADD (bp : Nat) : Nat := bp

def P_ADD (bp : Nat) : Nat := (bp + WSIZE) % W64

def NEXT_BLK (h : Heap) (bp : Nat) : Option Nat :=
  (GET_SIZE h ((bp + W64 - WSIZE) % W64)).map (fun s => (bp + s) % W64)

def PREV_BLK (h : Heap) (bp : Nat) : Option Nat :=
  (GET_SIZE h ((bp + W64 - DSIZE) % W64)).map (fun s => (bp + W64 - s) % W64)

/-! ## Free-list manager -/

def getlistNum (size : Nat) : Nat :=
  if size ≤ 32 then 0
  else if size ≤ 48 then 1
  else if size ≤ 64 then 2
  else if size ≤ 112 then 3
  else if size ≤ 160 then 4
  else if size ≤ 208 then 5
  else if size ≤ 512 then 6
  else if size ≤ 1024 then 7
  else if size ≤ 2016 then 8
  else if size ≤ 4016 then 9
  else if size ≤ 8016 then 10
  else if size ≤ 15360 then 11
  else if size ≤ 30720 then 12
  else if size ≤ 61440 then 13
  else 14

/-- Address of the root slot of list `id`. -/
def root (h : Heap) (id : Nat) : Nat := (h.list_header_ptr + id * WSIZE) % W64

def addtoSeg (h : Heap) (bp size : Nat) : Option Heap :=
  let id := getlistNum size
  let start := root h id
  andThen (GET h start) fun first =>
  if first = NULL then
    andThen (PUT_ADDRESS h start bp) fun h =>
    andThen (PUT_ADDRESS h (N_ADD bp) NULL) fun h =>
    PUT_ADDRESS h (P_ADD bp) NULL
  else
    andThen (PUT_ADDRESS h start bp) fun h =>
    andThen (PUT_ADDRESS h (P_ADD bp) NULL) fun h =>
    andThen (PUT_ADDRESS h (N_ADD bp) first) fun h =>
    PUT_ADDRESS h (P_ADD first) bp

def remfromSeg (h : Heap) (bp size : Nat) : Option Heap :=
  andThen (GET h (N_ADD bp)) fun next =>
  andThen (GET h (P_ADD bp)) fun prev =>
  let startinglist := getlistNum size
  if prev = NULL ∧ next ≠ NULL then
    andThen (PUT_ADDRESS h (root h startinglist) next) fun h =>
    PUT_ADDRESS h (P_ADD next) NULL
  else if prev = NULL ∧ next = NULL then
    PUT_ADDRESS h (root h startinglist) NULL
  else if prev ≠ NULL ∧ next = NULL then
    PUT_ADDRESS h (N_ADD prev) NULL
  else
    andThen (PUT_ADDRESS h (P_ADD next) prev) fun h =>
    PUT_ADDRESS h (N_ADD prev) next

/-- The `while` loop of `search`; the first argument is fuel. -/
def search_loop (h : Heap) (size : Nat) : Nat → Nat → Option Nat
  | 0, _ => none
  | fuel + 1, current =>
    if current ≠ NULL then
      andThen (GET_SIZE h (HDRP current)) fun s =>
        if size ≤ s then some current
        else andThen (GET h (N_ADD current)) fun nx => search_loop h size fuel nx
    else some current

/-- The fuel handed to the loop is the heap size in bytes. -/
def search (h : Heap) (startlist size : Nat) : Option Nat :=
  andThen (GET h (root h startlist)) fun current =>
    search_loop h size (h.brk - h.lo) current

/-- The `for` loop of `find`: `n` iterations remain, the next one visits list `i`. -/
def find_loop (h : Heap) (size : Nat) : Nat → Nat → Option Nat
  | 0, _ => some NULL
  | n + 1, i =>
    andThen (search h i size) fun bp =>
      if bp ≠ NULL then some bp else find_loop h size n (i + 1)

def find (h : Heap) (size : Nat) : Option Nat :=
  let startinglist := getlistNum size
  find_loop h size (SEGLISTNUM - startinglist) startinglist

/-! ## Allocator core -/

def coalesce (h : Heap) (bp : Nat) : Option (Nat × Heap) :=
  andThen (PREV_ALLOC h (HDRP bp)) fun prev_alloc =>
  andThen (NEXT_BLK h bp) fun nb =>
  andThen (GET_ALLOC h (HDRP nb)) fun next_alloc =>
  andThen (GET_SIZE h (HDRP bp)) fun size =>
  if prev_alloc ≠ 0 ∧ next_alloc ≠ 0 then
    some (bp, h)
  else if prev_alloc ≠ 0 ∧ next_alloc = 0 then
    andThen (NEXT_BLK h bp) fun next =>
    andThen (remfromSeg h bp size) fun h =>
    andThen (GET_SIZE h (HDRP next)) fun nsz =>
    andThen (remfromSeg h next nsz) fun h =>
    andThen (GET_SIZE h (HDRP next)) fun nsz =>
    let size := (size + nsz) % W64
    andThen (PUT h (HDRP bp) (PACK size prev_alloc)) fun h =>
    andThen (FTRP h bp) fun f =>
    andThen (PUT h f (PACK size prev_alloc)) fun h =>
    andThen (addtoSeg h bp size) fun h =>
    some (bp, h)
  else if prev_alloc = 0 ∧ next_alloc ≠ 0 then
    andThen (PREV_BLK h bp) fun prev =>
    andThen (GET_SIZE h (HDRP prev)) fun prevsize =>
    andThen (remfromSeg h bp size) fun h =>
    andThen (remfromSeg h prev prevsize) fun h =>
    let size := (size + prevsize) % W64
    andThen (PREV_ALLOC h (HDRP prev)) fun pa =>
    andThen (PUT h (HDRP prev) (PACK size pa)) fun h =>
    andThen (FTRP h prev) fun f =>
    andThen (GET h (HDRP prev)) fun v =>
    andThen (PUT h f v) fun h =>
    andThen (addtoSeg h prev size) fun h =>
    some (prev, h)
  else
    andThen (PREV_BLK h bp) fun prev =>
    let prevheader := HDRP prev
    andThen (NEXT_BLK h bp) fun next =>
    let nextheader := HDRP next
    andThen (GET_SIZE h prevheader) fun prevsize =>
    andThen (GET_SIZE h nextheader) fun nextsize =>
    andThen (remfromSeg h bp size) fun h =>
    andThen (remfromSeg h prev prevsize) fun h =>
    andThen (remfromSeg h next nextsize) fun h =>
    let size := (size + (prevsize + nextsize) % W64) % W64
    andThen (PREV_ALLOC h prevheader) fun pa =>
    andThen (PUT h prevheader (PACK size pa)) fun h =>
    andThen (FTRP h prev) fun f =>
    andThen (GET h prevheader) fun v =>
    andThen (PUT h f v) fun h =>
    andThen (addtoSeg h prev size) fun h =>
    some (prev, h)

def extend_heap (h : Heap) (words : Nat) (grant : Bool) : Option (Nat × Heap) :=
  let r := mem_sbrk h words grant
  let bp := r.1
  let h := r.2
  if LONG_LIM ≤ bp then some (NULL, h)
  else
    andThen (PREV_ALLOC h (HDRP bp)) fun pa =>
    andThen (PUT h (HDRP bp) (PACK words pa)) fun h =>
    andThen (FTRP h bp) fun f =>
    andThen (GET h (HDRP bp)) fun v =>
    andThen (PUT h f v) fun h =>
    andThen (addtoSeg h bp words) fun h =>
    andThen (NEXT_BLK h bp) fun nb =>
    andThen (PUT h (HDRP nb) (PACK 0 1)) fun h =>
    coalesce h bp

/-- Conversion of an `int` to `bool` (`_Bool`): every non-zero value is `true`. -/
def toBool (v : Int) : Bool := v != 0

/-- The `for` loop of `mm_init` that clears the root slots: `n` iterations
remain, the next one clears slot `i`. -/
def init_roots (h : Heap) : Nat → Nat → Option Heap
  | 0, _ => some h
  | n + 1, i =>
    andThen (PUT_ADDRESS h ((h.list_header_ptr + i * WSIZE) % W64) NULL) fun h1 =>
      init_roots h1 n (i + 1)

/-- The three provider requests of `mm_init` are granted or refused as
`g1`, `g2`, `g3` say. -/
def mm_init (h : Heap) (g1 g2 g3 : Bool) : Option (Bool × Heap) :=
  let r := mem_sbrk h (SEGLISTNUM * WSIZE) g1
  let h := { r.2 with list_header_ptr := r.1 }
  if h.list_header_ptr = W64 - 1 then some (toBool (-1), h)
  else
    andThen (init_roots h SEGLISTNUM 0) fun h =>
    let r := mem_sbrk h (4 * WSIZE) g2
    let h := { r.2 with heap_listp := r.1 }
    if h.heap_listp = W64 - 1 then some (toBool (-1), h)
    else
      andThen (PUT h h.heap_listp 0) fun h =>
      andThen (PUT h ((h.heap_listp + 1 * WSIZE) % W64) (PACK DSIZE 1)) fun h =>
      andThen (PUT h ((h.heap_listp + 2 * WSIZE) % W64) (PACK DSIZE 1)) fun h =>
      andThen (PUT h ((h.heap_listp + 3 * WSIZE) % W64) (PACK 0 (2 ||| 1))) fun h =>
      let h := { h with heap_listp := (h.heap_listp + 4 * WSIZE) % W64 }
      andThen (extend_heap h CHUNKSIZE g3) fun r =>
      if r.1 = NULL then some (toBool (-1), r.2)
      else some (true, r.2)

def place (h : Heap) (bp asize : Nat) : Option Heap :=
  andThen (GET_SIZE h (HDRP bp)) fun rsize =>
  let remainsize := (rsize + W64 - asize) % W64
  andThen (NEXT_BLK h bp) fun next =>
  andThen (remfromSeg h bp rsize) fun h =>
  if 2 * DSIZE ≤ remainsize then
    andThen (PREV_ALLOC h (HDRP bp)) fun pa =>
    andThen (PUT h (HDRP bp) (PACK asize (pa ||| 1))) fun h =>
    andThen (NEXT_BLK h bp) fun next =>
    andThen (PUT h (HDRP next) (remainsize ||| 2)) fun h =>
    andThen (FTRP h next) fun f =>
    andThen (PUT h f (remainsize ||| 2)) fun h =>
    addtoSeg h next remainsize
  else
    andThen (PREV_ALLOC h (HDRP bp)) fun pa =>
    andThen (PUT h (HDRP bp) (PACK rsize (pa ||| 1))) fun h =>
    andThen (GET h (HDRP next)) fun v =>
    andThen (PUT h (HDRP next) (v ||| 2)) fun h =>
    andThen (GET_ALLOC h (HDRP next)) fun a =>
    if a = 0 then
      andThen (FTRP h next) fun f =>
      andThen (GET h (HDRP next)) fun v =>
      PUT h f v
    else some h

/-- The adjusted block size computed by `malloc` from the request size. -/
def adjust (size : Nat) : Nat :=
  (DSIZE * (((size + DSIZE + (DSIZE - 1)) % W64) / DSIZE)) % W64

def malloc (h : Heap) (size : Nat) (grant : Bool) : Option (Nat × Heap) :=
  if size ≤ 0 then some (NULL, h)
  else
    let asize := adjust size
    andThen (find h asize) fun bp =>
    if bp ≠ NULL then
      andThen (place h bp asize) fun h => some (bp, h)
    else
      andThen (extend_heap h asize grant) fun r =>
      if r.1 = NULL then some (NULL, r.2)
      else andThen (place r.2 r.1 asize) fun h => some (r.1, h)

def free (h : Heap) (ptr : Nat) : Option Heap :=
  andThen (NEXT_BLK h ptr) fun next =>
  if ptr = NULL then some h
  else
    andThen (GET_SIZE h (HDRP ptr)) fun size =>
    andThen (PREV_ALLOC h (HDRP ptr)) fun pa =>
    andThen (PUT h (HDRP ptr) (size ||| pa)) fun h =>
    andThen (FTRP h ptr) fun f =>
    andThen (GET h (HDRP ptr)) fun v =>
    andThen (PUT h f v) fun h =>
    andThen (GET_SIZE h (HDRP next)) fun s =>
    andThen (GET_ALLOC h (HDRP next)) fun a =>
    andThen (PUT h (HDRP next) (s ||| a)) fun h =>
    andThen (addtoSeg h ptr size) fun h =>
    andThen (coalesce h ptr) fun r =>
    some r.2

def realloc (h : Heap) (oldptr size : Nat) (grant : Bool) : Option (Nat × Heap) :=
  if oldptr = NULL then malloc h size grant
  else
    andThen (malloc h size grant) fun r =>
    let newadd := r.1
    andThen (mem_memcpy r.2 newadd oldptr size) fun h =>
    andThen (free h oldptr) fun h =>
    some (newadd, h)

def calloc (h : Heap) (nmemb size : Nat) (grant : Bool) : Option (Nat × Heap) :=
  let size := (size * nmemb) % W64
  andThen (malloc h size grant) fun r =>
  if r.1 ≠ NULL then andThen (mem_memset r.2 r.1 0 size) fun h => some (r.1, h)
  else some r

/-! ## The walks of `mm_checkheap` -/

/-- The block-chain walk of `mm_checkheap`
(`bp = heap_listp; while (GET_SIZE(HDRP(bp)) > 0) { ...; bp = NEXT_BLK(bp); }`),
returning the payload pointers it visits; the first argument is fuel. -/
def chain_loop (h : Heap) : Nat → Nat → Option (List Nat)
  | 0, _ => none
  | fuel + 1, bp =>
    andThen (GET_SIZE h (HDRP bp)) fun s =>
    if s > 0 then
      andThen (NEXT_BLK h bp) fun nb =>
      andThen (chain_loop h fuel nb) fun r => some (bp :: r)
    else some []

/-- The blocks of the chain in heap order, from the first real block to the epilogue. -/
def chain (h : Heap) : Option (List Nat) :=
  chain_loop h (h.brk - h.lo) h.heap_listp

/-- The free-list walk of `mm_checkheap`
(`while (current_free_blk != NULL) { ...; current_free_blk = GET(N_ADD(current_free_blk)); }`),
returning the blocks it visits; the first argument is fuel. -/
def list_loop (h : Heap) : Nat → Nat → Option (List Nat)
  | 0, _ => none
  | fuel + 1, current =>
    if current ≠ NULL then
      andThen (GET h (N_ADD current)) fun nx =>
      andThen (list_loop h fuel nx) fun r => some (current :: r)
    else some []

/-- The members of size-class list `i`, from its root through the next links. -/
def seglist (h : Heap) (i : Nat) : Option (List Nat) :=
  andThen (GET h (root h i)) fun current => list_loop h (h.brk - h.lo) current

/-- The members of lists `i`, `i + 1`, ..., `i + n - 1`, list by list. -/
def seglists_from (h : Heap) : Nat → Nat → Option (List (List Nat))
  | 0, _ => some []
  | n + 1, i =>
    andThen (seglist h i) fun l =>
    andThen (seglists_from h n (i + 1)) fun r => some (l :: r)

/-- The members of all `SEGLISTNUM` lists, list by list. -/
def seglists (h : Heap) : Option (List (List Nat)) := seglists_from h SEGLISTNUM 0

/-! ## Client behaviour and reachable states -/

/-- A client store of the byte `v` at address `a`. -/
def poke (h : Heap) (a v : Nat) : Heap :=
  { h with mem := fun c => if c = a then v else h.mem c }

/-- States reachable from a successful `mm_init` by valid client behaviour,
together with the live allocations `(p, n)`: pointer returned by `malloc (n)`
and not freed since.  `mm_init` is successful when the provider has granted
its three requests (`128 + 32 + 4096` bytes from `base`).  Valid behaviour is:
`malloc` with a request size that does not wrap, `free` of a live pointer,
and stores into the requested range of a live allocation. -/
inductive Reach : Heap → List (Nat × Nat) → Prop
  | init (base : Nat) (m : Nat → Nat) (r : Bool) (st : Heap) :
      base + 4256 < LONG_LIM →
      mm_init (fresh base m) true true true = some (r, st) → Reach st []
  | malloc (st st1 : Heap) (live : List (Nat × Nat)) (n p : Nat) (g : Bool) :
      Reach st live → 0 < n → n + 31 < W64 → malloc st n g = some (p, st1) → p ≠ NULL →
      Reach st1 ((p, n) :: live)
  | malloc_null (st st1 : Heap) (live : List (Nat × Nat)) (n : Nat) (g : Bool) :
      Reach st live → n + 31 < W64 → malloc st n g = some (NULL, st1) →
      Reach st1 live
  | free (st st1 : Heap) (live : List (Nat × Nat)) (p n : Nat) :
      Reach st live → (p, n) ∈ live → free st p = some st1 →
      Reach st1 (live.filter fun e => e.1 ≠ p)
  | store (st : Heap) (live : List (Nat × Nat)) (p n a v : Nat) :
      Reach st live → (p, n) ∈ live → p ≤ a → a < p + n →
      Reach (poke st a v) live

/-! ## Abstract view of the heap -/

/-- A block of the chain as the proofs see it: payload address, size, allocated
bit and previous-allocated bit (each `0` or `1`). -/
structure Blk where
  addr : Nat
  size : Nat
  alloc : Nat
  palloc : Nat

/-- The header word of a block. -/
def Blk.hdr (b : Blk) : Nat := b.size + 2 * b.palloc + b.alloc

/-- A run of consecutive blocks from payload address `a` to `e`, the block
before the run having allocated bit `pa`. -/
def Linked : Nat → Nat → List Blk → Nat → Prop
  | a, _, [], e => a = e
  | a, pa, b :: bs, e =>
    b.addr = a ∧ b.palloc = pa ∧ b.alloc ≤ 1 ∧ 32 ≤ b.size ∧ b.size % 16 = 0 ∧
      Linked (a + b.size) b.alloc bs e

/-- Allocated bit of the last block of a run (`pa` for the empty run). -/
def lastAlloc : Nat → List Blk → Nat
  | pa, [] => pa
  | _, b :: bs => lastAlloc b.alloc bs

/-- A doubly linked list segment in memory: starting at `cur`, whose
predecessor is `prev`, visiting `l` and ending with next link `e`. -/
def DLseg (m : Nat → Nat) : Nat → Nat → List Nat → Nat → Prop
  | _, cur, [], e => cur = e
  | prev, cur, x :: xs, e =>
    cur = x ∧ x ≠ 0 ∧ rd64 m (x + 8) = prev ∧ DLseg m x (rd64 m x) xs e

/-- The chain `bs` and the lists `bk` describe the heap `h`: headers, footer
sizes of free blocks, and well-formed lists of free blocks, each in the list
of its size. -/
structure Core (h : Heap) (bs : List Blk) (bk : Nat → List Nat) : Prop where
  lhp : h.list_header_ptr = h.lo
  hlp : h.heap_listp = h.lo + 160
  top : h.brk < LONG_LIM
  linked : Linked (h.lo + 160) 1 bs h.brk
  hdr : ∀ b, b ∈ bs → rd64 h.mem (b.addr - 8) = b.hdr
  ftr : ∀ b, b ∈ bs → b.alloc = 0 →
    rd64 h.mem (b.addr + b.size - 16) - rd64 h.mem (b.addr + b.size - 16) % 8 = b.size
  dl : ∀ i, i < 16 → DLseg h.mem 0 (rd64 h.mem (h.lo + 8 * i)) (bk i) 0
  mem_bk : ∀ i, i < 16 → ∀ x, x ∈ bk i →
    ∃ b, b ∈ bs ∧ b.addr = x ∧ b.alloc = 0 ∧ getlistNum b.size = i
  nodup : ∀ i, i < 16 → (bk i).Nodup
  pro : rd64 h.mem (h.lo + 128) = 0 ∧ rd64 h.mem (h.lo + 136) = 17 ∧
    rd64 h.mem (h.lo + 144) = 17

/-- The epilogue header closes the chain. -/
def Epi (h : Heap) (bs : List Blk) : Prop :=
  rd64 h.mem (h.brk - 8) = 2 * lastAlloc 1 bs + 1

/-- Every free block is on the list of its size. -/
def Full (bs : List Blk) (bk : Nat → List Nat) : Prop :=
  ∀ b, b ∈ bs → b.alloc = 0 → b.addr ∈ bk (getlistNum b.size)

/-- No free block follows a free block. -/
def NoAdj (bs : List Blk) : Prop :=
  ∀ b, b ∈ bs → b.alloc = 0 → b.palloc = 1

/-- The heap invariant between allocator calls. -/
structure Inv (h : Heap) (bs : List Blk) (bk : Nat → List Nat) : Prop where
  core : Core h bs bk
  epi : Epi h bs
  full : Full bs bk
  noadj : NoAdj bs

/-- The chain has an allocated block of size `s` with payload address `p`. -/
def IsAlloc (bs : List Blk) (p s : Nat) : Prop :=
  ∃ b, b ∈ bs ∧ b.addr = p ∧ b.size = s ∧ b.alloc = 1

/-- Bytes inside allocated blocks (payload up to the next header) are the same in both states. -/
def CFrame (bs : List Blk) (h h1 : Heap) : Prop :=
  ∀ c, (∃ b, b ∈ bs ∧ b.alloc = 1 ∧ b.addr ≤ c ∧ c < b.addr + b.size - 8) → h1.mem c = h.mem c

/-- Replace the previous-allocated bit of the first block of a run. -/
def setPA (v : Nat) : List Blk → List Blk
  | [] => []
  | c :: cs => { c with palloc := v } :: cs

/-- Size field of the header found right after a run: that of the next block,
or `0` for the epilogue. -/
def nextSize : List Blk → Nat
  | [] => 0
  | c :: _ => c.size

/-- Allocated bit of the header found right after a run (`1` for the epilogue). -/
def nextAlloc : List Blk → Nat
  | [] => 1
  | c :: _ => c.alloc

/-- Header word found right after a run when its previous-allocated bit is `v`. -/
def nextHdr (v : Nat) (post : List Blk) : Nat :=
  nextSize post + 2 * v + nextAlloc post

/-- Bytes outside the root slots and outside the link words of free blocks agree. -/
def LFrame (lo : Nat) (bs : List Blk) (m m1 : Nat → Nat) : Prop :=
  ∀ c, lo + 128 ≤ c → (∀ d, d ∈ bs → d.alloc = 0 → c < d.addr ∨ d.addr + 16 ≤ c) →
    m1 c = m c


/-- The chain after `place` has carved `asize` bytes from the free block `b`. -/
def placed (pre : List Blk) (b : Blk) (post : List Blk) (asize : Nat) : List Blk :=
  if 32 ≤ b.size - asize then
    pre ++ [⟨b.addr, asize, 1, b.palloc⟩, ⟨b.addr + asize, b.size - asize, 0, 1⟩] ++ post
  else pre ++ [⟨b.addr, b.size, 1, b.palloc⟩] ++ setPA 1 post

/-- Bytes the allocator owns: root slots, sentinel words, headers, and the
inside of free blocks. -/
def Owned (lo : Nat) (bs : List Blk) (c : Nat) : Prop :=
  c < lo + 152 ∨ ∃ d, d ∈ bs ∧ ((d.addr ≤ c + 8 ∧ c < d.addr) ∨
    (d.alloc = 0 ∧ d.addr ≤ c ∧ c + 8 < d.addr + d.size))


/-- Size field of the header of the block with payload address `x`. -/
def hsize (m : Nat → Nat) (x : Nat) : Nat := rd64 m (x - 8) - rd64 m (x - 8) % 8

/-- First member of a list whose block is large enough, `0` if there is none. -/
def firstFit (m : Nat → Nat) (size : Nat) : List Nat → Nat
  | [] => 0
  | x :: xs => if size ≤ hsize m x then x else firstFit m size xs

/-- Result of the loop of `find` over lists `i`, `i + 1`, ..., `i + n - 1`. -/
def findFrom (m : Nat → Nat) (size : Nat) (bk : Nat → List Nat) : Nat → Nat → Nat
  | 0, _ => 0
  | n + 1, i => if firstFit m size (bk i) ≠ 0 then firstFit m size (bk i)
    else findFrom m size bk n (i + 1)

/-- Size of the block handed out by `place` when it carves `asize` bytes from `c`. -/
def placedSize (c : Blk) (asize : Nat) : Nat :=
  if 32 ≤ c.size - asize then asize else c.size


/-- Every live allocation `(p, n)` is the payload of an allocated block of the
chain whose size leaves room for `n` bytes, the header and a footer word. -/
def Live (bs : List Blk) (live : List (Nat × Nat)) : Prop :=
  ∀ p n, (p, n) ∈ live → ∃ s, IsAlloc bs p s ∧ n + 16 ≤ s

/-- State of the heap component of an optional result, `h` when there is none. -/
def stateOr (h : Heap) (r : Option (Nat × Heap)) : Heap :=
  match r with
  | some x => x.2
  | none => h

/-- The heap after `mm_init` on an empty heap at address 4096 filled with zeros. -/
def run0 : Heap :=
  match mm_init (fresh 4096 (fun _ => 0)) true true true with
  | some r => r.2
  | none => fresh 4096 (fun _ => 0)

/-- Then `malloc (24)`, which returns 4256. -/
def run1 : Heap := stateOr run0 (malloc run0 24 true)

/-- Then `malloc (100)`, which returns 4304. -/
def run2 : Heap := stateOr run1 (malloc run1 100 true)

/-- Then `free (4256)`. -/
def run3 : Heap := (free run2 4256).getD run2

/-- Consecutive client stores of the bytes `vs` from address `a` on. -/
def fill (h : Heap) : Nat → List Nat → Heap
  | _, [] => h
  | a, v :: vs => fill (poke h a v) (a + 1) vs

/-- After `mm_init` and `malloc (20)` (which returns 4256), the client writes
twenty bytes into the allocation. -/
def run20 : Heap :=
  fill (stateOr run0 (malloc run0 20 true)) 4256
    [1, 2, 3, 4, 5, 6, 7, 8, 9, 10, 11, 12, 13, 14, 15, 16, 17, 18, 19, 20]


/-- The result of `mm_init` on an empty heap at 4096 when the provider refuses
the third request (the initial extension). -/
def initRefused : Bool × Heap :=
  (mm_init (fresh 4096 (fun _ => 0)) true true false).getD (false, fresh 4096 (fun _ => 0))


/-- The heap after `malloc (10)` in `run20`, which returns 4304. -/
def run21 : Heap := stateOr run20 (malloc run20 10 true)

/-- After `mm_init`: `malloc (4000)`, which returns 4256. -/
def runR1 : Heap := stateOr run0 (malloc run0 4000 true)

/-- Then `malloc (50)`, which returns 8272: the last block of the heap. -/
def runR2 : Heap := stateOr runR1 (malloc runR1 50 true)

/-- Then `free (4256)`. -/
def runR3 : Heap := (free runR2 4256).getD runR2

/-- The heap after `malloc (3000)` in `runR3`, which returns 4256. -/
def runR4 : Heap := stateOr runR3 (malloc runR3 3000 true)


/-- The inclusive upper bounds of the size classes, in the spec's words
(`32, 48, ..., 61440`; the last class, index 14, has no bound). -/
def bucketBounds : List Nat :=
  [32, 48, 64, 112, 160, 208, 512, 1024, 2016, 4016, 8016, 15360, 30720, 61440]

/-- Size class of a size in the spec's words: the least index whose bound is
at least the size, and the last class (index 14) when no bound is. -/
def bucketFor (size : Nat) : Nat :=
  bucketBounds.findIdx fun b => decide (size ≤ b)

/-- Well-formed size-class lists: list `i` starts at root slot `i`, is doubly
linked (the head's previous link is null, every other member's previous link
is its predecessor, the last next link is null), has no repetition, and the
link words of the members lie in the heap after the root slots and do not
overlap.  The root slots are the first 128 bytes of the heap. -/
structure Lists (h : Heap) (bk : Nat → List Nat) : Prop where
  lhp : h.list_header_ptr = h.lo
  top : h.brk < LONG_LIM
  roots : h.lo + 128 ≤ h.brk
  dl : ∀ i, i < 16 → DLseg h.mem 0 (rd64 h.mem (h.lo + 8 * i)) (bk i) 0
  nodup : ∀ i, i < 16 → (bk i).Nodup
  bnd : ∀ i, i < 16 → ∀ x, x ∈ bk i → h.lo + 128 ≤ x ∧ x + 16 ≤ h.brk
  sep : ∀ i j, i < 16 → j < 16 → ∀ x y, x ∈ bk i → y ∈ bk j →
    (x = y ∧ i = j) ∨ x + 16 ≤ y ∨ y + 16 ≤ x


/-- Whether the block at `x` is large enough for `size`: its header can be
read and the size field is at least `size`. -/
def fits (h : Heap) (size x : Nat) : Bool :=
  match GET_SIZE h (HDRP x) with
  | some s => decide (size ≤ s)
  | none => false

/-- After `mm_init`: `malloc (1024)`, which returns 4256. -/
def runA1 : Heap := stateOr run0 (malloc run0 1024 true)

/-- Then `malloc (16)`, which returns 5296. -/
def runA2 : Heap := stateOr runA1 (malloc runA1 16 true)

/-- Then `malloc (1024)`, which returns 5328. -/
def runA3 : Heap := stateOr runA2 (malloc runA2 1024 true)

/-- Then `malloc (16)`, which returns 6368. -/
def runA4 : Heap := stateOr runA3 (malloc runA3 16 true)

/-- Then `free (4256)`. -/
def runA5 : Heap := (free runA4 4256).getD runA4

/-- Then `free (5328)`: list 8 is now `5328, 4256, 6400`. -/
def runA6 : Heap := (free runA5 5328).getD runA5


/-- The block at `r` is a free block of size `S` after a merge: its header and
its footer both read `S + 2` (size `S`, allocated bit clear, previous-allocated
bit set), it is on the list of bucket `getlistNum S`, and none of the absorbed
blocks `gone` is on any list. -/
def MergedAt (st : Heap) (r S : Nat) (gone : List Nat) : Prop :=
  GET st (HDRP r) = some (S + 2) ∧ FTRP st r = some (r + S - 16) ∧
    GET st (r + S - 16) = some (S + 2) ∧
    (∃ l, seglist st (getlistNum S) = some l ∧ r ∈ l) ∧
    ∀ i, i < 16 → ∃ l, seglist st i = some l ∧ ∀ x, x ∈ gone → x ∉ l

/-- After `mm_init`: `malloc (2^64 - 31)`, whose adjusted size wraps to 0. -/
def runU1 : Heap := stateOr run0 (malloc run0 (W64 - 31) true)

/-- Then `malloc (64)`. -/
def runU2 : Heap := stateOr runU1 (malloc runU1 64 true)

/-- After `mm_init`: `malloc (64)`, which returns 4256. -/
def runV1 : Heap := stateOr run0 (malloc run0 64 true)

/-- Then `malloc (2^64 - 31)`, whose adjusted size wraps to 0; it returns 4336. -/
def runV2 : Heap := stateOr runV1 (malloc runV1 (W64 - 31) true)

/-- Then `free (4256)`. -/
def runV3 : Heap := (free runV2 4256).getD runV2

/-- Modelled from the spec: `mem_heap_lo` of `memlib.h` (not part of `mm.c`),
the low bound of the heap reported by the provider: the address of its first
byte. -/
def mem_heap_lo (h : Heap) : Nat := h.lo

/-- Modelled from the spec: `mem_heap_hi` of `memlib.h` (not part of `mm.c`),
the high bound of the heap reported by the provider: the address of its last
byte. -/
def mem_heap_hi (h : Heap) : Nat := (h.brk + W64 - 1) % W64

/-- Outcome of `mm_checkheap` in a `DEBUG` build: `passed` is the final
`return true`; every other value is one of the `return false` statements, named
after the check that made it, in the order of the source. -/
inductive Verdict where
  | passed
  | listedAllocated
  | listPointerInvalid
  | blockPointerInvalid
  | countMismatch
  | escapedCoalescing
  | overlap
deriving DecidableEq

/-- The value that `mm_checkheap` returns for a verdict. -/
def Verdict.toBool : Verdict → Bool
  | Verdict.passed => true
  | _ => false

/-- The `while` loop of `mm_checkheap` over one free list, from `current`
with the running `free_count`: a failing verdict, or the count after the
list.  The first argument is fuel. -/
def check_list_loop (h : Heap) : Nat → Nat → Nat → Option (Except Verdict Nat)
  | 0, _, _ => none
  | fuel + 1, current, free_count =>
    if current ≠ NULL then
      andThen (GET_ALLOC h (HDRP current)) fun a =>
      if a = 1 then some (Except.error Verdict.listedAllocated)
      else
        andThen (GET_SIZE h (HDRP current)) fun s =>
        if s = 0 ∨ current < mem_heap_lo h ∨ current > mem_heap_hi h then
          some (Except.error Verdict.listPointerInvalid)
        else
          andThen (GET h (N_ADD current)) fun nx =>
            check_list_loop h fuel nx ((free_count + 1) % W64)
    else some (Except.ok free_count)

/-- The `for` loop of `mm_checkheap` over the lists: `n` iterations remain,
the next one walks list `i`. -/
def check_lists (h : Heap) (fuel : Nat) : Nat → Nat → Nat → Option (Except Verdict Nat)
  | 0, _, free_count => some (Except.ok free_count)
  | n + 1, i, free_count =>
    andThen (GET h (root h i)) fun current =>
    andThen (check_list_loop h fuel current free_count) fun r =>
      match r with
      | Except.error v => some (Except.error v)
      | Except.ok c => check_lists h fuel n (i + 1) c

/-- The first walk of the block chain in `mm_checkheap`, which counts the
free blocks and checks the block pointers.  The first argument is fuel. -/
def count_loop (h : Heap) : Nat → Nat → Nat → Option (Except Verdict Nat)
  | 0, _, _ => none
  | fuel + 1, bp, free_count_heap =>
    andThen (GET_SIZE h (HDRP bp)) fun s =>
    if s > 0 then
      andThen (GET_ALLOC h (HDRP bp)) fun a =>
      if bp < mem_heap_lo h ∨ bp > mem_heap_hi h ∨ bp = NULL then
        some (Except.error Verdict.blockPointerInvalid)
      else
        andThen (NEXT_BLK h bp) fun nb =>
          count_loop h fuel nb (if a = 0 then (free_count_heap + 1) % W64 else free_count_heap)
    else some (Except.ok free_count_heap)

/-- Left side of the overlap test of `mm_checkheap`,
`bp + GET_SIZE(HDRP(bp)) - WSIZE`. -/
def overlap_left (h : Heap) (bp : Nat) : Option Nat :=
  (GET_SIZE h (HDRP bp)).map fun s => ((bp + s) % W64 + W64 - WSIZE) % W64

/-- Right side of the overlap test of `mm_checkheap`, `HDRP(NEXT_BLK(bp))`. -/
def overlap_right (h : Heap) (bp : Nat) : Option Nat :=
  (NEXT_BLK h bp).map HDRP

/-- The overlap test of `mm_checkheap`,
`bp + GET_SIZE(HDRP(bp)) - WSIZE > HDRP(NEXT_BLK(bp))`. -/
def overlap_test (h : Heap) (bp : Nat) : Option Bool :=
  andThen (overlap_left h bp) fun l =>
  andThen (overlap_right h bp) fun r => some (decide (l > r))

/-- The second walk of the block chain in `mm_checkheap`, which looks for free
blocks that escaped coalescing and runs the overlap test.  The first argument
is fuel. -/
def overlap_loop (h : Heap) : Nat → Nat → Option Verdict
  | 0, _ => none
  | fuel + 1, bp =>
    andThen (GET_SIZE h (HDRP bp)) fun s =>
    if s > 0 then
      let rest : Option Verdict :=
        andThen (overlap_test h bp) fun o =>
        if o = true then some Verdict.overlap
        else andThen (NEXT_BLK h bp) fun nb => overlap_loop h fuel nb
      andThen (GET_ALLOC h (HDRP bp)) fun a =>
      if a = 0 then
        andThen (PREV_ALLOC h (HDRP bp)) fun pa =>
        if pa ≠ 2 then some Verdict.escapedCoalescing else rest
      else rest
    else some Verdict.passed

/-- The body of `mm_checkheap` in a `DEBUG` build (the argument `lineno` only
feeds the diagnostic prints, which are left out).  Each loop runs on `fuel`. -/
def mm_checkheap (h : Heap) (fuel : Nat) : Option Verdict :=
  andThen (check_lists h fuel SEGLISTNUM 0 0) fun r1 =>
    match r1 with
    | Except.error v => some v
    | Except.ok free_count =>
      andThen (count_loop h fuel h.heap_listp 0) fun r2 =>
        match r2 with
        | Except.error v => some v
        | Except.ok free_count_heap =>
          if free_count ≠ free_count_heap then some Verdict.countMismatch
          else overlap_loop h fuel h.heap_listp

/-! ## Proofs -/


/-! ## Sequencing -/

@[simp]
theorem andThen_some {α β : Type} (a : α) (f : α → Option β) :
    andThen (some a) f = f a := rfl

@[simp]
theorem andThen_none {α β : Type} (f : α → Option β) :
    andThen none f = none := rfl

theorem andThen_eq_some {α β : Type} {x : Option α} {f : α → Option β} {b : β} :
    andThen x f = some b ↔ ∃ a, x = some a ∧ f a = some b := by
  cases x <;> simp

/-! ## Words in byte memory -/

theorem rd64_lt (m : Nat → Nat) (a : Nat) : rd64 m a < 18446744073709551616 := by
  unfold rd64; (clear * -; omega)

theorem rd64_wr64_same (m : Nat → Nat) (a v : Nat) :
    rd64 (wr64 m a v) a = v % 18446744073709551616 := by
  unfold rd64 wr64
  simp
  have h2 : v / 65536 = v / 256 / 256 := by rw [Nat.div_div_eq_div_mul]
  have h3 : v / 16777216 = v / 256 / 256 / 256 := by simp only [Nat.div_div_eq_div_mul]
  have h4 : v / 4294967296 = v / 256 / 256 / 256 / 256 := by simp only [Nat.div_div_eq_div_mul]
  have h5 : v / 1099511627776 = v / 256 / 256 / 256 / 256 / 256 := by
    simp only [Nat.div_div_eq_div_mul]
  have h6 : v / 281474976710656 = v / 256 / 256 / 256 / 256 / 256 / 256 := by
    simp only [Nat.div_div_eq_div_mul]
  have h7 : v / 72057594037927936 = v / 256 / 256 / 256 / 256 / 256 / 256 / 256 := by
    simp only [Nat.div_div_eq_div_mul]
  rw [h2, h3, h4, h5, h6, h7]
  (clear * -; omega)

theorem rd64_wr64_eq (m : Nat → Nat) (a v : Nat) (hv : v < 18446744073709551616) :
    rd64 (wr64 m a v) a = v := by
  rw [rd64_wr64_same, Nat.mod_eq_of_lt hv]

theorem wr64_other (m : Nat → Nat) (a v c : Nat) (hc : c < a ∨ a + 8 ≤ c) :
    wr64 m a v c = m c := by
  unfold wr64
  rw [if_neg]; omega

theorem rd64_congr (m m1 : Nat → Nat) (a : Nat)
    (hm : ∀ c, a ≤ c → c < a + 8 → m1 c = m c) : rd64 m1 a = rd64 m a := by
  unfold rd64
  rw [hm a (by omega) (by omega), hm (a + 1) (by omega) (by omega),
    hm (a + 2) (by omega) (by omega), hm (a + 3) (by omega) (by omega),
    hm (a + 4) (by omega) (by omega), hm (a + 5) (by omega) (by omega),
    hm (a + 6) (by omega) (by omega), hm (a + 7) (by omega) (by omega)]

theorem rd64_wr64_other (m : Nat → Nat) (a v b : Nat) (hb : b + 8 ≤ a ∨ a + 8 ≤ b) :
    rd64 (wr64 m a v) b = rd64 m b := by
  apply rd64_congr
  intro c h1 h2
  apply wr64_other; omega

/-! ## Bit operations as arithmetic -/

theorem land_step (a b : Nat) :
    a &&& b = 2 * (a / 2 &&& b / 2) + (if a % 2 = 1 ∧ b % 2 = 1 then 1 else 0) := by
  have h1 := Nat.div_add_mod (a &&& b) 2
  have h2 : (a &&& b) / 2 = a / 2 &&& b / 2 := Nat.and_div_two
  have h3 : (a &&& b) % 2 = 1 ↔ a % 2 = 1 ∧ b % 2 = 1 := Nat.and_mod_two_eq_one
  rw [h2] at h1
  split <;> rename_i hc
  · have := h3.2 hc; omega
  · have : ¬ ((a &&& b) % 2 = 1) := fun h => hc (h3.1 h)
    (clear * - h1 this; omega)

theorem and_one (x : Nat) : x &&& 1 = x % 2 := Nat.and_one_is_mod x

theorem and_two (x : Nat) : x &&& 2 = 2 * (x / 2 % 2) := by
  rw [land_step x 2]
  simp [Nat.and_one_is_mod]

theorem and_mask (x : Nat) (hx : x < 18446744073709551616) :
    x &&& 18446744073709551608 = x - x % 8 := by
  rw [land_step x, land_step (x / 2), land_step (x / 2 / 2)]
  have h : x / 2 / 2 / 2 &&& 2305843009213693951 = x / 2 / 2 / 2 := by
    have := @Nat.and_pow_two_sub_one_of_lt_two_pow 61 (x / 2 / 2 / 2) (by omega)
    simpa using this
  norm_num
  rw [h]
  (clear * -; omega)

theorem lor_eq_add (a f : Nat) (ha : a % 8 = 0) (hf : f < 8) : a ||| f = a + f := by
  have h := @Nat.mul_add_lt_is_or 3 f (by omega) (a / 8)
  have h8 : 2 ^ 3 * (a / 8) = a := by omega
  rw [h8] at h
  exact h.symm

theorem lor_two (s f : Nat) (hs : s % 8 = 0) (hf : f < 8) :
    (s + f) ||| 2 = s + (f ||| 2) := by
  rw [← lor_eq_add s f hs hf, Nat.or_assoc]
  apply lor_eq_add s _ hs
  interval_cases f <;> decide

/-- The three fields of a header word `s + 2 * p + a`. -/
theorem hdr_fields (s p a : Nat) (hs : s % 8 = 0) (hp : p ≤ 1) (ha : a ≤ 1)
    (hlt : s + 2 * p + a < 18446744073709551616) :
    (s + 2 * p + a) &&& 18446744073709551608 = s ∧ (s + 2 * p + a) &&& 1 = a ∧
      (s + 2 * p + a) &&& 2 = 2 * p := by
  rw [and_mask _ hlt, and_one, and_two]
  (clear * - hs hp ha; omega)

theorem ite_lt_of {c : Prop} [Decidable c] {a b n : Nat} (h1 : a < n) (h2 : b < n) :
    (if c then a else b) < n := by
  by_cases h : c
  · rw [if_pos h]; exact h1
  · rw [if_neg h]; exact h2

theorem getlistNum_lt (s : Nat) : getlistNum s < 15 := by
  unfold getlistNum
  repeat (first | apply ite_lt_of (by omega) | omega)

/-! ## Checked accesses -/

theorem GET_eq (h : Heap) (p : Nat) (h1 : h.lo ≤ p) (h2 : p + 8 ≤ h.brk) :
    GET h p = some (rd64 h.mem p) := by
  unfold GET; rw [if_pos ⟨h1, h2⟩]

theorem PUT_eq (h : Heap) (p v : Nat) (h1 : h.lo ≤ p) (h2 : p + 8 ≤ h.brk) :
    PUT h p v = some { h with mem := wr64 h.mem p v } := by
  unfold PUT; rw [if_pos ⟨h1, h2⟩]

/-! ## Runs of blocks -/

theorem Linked_le : ∀ (bs : List Blk) (a pa e : Nat), Linked a pa bs e → a ≤ e
  | [], a, pa, e, h => by simp [Linked] at h; omega
  | b :: bs, a, pa, e, h => by
    simp only [Linked] at h
    have := Linked_le bs _ _ _ h.2.2.2.2.2
    omega

theorem Linked_append (xs ys : List Blk) : ∀ (a pa e : Nat),
    Linked a pa (xs ++ ys) e ↔
      ∃ mid, Linked a pa xs mid ∧ Linked mid (lastAlloc pa xs) ys e := by
  induction xs with
  | nil => intro a pa e; simp [Linked, lastAlloc]
  | cons x xs ih =>
    intro a pa e
    rw [List.cons_append]
    simp only [Linked, lastAlloc]
    rw [ih]
    constructor
    · rintro ⟨h1, h2, h3, h4, h5, mid, h6, h7⟩
      exact ⟨mid, ⟨h1, h2, h3, h4, h5, h6⟩, h7⟩
    · rintro ⟨mid, ⟨h1, h2, h3, h4, h5, h6⟩, h7⟩
      exact ⟨h1, h2, h3, h4, h5, mid, h6, h7⟩

theorem lastAlloc_append (xs ys : List Blk) (pa : Nat) :
    lastAlloc pa (xs ++ ys) = lastAlloc (lastAlloc pa xs) ys := by
  induction xs generalizing pa with
  | nil => rfl
  | cons x xs ih => simp [lastAlloc, ih]

theorem lastAlloc_le : ∀ (bs : List Blk) (a pa e : Nat), Linked a pa bs e → pa ≤ 1 →
    lastAlloc pa bs ≤ 1
  | [], a, pa, e, _, hp => by simpa [lastAlloc] using hp
  | b :: bs, a, pa, e, h, _ => by
    simp only [Linked] at h
    simpa [lastAlloc] using lastAlloc_le bs _ _ _ h.2.2.2.2.2 h.2.2.1

theorem Linked_mem : ∀ (bs : List Blk) (a pa e : Nat), Linked a pa bs e → pa ≤ 1 →
    ∀ b, b ∈ bs → a ≤ b.addr ∧ b.addr + b.size ≤ e ∧ 32 ≤ b.size ∧ b.size % 16 = 0 ∧
      b.alloc ≤ 1 ∧ b.palloc ≤ 1
  | [], a, pa, e, _, _, b, hb => by simp at hb
  | c :: bs, a, pa, e, h, hp, b, hb => by
    simp only [Linked] at h
    obtain ⟨h1, h2, h3, h4, h5, h6⟩ := h
    rcases List.mem_cons.1 hb with rfl | hb
    · have := Linked_le bs _ _ _ h6
      (clear * - hp h1 h2 h3 h4 h5 this; omega)
    · have := Linked_mem bs _ _ _ h6 h3 b hb
      (clear * - this; omega)

theorem Linked_disjoint : ∀ (bs : List Blk) (a pa e : Nat), Linked a pa bs e → pa ≤ 1 →
    ∀ b c, b ∈ bs → c ∈ bs → b = c ∨ b.addr + b.size ≤ c.addr ∨ c.addr + c.size ≤ b.addr
  | [], a, pa, e, _, _, b, c, hb, _ => by simp at hb
  | d :: bs, a, pa, e, h, hp, b, c, hb, hc => by
    simp only [Linked] at h
    obtain ⟨h1, h2, h3, h4, h5, h6⟩ := h
    rcases List.mem_cons.1 hb with hb1 | hb1
    · rcases List.mem_cons.1 hc with hc1 | hc1
      · left; rw [hb1, hc1]
      · have := Linked_mem bs _ _ _ h6 h3 c hc1
        subst hb1
        right; left; omega
    · rcases List.mem_cons.1 hc with hc1 | hc1
      · have := Linked_mem bs _ _ _ h6 h3 b hb1
        subst hc1
        right; right; omega
      · exact Linked_disjoint bs _ _ _ h6 h3 b c hb1 hc1

/-- Blocks of a run are determined by their address. -/
theorem Linked_addr_inj (bs : List Blk) (a pa e : Nat) (h : Linked a pa bs e) (hp : pa ≤ 1)
    (b c : Blk) (hb : b ∈ bs) (hc : c ∈ bs) (hbc : b.addr = c.addr) : b = c := by
  rcases Linked_disjoint bs a pa e h hp b c hb hc with h1 | h1 | h1
  · exact h1
  · have := Linked_mem bs a pa e h hp b hb; omega
  · have := Linked_mem bs a pa e h hp c hc; omega


/-! ## Accesses on an explicit state -/

theorem GET_mk (m : Nat → Nat) (lo brk hl lh p : Nat) (h1 : lo ≤ p) (h2 : p + 8 ≤ brk) :
    GET ⟨m, lo, brk, hl, lh⟩ p = some (rd64 m p) := by
  unfold GET; rw [if_pos ⟨h1, h2⟩]

theorem PUT_mk (m : Nat → Nat) (lo brk hl lh p v : Nat) (h1 : lo ≤ p) (h2 : p + 8 ≤ brk) :
    PUT ⟨m, lo, brk, hl, lh⟩ p v = some ⟨wr64 m p v, lo, brk, hl, lh⟩ := by
  unfold PUT; rw [if_pos ⟨h1, h2⟩]

theorem PUT_ADDRESS_mk (m : Nat → Nat) (lo brk hl lh p v : Nat) (h1 : lo ≤ p)
    (h2 : p + 8 ≤ brk) :
    PUT_ADDRESS ⟨m, lo, brk, hl, lh⟩ p v = some ⟨wr64 m p v, lo, brk, hl, lh⟩ :=
  PUT_mk m lo brk hl lh p v h1 h2

theorem GET_SIZE_mk (m : Nat → Nat) (lo brk hl lh p : Nat) (h1 : lo ≤ p) (h2 : p + 8 ≤ brk) :
    GET_SIZE ⟨m, lo, brk, hl, lh⟩ p = some (rd64 m p - rd64 m p % 8) := by
  unfold GET_SIZE; rw [GET_mk m lo brk hl lh p h1 h2]
  simp [and_mask _ (rd64_lt m p)]

theorem GET_ALLOC_mk (m : Nat → Nat) (lo brk hl lh p : Nat) (h1 : lo ≤ p) (h2 : p + 8 ≤ brk) :
    GET_ALLOC ⟨m, lo, brk, hl, lh⟩ p = some (rd64 m p % 2) := by
  unfold GET_ALLOC; rw [GET_mk m lo brk hl lh p h1 h2]
  simp [and_one]

theorem PREV_ALLOC_mk (m : Nat → Nat) (lo brk hl lh p : Nat) (h1 : lo ≤ p)
    (h2 : p + 8 ≤ brk) :
    PREV_ALLOC ⟨m, lo, brk, hl, lh⟩ p = some (2 * (rd64 m p / 2 % 2)) := by
  unfold PREV_ALLOC; rw [GET_mk m lo brk hl lh p h1 h2]
  simp [and_two]

theorem HDRP_eq (x : Nat) (h1 : 8 ≤ x) (h2 : x < 18446744073709551616) : HDRP x = x - 8 := by
  unfold HDRP WSIZE W64; (clear * - h1 h2; omega)

theorem P_ADD_eq (x : Nat) (h2 : x + 8 < 18446744073709551616) : P_ADD x = x + 8 := by
  unfold P_ADD WSIZE W64; omega

@[simp]
theorem N_ADD_eq (x : Nat) : N_ADD x = x := rfl

theorem root_mk (m : Nat → Nat) (lo brk hl lh i : Nat)
    (h : lh + 8 * i < 18446744073709551616) :
    root ⟨m, lo, brk, hl, lh⟩ i = lh + 8 * i := by
  unfold root WSIZE W64; simp only; omega

theorem FTRP_mk (m : Nat → Nat) (lo brk hl lh x s : Nat) (h1 : lo + 8 ≤ x) (h2 : x ≤ brk)
    (hb : brk < 9223372036854775808)
    (hs : rd64 m (x - 8) - rd64 m (x - 8) % 8 = s) (h16 : 16 ≤ s) (hx : x + s ≤ brk) :
    FTRP ⟨m, lo, brk, hl, lh⟩ x = some (x + s - 16) := by
  rw [FTRP]
  rw [HDRP_eq x (by omega) (by omega), GET_SIZE_mk m lo brk hl lh _ (by omega) (by omega), hs]
  simp only [Option.map_some', DSIZE, W64]
  exact congrArg some (by (clear * - hb h16 hx; omega))

theorem NEXT_BLK_mk (m : Nat → Nat) (lo brk hl lh x s : Nat) (h1 : lo + 8 ≤ x) (h2 : x ≤ brk)
    (hb : brk < 9223372036854775808)
    (hs : rd64 m (x - 8) - rd64 m (x - 8) % 8 = s) (hx : x + s ≤ brk) :
    NEXT_BLK ⟨m, lo, brk, hl, lh⟩ x = some (x + s) := by
  rw [NEXT_BLK]
  have : (x + W64 - WSIZE) % W64 = x - 8 := by unfold WSIZE W64; (clear * - h1 h2 hb; omega)
  rw [this, GET_SIZE_mk m lo brk hl lh _ (by omega) (by omega), hs]
  simp only [Option.map_some', W64]
  exact congrArg some (by omega)

theorem PREV_BLK_mk (m : Nat → Nat) (lo brk hl lh x s : Nat) (h1 : lo + 16 ≤ x) (h2 : x ≤ brk)
    (hb : brk < 9223372036854775808)
    (hs : rd64 m (x - 16) - rd64 m (x - 16) % 8 = s) (hx : s ≤ x) :
    PREV_BLK ⟨m, lo, brk, hl, lh⟩ x = some (x - s) := by
  rw [PREV_BLK]
  have : (x + W64 - DSIZE) % W64 = x - 16 := by unfold DSIZE W64; (clear * - h1 h2 hb; omega)
  rw [this, GET_SIZE_mk m lo brk hl lh _ (by omega) (by omega), hs]
  simp only [Option.map_some', W64]
  exact congrArg some (by (clear * - h2 hb hx; omega))

theorem rd64_wr64_at (m : Nat → Nat) (a v b : Nat) (hab : a = b)
    (hv : v < 18446744073709551616) : rd64 (wr64 m a v) b = v := by
  subst hab; exact rd64_wr64_eq m a v hv

/-! ## List segments -/

theorem DLseg_congr (m m1 : Nat → Nat) : ∀ (l : List Nat) (p c e : Nat),
    (∀ x, x ∈ l → rd64 m1 x = rd64 m x ∧ rd64 m1 (x + 8) = rd64 m (x + 8)) →
    DLseg m p c l e → DLseg m1 p c l e
  | [], p, c, e, _, h => h
  | x :: xs, p, c, e, hf, h => by
    simp only [DLseg] at h ⊢
    obtain ⟨h1, h2, h3, h4⟩ := h
    have hx := hf x (List.mem_cons_self x xs)
    refine ⟨h1, h2, by rw [hx.2]; exact h3, ?_⟩
    rw [hx.1]
    exact DLseg_congr m m1 xs x _ e (fun y hy => hf y (List.mem_cons_of_mem x hy)) h4

theorem DLseg_append (m : Nat → Nat) (l1 l2 : List Nat) : ∀ (p c e : Nat),
    DLseg m p c (l1 ++ l2) e ↔
      ∃ mid, DLseg m p c l1 mid ∧ DLseg m (l1.getLastD p) mid l2 e := by
  induction l1 with
  | nil => intro p c e; simp [DLseg]
  | cons x xs ih =>
    intro p c e
    rw [List.cons_append]
    simp only [DLseg]
    rw [ih]
    have hl : (x :: xs).getLastD p = xs.getLastD x := by
      cases xs <;> simp [List.getLastD]
    rw [hl]
    constructor
    · rintro ⟨h1, h2, h3, mid, h4, h5⟩
      exact ⟨mid, ⟨h1, h2, h3, h4⟩, h5⟩
    · rintro ⟨mid, ⟨h1, h2, h3, h4⟩, h5⟩
      exact ⟨h1, h2, h3, mid, h4, h5⟩

theorem DLseg_ne_zero (m : Nat → Nat) : ∀ (l : List Nat) (p c e : Nat),
    DLseg m p c l e → ∀ x, x ∈ l → x ≠ 0
  | [], _, _, _, _, x, hx => by simp at hx
  | y :: ys, p, c, e, h, x, hx => by
    simp only [DLseg] at h
    rcases List.mem_cons.1 hx with h1 | h1
    · rw [h1]; exact h.2.1
    · exact DLseg_ne_zero m ys _ _ _ h.2.2.2 x h1


/-! ## Consequences of the heap description -/

theorem Core.blk {m : Nat → Nat} {lo brk hl lh : Nat} {bs : List Blk} {bk : Nat → List Nat}
    (hC : Core ⟨m, lo, brk, hl, lh⟩ bs bk) {b : Blk} (hb : b ∈ bs) :
    lo + 160 ≤ b.addr ∧ b.addr + b.size ≤ brk ∧ 32 ≤ b.size ∧ b.size % 16 = 0 ∧
      b.alloc ≤ 1 ∧ b.palloc ≤ 1 ∧ brk < 9223372036854775808 ∧ lh = lo ∧ hl = lo + 160 ∧
      rd64 m (b.addr - 8) = b.size + 2 * b.palloc + b.alloc :=
  have h := Linked_mem bs _ 1 _ hC.linked (Nat.le_refl 1) b hb
  ⟨h.1, h.2.1, h.2.2.1, h.2.2.2.1, h.2.2.2.2.1, h.2.2.2.2.2, hC.top, hC.lhp, hC.hlp,
    hC.hdr b hb⟩

theorem Core.sep {m : Nat → Nat} {lo brk hl lh : Nat} {bs : List Blk} {bk : Nat → List Nat}
    (hC : Core ⟨m, lo, brk, hl, lh⟩ bs bk) {b c : Blk} (hb : b ∈ bs) (hc : c ∈ bs) :
    (b.addr = c.addr ∧ b.size = c.size ∧ b.alloc = c.alloc ∧ b.palloc = c.palloc) ∨
      b.addr + b.size ≤ c.addr ∨ c.addr + c.size ≤ b.addr := by
  rcases Linked_disjoint bs _ 1 _ hC.linked (Nat.le_refl 1) b c hb hc with h | h | h
  · left; subst h; exact ⟨rfl, rfl, rfl, rfl⟩
  · right; left; exact h
  · right; right; exact h

theorem Core.listed {m : Nat → Nat} {lo brk hl lh : Nat} {bs : List Blk} {bk : Nat → List Nat}
    (hC : Core ⟨m, lo, brk, hl, lh⟩ bs bk) {i y : Nat} (hi : i < 16) (hy : y ∈ bk i) :
    ∃ c, c ∈ bs ∧ c.addr = y ∧ c.alloc = 0 ∧ getlistNum c.size = i ∧ lo + 160 ≤ y ∧
      y + c.size ≤ brk ∧ 32 ≤ c.size := by
  obtain ⟨c, hc, h1, h2, h3⟩ := hC.mem_bk i hi y hy
  have := hC.blk hc
  exact ⟨c, hc, h1, h2, h3, by omega, by omega, by omega⟩

theorem Core.listed_blk {m : Nat → Nat} {lo brk hl lh : Nat} {bs : List Blk}
    {bk : Nat → List Nat} (hC : Core ⟨m, lo, brk, hl, lh⟩ bs bk) {i y : Nat} (hi : i < 16)
    (hy : y ∈ bk i) {d : Blk} (hd : d ∈ bs) :
    (y = d.addr ∧ d.alloc = 0 ∧ getlistNum d.size = i) ∨ y + 32 ≤ d.addr ∨
      d.addr + d.size ≤ y := by
  obtain ⟨c, hc, h1, h2, h3, h4, h5, h6⟩ := hC.listed hi hy
  rcases Linked_disjoint bs _ 1 _ hC.linked (Nat.le_refl 1) c d hc hd with h | h | h
  · left; subst h; exact ⟨h1.symm, h2, h3⟩
  · right; left; omega
  · right; right; omega

theorem Core.listed_sep {m : Nat → Nat} {lo brk hl lh : Nat} {bs : List Blk}
    {bk : Nat → List Nat} (hC : Core ⟨m, lo, brk, hl, lh⟩ bs bk) {i j y z : Nat}
    (hi : i < 16) (hj : j < 16) (hy : y ∈ bk i) (hz : z ∈ bk j) :
    (y = z ∧ i = j) ∨ y + 32 ≤ z ∨ z + 32 ≤ y := by
  obtain ⟨c, hc, h1, h2, h3, h4, h5, h6⟩ := hC.listed hj hz
  rcases hC.listed_blk hi hy hc with h | h | h
  · left; exact ⟨by omega, by omega⟩
  · right; left; omega
  · right; right; omega

/-- Relinking one list: if memory changes only in root slot `i` and in the link
words of free blocks of size class `i`, and list `i` is well formed again,
the heap description holds with the new list. -/
theorem Core_relink (m m1 : Nat → Nat) (lo brk hl lh : Nat) (bs : List Blk)
    (bk : Nat → List Nat) (hC : Core ⟨m, lo, brk, hl, lh⟩ bs bk) (i : Nat) (hi : i < 16)
    (S newl : List Nat)
    (hS : ∀ y, y ∈ S → ∃ c, c ∈ bs ∧ c.addr = y ∧ c.alloc = 0 ∧ getlistNum c.size = i)
    (hfr : ∀ c, (c < lo + 8 * i ∨ lo + 8 * i + 8 ≤ c) → (∀ y, y ∈ S → c < y ∨ y + 16 ≤ c) →
      m1 c = m c)
    (hdl : DLseg m1 0 (rd64 m1 (lo + 8 * i)) newl 0) (hnd : newl.Nodup)
    (hsub : ∀ y, y ∈ newl → y ∈ S) :
    Core ⟨m1, lo, brk, hl, lh⟩ bs (Function.update bk i newl) ∧ LFrame lo bs m m1 := by
  have hw : ∀ q, (q + 8 ≤ lo + 8 * i ∨ lo + 8 * i + 8 ≤ q) →
      (∀ y, y ∈ S → q + 8 ≤ y ∨ y + 16 ≤ q) → rd64 m1 q = rd64 m q := by
    intro q h1 h2
    apply rd64_congr
    intro c hc1 hc2
    apply hfr c (by omega)
    intro y hy
    have := h2 y hy
    omega
  have hS160 : ∀ q, q ≤ lo + 144 → ∀ y, y ∈ S → q + 8 ≤ y ∨ y + 16 ≤ q := by
    intro q hq y hy
    obtain ⟨c, hc, hc1, _⟩ := hS y hy
    have := hC.blk hc
    omega
  have hpro : rd64 m1 (lo + 128) = 0 ∧ rd64 m1 (lo + 136) = 17 ∧ rd64 m1 (lo + 144) = 17 := by
    have h0 := hC.pro
    simp only at h0
    rw [hw _ (by omega) (hS160 _ (by omega)), hw _ (by omega) (hS160 _ (by omega)),
      hw _ (by omega) (hS160 _ (by omega))]
    exact h0
  refine ⟨⟨hC.lhp, hC.hlp, hC.top, hC.linked, ?_, ?_, ?_, ?_, ?_, hpro⟩, ?_⟩
  · intro d hd
    have hd1 := hC.blk hd
    simp only
    rw [hw]
    · exact hC.hdr d hd
    · (clear * - hi hd1; omega)
    · intro y hy
      obtain ⟨c, hc, hc1, hc2, hc3⟩ := hS y hy
      have := hC.sep hd hc
      have := hC.blk hc
      omega
  · intro d hd hda
    have hd1 := hC.blk hd
    simp only
    rw [hw]
    · exact hC.ftr d hd hda
    · (clear * - hi hd1; omega)
    · intro y hy
      obtain ⟨c, hc, hc1, hc2, hc3⟩ := hS y hy
      have := hC.sep hd hc
      have := hC.blk hc
      omega
  · intro j hj
    simp only
    by_cases hji : j = i
    · subst hji
      rw [Function.update_same]
      exact hdl
    · rw [Function.update_noteq hji]
      have hroot : rd64 m1 (lo + 8 * j) = rd64 m (lo + 8 * j) := by
        apply hw
        · omega
        · intro y hy
          obtain ⟨c, hc, hc1, hc2, hc3⟩ := hS y hy
          have := hC.blk hc
          omega
      rw [hroot]
      apply DLseg_congr m m1 _ _ _ _ _ (hC.dl j hj)
      intro z hz
      obtain ⟨cz, hcz, hz1, hz2, hz3, hz4, hz5, hz6⟩ := hC.listed hj hz
      have hsepz : ∀ y, y ∈ S → z + 32 ≤ y ∨ y + 32 ≤ z := by
        intro y hy
        obtain ⟨c, hc, hc1, hc2, hc3⟩ := hS y hy
        have h1 := hC.sep hcz hc
        have h2 := hC.blk hc
        rcases h1 with h1 | h1 | h1
        · exfalso; apply hji; rw [← hz3, ← hc3, h1.2.1]
        · omega
        · omega
      constructor
      · apply hw
        · omega
        · intro y hy; have := hsepz y hy; omega
      · apply hw
        · omega
        · intro y hy; have := hsepz y hy; omega
  · intro j hj x hx
    by_cases hji : j = i
    · subst hji
      rw [Function.update_same] at hx
      exact hS x (hsub x hx)
    · rw [Function.update_noteq hji] at hx
      exact hC.mem_bk j hj x hx
  · intro j hj
    by_cases hji : j = i
    · subst hji
      rw [Function.update_same]; exact hnd
    · rw [Function.update_noteq hji]; exact hC.nodup j hj
  · intro c hc1 hc2
    apply hfr c (by omega)
    intro y hy
    obtain ⟨d, hd, hd1, hd2, hd3⟩ := hS y hy
    have := hc2 d hd hd2
    omega

theorem addtoSeg_spec (m : Nat → Nat) (lo brk hl lh : Nat) (bs : List Blk)
    (bk : Nat → List Nat) (hC : Core ⟨m, lo, brk, hl, lh⟩ bs bk) (b : Blk) (hb : b ∈ bs)
    (hfree : b.alloc = 0) (hnot : ∀ i, i < 16 → b.addr ∉ bk i) :
    ∃ m1, addtoSeg ⟨m, lo, brk, hl, lh⟩ b.addr b.size = some ⟨m1, lo, brk, hl, lh⟩ ∧
      Core ⟨m1, lo, brk, hl, lh⟩ bs
        (Function.update bk (getlistNum b.size) (b.addr :: bk (getlistNum b.size))) ∧
      LFrame lo bs m m1 := by
  obtain ⟨hb1, hb2, hb3, hb4, hb5, hb6, htop, hlh, hhl, hbh⟩ := hC.blk hb
  subst hlh
  have hi := getlistNum_lt b.size
  have hi16 : getlistNum b.size < 16 := by omega
  have hdl := hC.dl _ hi16
  have hnd := hC.nodup _ hi16
  have hnotx := hnot _ hi16
  simp only at hdl
  have hS : ∀ y, y ∈ b.addr :: bk (getlistNum b.size) →
      ∃ c, c ∈ bs ∧ c.addr = y ∧ c.alloc = 0 ∧ getlistNum c.size = getlistNum b.size := by
    intro y hy
    rcases List.mem_cons.1 hy with h | h
    · exact ⟨b, hb, h.symm, hfree, rfl⟩
    · obtain ⟨c, hc, h1, h2, h3, _⟩ := hC.listed hi16 h
      exact ⟨c, hc, h1, h2, h3⟩
  rw [addtoSeg]
  simp only [NULL]
  rw [root_mk m lh brk hl lh _ (by omega), GET_mk m lh brk hl lh _ (by omega) (by omega),
    andThen_some]
  cases hl0 : bk (getlistNum b.size) with
  | nil =>
    rw [hl0] at hdl hS
    simp only [DLseg] at hdl
    rw [hdl, if_pos rfl, PUT_ADDRESS_mk _ _ _ _ _ _ _ (by omega) (by omega), andThen_some,
      N_ADD_eq, PUT_ADDRESS_mk _ _ _ _ _ _ _ (by omega) (by omega), andThen_some,
      P_ADD_eq _ (by omega), PUT_ADDRESS_mk _ _ _ _ _ _ _ (by omega) (by omega)]
    refine ⟨_, rfl, ?_⟩
    apply Core_relink m _ lh brk hl lh bs bk hC _ hi16 [b.addr] [b.addr] hS
    · intro c h1 h2
      have := h2 b.addr (List.mem_singleton_self _)
      rw [wr64_other _ _ _ _ (by omega), wr64_other _ _ _ _ (by omega),
        wr64_other _ _ _ _ (by (clear * - h1; omega))]
    · simp only [DLseg]
      refine ⟨?_, by omega, ?_, ?_⟩ <;>
        simp (disch := omega) only [rd64_wr64_other, rd64_wr64_at]
    · simp
    · intro y hy; exact hy
  | cons f l1 =>
    rw [hl0] at hdl hS hnd hnotx
    simp only [DLseg] at hdl
    obtain ⟨hd1, hd2, hd3, hd4⟩ := hdl
    have hfm : f ∈ bk (getlistNum b.size) := by rw [hl0]; exact List.mem_cons_self f l1
    obtain ⟨c, hc, hc1, hc2, hc3, hc4, hc5, hc6⟩ := hC.listed hi16 hfm
    have hfx := hC.listed_blk hi16 hfm hb
    have hne : f ≠ b.addr := fun h => hnotx (by rw [← h]; exact List.mem_cons_self f l1)
    rw [hd1, if_neg hd2, PUT_ADDRESS_mk _ _ _ _ _ _ _ (by omega) (by omega), andThen_some,
      P_ADD_eq _ (by omega), PUT_ADDRESS_mk _ _ _ _ _ _ _ (by omega) (by omega), andThen_some,
      N_ADD_eq, PUT_ADDRESS_mk _ _ _ _ _ _ _ (by omega) (by omega), andThen_some,
      P_ADD_eq _ (by omega), PUT_ADDRESS_mk _ _ _ _ _ _ _ (by omega) (by omega)]
    refine ⟨_, rfl, ?_⟩
    apply Core_relink m _ lh brk hl lh bs bk hC _ hi16 (b.addr :: f :: l1)
      (b.addr :: f :: l1) hS
    · intro c h1 h2
      have := h2 b.addr (List.mem_cons_self _ _)
      have := h2 f (List.mem_cons_of_mem _ (List.mem_cons_self _ _))
      rw [wr64_other _ _ _ _ (by (clear * - this; omega)), wr64_other _ _ _ _ (by omega),
        wr64_other _ _ _ _ (by omega), wr64_other _ _ _ _ (by (clear * - h1; omega))]
    · simp only [DLseg]
      refine ⟨?_, by omega, ?_, ?_, hd2, ?_, ?_⟩
      · simp (disch := omega) only [rd64_wr64_other, rd64_wr64_at]
      · simp (disch := omega) only [rd64_wr64_other, rd64_wr64_at]
      · simp (disch := omega) only [rd64_wr64_other, rd64_wr64_at]
      · simp (disch := omega) only [rd64_wr64_other, rd64_wr64_at]
      · have hff : rd64 (wr64 (wr64 (wr64 (wr64 m (lh + 8 * getlistNum b.size) b.addr)
            (b.addr + 8) 0) b.addr f) (f + 8) b.addr) f = rd64 m f := by
          simp (disch := omega) only [rd64_wr64_other]
        rw [hff]
        apply DLseg_congr m _ _ _ _ _ _ hd4
        intro z hz
        have hzm : z ∈ bk (getlistNum b.size) := by
          rw [hl0]; exact List.mem_cons_of_mem _ hz
        have h1 := hC.listed_sep hi16 hi16 hzm hfm
        have h2 := hC.listed_blk hi16 hzm hb
        have h3 : z ≠ f := fun h => (List.nodup_cons.1 hnd).1 (by rw [← h]; exact hz)
        have h4 : z ≠ b.addr := fun h => hnotx (by rw [← h]; exact List.mem_cons_of_mem _ hz)
        have h5 := (hC.listed hi16 hzm).choose_spec.2.2.2.2
        constructor <;> simp (disch := omega) only [rd64_wr64_other]
    · exact List.nodup_cons.2 ⟨hnotx, hnd⟩
    · intro y hy; exact hy


theorem DLseg_concat (m : Nat → Nat) (L : List Nat) (q p c e : Nat) :
    DLseg m p c (L ++ [q]) e ↔
      DLseg m p c L q ∧ q ≠ 0 ∧ rd64 m (q + 8) = L.getLastD p ∧ rd64 m q = e := by
  rw [DLseg_append]
  simp only [DLseg]
  constructor
  · rintro ⟨mid, h1, h2, h3, h4, h5⟩
    subst h2
    exact ⟨h1, h3, h4, h5⟩
  · rintro ⟨h1, h3, h4, h5⟩
    exact ⟨q, h1, rfl, h3, h4, h5⟩

theorem getLastD_concat (L : List Nat) (q p : Nat) : (L ++ [q]).getLastD p = q := by
  simp

/-- Unlinking at list level: `remfromSeg` of a member `x` of the well-formed
list `l` of size class `getlistNum size` leaves the list without `x`, well
formed again, and writes only the root slot of that class and link words of
members of `l`. -/
theorem remfromSeg_relink (m : Nat → Nat) (lo brk hl x size : Nat) (l : List Nat)
    (htop : brk < 9223372036854775808)
    (hdl : DLseg m 0 (rd64 m (lo + 8 * getlistNum size)) l 0) (hnd : l.Nodup) (hx : x ∈ l)
    (hbnd : ∀ y, y ∈ l → lo + 128 ≤ y ∧ y + 16 ≤ brk)
    (hsep : ∀ y z, y ∈ l → z ∈ l → y = z ∨ y + 16 ≤ z ∨ z + 16 ≤ y) :
    ∃ m1, remfromSeg ⟨m, lo, brk, hl, lo⟩ x size = some ⟨m1, lo, brk, hl, lo⟩ ∧
      (∀ c, (c < lo + 8 * getlistNum size ∨ lo + 8 * getlistNum size + 8 ≤ c) →
        (∀ y, y ∈ l → c < y ∨ y + 16 ≤ c) → m1 c = m c) ∧
      DLseg m1 0 (rd64 m1 (lo + 8 * getlistNum size)) (l.erase x) 0 ∧
      (l.erase x).Nodup ∧ ∀ y, y ∈ l.erase x → y ∈ l := by
  have hi := getlistNum_lt size
  have hi16 : getlistNum size < 16 := by omega
  have hxb := hbnd x hx
  obtain ⟨l1, l2, hsplit⟩ := List.append_of_mem hx
  rw [hsplit] at hdl hnd
  have hx1 : x ∉ l1 := fun h => by
    have := List.nodup_append.1 hnd
    exact this.2.2 h (List.mem_cons_self _ _)
  have hx2 : x ∉ l2 := fun h => by
    have := (List.nodup_append.1 hnd).2.1
    exact (List.nodup_cons.1 this).1 h
  have hnd2 : (l1 ++ l2).Nodup := by
    have h1 := List.nodup_append.1 hnd
    refine List.nodup_append.2 ⟨h1.1, (List.nodup_cons.1 h1.2.1).2, ?_⟩
    intro a ha1 ha2
    exact h1.2.2 ha1 (List.mem_cons_of_mem _ ha2)
  have her : (l).erase x = l1 ++ l2 := by
    rw [hsplit, List.erase_append_right _ hx1, List.erase_cons_head]
  rw [her]
  have hsub : ∀ y, y ∈ l1 ++ l2 → y ∈ l := by
    intro y hy
    rw [hsplit]
    rcases List.mem_append.1 hy with h | h
    · exact List.mem_append_left _ h
    · exact List.mem_append_right _ (List.mem_cons_of_mem _ h)
  have hm1 : ∀ y, y ∈ l1 → y ∈ l := fun y hy =>
    hsub y (List.mem_append_left _ hy)
  have hm2 : ∀ y, y ∈ l2 → y ∈ l := fun y hy =>
    hsub y (List.mem_append_right _ hy)
  rw [DLseg_append] at hdl
  obtain ⟨mid, hs1, hs2⟩ := hdl
  simp only [DLseg] at hs2
  obtain ⟨hmid, hx0, hprev, hs3⟩ := hs2
  subst hmid
  rw [remfromSeg]
  simp only [NULL]
  rw [N_ADD_eq, GET_mk m lo brk hl lo _ (by omega) (by omega), andThen_some,
    P_ADD_eq _ (by omega), GET_mk m lo brk hl lo _ (by omega) (by omega), andThen_some,
    root_mk m lo brk hl lo _ (by omega), hprev]
  rcases List.eq_nil_or_concat l1 with h1 | ⟨L, p, h1⟩
  · subst h1
    simp only [DLseg] at hs1
    have hg : ([] : List Nat).getLastD 0 = 0 := rfl
    rw [hg] at hprev ⊢
    rw [List.nil_append] at hsplit ⊢
    cases l2 with
    | nil =>
      simp only [DLseg] at hs3
      rw [hs3, if_neg (by omega), if_pos (by omega),
        PUT_ADDRESS_mk _ _ _ _ _ _ _ (by omega) (by omega)]
      refine ⟨_, rfl, ?_, ?_, ?_, ?_⟩
      · intro c h1 h2
        rw [wr64_other _ _ _ _ (by omega)]
      · simp only [DLseg]
        simp (disch := omega) only [rd64_wr64_at]
      · exact List.nodup_nil
      · intro y hy; simp at hy
    | cons y l3 =>
      simp only [DLseg] at hs3
      obtain ⟨hy1, hy2, hy3, hy4⟩ := hs3
      have hym : y ∈ l := hm2 y (List.mem_cons_self _ _)
      have hyb := hbnd y hym
      rw [hy1, if_pos (by omega), PUT_ADDRESS_mk _ _ _ _ _ _ _ (by omega) (by omega),
        andThen_some, P_ADD_eq _ (by omega), PUT_ADDRESS_mk _ _ _ _ _ _ _ (by omega) (by omega)]
      refine ⟨_, rfl, ?_, ?_, ?_, ?_⟩
      · intro c h1 h2
        have := h2 y hym
        rw [wr64_other _ _ _ _ (by omega), wr64_other _ _ _ _ (by (clear * - h1; omega))]
      · simp only [DLseg]
        refine ⟨?_, hy2, ?_, ?_⟩
        · simp (disch := omega) only [rd64_wr64_other, rd64_wr64_at]
        · simp (disch := omega) only [rd64_wr64_other, rd64_wr64_at]
        · have hyy : rd64 (wr64 (wr64 m (lo + 8 * getlistNum size) y) (y + 8) 0) y
              = rd64 m y := by
            simp (disch := omega) only [rd64_wr64_other]
          rw [hyy]
          apply DLseg_congr m _ _ _ _ _ _ hy4
          intro z hz
          have hzm := hm2 z (List.mem_cons_of_mem _ hz)
          have h1 := hsep z y hzm hym
          have h3 : z ≠ y := fun h =>
            (List.nodup_cons.1 hnd2).1 (by rw [← h]; exact hz)
          have h4 := hbnd z hzm
          constructor <;> simp (disch := omega) only [rd64_wr64_other]
      · exact hnd2
      · intro z hz; exact hsub z hz
  · rw [List.concat_eq_append] at h1
    subst h1
    rw [DLseg_concat] at hs1
    obtain ⟨hp1, hp2, hp3, hp4⟩ := hs1
    simp only [getLastD_concat] at hprev ⊢
    have hpm : p ∈ l :=
      hm1 p (List.mem_append_right _ (List.mem_singleton_self _))
    have hpb := hbnd p hpm
    have hLp : ∀ z, z ∈ L → z ≠ p := by
      intro z hz h
      have h1 := List.nodup_append.1 (List.nodup_append.1 hnd).1
      exact h1.2.2 hz (by rw [h]; exact List.mem_singleton_self _)
    have hLm : ∀ z, z ∈ L → z ∈ l := fun z hz =>
      hm1 z (List.mem_append_left _ hz)
    cases l2 with
    | nil =>
      simp only [DLseg] at hs3
      rw [hs3, if_neg (by omega), if_neg (by omega), if_pos (by omega), N_ADD_eq,
        PUT_ADDRESS_mk _ _ _ _ _ _ _ (by omega) (by omega)]
      refine ⟨_, rfl, ?_, ?_, ?_, ?_⟩
      · intro c h1 h2
        have := h2 p hpm
        rw [wr64_other _ _ _ _ (by omega)]
      · rw [List.append_nil, DLseg_concat]
        refine ⟨?_, hp2, ?_, ?_⟩
        · have hrr : rd64 (wr64 m p 0) (lo + 8 * getlistNum size)
              = rd64 m (lo + 8 * getlistNum size) := by
            simp (disch := omega) only [rd64_wr64_other]
          rw [hrr]
          apply DLseg_congr m _ _ _ _ _ _ hp1
          intro z hz
          have h1 := hsep z p (hLm z hz) hpm
          have h3 := hLp z hz
          have h4 := hbnd z (hLm z hz)
          constructor <;> simp (disch := (clear * - h1 h3; omega)) only [rd64_wr64_other]
        · simp (disch := omega) only [rd64_wr64_other]
          exact hp3
        · simp (disch := omega) only [rd64_wr64_at]
      · exact hnd2
      · intro z hz; exact hsub z hz
    | cons y l3 =>
      simp only [DLseg] at hs3
      obtain ⟨hy1, hy2, hy3, hy4⟩ := hs3
      have hym : y ∈ l := hm2 y (List.mem_cons_self _ _)
      have hyb := hbnd y hym
      have hyp : y ≠ p := by
        intro h
        have h1 := List.nodup_append.1 hnd2
        exact h1.2.2 (List.mem_append_right _ (List.mem_singleton_self p))
          (by rw [← h]; exact List.mem_cons_self _ _)
      have hypsep := hsep y p hym hpm
      rw [hy1, if_neg (by omega), if_neg (by omega), if_neg (by omega),
        P_ADD_eq _ (by omega), PUT_ADDRESS_mk _ _ _ _ _ _ _ (by omega) (by omega),
        andThen_some, N_ADD_eq, PUT_ADDRESS_mk _ _ _ _ _ _ _ (by omega) (by omega)]
      refine ⟨_, rfl, ?_, ?_, ?_, ?_⟩
      · intro c h1 h2
        have := h2 p hpm
        have := h2 y hym
        rw [wr64_other _ _ _ _ (by omega), wr64_other _ _ _ _ (by omega)]
      · rw [DLseg_append]
        refine ⟨y, ?_, ?_⟩
        · rw [DLseg_concat]
          refine ⟨?_, hp2, ?_, ?_⟩
          · have hrr : rd64 (wr64 (wr64 m (y + 8) p) p y) (lo + 8 * getlistNum size)
                = rd64 m (lo + 8 * getlistNum size) := by
              simp (disch := omega) only [rd64_wr64_other]
            rw [hrr]
            apply DLseg_congr m _ _ _ _ _ _ hp1
            intro z hz
            have h1 := hsep z p (hLm z hz) hpm
            have h2 := hsep z y (hLm z hz) hym
            have h3 := hLp z hz
            have h5 : z ≠ y := by
              intro h
              have h6 := List.nodup_append.1 hnd2
              exact h6.2.2 (List.mem_append_left _ hz) (by rw [h]; exact List.mem_cons_self _ _)
            have h4 := hbnd z (hLm z hz)
            constructor <;> simp (disch := (clear * - h1 h3 h2 h5; omega)) only [rd64_wr64_other]
          · simp (disch := omega) only [rd64_wr64_other]
            exact hp3
          · simp (disch := omega) only [rd64_wr64_at]
        · simp only [getLastD_concat, DLseg]
          refine ⟨trivial, hy2, ?_, ?_⟩
          · simp (disch := omega) only [rd64_wr64_other, rd64_wr64_at]
          · have hyy : rd64 (wr64 (wr64 m (y + 8) p) p y) y = rd64 m y := by
              simp (disch := omega) only [rd64_wr64_other]
            rw [hyy]
            apply DLseg_congr m _ _ _ _ _ _ hy4
            intro z hz
            have hzm := hm2 z (List.mem_cons_of_mem _ hz)
            have h1 := hsep z y hzm hym
            have h2 := hsep z p hzm hpm
            have h3 : z ≠ y := fun h => by
              have h6 := (List.nodup_append.1 hnd2).2.1
              exact (List.nodup_cons.1 h6).1 (by rw [← h]; exact hz)
            have h5 : z ≠ p := by
              intro h
              have h6 := List.nodup_append.1 hnd2
              exact h6.2.2 (List.mem_append_right _ (List.mem_singleton_self p))
                (by rw [← h]; exact List.mem_cons_of_mem _ hz)
            have h4 := hbnd z hzm
            constructor <;> simp (disch := (clear * - h2 h5 h1 h3; omega)) only [rd64_wr64_other]
      · exact hnd2
      · intro z hz; exact hsub z hz

theorem remfromSeg_spec (m : Nat → Nat) (lo brk hl lh : Nat) (bs : List Blk)
    (bk : Nat → List Nat) (hC : Core ⟨m, lo, brk, hl, lh⟩ bs bk) (b : Blk) (hb : b ∈ bs)
    (hx : b.addr ∈ bk (getlistNum b.size)) :
    ∃ m1, remfromSeg ⟨m, lo, brk, hl, lh⟩ b.addr b.size = some ⟨m1, lo, brk, hl, lh⟩ ∧
      Core ⟨m1, lo, brk, hl, lh⟩ bs
        (Function.update bk (getlistNum b.size) ((bk (getlistNum b.size)).erase b.addr)) ∧
      LFrame lo bs m m1 := by
  obtain ⟨hb1, hb2, hb3, hb4, hb5, hb6, htop, hlh, hhl, hbh⟩ := hC.blk hb
  subst hlh
  have hi := getlistNum_lt b.size
  have hi16 : getlistNum b.size < 16 := by omega
  have hS : ∀ y, y ∈ bk (getlistNum b.size) →
      ∃ c, c ∈ bs ∧ c.addr = y ∧ c.alloc = 0 ∧ getlistNum c.size = getlistNum b.size := by
    intro y h
    obtain ⟨c, hc, h1, h2, h3, _⟩ := hC.listed hi16 h
    exact ⟨c, hc, h1, h2, h3⟩
  obtain ⟨m1, e1, hfr, hdl1, hnd1, hsub1⟩ := remfromSeg_relink m lh brk hl b.addr b.size
    (bk (getlistNum b.size)) htop (hC.dl _ hi16) (hC.nodup _ hi16) hx
    (by
      intro y h
      obtain ⟨c, hc, h1, h2, h3, h4, h5, h6⟩ := hC.listed hi16 h
      omega)
    (by
      intro y z hy hz
      rcases hC.listed_sep hi16 hi16 hy hz with h | h | h
      · exact Or.inl h.1
      · exact Or.inr (Or.inl (by omega))
      · exact Or.inr (Or.inr (by omega)))
  exact ⟨m1, e1, Core_relink m m1 lh brk hl lh bs bk hC _ hi16 (bk (getlistNum b.size)) _ hS
    hfr hdl1 hnd1 hsub1⟩


theorem Linked_setPA (v : Nat) : ∀ (post : List Blk) (a pa e : Nat),
    Linked a pa post e → Linked a v (setPA v post) e
  | [], _, _, _, h => h
  | c :: cs, a, pa, e, h => by
    simp only [setPA, Linked] at h ⊢
    exact ⟨h.1, trivial, h.2.2⟩

theorem lastAlloc_setPA (v : Nat) (post : List Blk) (pa : Nat) :
    lastAlloc v (setPA v post) = lastAlloc v post := by
  cases post <;> simp [setPA, lastAlloc]

/-- Editing a stretch of the chain: memory changes only between the header of
the first edited block and the header after the stretch, no edited block is on
a list, and the new stretch `mid1` is laid out in the new memory. -/
theorem Core_edit (m m1 : Nat → Nat) (lo brk hl lh : Nat) (pre mid mid1 post : List Blk)
    (bk : Nat → List Nat)
    (hC : Core ⟨m, lo, brk, hl, lh⟩ (pre ++ mid ++ post) bk)
    (hE : Epi ⟨m, lo, brk, hl, lh⟩ (pre ++ mid ++ post))
    (a e1 : Nat)
    (hL1 : Linked (lo + 160) 1 pre a)
    (hL2 : Linked a (lastAlloc 1 pre) mid e1)
    (hL3 : Linked e1 (lastAlloc (lastAlloc 1 pre) mid) post brk)
    (hL2n : Linked a (lastAlloc 1 pre) mid1 e1)
    (hfr : ∀ c, c + 8 < a ∨ e1 ≤ c → m1 c = m c)
    (hhdr : ∀ d, d ∈ mid1 → rd64 m1 (d.addr - 8) = d.hdr)
    (hftr : ∀ d, d ∈ mid1 → d.alloc = 0 →
      rd64 m1 (d.addr + d.size - 16) - rd64 m1 (d.addr + d.size - 16) % 8 = d.size)
    (hnext : rd64 m1 (e1 - 8) = nextHdr (lastAlloc (lastAlloc 1 pre) mid1) post)
    (hnl : ∀ i, i < 16 → ∀ x, x ∈ bk i → ∀ d, d ∈ mid → d.addr ≠ x) :
    Core ⟨m1, lo, brk, hl, lh⟩
        (pre ++ mid1 ++ setPA (lastAlloc (lastAlloc 1 pre) mid1) post) bk ∧
      Epi ⟨m1, lo, brk, hl, lh⟩
        (pre ++ mid1 ++ setPA (lastAlloc (lastAlloc 1 pre) mid1) post) := by
  have ha := Linked_le _ _ _ _ hL1
  have he := Linked_le _ _ _ _ hL2
  have hbrk := Linked_le _ _ _ _ hL3
  have hp1 : lastAlloc 1 pre ≤ 1 := lastAlloc_le _ _ _ _ hL1 (Nat.le_refl 1)
  have hp2 : lastAlloc (lastAlloc 1 pre) mid ≤ 1 := lastAlloc_le _ _ _ _ hL2 hp1
  have hp3 : lastAlloc (lastAlloc 1 pre) mid1 ≤ 1 := lastAlloc_le _ _ _ _ hL2n hp1
  generalize hv : lastAlloc (lastAlloc 1 pre) mid1 = v at *
  have hw : ∀ q, q + 16 ≤ a ∨ e1 ≤ q → rd64 m1 q = rd64 m q := by
    intro q h1
    apply rd64_congr
    intro c hc1 hc2
    apply hfr c (by omega)
  have hpre : ∀ d, d ∈ pre → lo + 160 ≤ d.addr ∧ d.addr + d.size ≤ a ∧ 32 ≤ d.size :=
    fun d hd => by
      have := Linked_mem _ _ _ _ hL1 (Nat.le_refl 1) d hd
      (clear * - this; omega)
  have hpost : ∀ d, d ∈ post → e1 ≤ d.addr ∧ d.addr + d.size ≤ brk ∧ 32 ≤ d.size :=
    fun d hd => by
      have := Linked_mem _ _ _ _ hL3 hp2 d hd
      (clear * - this; omega)
  have hmemold : ∀ d, d ∈ pre ∨ d ∈ post → d ∈ pre ++ mid ++ post := by
    intro d hd
    rcases hd with h | h
    · exact List.mem_append_left _ (List.mem_append_left _ h)
    · exact List.mem_append_right _ h
  have hlinked : Linked (lo + 160) 1 (pre ++ mid1 ++ setPA v post) brk := by
    rw [Linked_append]
    refine ⟨e1, ?_, ?_⟩
    · rw [Linked_append]; exact ⟨a, hL1, hL2n⟩
    · rw [lastAlloc_append, hv]
      exact Linked_setPA v post _ _ _ hL3
  have hposthdr : ∀ d, d ∈ setPA v post → rd64 m1 (d.addr - 8) = d.hdr ∧ e1 ≤ d.addr ∧
      ∃ c, c ∈ post ∧ c.addr = d.addr ∧ c.size = d.size ∧ c.alloc = d.alloc := by
    intro d hd
    cases post with
    | nil => simp [setPA] at hd
    | cons c cs =>
      simp only [setPA, List.mem_cons] at hd
      simp only [Linked] at hL3
      rcases hd with h | h
      · subst h
        refine ⟨?_, by simp only; omega, c, List.mem_cons_self _ _, rfl, rfl, rfl⟩
        simp only [nextHdr, nextSize, nextAlloc] at hnext
        simp only [Blk.hdr]
        rw [hL3.1, hnext]
      · have h1 := Linked_mem _ _ _ _ hL3.2.2.2.2.2 hL3.2.2.1 d h
        refine ⟨?_, by omega, d, List.mem_cons_of_mem _ h, rfl, rfl, rfl⟩
        rw [hw _ (by omega)]
        exact hC.hdr d (hmemold d (Or.inr (List.mem_cons_of_mem _ h)))
  have hpro : rd64 m1 (lo + 128) = 0 ∧ rd64 m1 (lo + 136) = 17 ∧ rd64 m1 (lo + 144) = 17 := by
    have h0 := hC.pro
    simp only at h0
    rw [hw _ (Or.inl (by omega)), hw _ (Or.inl (by omega)), hw _ (Or.inl (by omega))]
    exact h0
  refine ⟨⟨hC.lhp, hC.hlp, hC.top, hlinked, ?_, ?_, ?_, ?_, hC.nodup, hpro⟩, ?_⟩
  · intro d hd
    simp only
    rcases List.mem_append.1 hd with h | h
    · rcases List.mem_append.1 h with h | h
      · have := hpre d h
        rw [hw _ (by omega)]
        exact hC.hdr d (hmemold d (Or.inl h))
      · exact hhdr d h
    · exact (hposthdr d h).1
  · intro d hd hda
    simp only
    rcases List.mem_append.1 hd with h | h
    · rcases List.mem_append.1 h with h | h
      · have := hpre d h
        rw [hw _ (by omega)]
        exact hC.ftr d (hmemold d (Or.inl h)) hda
      · exact hftr d h hda
    · obtain ⟨_, h1, c, hc, hc1, hc2, hc3⟩ := hposthdr d h
      have := hpost c hc
      rw [hw _ (by omega), ← hc1, ← hc2]
      exact hC.ftr c (hmemold c (Or.inr hc)) (by rw [hc3]; exact hda)
  · intro i hi
    simp only
    rw [hw _ (by omega)]
    apply DLseg_congr m m1 _ _ _ _ _ (hC.dl i hi)
    intro x hx
    obtain ⟨c, hc, hc1, hc2, hc3⟩ := hC.mem_bk i hi x hx
    rcases List.mem_append.1 hc with h | h
    · rcases List.mem_append.1 h with h | h
      · have := hpre c h
        constructor <;> apply hw <;> omega
      · exact absurd hc1 (hnl i hi x hx c h)
    · have := hpost c h
      constructor <;> apply hw <;> omega
  · intro i hi x hx
    obtain ⟨c, hc, hc1, hc2, hc3⟩ := hC.mem_bk i hi x hx
    rcases List.mem_append.1 hc with h | h
    · rcases List.mem_append.1 h with h | h
      · exact ⟨c, List.mem_append_left _ (List.mem_append_left _ h), hc1, hc2, hc3⟩
      · exact absurd hc1 (hnl i hi x hx c h)
    · cases post with
      | nil => simp at h
      | cons c0 cs =>
        rcases List.mem_cons.1 h with h1 | h1
        · subst h1
          exact ⟨{ c with palloc := v }, List.mem_append_right _ (List.mem_cons_self _ _),
            hc1, hc2, hc3⟩
        · exact ⟨c, List.mem_append_right _ (List.mem_cons_of_mem _ h1), hc1, hc2, hc3⟩
  · simp only [Epi] at hE ⊢
    rw [lastAlloc_append, lastAlloc_append, hv]
    rw [lastAlloc_append, lastAlloc_append] at hE
    cases post with
    | nil =>
      simp only [Linked] at hL3
      simp only [nextHdr, nextSize, nextAlloc] at hnext
      simp only [setPA, lastAlloc]
      rw [← hL3, hnext]; omega
    | cons c cs =>
      have := hpost c (List.mem_cons_self _ _)
      rw [hw _ (by omega), hE]
      simp only [setPA, lastAlloc]


theorem Core.linked1 {m : Nat → Nat} {lo brk hl lh : Nat} {bs : List Blk}
    {bk : Nat → List Nat} (hC : Core ⟨m, lo, brk, hl, lh⟩ bs bk) :
    Linked (lo + 160) 1 bs brk := hC.linked

theorem Core.hdr1 {m : Nat → Nat} {lo brk hl lh : Nat} {bs : List Blk}
    {bk : Nat → List Nat} (hC : Core ⟨m, lo, brk, hl, lh⟩ bs bk) (b : Blk) (hb : b ∈ bs) :
    rd64 m (b.addr - 8) = b.size + 2 * b.palloc + b.alloc := hC.hdr b hb

theorem Core.ftr1 {m : Nat → Nat} {lo brk hl lh : Nat} {bs : List Blk}
    {bk : Nat → List Nat} (hC : Core ⟨m, lo, brk, hl, lh⟩ bs bk) (b : Blk) (hb : b ∈ bs)
    (hf : b.alloc = 0) :
    rd64 m (b.addr + b.size - 16) - rd64 m (b.addr + b.size - 16) % 8 = b.size :=
  hC.ftr b hb hf

theorem Core.dl1 {m : Nat → Nat} {lo brk hl lh : Nat} {bs : List Blk}
    {bk : Nat → List Nat} (hC : Core ⟨m, lo, brk, hl, lh⟩ bs bk) (i : Nat) (hi : i < 16) :
    DLseg m 0 (rd64 m (lo + 8 * i)) (bk i) 0 := hC.dl i hi

theorem Epi_iff (m : Nat → Nat) (lo brk hl lh : Nat) (bs : List Blk) :
    Epi ⟨m, lo, brk, hl, lh⟩ bs ↔ rd64 m (brk - 8) = 2 * lastAlloc 1 bs + 1 := Iff.rfl

theorem setPA_same : ∀ (post : List Blk) (a pa e : Nat), Linked a pa post e →
    setPA pa post = post
  | [], _, _, _, _ => rfl
  | c :: cs, a, pa, e, h => by
    simp only [Linked] at h
    simp only [setPA]
    rw [← h.2.1]

theorem PACK_eq (s f : Nat) (hs : s % 8 = 0) (hf : f < 8) : PACK s f = s + f := by
  unfold PACK; exact lor_eq_add s f hs hf

theorem two_lor_one (p : Nat) (hp : p ≤ 1) : 2 * p ||| 1 = 2 * p + 1 := by
  interval_cases p <;> decide

theorem flags_lor_two (p a : Nat) (hp : p ≤ 1) (ha : a ≤ 1) : (2 * p + a) ||| 2 = 2 + a := by
  interval_cases p <;> interval_cases a <;> decide

/-- What the header word of a block tells. -/
theorem hdr_reads (m : Nat → Nat) (lo brk hl lh x s p a : Nat) (h1 : lo + 8 ≤ x)
    (h2 : x ≤ brk) (hb : brk < 9223372036854775808)
    (hh : rd64 m (x - 8) = s + 2 * p + a) (hs : s % 8 = 0) (hp : p ≤ 1) (ha : a ≤ 1) :
    HDRP x = x - 8 ∧
    GET ⟨m, lo, brk, hl, lh⟩ (x - 8) = some (s + 2 * p + a) ∧
    GET_SIZE ⟨m, lo, brk, hl, lh⟩ (x - 8) = some s ∧
    GET_ALLOC ⟨m, lo, brk, hl, lh⟩ (x - 8) = some a ∧
    PREV_ALLOC ⟨m, lo, brk, hl, lh⟩ (x - 8) = some (2 * p) := by
  refine ⟨HDRP_eq x (by omega) (by omega), ?_, ?_, ?_, ?_⟩
  · rw [GET_mk m lo brk hl lh _ (by omega) (by omega), hh]
  · rw [GET_SIZE_mk m lo brk hl lh _ (by omega) (by omega), hh]
    exact congrArg some (by (clear * - hs hp ha; omega))
  · rw [GET_ALLOC_mk m lo brk hl lh _ (by omega) (by omega), hh]
    exact congrArg some (by (clear * - hs ha; omega))
  · rw [PREV_ALLOC_mk m lo brk hl lh _ (by omega) (by omega), hh]
    exact congrArg some (by (clear * - hs hp ha; omega))

theorem NEXT_BLK_hdr (m : Nat → Nat) (lo brk hl lh x s p a : Nat) (h1 : lo + 8 ≤ x)
    (hb : brk < 9223372036854775808)
    (hh : rd64 m (x - 8) = s + 2 * p + a) (hs : s % 8 = 0) (hp : p ≤ 1) (ha : a ≤ 1)
    (hx : x + s ≤ brk) :
    NEXT_BLK ⟨m, lo, brk, hl, lh⟩ x = some (x + s) :=
  NEXT_BLK_mk m lo brk hl lh x s h1 (by omega) hb (by rw [hh]; (clear * - hs hp ha; omega)) hx

theorem FTRP_hdr (m : Nat → Nat) (lo brk hl lh x s p a : Nat) (h1 : lo + 8 ≤ x)
    (hb : brk < 9223372036854775808)
    (hh : rd64 m (x - 8) = s + 2 * p + a) (hs : s % 8 = 0) (hp : p ≤ 1) (ha : a ≤ 1)
    (h16 : 16 ≤ s) (hx : x + s ≤ brk) :
    FTRP ⟨m, lo, brk, hl, lh⟩ x = some (x + s - 16) :=
  FTRP_mk m lo brk hl lh x s h1 (by omega) hb (by rw [hh]; (clear * - hs hp ha; omega)) h16 hx

theorem nextInfo (post : List Blk) (a pa e : Nat) (h : Linked a pa post e) :
    nextSize post % 16 = 0 ∧ nextAlloc post ≤ 1 ∧ a + nextSize post ≤ e ∧
      (post = [] → a = e) ∧ (post ≠ [] → 32 ≤ nextSize post) := by
  cases post with
  | nil => simp only [Linked] at h; simp [nextSize, nextAlloc, h]
  | cons c cs =>
    simp only [Linked] at h
    have := Linked_le _ _ _ _ h.2.2.2.2.2
    simp only [nextSize, nextAlloc]
    refine ⟨h.2.2.2.2.1, h.2.2.1, by omega, by simp, fun _ => h.2.2.2.1⟩

/-- The facts around a block of the chain. -/
theorem Core.at_blk {m : Nat → Nat} {lo brk hl lh : Nat} {pre post : List Blk} {b : Blk}
    {bk : Nat → List Nat} (hC : Core ⟨m, lo, brk, hl, lh⟩ (pre ++ b :: post) bk)
    (hE : Epi ⟨m, lo, brk, hl, lh⟩ (pre ++ b :: post)) :
    Linked (lo + 160) 1 pre b.addr ∧ b.palloc = lastAlloc 1 pre ∧
      Linked (b.addr + b.size) b.alloc post brk ∧
      rd64 m (b.addr + b.size - 8) = nextSize post + 2 * b.alloc + nextAlloc post := by
  have hL := hC.linked1
  rw [Linked_append] at hL
  obtain ⟨mid, h1, h2⟩ := hL
  simp only [Linked] at h2
  obtain ⟨h3, h4, h5, h6, h7, h8⟩ := h2
  subst h3
  refine ⟨h1, h4, h8, ?_⟩
  cases post with
  | nil =>
    simp only [Linked] at h8
    rw [Epi_iff, lastAlloc_append] at hE
    simp only [lastAlloc] at hE
    rw [h8, hE]; simp [nextSize, nextAlloc]
  | cons c cs =>
    simp only [Linked] at h8
    have := hC.hdr1 c (List.mem_append_right _ (List.mem_cons_of_mem _ (List.mem_cons_self _ _)))
    rw [h8.1, h8.2.1] at this
    rw [this]; simp [nextSize, nextAlloc]

theorem Epi_of_LFrame (m m1 : Nat → Nat) (lo brk hl lh : Nat) (bs : List Blk)
    (bk : Nat → List Nat) (hC : Core ⟨m, lo, brk, hl, lh⟩ bs bk)
    (hE : Epi ⟨m, lo, brk, hl, lh⟩ bs) (hF : LFrame lo bs m m1) :
    Epi ⟨m1, lo, brk, hl, lh⟩ bs := by
  rw [Epi_iff] at hE ⊢
  have hle := Linked_le _ _ _ _ hC.linked1
  rw [← hE]
  apply rd64_congr
  intro c h1 h2
  apply hF c (by omega)
  intro d hd _
  have := hC.blk hd
  (clear * - h1 this; omega)

theorem CFrame_of_LFrame (m m1 : Nat → Nat) (lo brk hl lh : Nat) (bs : List Blk)
    (bk : Nat → List Nat) (hC : Core ⟨m, lo, brk, hl, lh⟩ bs bk) (hF : LFrame lo bs m m1) :
    CFrame bs ⟨m, lo, brk, hl, lh⟩ ⟨m1, lo, brk, hl, lh⟩ := by
  intro c hc
  obtain ⟨b, hb, hb1, hb2, hb3⟩ := hc
  have h1 := hC.blk hb
  apply hF c (by omega)
  intro d hd hd0
  have := hC.sep hb hd
  have := hC.blk hd
  omega

/-- Relinking leaves the footer word of every block alone. -/
theorem LFrame_footer (m m1 : Nat → Nat) (lo brk hl lh : Nat) (bs : List Blk)
    (bk : Nat → List Nat) (hC : Core ⟨m, lo, brk, hl, lh⟩ bs bk) (hF : LFrame lo bs m m1)
    (d : Blk) (hd : d ∈ bs) :
    rd64 m1 (d.addr + d.size - 16) = rd64 m (d.addr + d.size - 16) := by
  have h0 := hC.blk hd
  apply rd64_congr
  intro c h1 h2
  apply hF c (by (clear * - h0 h1; omega))
  intro e he _
  have := hC.sep hd he
  have := hC.blk he
  omega

theorem mid_eq (pre post : List Blk) (b : Blk) : pre ++ b :: post = pre ++ [b] ++ post := by
  simp

/-- A block that is on no list of `bk` once removed from its own list. -/
theorem not_listed_erase {m : Nat → Nat} {lo brk hl lh : Nat} {bs : List Blk}
    {bk : Nat → List Nat} (hC : Core ⟨m, lo, brk, hl, lh⟩ bs bk) {b : Blk} (hb : b ∈ bs)
    (i : Nat) (hi : i < 16) :
    b.addr ∉ Function.update bk (getlistNum b.size)
      ((bk (getlistNum b.size)).erase b.addr) i := by
  by_cases h : i = getlistNum b.size
  · subst h
    rw [Function.update_same]
    exact fun h1 => (List.Nodup.mem_erase_iff (hC.nodup _ hi)).1 h1 |>.1 rfl
  · rw [Function.update_noteq h]
    intro h1
    rcases hC.listed_blk hi h1 hb with h2 | h2 | h2
    · exact h h2.2.2.symm
    · omega
    · have := hC.blk hb; omega

theorem mem_update_erase {bk : Nat → List Nat} {i0 x y : Nat} (i : Nat) (hxy : x ≠ y)
    (hx : x ∈ bk i) : x ∈ Function.update bk i0 ((bk i0).erase y) i := by
  by_cases h : i = i0
  · subst h
    rw [Function.update_same]
    exact (List.mem_erase_of_ne hxy).2 hx
  · rw [Function.update_noteq h]; exact hx

theorem mem_of_update_erase {bk : Nat → List Nat} {i0 x y : Nat} (i : Nat)
    (hx : x ∈ Function.update bk i0 ((bk i0).erase y) i) : x ∈ bk i := by
  by_cases h : i = i0
  · subst h
    rw [Function.update_same] at hx
    exact List.mem_of_mem_erase hx
  · rw [Function.update_noteq h] at hx; exact hx

theorem mem_update_cons {bk : Nat → List Nat} {i0 x y : Nat} (i : Nat)
    (hx : x ∈ bk i) : x ∈ Function.update bk i0 (y :: bk i0) i := by
  by_cases h : i = i0
  · subst h
    rw [Function.update_same]
    exact List.mem_cons_of_mem _ hx
  · rw [Function.update_noteq h]; exact hx

theorem place_split (m : Nat → Nat) (lo brk hl lh : Nat) (pre post : List Blk) (b : Blk)
    (bk : Nat → List Nat) (hI : Inv ⟨m, lo, brk, hl, lh⟩ (pre ++ b :: post) bk)
    (hfree : b.alloc = 0) (asize : Nat) (h32 : 32 ≤ asize) (h16 : asize % 16 = 0)
    (hle : asize ≤ b.size) (hsp : 32 ≤ b.size - asize) :
    ∃ m1 bk1, place ⟨m, lo, brk, hl, lh⟩ b.addr asize = some ⟨m1, lo, brk, hl, lh⟩ ∧
      Inv ⟨m1, lo, brk, hl, lh⟩
        (pre ++ [⟨b.addr, asize, 1, b.palloc⟩, ⟨b.addr + asize, b.size - asize, 0, 1⟩] ++ post)
        bk1 ∧
      CFrame (pre ++ b :: post) ⟨m, lo, brk, hl, lh⟩ ⟨m1, lo, brk, hl, lh⟩ ∧
      rd64 m1 (b.addr + b.size - 16) = b.size - asize + 2 ∧
      ∃ t, bk1 (getlistNum (b.size - asize)) = (b.addr + asize) :: t := by
  have hbm : b ∈ pre ++ b :: post := List.mem_append_right _ (List.mem_cons_self _ _)
  have hC := hI.core
  obtain ⟨hb1, hb2, hb3, hb4, hb5, hb6, htop, hlh, hhl, hbh⟩ := hC.blk hbm
  have hlist := hI.full b hbm hfree
  obtain ⟨m1, e1, hC1, hF1⟩ := remfromSeg_spec m lo brk hl lh _ bk hC b hbm hlist
  have hE1 := Epi_of_LFrame m m1 lo brk hl lh _ bk hC hI.epi hF1
  obtain ⟨hL1, hpa, hL3, hnx⟩ := hC1.at_blk hE1
  obtain ⟨hn1, hn2, hn3, hn4, hn5⟩ := nextInfo post _ _ _ hL3
  have hbh1 := hC1.hdr1 b hbm
  obtain ⟨r1, r2, r3, r4, r5⟩ := hdr_reads m lo brk hl lh b.addr b.size b.palloc b.alloc
    (by omega) (by omega) htop hbh (by omega) hb6 hb5
  obtain ⟨_, _, _, _, s5⟩ := hdr_reads m1 lo brk hl lh b.addr b.size b.palloc b.alloc
    (by omega) (by omega) htop hbh1 (by omega) hb6 hb5
  have hrem : (b.size + W64 - asize) % W64 = b.size - asize := by
    simp only [W64]; (clear * - hle hb2 htop; omega)
  rw [place, r1, r3, andThen_some,
    NEXT_BLK_hdr m lo brk hl lh b.addr b.size b.palloc b.alloc (by omega) htop hbh (by omega)
      hb6 hb5 hb2, andThen_some, e1, andThen_some, hrem]
  simp only [DSIZE]
  rw [if_pos (by omega), s5, andThen_some, two_lor_one _ hb6,
    PACK_eq _ _ (by omega) (by omega), PUT_mk _ _ _ _ _ _ _ (by omega) (by (clear * - hb1 hb2; omega)), andThen_some]
  have hh2 : rd64 (wr64 m1 (b.addr - 8) (asize + (2 * b.palloc + 1))) (b.addr - 8)
      = asize + 2 * b.palloc + 1 := by
    rw [rd64_wr64_at _ _ _ _ rfl (by omega)]; omega
  rw [NEXT_BLK_hdr _ lo brk hl lh b.addr asize b.palloc 1 (by omega) htop hh2 (by (clear * - h16; omega)) hb6
      (by omega) (by omega), andThen_some, HDRP_eq _ (by omega) (by omega),
    lor_eq_add _ 2 (by (clear * - h16 hb4; omega)) (by omega), PUT_mk _ _ _ _ _ _ _ (by omega) (by (clear * - h32 hle hb2; omega)),
    andThen_some]
  have hh3 : rd64 (wr64 (wr64 m1 (b.addr - 8) (asize + (2 * b.palloc + 1)))
      (b.addr + asize - 8) (b.size - asize + 2)) (b.addr + asize - 8)
      = (b.size - asize) + 2 * 1 + 0 := by
    rw [rd64_wr64_at _ _ _ _ rfl (by (clear * - hb2 htop; omega))]
  rw [FTRP_hdr _ lo brk hl lh (b.addr + asize) (b.size - asize) 1 0 (by omega) htop hh3
      (by (clear * - h16 hb4; omega)) (by omega) (by omega) (by omega) (by (clear * - hle hb2; omega)), andThen_some,
    PUT_mk _ _ _ _ _ _ _ (by (clear * - hb1; omega)) (by (clear * - h32 hle hb2; omega)), andThen_some]
  -- the chain after the three header writes
  have hCE := Core_edit m1 (wr64 (wr64 (wr64 m1 (b.addr - 8) (asize + (2 * b.palloc + 1)))
      (b.addr + asize - 8) (b.size - asize + 2)) (b.addr + asize + (b.size - asize) - 16)
      (b.size - asize + 2)) lo brk hl lh pre [b]
      [⟨b.addr, asize, 1, b.palloc⟩, ⟨b.addr + asize, b.size - asize, 0, 1⟩] post _
      (by rw [← mid_eq]; exact hC1) (by rw [← mid_eq]; exact hE1) b.addr (b.addr + b.size) hL1
      (by simp only [Linked, true_and, and_true]; (clear * - hfree hb3 hb4 hpa; omega))
      (by simp only [lastAlloc]; exact hL3)
      (by simp only [Linked, true_and, and_true]; (clear * - h32 h16 hsp hb4 hpa; omega))
      (by
        intro c hc
        rw [wr64_other _ _ _ _ (by (clear * - h32 hle hc; omega)), wr64_other _ _ _ _ (by (clear * - h32 hle hc; omega)),
          wr64_other _ _ _ _ (by (clear * - hb1 hc; omega))])
      (by
        intro d hd
        simp only [List.mem_cons, List.mem_singleton, List.not_mem_nil, or_false] at hd
        rcases hd with h | h <;> subst h <;> simp only [Blk.hdr] <;>
          simp (disch := omega) only [rd64_wr64_other, rd64_wr64_at] <;> omega)
      (by
        intro d hd hda
        simp only [List.mem_cons, List.mem_singleton, List.not_mem_nil, or_false] at hd
        rcases hd with h | h <;> subst h
        · simp at hda
        · simp only
          rw [rd64_wr64_at _ _ _ _ (by omega) (by (clear * - hb2 htop; omega))]; (clear * - h16 hb4; omega))
      (by
        simp only [lastAlloc, nextHdr]
        simp (disch := (clear * - h32 hle hsp hb3; omega)) only [rd64_wr64_other]
        rw [hnx, hfree])
      (by
        intro i hi x hx d hd h
        rw [List.mem_singleton.1 hd] at h
        rw [← h] at hx
        exact not_listed_erase hC hbm i hi hx)
  simp only [lastAlloc] at hCE
  rw [setPA_same post _ _ _ (by rw [← hfree]; exact hL3)] at hCE
  obtain ⟨hC4, hE4⟩ := hCE
  have hb2m : (⟨b.addr + asize, b.size - asize, 0, 1⟩ : Blk) ∈
      pre ++ [⟨b.addr, asize, 1, b.palloc⟩, ⟨b.addr + asize, b.size - asize, 0, 1⟩] ++ post := by
    simp
  obtain ⟨m5, e5, hC5, hF5⟩ := addtoSeg_spec _ lo brk hl lh _ _ hC4
    ⟨b.addr + asize, b.size - asize, 0, 1⟩ hb2m rfl (by
      intro i hi hx
      have hx1 := mem_of_update_erase i hx
      rcases hC.listed_blk hi hx1 hbm with h | h | h <;> simp only at h <;> omega)
  simp only at e5
  have hft := LFrame_footer _ m5 lo brk hl lh _ _ hC4 hF5 _ hb2m
  simp only at hft
  have hft2 : rd64 m5 (b.addr + b.size - 16) = b.size - asize + 2 := by
    have hadr : b.addr + asize + (b.size - asize) - 16 = b.addr + b.size - 16 := by (clear * - hle; omega)
    rw [hadr] at hft
    rw [hft]
    exact rd64_wr64_at _ _ _ _ (by omega) (by (clear * - hb2 htop; omega))
  refine ⟨m5, _, e5, ⟨hC5, ?_, ?_, ?_⟩, ?_, hft2, ⟨_, Function.update_same _ _ _⟩⟩
  · exact Epi_of_LFrame _ m5 lo brk hl lh _ _ hC4 hE4 hF5
  · intro d hd hda
    simp only [List.mem_append, List.mem_cons, List.mem_singleton, List.not_mem_nil,
      or_false] at hd
    have hold : d ∈ pre ∨ d ∈ post → d.addr ∈ Function.update
        (Function.update bk (getlistNum b.size) ((bk (getlistNum b.size)).erase b.addr))
        (getlistNum (b.size - asize))
        ((b.addr + asize) :: Function.update bk (getlistNum b.size)
          ((bk (getlistNum b.size)).erase b.addr) (getlistNum (b.size - asize)))
        (getlistNum d.size) := by
      intro h
      have hdm : d ∈ pre ++ b :: post := by
        rcases h with h | h
        · exact List.mem_append_left _ h
        · exact List.mem_append_right _ (List.mem_cons_of_mem _ h)
      have h1 := hI.full d hdm hda
      have hne : d.addr ≠ b.addr := by
        intro h2
        have h3 := hC.sep hdm hbm
        have h4 := hC.blk hdm
        rcases h with h | h
        · have := Linked_mem _ _ _ _ hL1 (Nat.le_refl 1) d h; omega
        · have := Linked_mem _ _ _ _ hL3 hb5 d h; omega
      exact mem_update_cons _ (mem_update_erase _ hne h1)
    rcases hd with (h | h | h) | h
    · exact hold (Or.inl h)
    · subst h; simp at hda
    · subst h
      simp only
      rw [Function.update_same]
      exact List.mem_cons_self _ _
    · exact hold (Or.inr h)
  · intro d hd hda
    simp only [List.mem_append, List.mem_cons, List.mem_singleton, List.not_mem_nil,
      or_false] at hd
    rcases hd with (h | h | h) | h
    · exact hI.noadj d (List.mem_append_left _ h) hda
    · subst h; simp at hda
    · subst h; rfl
    · exact hI.noadj d (List.mem_append_right _ (List.mem_cons_of_mem _ h)) hda
  · intro c hc
    obtain ⟨d, hd, hd1, hd2, hd3⟩ := hc
    have hdb : d ≠ b := fun h => by rw [h, hfree] at hd1; omega
    have hd4 := hC.blk hd
    have hd5 := hC.sep hd hbm
    have hdm : d ∈ pre ∨ d ∈ post := by
      rcases List.mem_append.1 hd with h | h
      · exact Or.inl h
      · rcases List.mem_cons.1 h with h | h
        · exact absurd h hdb
        · exact Or.inr h
    have hdm2 : d ∈ pre ++ [⟨b.addr, asize, 1, b.palloc⟩,
        ⟨b.addr + asize, b.size - asize, 0, 1⟩] ++ post := by
      rcases hdm with h | h
      · exact List.mem_append_left _ (List.mem_append_left _ h)
      · exact List.mem_append_right _ h
    simp only
    have s1 := CFrame_of_LFrame _ m5 lo brk hl lh _ _ hC4 hF5 c ⟨d, hdm2, hd1, hd2, hd3⟩
    have s2 := CFrame_of_LFrame m m1 lo brk hl lh _ _ hC hF1 c ⟨d, hd, hd1, hd2, hd3⟩
    simp only at s1 s2
    rw [s1, wr64_other _ _ _ _ (by (clear * - hfree h32 hle hd1 hd2 hd3 hd5; omega)), wr64_other _ _ _ _ (by (clear * - hfree h32 hle hd1 hd2 hd3 hd5; omega)),
      wr64_other _ _ _ _ (by (clear * - hfree hb3 hd1 hd2 hd3 hd5; omega)), s2]


theorem mem_setPA (v : Nat) (post : List Blk) (d : Blk) (hd : d ∈ setPA v post) :
    ∃ c, c ∈ post ∧ c.addr = d.addr ∧ c.size = d.size ∧ c.alloc = d.alloc ∧
      (d.palloc = c.palloc ∨ d.palloc = v) := by
  cases post with
  | nil => simp [setPA] at hd
  | cons c cs =>
    simp only [setPA, List.mem_cons] at hd
    rcases hd with h | h
    · subst h
      exact ⟨c, List.mem_cons_self _ _, rfl, rfl, rfl, Or.inr rfl⟩
    · exact ⟨d, List.mem_cons_of_mem _ h, rfl, rfl, rfl, Or.inl rfl⟩

theorem nextAlloc_of_free (post : List Blk) (a e : Nat) (hL : Linked a 0 post e)
    (hN : ∀ d, d ∈ post → d.alloc = 0 → d.palloc = 1) : nextAlloc post = 1 := by
  cases post with
  | nil => rfl
  | cons c cs =>
    simp only [Linked] at hL
    simp only [nextAlloc]
    have := hN c (List.mem_cons_self _ _)
    omega

theorem place_nosplit (m : Nat → Nat) (lo brk hl lh : Nat) (pre post : List Blk) (b : Blk)
    (bk : Nat → List Nat) (hI : Inv ⟨m, lo, brk, hl, lh⟩ (pre ++ b :: post) bk)
    (hfree : b.alloc = 0) (asize : Nat) (hle : asize ≤ b.size) (hsp : ¬ 32 ≤ b.size - asize) :
    ∃ m1 bk1, place ⟨m, lo, brk, hl, lh⟩ b.addr asize = some ⟨m1, lo, brk, hl, lh⟩ ∧
      Inv ⟨m1, lo, brk, hl, lh⟩ (pre ++ [⟨b.addr, b.size, 1, b.palloc⟩] ++ setPA 1 post) bk1 ∧
      CFrame (pre ++ b :: post) ⟨m, lo, brk, hl, lh⟩ ⟨m1, lo, brk, hl, lh⟩ := by
  have hbm : b ∈ pre ++ b :: post := List.mem_append_right _ (List.mem_cons_self _ _)
  have hC := hI.core
  obtain ⟨hb1, hb2, hb3, hb4, hb5, hb6, htop, hlh, hhl, hbh⟩ := hC.blk hbm
  have hlist := hI.full b hbm hfree
  obtain ⟨m1, e1, hC1, hF1⟩ := remfromSeg_spec m lo brk hl lh _ bk hC b hbm hlist
  have hE1 := Epi_of_LFrame m m1 lo brk hl lh _ bk hC hI.epi hF1
  obtain ⟨hL1, hpa, hL3, hnx⟩ := hC1.at_blk hE1
  obtain ⟨hn1, hn2, hn3, hn4, hn5⟩ := nextInfo post _ _ _ hL3
  have hna : nextAlloc post = 1 := nextAlloc_of_free post _ _ (by rw [← hfree]; exact hL3)
    (fun d hd => hI.noadj d (List.mem_append_right _ (List.mem_cons_of_mem _ hd)))
  rw [hfree, hna] at hnx
  have hbh1 := hC1.hdr1 b hbm
  obtain ⟨r1, r2, r3, r4, r5⟩ := hdr_reads m lo brk hl lh b.addr b.size b.palloc b.alloc
    (by omega) (by omega) htop hbh (by omega) hb6 hb5
  obtain ⟨_, _, _, _, s5⟩ := hdr_reads m1 lo brk hl lh b.addr b.size b.palloc b.alloc
    (by omega) (by omega) htop hbh1 (by omega) hb6 hb5
  have hrem : (b.size + W64 - asize) % W64 = b.size - asize := by
    simp only [W64]; (clear * - hle hsp; omega)
  rw [place, r1, r3, andThen_some,
    NEXT_BLK_hdr m lo brk hl lh b.addr b.size b.palloc b.alloc (by omega) htop hbh (by omega)
      hb6 hb5 hb2, andThen_some, e1, andThen_some, hrem]
  simp only [DSIZE]
  have hv : rd64 (wr64 m1 (b.addr - 8) (b.size + (2 * b.palloc + 1))) (b.addr + b.size - 8)
      = nextSize post + 1 := by
    rw [rd64_wr64_other _ _ _ _ (by (clear * - hb3; omega)), hnx]
  have hor : (nextSize post + 1) ||| 2 = nextSize post + 3 := by
    rw [lor_two _ _ (by omega) (by omega)]
    rfl
  rw [if_neg (by omega), s5, andThen_some, two_lor_one _ hb6,
    PACK_eq _ _ (by (clear * - hb4; omega)) (by omega), PUT_mk _ _ _ _ _ _ _ (by omega) (by (clear * - hb1 hb2; omega)), andThen_some,
    HDRP_eq _ (by omega) (by omega), GET_mk _ _ _ _ _ _ (by (clear * - hb1; omega)) (by omega), andThen_some,
    hv, hor, PUT_mk _ _ _ _ _ _ _ (by (clear * - hb1; omega)) (by (clear * - hb2 hb3; omega)), andThen_some,
    GET_ALLOC_mk _ _ _ _ _ _ (by (clear * - hb1; omega)) (by (clear * - hb2 hb3; omega)), andThen_some,
    rd64_wr64_at _ _ _ _ rfl (by omega), if_neg (by omega)]
  have hCE := Core_edit m1 (wr64 (wr64 m1 (b.addr - 8) (b.size + (2 * b.palloc + 1)))
      (b.addr + b.size - 8) (nextSize post + 3)) lo brk hl lh pre [b]
      [⟨b.addr, b.size, 1, b.palloc⟩] post _
      (by rw [← mid_eq]; exact hC1) (by rw [← mid_eq]; exact hE1) b.addr (b.addr + b.size) hL1
      (by simp only [Linked, true_and, and_true]; (clear * - hfree hb3 hb4 hpa; omega))
      (by simp only [lastAlloc]; exact hL3)
      (by simp only [Linked, true_and, and_true]; (clear * - hb3 hb4 hpa; omega))
      (by
        intro c hc
        rw [wr64_other _ _ _ _ (by (clear * - hb3 hc; omega)), wr64_other _ _ _ _ (by (clear * - hb1 hc; omega))])
      (by
        intro d hd
        simp only [List.mem_singleton] at hd
        subst hd
        simp only [Blk.hdr]
        simp (disch := omega) only [rd64_wr64_other, rd64_wr64_at]
        omega)
      (by
        intro d hd hda
        simp only [List.mem_singleton] at hd
        subst hd
        simp at hda)
      (by
        simp only [lastAlloc, nextHdr]
        rw [rd64_wr64_at _ _ _ _ rfl (by omega), hna])
      (by
        intro i hi x hx d hd h
        rw [List.mem_singleton.1 hd] at h
        rw [← h] at hx
        exact not_listed_erase hC hbm i hi hx)
  simp only [lastAlloc] at hCE
  obtain ⟨hC4, hE4⟩ := hCE
  refine ⟨_, _, rfl, ⟨hC4, hE4, ?_, ?_⟩, ?_⟩
  · intro d hd hda
    simp only [List.mem_append, List.mem_singleton] at hd
    have hold : ∀ c, c ∈ pre ∨ c ∈ post → c.alloc = 0 → c.addr ∈ Function.update bk
        (getlistNum b.size) ((bk (getlistNum b.size)).erase b.addr) (getlistNum c.size) := by
      intro c h hca
      have hdm : c ∈ pre ++ b :: post := by
        rcases h with h | h
        · exact List.mem_append_left _ h
        · exact List.mem_append_right _ (List.mem_cons_of_mem _ h)
      have h1 := hI.full c hdm hca
      have hne : c.addr ≠ b.addr := by
        intro h2
        rcases h with h | h
        · have := Linked_mem _ _ _ _ hL1 (Nat.le_refl 1) c h; omega
        · have := Linked_mem _ _ _ _ hL3 hb5 c h; omega
      exact mem_update_erase _ hne h1
    rcases hd with (h | h) | h
    · exact hold d (Or.inl h) hda
    · subst h; simp at hda
    · obtain ⟨c, hc, hc1, hc2, hc3, _⟩ := mem_setPA 1 post d h
      rw [← hc1, ← hc2]
      exact hold c (Or.inr hc) (by rw [hc3]; exact hda)
  · intro d hd hda
    simp only [List.mem_append, List.mem_singleton] at hd
    rcases hd with (h | h) | h
    · exact hI.noadj d (List.mem_append_left _ h) hda
    · subst h; simp at hda
    · obtain ⟨c, hc, hc1, hc2, hc3, hc4⟩ := mem_setPA 1 post d h
      rcases hc4 with h4 | h4
      · rw [h4]
        exact hI.noadj c (List.mem_append_right _ (List.mem_cons_of_mem _ hc))
          (by rw [hc3]; exact hda)
      · exact h4
  · intro c hc
    obtain ⟨d, hd, hd1, hd2, hd3⟩ := hc
    have hdb : d ≠ b := fun h => by rw [h, hfree] at hd1; omega
    have hd4 := hC.blk hd
    have hd5 := hC.sep hd hbm
    have s2 := CFrame_of_LFrame m m1 lo brk hl lh _ _ hC hF1 c ⟨d, hd, hd1, hd2, hd3⟩
    simp only at s2 ⊢
    rw [wr64_other _ _ _ _ (by (clear * - hb3 hd2 hd3 hd5; omega)), wr64_other _ _ _ _ (by (clear * - hd2 hd3 hd4 hd5; omega)), s2]

/-- The function `place` on a free block of the chain that is large enough. -/
theorem place_spec (m : Nat → Nat) (lo brk hl lh : Nat) (pre post : List Blk) (b : Blk)
    (bk : Nat → List Nat) (hI : Inv ⟨m, lo, brk, hl, lh⟩ (pre ++ b :: post) bk)
    (hfree : b.alloc = 0) (asize : Nat) (h32 : 32 ≤ asize) (h16 : asize % 16 = 0)
    (hle : asize ≤ b.size) :
    ∃ m1 bk1, place ⟨m, lo, brk, hl, lh⟩ b.addr asize = some ⟨m1, lo, brk, hl, lh⟩ ∧
      Inv ⟨m1, lo, brk, hl, lh⟩ (placed pre b post asize) bk1 ∧
      CFrame (pre ++ b :: post) ⟨m, lo, brk, hl, lh⟩ ⟨m1, lo, brk, hl, lh⟩ := by
  unfold placed
  by_cases hsp : 32 ≤ b.size - asize
  · rw [if_pos hsp]
    obtain ⟨m1, bk1, h1, h2, h3, _⟩ := place_split m lo brk hl lh pre post b bk hI hfree asize
      h32 h16 hle hsp
    exact ⟨m1, bk1, h1, h2, h3⟩
  · rw [if_neg hsp]
    exact place_nosplit m lo brk hl lh pre post b bk hI hfree asize hle hsp


/-- Unlinking a listed block, with the membership of the new lists. -/
theorem rem_step (m : Nat → Nat) (lo brk hl lh : Nat) (bs : List Blk)
    (bk : Nat → List Nat) (hC : Core ⟨m, lo, brk, hl, lh⟩ bs bk) (b : Blk) (hb : b ∈ bs)
    (hx : b.addr ∈ bk (getlistNum b.size)) :
    ∃ m1 bk1, remfromSeg ⟨m, lo, brk, hl, lh⟩ b.addr b.size = some ⟨m1, lo, brk, hl, lh⟩ ∧
      Core ⟨m1, lo, brk, hl, lh⟩ bs bk1 ∧ LFrame lo bs m m1 ∧
      ∀ i, i < 16 → ∀ x, x ∈ bk1 i ↔ x ∈ bk i ∧ x ≠ b.addr := by
  obtain ⟨m1, e1, hC1, hF1⟩ := remfromSeg_spec m lo brk hl lh bs bk hC b hb hx
  refine ⟨m1, _, e1, hC1, hF1, ?_⟩
  intro i hi x
  constructor
  · intro h
    refine ⟨mem_of_update_erase i h, ?_⟩
    intro hxb
    rw [hxb] at h
    exact not_listed_erase hC hb i hi h
  · intro h
    exact mem_update_erase i h.2 h.1

/-- Linking a free block that is on no list, with the membership of the new lists. -/
theorem add_step (m : Nat → Nat) (lo brk hl lh : Nat) (bs : List Blk)
    (bk : Nat → List Nat) (hC : Core ⟨m, lo, brk, hl, lh⟩ bs bk) (b : Blk) (hb : b ∈ bs)
    (hfree : b.alloc = 0) (hnot : ∀ i, i < 16 → b.addr ∉ bk i) :
    ∃ m1 bk1, addtoSeg ⟨m, lo, brk, hl, lh⟩ b.addr b.size = some ⟨m1, lo, brk, hl, lh⟩ ∧
      Core ⟨m1, lo, brk, hl, lh⟩ bs bk1 ∧ LFrame lo bs m m1 ∧
      (∀ i, i < 16 → ∀ x, x ∈ bk1 i ↔ x ∈ bk i ∨ (x = b.addr ∧ i = getlistNum b.size)) ∧
      bk1 (getlistNum b.size) = b.addr :: bk (getlistNum b.size) := by
  obtain ⟨m1, e1, hC1, hF1⟩ := addtoSeg_spec m lo brk hl lh bs bk hC b hb hfree hnot
  refine ⟨m1, _, e1, hC1, hF1, ?_, by rw [Function.update_same]⟩
  intro i hi x
  by_cases h : i = getlistNum b.size
  · subst h
    rw [Function.update_same, List.mem_cons]
    constructor
    · rintro (h | h)
      · exact Or.inr ⟨h, rfl⟩
      · exact Or.inl h
    · rintro (h | h)
      · exact Or.inr h
      · exact Or.inl h.1
  · rw [Function.update_noteq h]
    constructor
    · exact fun h1 => Or.inl h1
    · rintro (h1 | h1)
      · exact h1
      · exact absurd h1.2 h

/-- The heap description only depends on the bytes the allocator owns. -/
theorem Core_frame (m m1 : Nat → Nat) (lo brk hl lh : Nat) (bs : List Blk)
    (bk : Nat → List Nat) (hC : Core ⟨m, lo, brk, hl, lh⟩ bs bk)
    (hfr : ∀ c, Owned lo bs c → m1 c = m c) :
    Core ⟨m1, lo, brk, hl, lh⟩ bs bk := by
  have hpro : rd64 m1 (lo + 128) = 0 ∧ rd64 m1 (lo + 136) = 17 ∧ rd64 m1 (lo + 144) = 17 := by
    have h0 := hC.pro
    simp only at h0
    rw [rd64_congr m m1 (lo + 128) (fun c _ _ => hfr c (Or.inl (by omega))),
      rd64_congr m m1 (lo + 136) (fun c _ _ => hfr c (Or.inl (by omega))),
      rd64_congr m m1 (lo + 144) (fun c _ _ => hfr c (Or.inl (by omega)))]
    exact h0
  refine ⟨hC.lhp, hC.hlp, hC.top, hC.linked, ?_, ?_, ?_, hC.mem_bk, hC.nodup, hpro⟩
  · intro d hd
    have h1 := hC.blk hd
    have : rd64 m1 (d.addr - 8) = rd64 m (d.addr - 8) := by
      apply rd64_congr
      intro c hc1 hc2
      exact hfr c (Or.inr ⟨d, hd, Or.inl (by (clear * - h1 hc1 hc2; omega))⟩)
    simp only
    rw [this]; exact hC.hdr d hd
  · intro d hd hda
    have h1 := hC.blk hd
    have : rd64 m1 (d.addr + d.size - 16) = rd64 m (d.addr + d.size - 16) := by
      apply rd64_congr
      intro c hc1 hc2
      exact hfr c (Or.inr ⟨d, hd, Or.inr ⟨hda, by (clear * - h1 hc1; omega), by (clear * - h1 hc2; omega)⟩⟩)
    simp only
    rw [this]; exact hC.ftr d hd hda
  · intro i hi
    have : rd64 m1 (lo + 8 * i) = rd64 m (lo + 8 * i) := by
      apply rd64_congr
      intro c hc1 hc2
      exact hfr c (Or.inl (by omega))
    simp only
    rw [this]
    apply DLseg_congr m m1 _ _ _ _ _ (hC.dl i hi)
    intro x hx
    obtain ⟨d, hd, hd1, hd2, hd3, hd4, hd5, hd6⟩ := hC.listed hi hx
    constructor <;> apply rd64_congr <;> intro c hc1 hc2 <;>
      exact hfr c (Or.inr ⟨d, hd, Or.inr ⟨hd2, by omega, by omega⟩⟩)

theorem Core.top1 {m : Nat → Nat} {lo brk hl lh : Nat} {bs : List Blk}
    {bk : Nat → List Nat} (hC : Core ⟨m, lo, brk, hl, lh⟩ bs bk) :
    brk < 9223372036854775808 := hC.top

theorem Linked_size_mod : ∀ (bs : List Blk) (a pa e : Nat), Linked a pa bs e →
    (e - a) % 16 = 0
  | [], a, pa, e, h => by simp only [Linked] at h; omega
  | b :: bs, a, pa, e, h => by
    simp only [Linked] at h
    have h1 := Linked_size_mod bs _ _ _ h.2.2.2.2.2
    have h2 := Linked_le _ _ _ _ h.2.2.2.2.2
    (clear * - h h1 h2; omega)

/-- Merging a run `mid` of unlisted blocks, the last of which is free, into one
free block by writing its header and footer. -/
theorem merge_edit (m : Nat → Nat) (lo brk hl lh : Nat) (pre mid post : List Blk)
    (bk : Nat → List Nat)
    (hC : Core ⟨m, lo, brk, hl, lh⟩ (pre ++ mid ++ post) bk)
    (hE : Epi ⟨m, lo, brk, hl, lh⟩ (pre ++ mid ++ post))
    (a e1 : Nat)
    (hL1 : Linked (lo + 160) 1 pre a)
    (hL2 : Linked a (lastAlloc 1 pre) mid e1)
    (hL3 : Linked e1 (lastAlloc (lastAlloc 1 pre) mid) post brk)
    (hlast : lastAlloc (lastAlloc 1 pre) mid = 0) (hne : a + 32 ≤ e1)
    (hnl : ∀ i, i < 16 → ∀ x, x ∈ bk i → ∀ d, d ∈ mid → d.addr ≠ x)
    (ha hf v : Nat) (hha : ha = a - 8) (hhf : hf = e1 - 16)
    (hhv : v = e1 - a + 2 * lastAlloc 1 pre) :
    Core ⟨wr64 (wr64 m ha v) hf v, lo, brk, hl, lh⟩
        (pre ++ [⟨a, e1 - a, 0, lastAlloc 1 pre⟩] ++ post) bk ∧
      Epi ⟨wr64 (wr64 m ha v) hf v, lo, brk, hl, lh⟩
        (pre ++ [⟨a, e1 - a, 0, lastAlloc 1 pre⟩] ++ post) := by
  subst hha hhf hhv
  have hmod := Linked_size_mod _ _ _ _ hL2
  have hge := Linked_le _ _ _ _ hL1
  have hbrk := Linked_le _ _ _ _ hL3
  have htop := hC.top1
  have hp1 : lastAlloc 1 pre ≤ 1 := lastAlloc_le _ _ _ _ hL1 (Nat.le_refl 1)
  have hCE := Core_edit m (wr64 (wr64 m (a - 8) (e1 - a + 2 * lastAlloc 1 pre)) (e1 - 16)
      (e1 - a + 2 * lastAlloc 1 pre)) lo brk hl lh pre mid
      [⟨a, e1 - a, 0, lastAlloc 1 pre⟩] post bk hC hE a e1 hL1 hL2 hL3
      (by simp only [Linked, true_and, and_true]; (clear * - hne hmod; omega))
      (by
        intro c hc
        rw [wr64_other _ _ _ _ (by omega), wr64_other _ _ _ _ (by (clear * - hne hc; omega))])
      (by
        intro d hd
        simp only [List.mem_singleton] at hd
        subst hd
        simp only [Blk.hdr]
        simp (disch := omega) only [rd64_wr64_other, rd64_wr64_at]
        omega)
      (by
        intro d hd hda
        simp only [List.mem_singleton] at hd
        subst hd
        simp only
        rw [rd64_wr64_at _ _ _ _ (by (clear * - hne; omega)) (by omega)]
        (clear * - hmod hp1; omega))
      (by
        simp only [lastAlloc, nextHdr]
        simp (disch := (clear * - hne; omega)) only [rd64_wr64_other]
        cases post with
        | nil =>
          simp only [Linked] at hL3
          rw [Epi_iff, lastAlloc_append, lastAlloc_append, hlast] at hE
          simp only [lastAlloc] at hE
          rw [hL3, hE]; simp [nextSize, nextAlloc]
        | cons c cs =>
          simp only [Linked] at hL3
          have := hC.hdr1 c (List.mem_append_right _ (List.mem_cons_self _ _))
          rw [hL3.1, hL3.2.1, hlast] at this
          rw [this]; simp [nextSize, nextAlloc])
      hnl
  simp only [lastAlloc] at hCE
  rw [setPA_same post _ _ _ (by rw [← hlast]; exact hL3)] at hCE
  exact hCE


theorem CFrame_trans (bs : List Blk) (h h1 h2 : Heap) (a : CFrame bs h h1)
    (b : CFrame bs h1 h2) : CFrame bs h h2 := by
  intro c hc
  rw [b c hc, a c hc]

theorem CFrame_mono (bs bs1 : List Blk) (h h1 : Heap) (a : CFrame bs1 h h1)
    (hsub : ∀ d, d ∈ bs → d.alloc = 1 → d ∈ bs1) : CFrame bs h h1 := by
  intro c hc
  obtain ⟨d, hd, hd1, hd2⟩ := hc
  exact a c ⟨d, hsub d hd hd1, hd1, hd2⟩

theorem CFrame_refl (bs : List Blk) (h : Heap) : CFrame bs h h := fun _ _ => rfl

/-- Writes between the header of a run of free blocks and the header after it
leave the inside of allocated blocks alone. -/
theorem CFrame_edit (m m1 : Nat → Nat) (lo brk hl lh : Nat) (pre mid post : List Blk)
    (a e1 pa : Nat)
    (hL1 : Linked (lo + 160) 1 pre a) (hL2 : Linked a pa mid e1) (hpa : pa ≤ 1)
    (hL3 : Linked e1 (lastAlloc pa mid) post brk)
    (hfree : ∀ d, d ∈ mid → d.alloc = 0)
    (hfr : ∀ c, c + 8 < a ∨ e1 ≤ c → m1 c = m c) :
    CFrame (pre ++ mid ++ post) ⟨m, lo, brk, hl, lh⟩ ⟨m1, lo, brk, hl, lh⟩ := by
  intro c hc
  obtain ⟨d, hd, hd1, hd2, hd3⟩ := hc
  apply hfr
  rcases List.mem_append.1 hd with h | h
  · rcases List.mem_append.1 h with h | h
    · have := Linked_mem _ _ _ _ hL1 (Nat.le_refl 1) d h; omega
    · have := hfree d h; omega
  · have := Linked_mem _ _ _ _ hL3 (lastAlloc_le _ _ _ _ hL2 hpa) d h; omega

/-- The four reads at the start of `coalesce`. -/
theorem coalesce_reads (m : Nat → Nat) (lo brk hl lh : Nat) (pre post : List Blk) (b : Blk)
    (bk : Nat → List Nat) (hC : Core ⟨m, lo, brk, hl, lh⟩ (pre ++ b :: post) bk)
    (hE : Epi ⟨m, lo, brk, hl, lh⟩ (pre ++ b :: post)) (hfree : b.alloc = 0) :
    HDRP b.addr = b.addr - 8 ∧
    PREV_ALLOC ⟨m, lo, brk, hl, lh⟩ (b.addr - 8) = some (2 * b.palloc) ∧
    NEXT_BLK ⟨m, lo, brk, hl, lh⟩ b.addr = some (b.addr + b.size) ∧
    HDRP (b.addr + b.size) = b.addr + b.size - 8 ∧
    GET_ALLOC ⟨m, lo, brk, hl, lh⟩ (b.addr + b.size - 8) = some (nextAlloc post) ∧
    GET_SIZE ⟨m, lo, brk, hl, lh⟩ (b.addr - 8) = some b.size := by
  have hbm : b ∈ pre ++ b :: post := List.mem_append_right _ (List.mem_cons_self _ _)
  obtain ⟨hb1, hb2, hb3, hb4, hb5, hb6, htop, hlh, hhl, hbh⟩ := hC.blk hbm
  obtain ⟨hL1, hpa, hL3, hnx⟩ := hC.at_blk hE
  obtain ⟨hn1, hn2, hn3, hn4, hn5⟩ := nextInfo post _ _ _ hL3
  obtain ⟨r1, r2, r3, r4, r5⟩ := hdr_reads m lo brk hl lh b.addr b.size b.palloc b.alloc
    (by omega) (by omega) htop hbh (by (clear * - hb4; omega)) hb6 hb5
  refine ⟨r1, r5, ?_, HDRP_eq _ (by omega) (by omega), ?_, r3⟩
  · exact NEXT_BLK_hdr m lo brk hl lh b.addr b.size b.palloc b.alloc (by omega) htop hbh
      (by (clear * - hb4; omega)) hb6 hb5 hb2
  · rw [GET_ALLOC_mk m lo brk hl lh _ (by (clear * - hb1; omega)) (by (clear * - hb2 hb3; omega)), hnx, hfree]
    exact congrArg some (by (clear * - hn1 hn2; omega))

/-- Case 1 of `coalesce`: both neighbours allocated. -/
theorem coalesce_none (m : Nat → Nat) (lo brk hl lh : Nat) (pre post : List Blk) (b : Blk)
    (bk : Nat → List Nat) (hC : Core ⟨m, lo, brk, hl, lh⟩ (pre ++ b :: post) bk)
    (hE : Epi ⟨m, lo, brk, hl, lh⟩ (pre ++ b :: post)) (hfree : b.alloc = 0)
    (hpa : b.palloc = 1) (hna : nextAlloc post = 1) :
    coalesce ⟨m, lo, brk, hl, lh⟩ b.addr = some (b.addr, ⟨m, lo, brk, hl, lh⟩) := by
  obtain ⟨r1, r2, r3, r4, r5, r6⟩ := coalesce_reads m lo brk hl lh pre post b bk hC hE hfree
  rw [coalesce, r1, r2, andThen_some, r3, andThen_some, r4, r5, andThen_some, r6, andThen_some,
    if_pos (by omega)]

theorem NoAdj_none (pre post : List Blk) (b : Blk) (a e : Nat)
    (hL3 : Linked a b.alloc post e)
    (hpa : b.palloc = 1) (hna : nextAlloc post = 1)
    (npre : ∀ d, d ∈ pre → d.alloc = 0 → d.palloc = 1)
    (npost : ∀ d, d ∈ post.tail → d.alloc = 0 → d.palloc = 1) :
    NoAdj (pre ++ b :: post) := by
  intro d hd hda
  rcases List.mem_append.1 hd with h | h
  · exact npre d h hda
  · rcases List.mem_cons.1 h with h | h
    · rw [h]; exact hpa
    · cases post with
      | nil => simp at h
      | cons c cs =>
        simp only [nextAlloc] at hna
        rcases List.mem_cons.1 h with h | h
        · rw [h] at hda; omega
        · exact npost d h hda

/-- Allocated blocks outside a run of free blocks are the allocated blocks
outside the block the run is merged into. -/
theorem CFrame_merged (pre mid rest : List Blk) (M : Blk) (h h1 : Heap)
    (hmf : ∀ d, d ∈ mid → d.alloc = 0) (c : CFrame (pre ++ [M] ++ rest) h h1) :
    CFrame (pre ++ mid ++ rest) h h1 := by
  apply CFrame_mono _ _ _ _ c
  intro d hd hd1
  simp only [List.mem_append] at hd ⊢
  rcases hd with (hd | hd) | hd
  · exact Or.inl (Or.inl hd)
  · have := hmf d hd
    omega
  · exact Or.inr hd


theorem merge_finish (pre mid post : List Blk) (bk bkF : Nat → List Nat) (a e1 lo brk : Nat)
    (M : Blk)
    (hL1 : Linked (lo + 160) 1 pre a) (hL2 : Linked a (lastAlloc 1 pre) mid e1)
    (hL3 : Linked e1 (lastAlloc (lastAlloc 1 pre) mid) post brk)
    (hMa : M.addr = a) (hM0 : M.alloc = 0) (hMp : M.palloc = 1)
    (hfull : Full (pre ++ mid ++ post) bk)
    (hfree : ∀ d, d ∈ mid → d.alloc = 0)
    (hbk : ∀ i, i < 16 → ∀ x, x ∈ bkF i ↔
      (x ∈ bk i ∧ ∀ d, d ∈ mid → x ≠ d.addr) ∨ (x = M.addr ∧ i = getlistNum M.size))
    (npre : ∀ d, d ∈ pre → d.alloc = 0 → d.palloc = 1)
    (npost : ∀ d, d ∈ post → d.alloc = 0 → d.palloc = 1) :
    Full (pre ++ [M] ++ post) bkF ∧ NoAdj (pre ++ [M] ++ post) ∧
      ∀ q s, IsAlloc (pre ++ [M] ++ post) q s ↔ IsAlloc (pre ++ mid ++ post) q s := by
  have hp1 : lastAlloc 1 pre ≤ 1 := lastAlloc_le _ _ _ _ hL1 (Nat.le_refl 1)
  have hp2 : lastAlloc (lastAlloc 1 pre) mid ≤ 1 := lastAlloc_le _ _ _ _ hL2 hp1
  refine ⟨?_, ?_, ?_⟩
  · intro d hd hda
    have hidx : getlistNum d.size < 16 := by have := getlistNum_lt d.size; omega
    rw [hbk _ hidx]
    simp only [List.mem_append, List.mem_singleton] at hd
    rcases hd with (h | h) | h
    · left
      refine ⟨hfull d (List.mem_append_left _ (List.mem_append_left _ h)) hda, ?_⟩
      intro e he
      have := Linked_mem _ _ _ _ hL1 (Nat.le_refl 1) d h
      have := Linked_mem _ _ _ _ hL2 hp1 e he
      omega
    · right; rw [h]; exact ⟨rfl, rfl⟩
    · left
      refine ⟨hfull d (List.mem_append_right _ h) hda, ?_⟩
      intro e he
      have := Linked_mem _ _ _ _ hL3 hp2 d h
      have := Linked_mem _ _ _ _ hL2 hp1 e he
      omega
  · intro d hd hda
    simp only [List.mem_append, List.mem_singleton] at hd
    rcases hd with (h | h) | h
    · exact npre d h hda
    · rw [h]; exact hMp
    · exact npost d h hda
  · intro q s
    simp only [IsAlloc, List.mem_append, List.mem_singleton]
    constructor
    · rintro ⟨d, (h | h) | h, h1, h2, h3⟩
      · exact ⟨d, Or.inl (Or.inl h), h1, h2, h3⟩
      · rw [h, hM0] at h3; omega
      · exact ⟨d, Or.inr h, h1, h2, h3⟩
    · rintro ⟨d, (h | h) | h, h1, h2, h3⟩
      · exact ⟨d, Or.inl (Or.inl h), h1, h2, h3⟩
      · rw [hfree d h] at h3; omega
      · exact ⟨d, Or.inr h, h1, h2, h3⟩

/-- Case 2 of `coalesce`: only the next block is free. -/
theorem coalesce_next (m : Nat → Nat) (lo brk hl lh : Nat) (pre rest : List Blk) (b nb : Blk)
    (bk : Nat → List Nat) (hC : Core ⟨m, lo, brk, hl, lh⟩ (pre ++ b :: nb :: rest) bk)
    (hE : Epi ⟨m, lo, brk, hl, lh⟩ (pre ++ b :: nb :: rest))
    (hfull : Full (pre ++ b :: nb :: rest) bk) (hfree : b.alloc = 0)
    (hpa : b.palloc = 1) (hnf : nb.alloc = 0)
    (npre : ∀ d, d ∈ pre → d.alloc = 0 → d.palloc = 1)
    (npost : ∀ d, d ∈ rest → d.alloc = 0 → d.palloc = 1) :
    ∃ m1 bk1, coalesce ⟨m, lo, brk, hl, lh⟩ b.addr = some (b.addr, ⟨m1, lo, brk, hl, lh⟩) ∧
      Inv ⟨m1, lo, brk, hl, lh⟩ (pre ++ [⟨b.addr, b.size + nb.size, 0, 1⟩] ++ rest) bk1 ∧
      ((∃ t, bk1 (getlistNum (b.size + nb.size)) = b.addr :: t) ∧
        rd64 m1 (b.addr + (b.size + nb.size) - 16) = b.size + nb.size + 2) ∧
      CFrame (pre ++ b :: nb :: rest) ⟨m, lo, brk, hl, lh⟩ ⟨m1, lo, brk, hl, lh⟩ ∧
      ∀ q s, IsAlloc (pre ++ [⟨b.addr, b.size + nb.size, 0, 1⟩] ++ rest) q s ↔
        IsAlloc (pre ++ b :: nb :: rest) q s := by
  have hbm : b ∈ pre ++ b :: nb :: rest := List.mem_append_right _ (List.mem_cons_self _ _)
  have hnbm : nb ∈ pre ++ b :: nb :: rest :=
    List.mem_append_right _ (List.mem_cons_of_mem _ (List.mem_cons_self _ _))
  obtain ⟨hb1, hb2, hb3, hb4, hb5, hb6, htop, hlh, hhl, hbh⟩ := hC.blk hbm
  obtain ⟨hc1, hc2, hc3, hc4, hc5, hc6, _, _, _, hch⟩ := hC.blk hnbm
  obtain ⟨hL1, hpa1, hL3, hnx⟩ := hC.at_blk hE
  have hL3n := hL3
  simp only [Linked] at hL3n
  obtain ⟨hna, hnp, _, _, _, hL4⟩ := hL3n
  obtain ⟨r1, r2, r3, r4, r5, r6⟩ := coalesce_reads m lo brk hl lh pre _ b bk hC hE hfree
  simp only [nextAlloc] at r5
  rw [coalesce, r1, r2, andThen_some, r3, andThen_some, r4, r5, andThen_some, r6, andThen_some,
    if_neg (by omega), if_pos (by omega), andThen_some]
  obtain ⟨m1, bk1, e1, hC1, hF1, hM1⟩ := rem_step m lo brk hl lh _ bk hC b hbm
    (hfull b hbm hfree)
  have hi1 : getlistNum nb.size < 16 := by have := getlistNum_lt nb.size; omega
  obtain ⟨m2, bk2, e2, hC2, hF2, hM2⟩ := rem_step m1 lo brk hl lh _ bk1 hC1 nb hnbm
    ((hM1 _ hi1 _).2 ⟨hfull nb hnbm hnf, by omega⟩)
  have hE1 := Epi_of_LFrame m m1 lo brk hl lh _ bk hC hE hF1
  have hE2 := Epi_of_LFrame m1 m2 lo brk hl lh _ bk1 hC1 hE1 hF2
  obtain ⟨_, _, s3, _, _⟩ := hdr_reads m1 lo brk hl lh nb.addr nb.size nb.palloc nb.alloc
    (by omega) (by omega) htop (hC1.hdr1 nb hnbm) (by (clear * - hc4; omega)) hc6 hc5
  obtain ⟨_, _, t3, _, _⟩ := hdr_reads m2 lo brk hl lh nb.addr nb.size nb.palloc nb.alloc
    (by omega) (by omega) htop (hC2.hdr1 nb hnbm) (by (clear * - hc4; omega)) hc6 hc5
  rw [hna] at s3 t3 e2
  have hsz : (b.size + nb.size) % W64 = b.size + nb.size := by simp only [W64]; (clear * - hb2 htop hc2; omega)
  rw [e1, andThen_some, r4, s3, andThen_some, e2, andThen_some, t3, andThen_some]
  dsimp only
  rw [hsz, hpa,
    PACK_eq _ _ (by (clear * - hb4 hc4; omega)) (by omega), PUT_mk _ _ _ _ _ _ _ (by (clear * - hb1; omega)) (by (clear * - hb1 hc2 hna; omega)), andThen_some]
  have hh3 : rd64 (wr64 m2 (b.addr - 8) (b.size + nb.size + 2 * 1)) (b.addr - 8)
      = (b.size + nb.size) + 2 * 1 + 0 := by
    rw [rd64_wr64_at _ _ _ _ rfl (by omega)]
  rw [FTRP_hdr _ lo brk hl lh b.addr (b.size + nb.size) 1 0 (by omega) htop hh3
      (by (clear * - hb4 hc4; omega)) (by omega) (by omega) (by omega) (by omega), andThen_some,
    PUT_mk _ _ _ _ _ _ _ (by (clear * - hb1; omega)) (by (clear * - hb1 hc2 hna; omega)), andThen_some]
  have hmid : pre ++ b :: nb :: rest = pre ++ [b, nb] ++ rest := by simp
  have hL2 : Linked b.addr (lastAlloc 1 pre) [b, nb] (b.addr + b.size + nb.size) := by
    simp only [Linked, true_and, and_true]; (clear * - hfree hnf hb3 hb4 hc3 hc4 hpa1 hna hnp; omega)
  have hME := merge_edit m2 lo brk hl lh pre [b, nb] rest bk2
    (by rw [← hmid]; exact hC2) (by rw [← hmid]; exact hE2) b.addr (b.addr + b.size + nb.size)
    hL1 hL2 (by simp only [lastAlloc]; exact hL4) (by simp only [lastAlloc]; exact hnf)
    (by omega)
    (by
      intro i hi x hx d hd h
      have h2 := ((hM2 i hi x).1 hx)
      have h1 := ((hM1 i hi x).1 h2.1)
      simp only [List.mem_cons, List.mem_singleton, List.not_mem_nil, or_false] at hd
      rcases hd with hd | hd <;> rw [hd] at h <;> omega)
    (b.addr - 8) (b.addr + (b.size + nb.size) - 16) (b.size + nb.size + 2 * 1) rfl (by (clear * -; omega))
    (by (clear * - hpa hpa1; omega))
  have hMeq : (⟨b.addr, b.addr + b.size + nb.size - b.addr, 0, lastAlloc 1 pre⟩ : Blk)
      = ⟨b.addr, b.size + nb.size, 0, 1⟩ := by
    rw [← hpa1, hpa]
    have : b.addr + b.size + nb.size - b.addr = b.size + nb.size := by (clear * -; omega)
    rw [this]
  rw [hMeq] at hME
  obtain ⟨hC4, hE4⟩ := hME
  have hMm : (⟨b.addr, b.size + nb.size, 0, 1⟩ : Blk) ∈
      pre ++ [⟨b.addr, b.size + nb.size, 0, 1⟩] ++ rest := by simp
  obtain ⟨m5, bk5, e5, hC5, hF5, hM5, hhd5⟩ := add_step _ lo brk hl lh _ bk2 hC4
    ⟨b.addr, b.size + nb.size, 0, 1⟩ hMm rfl (by
      intro i hi hx
      have h2 := ((hM2 i hi _).1 hx)
      have h1 := ((hM1 i hi _).1 h2.1)
      exact h1.2 rfl)
  simp only at e5 hhd5
  rw [e5, andThen_some]
  obtain ⟨f1, f2, f3⟩ := merge_finish pre [b, nb] rest bk bk5 b.addr (b.addr + b.size + nb.size)
    lo brk ⟨b.addr, b.size + nb.size, 0, 1⟩ hL1 hL2
    (by simp only [lastAlloc]; exact hL4) rfl rfl rfl
    (by rw [← hmid]; exact hfull)
    (by
      intro d hd
      simp only [List.mem_cons, List.mem_singleton, List.not_mem_nil, or_false] at hd
      rcases hd with hd | hd
      · rw [hd]; exact hfree
      · rw [hd]; exact hnf)
    (by
      intro i hi x
      rw [hM5 i hi x, hM2 i hi x, hM1 i hi x]
      simp only [List.mem_cons, List.mem_singleton, List.not_mem_nil, or_false, forall_eq_or_imp,
        forall_eq, and_assoc])
    npre npost
  refine ⟨m5, bk5, rfl, ⟨hC5, ?_, f1, f2⟩, ?_, ?_, ?_⟩
  · exact Epi_of_LFrame _ m5 lo brk hl lh _ _ hC4 hE4 hF5
  · refine ⟨⟨_, hhd5⟩, ?_⟩
    have hft := LFrame_footer _ m5 lo brk hl lh _ _ hC4 hF5 _ hMm
    simp only at hft
    rw [hft]
    exact (rd64_wr64_at _ _ _ _ rfl (by omega)).trans (by omega)
  · have c1 := CFrame_of_LFrame m m1 lo brk hl lh _ _ hC hF1
    have c2 := CFrame_of_LFrame m1 m2 lo brk hl lh _ _ hC1 hF2
    have c3 : CFrame (pre ++ b :: nb :: rest) ⟨m2, lo, brk, hl, lh⟩
        ⟨wr64 (wr64 m2 (b.addr - 8) (b.size + nb.size + 2 * 1))
          (b.addr + (b.size + nb.size) - 16) (b.size + nb.size + 2 * 1), lo, brk, hl, lh⟩ := by
      rw [hmid]
      apply CFrame_edit m2 _ lo brk hl lh pre [b, nb] rest b.addr
        (b.addr + b.size + nb.size) (lastAlloc 1 pre) hL1 hL2
        (lastAlloc_le _ _ _ _ hL1 (Nat.le_refl 1))
        (by simp only [lastAlloc]; exact hL4)
      · intro d hd
        simp only [List.mem_cons, List.mem_singleton, List.not_mem_nil, or_false] at hd
        rcases hd with hd | hd
        · rw [hd]; exact hfree
        · rw [hd]; exact hnf
      · intro c hc
        rw [wr64_other _ _ _ _ (by (clear * - hb3 hc; omega)), wr64_other _ _ _ _ (by (clear * - hb1 hc; omega))]
    have c4 := CFrame_of_LFrame _ m5 lo brk hl lh _ _ hC4 hF5
    have c5 : CFrame (pre ++ b :: nb :: rest) _ _ := CFrame_mono _ _ _ _ c4 (by
      intro d hd hd1
      simp only [List.mem_append, List.mem_cons, List.mem_singleton] at hd ⊢
      rcases hd with h | h | h | h
      · exact Or.inl (Or.inl h)
      · rw [h, hfree] at hd1; omega
      · rw [h, hnf] at hd1; omega
      · exact Or.inr h)
    exact CFrame_trans _ _ _ _ (CFrame_trans _ _ _ _ (CFrame_trans _ _ _ _ c1 c2) c3) c5
  · rw [hmid]; exact f3


/-- Case 3 of `coalesce`: only the previous block is free. -/
theorem coalesce_prev (m : Nat → Nat) (lo brk hl lh : Nat) (pre post : List Blk) (pb b : Blk)
    (bk : Nat → List Nat) (hC : Core ⟨m, lo, brk, hl, lh⟩ (pre ++ pb :: b :: post) bk)
    (hE : Epi ⟨m, lo, brk, hl, lh⟩ (pre ++ pb :: b :: post))
    (hfull : Full (pre ++ pb :: b :: post) bk) (hfree : b.alloc = 0)
    (hpf : pb.alloc = 0) (hpp : pb.palloc = 1) (hna : nextAlloc post = 1)
    (npre : ∀ d, d ∈ pre → d.alloc = 0 → d.palloc = 1)
    (npost : ∀ d, d ∈ post → d.alloc = 0 → d.palloc = 1) :
    ∃ m1 bk1, coalesce ⟨m, lo, brk, hl, lh⟩ b.addr = some (pb.addr, ⟨m1, lo, brk, hl, lh⟩) ∧
      Inv ⟨m1, lo, brk, hl, lh⟩ (pre ++ [⟨pb.addr, b.size + pb.size, 0, 1⟩] ++ post) bk1 ∧
      ((∃ t, bk1 (getlistNum (b.size + pb.size)) = pb.addr :: t) ∧
        rd64 m1 (pb.addr + (b.size + pb.size) - 16) = b.size + pb.size + 2) ∧
      CFrame (pre ++ pb :: b :: post) ⟨m, lo, brk, hl, lh⟩ ⟨m1, lo, brk, hl, lh⟩ ∧
      ∀ q s, IsAlloc (pre ++ [⟨pb.addr, b.size + pb.size, 0, 1⟩] ++ post) q s ↔
        IsAlloc (pre ++ pb :: b :: post) q s := by
  have hbm : b ∈ pre ++ pb :: b :: post :=
    List.mem_append_right _ (List.mem_cons_of_mem _ (List.mem_cons_self _ _))
  have hpbm : pb ∈ pre ++ pb :: b :: post := List.mem_append_right _ (List.mem_cons_self _ _)
  obtain ⟨hb1, hb2, hb3, hb4, hb5, hb6, htop, hlh, hhl, hbh⟩ := hC.blk hbm
  obtain ⟨hc1, hc2, hc3, hc4, hc5, hc6, _, _, _, hch⟩ := hC.blk hpbm
  have hre : pre ++ pb :: b :: post = (pre ++ [pb]) ++ b :: post := by simp
  obtain ⟨hL1, hpa1, hL3, hnx⟩ := hC.at_blk hE
  have hL3n := hL3
  simp only [Linked] at hL3n
  obtain ⟨hba, hbp, _, _, _, hL4⟩ := hL3n
  obtain ⟨r1, r2, r3, r4, r5, r6⟩ := coalesce_reads m lo brk hl lh (pre ++ [pb]) post b bk
    (by rw [← hre]; exact hC) (by rw [← hre]; exact hE) hfree
  have hftr := hC.ftr1 pb hpbm hpf
  rw [← hba] at hftr
  have hprev : b.addr - pb.size = pb.addr := by (clear * - hba; omega)
  rw [coalesce, r1, r2, andThen_some, r3, andThen_some, r4, r5, andThen_some, r6, andThen_some,
    if_neg (by omega), if_neg (by omega), if_pos (by omega),
    PREV_BLK_mk m lo brk hl lh b.addr pb.size (by omega) (by omega) htop
      hftr (by omega), andThen_some, hprev]
  obtain ⟨p1, _, p3, _, _⟩ := hdr_reads m lo brk hl lh pb.addr pb.size pb.palloc pb.alloc
    (by omega) (by omega) htop hch (by omega) hc6 hc5
  obtain ⟨m1, bk1, e1, hC1, hF1, hM1⟩ := rem_step m lo brk hl lh _ bk hC b hbm
    (hfull b hbm hfree)
  have hi1 : getlistNum pb.size < 16 := by have := getlistNum_lt pb.size; omega
  obtain ⟨m2, bk2, e2, hC2, hF2, hM2⟩ := rem_step m1 lo brk hl lh _ bk1 hC1 pb hpbm
    ((hM1 _ hi1 _).2 ⟨hfull pb hpbm hpf, by omega⟩)
  have hE1 := Epi_of_LFrame m m1 lo brk hl lh _ bk hC hE hF1
  have hE2 := Epi_of_LFrame m1 m2 lo brk hl lh _ bk1 hC1 hE1 hF2
  obtain ⟨_, _, _, _, t5⟩ := hdr_reads m2 lo brk hl lh pb.addr pb.size pb.palloc pb.alloc
    (by omega) (by omega) htop (hC2.hdr1 pb hpbm) (by (clear * - hc4; omega)) hc6 hc5
  have hsz : (b.size + pb.size) % W64 = b.size + pb.size := by simp only [W64]; (clear * - hb2 htop hc2; omega)
  rw [p1, p3, andThen_some, e1, andThen_some, e2, andThen_some]
  dsimp only
  rw [hsz, t5, andThen_some, hpp,
    PACK_eq _ _ (by (clear * - hb4 hc4; omega)) (by omega), PUT_mk _ _ _ _ _ _ _ (by (clear * - hc1; omega)) (by (clear * - hb2 hc1 hba; omega)), andThen_some]
  have hh3 : rd64 (wr64 m2 (pb.addr - 8) (b.size + pb.size + 2 * 1)) (pb.addr - 8)
      = (b.size + pb.size) + 2 * 1 + 0 := by
    rw [rd64_wr64_at _ _ _ _ rfl (by omega)]
  rw [FTRP_hdr _ lo brk hl lh pb.addr (b.size + pb.size) 1 0 (by omega) htop hh3
      (by (clear * - hb4 hc4; omega)) (by omega) (by omega) (by omega) (by omega), andThen_some,
    GET_mk _ _ _ _ _ _ (by (clear * - hc1; omega)) (by (clear * - hb2 hc1 hba; omega)), andThen_some, hh3,
    PUT_mk _ _ _ _ _ _ _ (by (clear * - hb1 hba; omega)) (by (clear * - hb1 hb2 hba; omega)), andThen_some]
  have hmid : pre ++ pb :: b :: post = pre ++ [pb, b] ++ post := by simp
  have hL2 : Linked pb.addr (lastAlloc 1 pre) [pb, b] (pb.addr + pb.size + b.size) := by
    simp only [Linked, true_and, and_true]; (clear * - hfree hpf hb3 hb4 hc3 hc4 hpa1 hba hbp; omega)
  have hL5 : Linked (pb.addr + pb.size + b.size) (lastAlloc (lastAlloc 1 pre) [pb, b]) post
      brk := by
    simp only [lastAlloc]; exact hL4
  have hME := merge_edit m2 lo brk hl lh pre [pb, b] post bk2
    (by rw [← hmid]; exact hC2) (by rw [← hmid]; exact hE2) pb.addr (pb.addr + pb.size + b.size)
    hL1 hL2 hL5 (by simp only [lastAlloc]; exact hfree)
    (by omega)
    (by
      intro i hi x hx d hd h
      have h2 := ((hM2 i hi x).1 hx)
      have h1 := ((hM1 i hi x).1 h2.1)
      simp only [List.mem_cons, List.mem_singleton, List.not_mem_nil, or_false] at hd
      rcases hd with hd | hd <;> rw [hd] at h <;> omega)
    (pb.addr - 8) (pb.addr + (b.size + pb.size) - 16) (b.size + pb.size + 2 * 1 + 0) rfl
    (by (clear * -; omega)) (by (clear * - hpp hpa1; omega))
  have hMeq : (⟨pb.addr, pb.addr + pb.size + b.size - pb.addr, 0, lastAlloc 1 pre⟩ : Blk)
      = ⟨pb.addr, b.size + pb.size, 0, 1⟩ := by
    rw [← hpa1, hpp]
    have : pb.addr + pb.size + b.size - pb.addr = b.size + pb.size := by (clear * -; omega)
    rw [this]
  rw [hMeq] at hME
  obtain ⟨hC4, hE4⟩ := hME
  have hMm : (⟨pb.addr, b.size + pb.size, 0, 1⟩ : Blk) ∈
      pre ++ [⟨pb.addr, b.size + pb.size, 0, 1⟩] ++ post := by simp
  obtain ⟨m5, bk5, e5, hC5, hF5, hM5, hhd5⟩ := add_step _ lo brk hl lh _ bk2 hC4
    ⟨pb.addr, b.size + pb.size, 0, 1⟩ hMm rfl (by
      intro i hi hx
      have h2 := ((hM2 i hi _).1 hx)
      exact h2.2 rfl)
  simp only at e5 hhd5
  rw [e5, andThen_some]
  obtain ⟨f1, f2, f3⟩ := merge_finish pre [pb, b] post bk bk5 pb.addr
    (pb.addr + pb.size + b.size) lo brk ⟨pb.addr, b.size + pb.size, 0, 1⟩ hL1 hL2 hL5
    rfl rfl rfl
    (by rw [← hmid]; exact hfull)
    (by
      intro d hd
      simp only [List.mem_cons, List.mem_singleton, List.not_mem_nil, or_false] at hd
      rcases hd with hd | hd
      · rw [hd]; exact hpf
      · rw [hd]; exact hfree)
    (by
      intro i hi x
      rw [hM5 i hi x, hM2 i hi x, hM1 i hi x]
      simp only [List.mem_cons, List.mem_singleton, List.not_mem_nil, or_false, forall_eq_or_imp,
        forall_eq, and_assoc]
      constructor
      · rintro (⟨h1, h2, h3⟩ | h)
        · exact Or.inl ⟨h1, h3, h2⟩
        · exact Or.inr h
      · rintro (⟨h1, h2, h3⟩ | h)
        · exact Or.inl ⟨h1, h3, h2⟩
        · exact Or.inr h)
    npre npost
  refine ⟨m5, bk5, rfl, ⟨hC5, ?_, f1, f2⟩, ?_, ?_, ?_⟩
  · exact Epi_of_LFrame _ m5 lo brk hl lh _ _ hC4 hE4 hF5
  · refine ⟨⟨_, hhd5⟩, ?_⟩
    have hft := LFrame_footer _ m5 lo brk hl lh _ _ hC4 hF5 _ hMm
    simp only at hft
    rw [hft]
    exact (rd64_wr64_at _ _ _ _ rfl (by omega)).trans (by omega)
  · have c1 := CFrame_of_LFrame m m1 lo brk hl lh _ _ hC hF1
    have c2 := CFrame_of_LFrame m1 m2 lo brk hl lh _ _ hC1 hF2
    have c3 : CFrame (pre ++ pb :: b :: post) ⟨m2, lo, brk, hl, lh⟩
        ⟨wr64 (wr64 m2 (pb.addr - 8) (b.size + pb.size + 2 * 1 + 0))
          (pb.addr + (b.size + pb.size) - 16) (b.size + pb.size + 2 * 1 + 0),
          lo, brk, hl, lh⟩ := by
      rw [hmid]
      apply CFrame_edit m2 _ lo brk hl lh pre [pb, b] post pb.addr
        (pb.addr + pb.size + b.size) (lastAlloc 1 pre) hL1 hL2
        (lastAlloc_le _ _ _ _ hL1 (Nat.le_refl 1)) hL5
      · intro d hd
        simp only [List.mem_cons, List.mem_singleton, List.not_mem_nil, or_false] at hd
        rcases hd with hd | hd
        · rw [hd]; exact hpf
        · rw [hd]; exact hfree
      · intro c hc
        rw [wr64_other _ _ _ _ (by (clear * - hb3 hc; omega)), wr64_other _ _ _ _ (by (clear * - hc1 hc; omega))]
    have c4 := CFrame_of_LFrame _ m5 lo brk hl lh _ _ hC4 hF5
    have c5 : CFrame (pre ++ pb :: b :: post) _ _ := CFrame_mono _ _ _ _ c4 (by
      intro d hd hd1
      simp only [List.mem_append, List.mem_cons, List.mem_singleton] at hd ⊢
      rcases hd with h | h | h | h
      · exact Or.inl (Or.inl h)
      · rw [h, hpf] at hd1; omega
      · rw [h, hfree] at hd1; omega
      · exact Or.inr h)
    exact CFrame_trans _ _ _ _ (CFrame_trans _ _ _ _ (CFrame_trans _ _ _ _ c1 c2) c3) c5
  · rw [hmid]; exact f3


/-- Case 4 of `coalesce`: both neighbours are free. -/
theorem coalesce_both (m : Nat → Nat) (lo brk hl lh : Nat) (pre rest : List Blk)
    (pb b nb : Blk) (bk : Nat → List Nat)
    (hC : Core ⟨m, lo, brk, hl, lh⟩ (pre ++ pb :: b :: nb :: rest) bk)
    (hE : Epi ⟨m, lo, brk, hl, lh⟩ (pre ++ pb :: b :: nb :: rest))
    (hfull : Full (pre ++ pb :: b :: nb :: rest) bk) (hfree : b.alloc = 0)
    (hpf : pb.alloc = 0) (hpp : pb.palloc = 1) (hnf : nb.alloc = 0)
    (npre : ∀ d, d ∈ pre → d.alloc = 0 → d.palloc = 1)
    (npost : ∀ d, d ∈ rest → d.alloc = 0 → d.palloc = 1) :
    ∃ m1 bk1, coalesce ⟨m, lo, brk, hl, lh⟩ b.addr = some (pb.addr, ⟨m1, lo, brk, hl, lh⟩) ∧
      Inv ⟨m1, lo, brk, hl, lh⟩
        (pre ++ [⟨pb.addr, b.size + (pb.size + nb.size), 0, 1⟩] ++ rest) bk1 ∧
      ((∃ t, bk1 (getlistNum (b.size + (pb.size + nb.size))) = pb.addr :: t) ∧
        rd64 m1 (pb.addr + (b.size + (pb.size + nb.size)) - 16) =
          b.size + (pb.size + nb.size) + 2) ∧
      CFrame (pre ++ pb :: b :: nb :: rest) ⟨m, lo, brk, hl, lh⟩ ⟨m1, lo, brk, hl, lh⟩ ∧
      ∀ q s, IsAlloc (pre ++ [⟨pb.addr, b.size + (pb.size + nb.size), 0, 1⟩] ++ rest) q s ↔
        IsAlloc (pre ++ pb :: b :: nb :: rest) q s := by
  have hbm : b ∈ pre ++ pb :: b :: nb :: rest :=
    List.mem_append_right _ (List.mem_cons_of_mem _ (List.mem_cons_self _ _))
  have hpbm : pb ∈ pre ++ pb :: b :: nb :: rest :=
    List.mem_append_right _ (List.mem_cons_self _ _)
  have hnbm : nb ∈ pre ++ pb :: b :: nb :: rest :=
    List.mem_append_right _ (List.mem_cons_of_mem _ (List.mem_cons_of_mem _
      (List.mem_cons_self _ _)))
  obtain ⟨hb1, hb2, hb3, hb4, hb5, hb6, htop, hlh, hhl, hbh⟩ := hC.blk hbm
  obtain ⟨hc1, hc2, hc3, hc4, hc5, hc6, _, _, _, hch⟩ := hC.blk hpbm
  obtain ⟨hd1, hd2, hd3, hd4, hd5, hd6, _, _, _, hdh⟩ := hC.blk hnbm
  have hre : pre ++ pb :: b :: nb :: rest = (pre ++ [pb]) ++ b :: nb :: rest := by simp
  obtain ⟨hL1, hpa1, hL3, hnx⟩ := hC.at_blk hE
  have hL3n := hL3
  simp only [Linked] at hL3n
  obtain ⟨hba, hbp, _, _, _, hna, hnp, _, _, _, hL4⟩ := hL3n
  obtain ⟨r1, r2, r3, r4, r5, r6⟩ := coalesce_reads m lo brk hl lh (pre ++ [pb]) _ b bk
    (by rw [← hre]; exact hC) (by rw [← hre]; exact hE) hfree
  simp only [nextAlloc] at r5
  have hftr := hC.ftr1 pb hpbm hpf
  rw [← hba] at hftr
  have hprev : b.addr - pb.size = pb.addr := by (clear * - hba; omega)
  obtain ⟨p1, _, p3, _, _⟩ := hdr_reads m lo brk hl lh pb.addr pb.size pb.palloc pb.alloc
    (by omega) (by (clear * - hd2 hna; omega)) htop hch (by (clear * - hc4; omega)) hc6 hc5
  obtain ⟨n1, _, n3, _, _⟩ := hdr_reads m lo brk hl lh nb.addr nb.size nb.palloc nb.alloc
    (by omega) (by omega) htop hdh (by (clear * - hd4; omega)) hd6 hd5
  have hnaddr : b.addr + b.size = nb.addr := by (clear * - hba hna; omega)
  rw [coalesce, r1, r2, andThen_some, r3, andThen_some, r4, r5, andThen_some, r6, andThen_some,
    if_neg (by omega), if_neg (by (clear * - hpf hbp; omega)), if_neg (by omega),
    PREV_BLK_mk m lo brk hl lh b.addr pb.size (by (clear * - hb1; omega)) (by omega) htop
      hftr (by (clear * - hba; omega)), andThen_some, hprev]
  dsimp only
  rw [andThen_some, hnaddr, p1, p3, andThen_some, n1, n3, andThen_some]
  obtain ⟨m1, bk1, e1, hC1, hF1, hM1⟩ := rem_step m lo brk hl lh _ bk hC b hbm
    (hfull b hbm hfree)
  have hi1 : getlistNum pb.size < 16 := by have := getlistNum_lt pb.size; omega
  have hi2 : getlistNum nb.size < 16 := by have := getlistNum_lt nb.size; omega
  obtain ⟨m2, bk2, e2, hC2, hF2, hM2⟩ := rem_step m1 lo brk hl lh _ bk1 hC1 pb hpbm
    ((hM1 _ hi1 _).2 ⟨hfull pb hpbm hpf, by omega⟩)
  obtain ⟨m3, bk3, e3, hC3, hF3, hM3⟩ := rem_step m2 lo brk hl lh _ bk2 hC2 nb hnbm
    ((hM2 _ hi2 _).2 ⟨(hM1 _ hi2 _).2 ⟨hfull nb hnbm hnf, by omega⟩, by omega⟩)
  have hE1 := Epi_of_LFrame m m1 lo brk hl lh _ bk hC hE hF1
  have hE2 := Epi_of_LFrame m1 m2 lo brk hl lh _ bk1 hC1 hE1 hF2
  have hE3 := Epi_of_LFrame m2 m3 lo brk hl lh _ bk2 hC2 hE2 hF3
  obtain ⟨_, _, _, _, t5⟩ := hdr_reads m3 lo brk hl lh pb.addr pb.size pb.palloc pb.alloc
    (by (clear * - hc1; omega)) (by (clear * - hd2 hna; omega)) htop (hC3.hdr1 pb hpbm) (by (clear * - hc4; omega)) hc6 hc5
  have hsz : (b.size + (pb.size + nb.size) % W64) % W64 = b.size + (pb.size + nb.size) := by
    simp only [W64]; (clear * - hb2 htop hd2 hba; omega)
  rw [e1, andThen_some, e2, andThen_some, e3, andThen_some, hsz, t5, andThen_some, hpp,
    PACK_eq _ _ (by (clear * - hb4 hc4 hd4; omega)) (by omega), PUT_mk _ _ _ _ _ _ _ (by (clear * - hc1; omega)) (by (clear * - hc1 hd2 hna; omega)), andThen_some]
  have hh3 : rd64 (wr64 m3 (pb.addr - 8) (b.size + (pb.size + nb.size) + 2 * 1)) (pb.addr - 8)
      = (b.size + (pb.size + nb.size)) + 2 * 1 + 0 := by
    rw [rd64_wr64_at _ _ _ _ rfl (by (clear * - htop hd2 hna; omega))]
  rw [FTRP_hdr _ lo brk hl lh pb.addr (b.size + (pb.size + nb.size)) 1 0 (by omega) htop hh3
      (by (clear * - hb4 hc4 hd4; omega)) (by omega) (by omega) (by omega) (by (clear * - hd2 hna; omega)), andThen_some,
    GET_mk _ _ _ _ _ _ (by (clear * - hc1; omega)) (by (clear * - hc1 hd2 hna; omega)), andThen_some, hh3,
    PUT_mk _ _ _ _ _ _ _ (by (clear * - hc1; omega)) (by (clear * - hd1 hd2 hna; omega)), andThen_some]
  have hmid : pre ++ pb :: b :: nb :: rest = pre ++ [pb, b, nb] ++ rest := by simp
  have hL2 : Linked pb.addr (lastAlloc 1 pre) [pb, b, nb]
      (pb.addr + pb.size + b.size + nb.size) := by
    simp only [Linked, true_and, and_true]; (clear * - hfree hpf hnf hb3 hb4 hc3 hc4 hd3 hd4 hpa1 hba hbp hna hnp; omega)
  have hL5 : Linked (pb.addr + pb.size + b.size + nb.size)
      (lastAlloc (lastAlloc 1 pre) [pb, b, nb]) rest brk := by
    simp only [lastAlloc]; exact hL4
  have hmf : ∀ d, d ∈ [pb, b, nb] → d.alloc = 0 := by
    intro d hd
    simp only [List.mem_cons, List.mem_singleton, List.not_mem_nil, or_false] at hd
    rcases hd with hd | hd | hd
    · rw [hd]; exact hpf
    · rw [hd]; exact hfree
    · rw [hd]; exact hnf
  have hME := merge_edit m3 lo brk hl lh pre [pb, b, nb] rest bk3
    (by rw [← hmid]; exact hC3) (by rw [← hmid]; exact hE3) pb.addr
    (pb.addr + pb.size + b.size + nb.size)
    hL1 hL2 hL5 (by simp only [lastAlloc]; exact hnf)
    (by omega)
    (by
      intro i hi x hx d hd h
      have h3 := ((hM3 i hi x).1 hx)
      have h2 := ((hM2 i hi x).1 h3.1)
      have h1 := ((hM1 i hi x).1 h2.1)
      simp only [List.mem_cons, List.mem_singleton, List.not_mem_nil, or_false] at hd
      rcases hd with hd | hd | hd <;> rw [hd] at h <;> (clear * - h h2 h1 h3; omega))
    (pb.addr - 8) (pb.addr + (b.size + (pb.size + nb.size)) - 16)
    (b.size + (pb.size + nb.size) + 2 * 1 + 0) rfl (by (clear * -; omega)) (by (clear * - hpp hpa1; omega))
  have hMeq : (⟨pb.addr, pb.addr + pb.size + b.size + nb.size - pb.addr, 0,
      lastAlloc 1 pre⟩ : Blk) = ⟨pb.addr, b.size + (pb.size + nb.size), 0, 1⟩ := by
    rw [← hpa1, hpp]
    have : pb.addr + pb.size + b.size + nb.size - pb.addr = b.size + (pb.size + nb.size) := by
      (clear * -; omega)
    rw [this]
  rw [hMeq] at hME
  obtain ⟨hC4, hE4⟩ := hME
  have hMm : (⟨pb.addr, b.size + (pb.size + nb.size), 0, 1⟩ : Blk) ∈
      pre ++ [⟨pb.addr, b.size + (pb.size + nb.size), 0, 1⟩] ++ rest := by simp
  obtain ⟨m5, bk5, e5, hC5, hF5, hM5, hhd5⟩ := add_step _ lo brk hl lh _ bk3 hC4
    ⟨pb.addr, b.size + (pb.size + nb.size), 0, 1⟩ hMm rfl (by
      intro i hi hx
      have h3 := ((hM3 i hi _).1 hx)
      have h2 := ((hM2 i hi _).1 h3.1)
      exact h2.2 rfl)
  simp only at e5 hhd5
  rw [e5, andThen_some]
  obtain ⟨f1, f2, f3⟩ := merge_finish pre [pb, b, nb] rest bk bk5 pb.addr
    (pb.addr + pb.size + b.size + nb.size) lo brk
    ⟨pb.addr, b.size + (pb.size + nb.size), 0, 1⟩ hL1 hL2 hL5
    rfl rfl rfl
    (by rw [← hmid]; exact hfull) hmf
    (by
      intro i hi x
      rw [hM5 i hi x, hM3 i hi x, hM2 i hi x, hM1 i hi x]
      simp only [List.mem_cons, List.mem_singleton, List.not_mem_nil, or_false, forall_eq_or_imp,
        forall_eq, and_assoc]
      constructor
      · rintro (⟨h1, h2, h3, h4⟩ | h)
        · exact Or.inl ⟨h1, h3, h2, h4⟩
        · exact Or.inr h
      · rintro (⟨h1, h2, h3, h4⟩ | h)
        · exact Or.inl ⟨h1, h3, h2, h4⟩
        · exact Or.inr h)
    npre npost
  refine ⟨m5, bk5, rfl, ⟨hC5, ?_, f1, f2⟩, ?_, ?_, ?_⟩
  · exact Epi_of_LFrame _ m5 lo brk hl lh _ _ hC4 hE4 hF5
  · refine ⟨⟨_, hhd5⟩, ?_⟩
    have hft := LFrame_footer _ m5 lo brk hl lh _ _ hC4 hF5 _ hMm
    simp only at hft
    rw [hft]
    exact (rd64_wr64_at _ _ _ _ rfl (by (clear * - htop hd2 hna; omega))).trans (by omega)
  · have c1 := CFrame_of_LFrame m m1 lo brk hl lh _ _ hC hF1
    have c2 := CFrame_of_LFrame m1 m2 lo brk hl lh _ _ hC1 hF2
    have c2b := CFrame_of_LFrame m2 m3 lo brk hl lh _ _ hC2 hF3
    have c4 := CFrame_merged pre [pb, b, nb] rest _ _ _ hmf
      (CFrame_of_LFrame _ m5 lo brk hl lh _ _ hC4 hF5)
    have hw1 : b.addr + 8 ≤ pb.addr + (b.size + (pb.size + nb.size)) := by omega
    have hw2 : pb.addr + (b.size + (pb.size + nb.size)) ≤ pb.addr + pb.size + b.size +
        nb.size := by omega
    have c3 := CFrame_edit m3 (wr64 (wr64 m3 (pb.addr - 8)
        (b.size + (pb.size + nb.size) + 2 * 1 + 0))
        (pb.addr + (b.size + (pb.size + nb.size)) - 16)
        (b.size + (pb.size + nb.size) + 2 * 1 + 0)) lo brk hl lh pre [pb, b, nb] rest pb.addr
      (pb.addr + pb.size + b.size + nb.size) (lastAlloc 1 pre) hL1 hL2
      (lastAlloc_le _ _ _ _ hL1 (Nat.le_refl 1)) hL5 hmf
      (fun c hc => by rw [wr64_other _ _ _ _ (by (clear * - hc3 hc; omega)), wr64_other _ _ _ _ (by (clear * - hc1 hc; omega))])
    rw [hmid] at c1 c2 c2b ⊢
    exact CFrame_trans _ _ _ _ (CFrame_trans _ _ _ _ (CFrame_trans _ _ _ _
      (CFrame_trans _ _ _ _ c1 c2) c2b) c3) c4
  · rw [hmid]; exact f3


theorem lastAlloc_zero (pre : List Blk) (h : lastAlloc 1 pre = 0) :
    ∃ pre1 pb, pre = pre1 ++ [pb] ∧ pb.alloc = 0 := by
  rcases List.eq_nil_or_concat pre with h1 | ⟨L, p, h1⟩
  · subst h1; simp [lastAlloc] at h
  · rw [List.concat_eq_append] at h1
    subst h1
    rw [lastAlloc_append] at h
    exact ⟨L, p, rfl, h⟩

theorem nextAlloc_zero (post : List Blk) (h : nextAlloc post = 0) :
    ∃ nb rest, post = nb :: rest ∧ nb.alloc = 0 := by
  cases post with
  | nil => simp [nextAlloc] at h
  | cons c cs => exact ⟨c, cs, rfl, h⟩

theorem npost_of_tail (post : List Blk) (hna : nextAlloc post = 1)
    (npost : ∀ d, d ∈ post.tail → d.alloc = 0 → d.palloc = 1) :
    ∀ d, d ∈ post → d.alloc = 0 → d.palloc = 1 := by
  intro d hd hda
  cases post with
  | nil => simp at hd
  | cons c cs =>
    simp only [nextAlloc] at hna
    rcases List.mem_cons.1 hd with h | h
    · rw [h] at hda; omega
    · exact npost d h hda

/-- The function `coalesce` on a listed free block whose neighbourhood is the only place
where two free blocks may be adjacent: the result covers the block, and it
heads its list when the block headed its own. -/
theorem coalesce_cover (m : Nat → Nat) (lo brk hl lh : Nat) (pre post : List Blk) (b : Blk)
    (bk : Nat → List Nat) (hC : Core ⟨m, lo, brk, hl, lh⟩ (pre ++ b :: post) bk)
    (hE : Epi ⟨m, lo, brk, hl, lh⟩ (pre ++ b :: post))
    (hfull : Full (pre ++ b :: post) bk) (hfree : b.alloc = 0)
    (npre : ∀ d, d ∈ pre → d.alloc = 0 → d.palloc = 1)
    (npost : ∀ d, d ∈ post.tail → d.alloc = 0 → d.palloc = 1) :
    ∃ m1 bs1 bk1 r, coalesce ⟨m, lo, brk, hl, lh⟩ b.addr = some (r.addr, ⟨m1, lo, brk, hl, lh⟩) ∧
      Inv ⟨m1, lo, brk, hl, lh⟩ bs1 bk1 ∧ r ∈ bs1 ∧ r.alloc = 0 ∧ b.size ≤ r.size ∧
      CFrame (pre ++ b :: post) ⟨m, lo, brk, hl, lh⟩ ⟨m1, lo, brk, hl, lh⟩ ∧
      (∀ q s, IsAlloc bs1 q s ↔ IsAlloc (pre ++ b :: post) q s) ∧
      r.addr ≤ b.addr ∧ b.addr + b.size ≤ r.addr + r.size ∧
      ((∃ t0, bk (getlistNum b.size) = b.addr :: t0) →
        ∃ t, bk1 (getlistNum r.size) = r.addr :: t) := by
  have hbm : b ∈ pre ++ b :: post := List.mem_append_right _ (List.mem_cons_self _ _)
  obtain ⟨hb1, hb2, hb3, hb4, hb5, hb6, htop, hlh, hhl, hbh⟩ := hC.blk hbm
  obtain ⟨hL1, hpa1, hL3, hnx⟩ := hC.at_blk hE
  obtain ⟨hn1, hn2, hn3, hn4, hn5⟩ := nextInfo post _ _ _ hL3
  by_cases hp : b.palloc = 1
  · by_cases hn : nextAlloc post = 1
    · refine ⟨m, pre ++ b :: post, bk, b,
        coalesce_none m lo brk hl lh pre post b bk hC hE hfree hp hn,
        ⟨hC, hE, hfull, NoAdj_none pre post b _ _ hL3 hp hn npre npost⟩, hbm, hfree,
        Nat.le_refl _, CFrame_refl _ _, fun q s => Iff.rfl, Nat.le_refl _, Nat.le_refl _,
        fun h => h⟩
    · obtain ⟨nb, rest, hpost, hnf⟩ := nextAlloc_zero post (by omega)
      subst hpost
      obtain ⟨m1, bk1, e1, hI1, hx, c1, f1⟩ := coalesce_next m lo brk hl lh pre rest b nb bk hC hE
        hfull hfree hp hnf npre npost
      exact ⟨m1, _, bk1, ⟨b.addr, b.size + nb.size, 0, 1⟩, e1, hI1, by simp, rfl,
        by simp, c1, f1, Nat.le_refl _, by simp only; omega, fun _ => hx.1⟩
  · obtain ⟨pre1, pb, hpre, hpf⟩ := lastAlloc_zero pre (by (clear * - hb6 hpa1 hp; omega))
    subst hpre
    have hpp : pb.palloc = 1 := npre pb (List.mem_append_right _ (List.mem_singleton_self _)) hpf
    have npre1 : ∀ d, d ∈ pre1 → d.alloc = 0 → d.palloc = 1 := fun d hd =>
      npre d (List.mem_append_left _ hd)
    have hadj : pb.addr + pb.size = b.addr := by
      rw [Linked_append] at hL1
      obtain ⟨mid, _, h2⟩ := hL1
      simp only [Linked] at h2
      omega
    have hre : pre1 ++ [pb] ++ b :: post = pre1 ++ pb :: b :: post := by simp
    rw [hre] at hC hE hfull ⊢
    by_cases hn : nextAlloc post = 1
    · obtain ⟨m1, bk1, e1, hI1, hx, c1, f1⟩ := coalesce_prev m lo brk hl lh pre1 post pb b bk hC
        hE hfull hfree hpf hpp hn npre1 (npost_of_tail post hn npost)
      exact ⟨m1, _, bk1, ⟨pb.addr, b.size + pb.size, 0, 1⟩, e1, hI1, by simp, rfl,
        by simp, c1, f1, by simp only; omega, by simp only; omega, fun _ => hx.1⟩
    · obtain ⟨nb, rest, hpost, hnf⟩ := nextAlloc_zero post (by omega)
      subst hpost
      obtain ⟨m1, bk1, e1, hI1, hx, c1, f1⟩ := coalesce_both m lo brk hl lh pre1 rest pb b nb bk
        hC hE hfull hfree hpf hpp hnf npre1 npost
      exact ⟨m1, _, bk1, ⟨pb.addr, b.size + (pb.size + nb.size), 0, 1⟩, e1, hI1, by simp, rfl,
        by simp, c1, f1, by simp only; omega, by simp only; omega, fun _ => hx.1⟩

/-- The function `coalesce` on a listed free block whose neighbourhood is the only place
where two free blocks may be adjacent. -/
theorem coalesce_spec (m : Nat → Nat) (lo brk hl lh : Nat) (pre post : List Blk) (b : Blk)
    (bk : Nat → List Nat) (hC : Core ⟨m, lo, brk, hl, lh⟩ (pre ++ b :: post) bk)
    (hE : Epi ⟨m, lo, brk, hl, lh⟩ (pre ++ b :: post))
    (hfull : Full (pre ++ b :: post) bk) (hfree : b.alloc = 0)
    (npre : ∀ d, d ∈ pre → d.alloc = 0 → d.palloc = 1)
    (npost : ∀ d, d ∈ post.tail → d.alloc = 0 → d.palloc = 1) :
    ∃ m1 bs1 bk1 r, coalesce ⟨m, lo, brk, hl, lh⟩ b.addr = some (r.addr, ⟨m1, lo, brk, hl, lh⟩) ∧
      Inv ⟨m1, lo, brk, hl, lh⟩ bs1 bk1 ∧ r ∈ bs1 ∧ r.alloc = 0 ∧ b.size ≤ r.size ∧
      CFrame (pre ++ b :: post) ⟨m, lo, brk, hl, lh⟩ ⟨m1, lo, brk, hl, lh⟩ ∧
      ∀ q s, IsAlloc bs1 q s ↔ IsAlloc (pre ++ b :: post) q s := by
  obtain ⟨m1, bs1, bk1, r, h1, h2, h3, h4, h5, h6, h7, _⟩ :=
    coalesce_cover m lo brk hl lh pre post b bk hC hE hfull hfree npre npost
  exact ⟨m1, bs1, bk1, r, h1, h2, h3, h4, h5, h6, h7⟩


theorem tail_setPA (v : Nat) (post : List Blk) : (setPA v post).tail = post.tail := by
  cases post <;> rfl

/-- The first part of `free`: the block is marked free (header and footer
rewritten, previous-allocated bit of the next header cleared) and put at the
head of the list of its size; `coalesce` then runs on the resulting heap. -/
theorem free_marked (m : Nat → Nat) (lo brk hl lh : Nat) (pre post : List Blk) (b : Blk)
    (bk : Nat → List Nat) (hI : Inv ⟨m, lo, brk, hl, lh⟩ (pre ++ b :: post) bk)
    (hal : b.alloc = 1) :
    ∃ m5 bk5, free ⟨m, lo, brk, hl, lh⟩ b.addr =
        andThen (coalesce ⟨m5, lo, brk, hl, lh⟩ b.addr) (fun r => some r.2) ∧
      Core ⟨m5, lo, brk, hl, lh⟩ (pre ++ (⟨b.addr, b.size, 0, b.palloc⟩ : Blk) :: setPA 0 post)
        bk5 ∧
      Epi ⟨m5, lo, brk, hl, lh⟩ (pre ++ (⟨b.addr, b.size, 0, b.palloc⟩ : Blk) :: setPA 0 post) ∧
      Full (pre ++ (⟨b.addr, b.size, 0, b.palloc⟩ : Blk) :: setPA 0 post) bk5 ∧
      (∃ t, bk5 (getlistNum b.size) = b.addr :: t) ∧
      (∀ c, (∃ d1, d1 ∈ pre ++ (⟨b.addr, b.size, 0, b.palloc⟩ : Blk) :: setPA 0 post ∧
        d1.alloc = 1 ∧ d1.addr ≤ c ∧ c < d1.addr + d1.size - 8) → m5 c = m c) ∧
      rd64 m5 (b.addr + b.size - 16) = b.size + 2 * b.palloc := by
  have hbm : b ∈ pre ++ b :: post := List.mem_append_right _ (List.mem_cons_self _ _)
  have hC := hI.core
  have hE := hI.epi
  obtain ⟨hb1, hb2, hb3, hb4, hb5, hb6, htop, hlh, hhl, hbh⟩ := hC.blk hbm
  obtain ⟨hL1, hpa, hL3, hnx⟩ := hC.at_blk hE
  obtain ⟨hn1, hn2, hn3, hn4, hn5⟩ := nextInfo post _ _ _ hL3
  obtain ⟨r1, r2, r3, r4, r5⟩ := hdr_reads m lo brk hl lh b.addr b.size b.palloc b.alloc
    (by omega) (by omega) htop hbh (by (clear * - hb4; omega)) hb6 hb5
  have hh2 : rd64 (wr64 m (b.addr - 8) (b.size + 2 * b.palloc)) (b.addr - 8)
      = b.size + 2 * b.palloc + 0 := by
    rw [rd64_wr64_at _ _ _ _ rfl (by omega)]; (clear * -; omega)
  have hn2v : rd64 (wr64 (wr64 m (b.addr - 8) (b.size + 2 * b.palloc)) (b.addr + b.size - 16)
      (b.size + 2 * b.palloc + 0)) (b.addr + b.size - 8)
      = nextSize post + 2 * b.alloc + nextAlloc post := by
    rw [rd64_wr64_other _ _ _ _ (by (clear * - hb3; omega)), rd64_wr64_other _ _ _ _ (by (clear * - hb3; omega)), hnx]
  rw [free, NEXT_BLK_hdr m lo brk hl lh b.addr b.size b.palloc b.alloc (by omega) htop hbh
      (by (clear * - hb4; omega)) hb6 hb5 hb2, andThen_some]
  simp only [NULL]
  rw [if_neg (by omega), r1, r3, andThen_some, r5, andThen_some,
    lor_eq_add _ _ (by (clear * - hb4; omega)) (by omega), PUT_mk _ _ _ _ _ _ _ (by (clear * - hb1; omega)) (by (clear * - hb1 hn3; omega)),
    andThen_some,
    FTRP_hdr _ lo brk hl lh b.addr b.size b.palloc 0 (by omega) htop hh2
      (by (clear * - hb4; omega)) hb6 (by omega) (by omega) (by omega), andThen_some,
    GET_mk _ _ _ _ _ _ (by omega) (by (clear * - hb1 hn3; omega)), andThen_some, hh2,
    PUT_mk _ _ _ _ _ _ _ (by omega) (by omega), andThen_some,
    HDRP_eq _ (by omega) (by omega), GET_SIZE_mk _ _ _ _ _ _ (by omega) (by omega), andThen_some,
    GET_ALLOC_mk _ _ _ _ _ _ (by (clear * - hb1; omega)) (by omega), andThen_some, hn2v, hal]
  have hv1 : nextSize post + 2 * 1 + nextAlloc post
      - (nextSize post + 2 * 1 + nextAlloc post) % 8 = nextSize post := by (clear * - hn1 hn2; omega)
  have hv2 : (nextSize post + 2 * 1 + nextAlloc post) % 2 = nextAlloc post := by (clear * - hn1 hn2; omega)
  rw [hv1, hv2, lor_eq_add _ _ (by omega) (by omega),
    PUT_mk _ _ _ _ _ _ _ (by omega) (by omega), andThen_some]
  -- the chain with `b` marked free
  have hnotl : ∀ i, i < 16 → b.addr ∉ bk i := by
    intro i hi hx
    rcases hC.listed_blk hi hx hbm with h | h | h <;> omega
  have hCE := Core_edit m (wr64 (wr64 (wr64 m (b.addr - 8) (b.size + 2 * b.palloc))
      (b.addr + b.size - 16) (b.size + 2 * b.palloc + 0)) (b.addr + b.size - 8)
      (nextSize post + nextAlloc post)) lo brk hl lh pre [b]
      [⟨b.addr, b.size, 0, b.palloc⟩] post bk
      (by rw [← mid_eq]; exact hC) (by rw [← mid_eq]; exact hE) b.addr (b.addr + b.size) hL1
      (by simp only [Linked, true_and, and_true]; (clear * - hal hb3 hb4 hpa; omega))
      (by simp only [lastAlloc]; exact hL3)
      (by simp only [Linked, true_and, and_true]; (clear * - hb3 hb4 hpa; omega))
      (by
        intro c hc
        rw [wr64_other _ _ _ _ (by (clear * - hb3 hc; omega)), wr64_other _ _ _ _ (by (clear * - hb3 hc; omega)),
          wr64_other _ _ _ _ (by (clear * - hb1 hc; omega))])
      (by
        intro d hd
        simp only [List.mem_singleton] at hd
        subst hd
        simp only [Blk.hdr]
        simp (disch := omega) only [rd64_wr64_other, rd64_wr64_at]
        omega)
      (by
        intro d hd hda
        simp only [List.mem_singleton] at hd
        subst hd
        simp only
        rw [rd64_wr64_other _ _ _ _ (by (clear * - hb3; omega)), rd64_wr64_at _ _ _ _ rfl (by omega)]
        (clear * - hb4 hb6; omega))
      (by
        simp only [lastAlloc, nextHdr]
        rw [rd64_wr64_at _ _ _ _ rfl (by (clear * - htop hn3 hv2; omega))]
        omega)
      (by
        intro i hi x hx d hd h
        rw [List.mem_singleton.1 hd] at h
        rw [← h] at hx
        exact hnotl i hi hx)
  simp only [lastAlloc] at hCE
  obtain ⟨hC4, hE4⟩ := hCE
  have hb0m : (⟨b.addr, b.size, 0, b.palloc⟩ : Blk) ∈
      pre ++ [⟨b.addr, b.size, 0, b.palloc⟩] ++ setPA 0 post := by simp
  obtain ⟨m5, bk5, e5, hC5, hF5, hM5, hhd5⟩ := add_step _ lo brk hl lh _ bk hC4
    ⟨b.addr, b.size, 0, b.palloc⟩ hb0m rfl hnotl
  simp only at e5 hhd5
  have hE5 := Epi_of_LFrame _ m5 lo brk hl lh _ _ hC4 hE4 hF5
  have hre : pre ++ [⟨b.addr, b.size, 0, b.palloc⟩] ++ setPA 0 post
      = pre ++ (⟨b.addr, b.size, 0, b.palloc⟩ : Blk) :: setPA 0 post := by simp
  have hft5 := LFrame_footer _ m5 lo brk hl lh _ _ hC4 hF5 _ hb0m
  simp only at hft5
  rw [hre] at hC5 hE5 hC4 hF5
  have hfull5 : Full (pre ++ (⟨b.addr, b.size, 0, b.palloc⟩ : Blk) :: setPA 0 post) bk5 := by
    intro d hd hda
    have hidx : getlistNum d.size < 16 := by have := getlistNum_lt d.size; omega
    rw [hM5 _ hidx]
    simp only [List.mem_append, List.mem_cons] at hd
    rcases hd with h | h | h
    · exact Or.inl (hI.full d (List.mem_append_left _ h) hda)
    · right; rw [h]; exact ⟨rfl, rfl⟩
    · obtain ⟨c, hc, hc1, hc2, hc3, _⟩ := mem_setPA 0 post d h
      left
      rw [← hc1, ← hc2]
      exact hI.full c (List.mem_append_right _ (List.mem_cons_of_mem _ hc))
        (by rw [hc3]; exact hda)
  refine ⟨m5, bk5, by rw [e5, andThen_some], hC5, hE5, hfull5, ⟨_, hhd5⟩, ?_, ?_⟩
  · intro c hc
    have s2 := CFrame_of_LFrame _ m5 lo brk hl lh _ _ hC4 hF5 c hc
    obtain ⟨d, hd, hd1, hd3, hd4⟩ := hc
    have hd5 := hC4.blk hd
    have hb0 : (⟨b.addr, b.size, 0, b.palloc⟩ : Blk) ∈
        pre ++ (⟨b.addr, b.size, 0, b.palloc⟩ : Blk) :: setPA 0 post :=
      List.mem_append_right _ (List.mem_cons_self _ _)
    have hd6 := hC4.sep hd hb0
    simp only at s2 hd6
    rw [s2, wr64_other _ _ _ _ (by (clear * - hb3 hd3 hd4 hd6; omega)), wr64_other _ _ _ _ (by (clear * - hb3 hd1 hd3 hd4 hd6; omega)),
      wr64_other _ _ _ _ (by (clear * - hb3 hd1 hd3 hd4 hd6; omega))]
  · rw [hft5, rd64_wr64_other _ _ _ _ (by (clear * - hb3; omega)), rd64_wr64_at _ _ _ _ rfl (by omega)]
    omega

/-- The function `free` of an allocated block of the chain; the free block that
covers it afterwards heads its list. -/
theorem free_cover (m : Nat → Nat) (lo brk hl lh : Nat) (pre post : List Blk) (b : Blk)
    (bk : Nat → List Nat) (hI : Inv ⟨m, lo, brk, hl, lh⟩ (pre ++ b :: post) bk)
    (hal : b.alloc = 1) :
    ∃ m1 bs1 bk1, free ⟨m, lo, brk, hl, lh⟩ b.addr = some ⟨m1, lo, brk, hl, lh⟩ ∧
      Inv ⟨m1, lo, brk, hl, lh⟩ bs1 bk1 ∧
      (∀ c, (∃ d, d ∈ pre ++ b :: post ∧ d.alloc = 1 ∧ d.addr ≠ b.addr ∧ d.addr ≤ c ∧
        c < d.addr + d.size - 8) → m1 c = m c) ∧
      (∀ q s, IsAlloc bs1 q s ↔ IsAlloc (pre ++ b :: post) q s ∧ q ≠ b.addr) ∧
      ∃ r, r ∈ bs1 ∧ r.alloc = 0 ∧ r.addr ≤ b.addr ∧ b.addr + b.size ≤ r.addr + r.size ∧
        ∃ t, bk1 (getlistNum r.size) = r.addr :: t := by
  have hbm : b ∈ pre ++ b :: post := List.mem_append_right _ (List.mem_cons_self _ _)
  have hC := hI.core
  have hE := hI.epi
  obtain ⟨hb1, hb2, hb3, hb4, hb5, hb6, htop, hlh, hhl, hbh⟩ := hC.blk hbm
  obtain ⟨hL1, hpa, hL3, hnx⟩ := hC.at_blk hE
  obtain ⟨m5, bk5, e5, hC5, hE5, hfull5, ⟨t5, hhd5⟩, fr5, _⟩ := free_marked m lo brk hl lh pre
    post b bk hI hal
  obtain ⟨m6, bs6, bk6, r, e6, hI6, hr1, hr2, _, c6, f6, hr3, hr4, hr5⟩ := coalesce_cover m5
    lo brk hl lh pre
    (setPA 0 post) ⟨b.addr, b.size, 0, b.palloc⟩ bk5 hC5 hE5 hfull5 rfl
    (fun d hd => hI.noadj d (List.mem_append_left _ hd))
    (by
      rw [tail_setPA]
      intro d hd
      exact hI.noadj d (List.mem_append_right _
        (List.mem_cons_of_mem _ (List.mem_of_mem_tail hd))))
  simp only at e6
  simp only at hr3 hr4 hr5
  refine ⟨m6, bs6, bk6, by rw [e5, e6, andThen_some], hI6, ?_, ?_,
    ⟨r, hr1, hr2, hr3, hr4, hr5 ⟨_, hhd5⟩⟩⟩
  · intro c hc
    obtain ⟨d, hd, hd1, hd2, hd3, hd4⟩ := hc
    have hd5 := hC.blk hd
    have hd6 := hC.sep hd hbm
    have hdm : d ∈ pre ∨ d ∈ post := by
      rcases List.mem_append.1 hd with h | h
      · exact Or.inl h
      · rcases List.mem_cons.1 h with h | h
        · rw [h] at hd2; exact absurd rfl hd2
        · exact Or.inr h
    have hdm2 : ∃ d1, d1 ∈ pre ++ (⟨b.addr, b.size, 0, b.palloc⟩ : Blk) :: setPA 0 post ∧
        d1.alloc = 1 ∧ d1.addr ≤ c ∧ c < d1.addr + d1.size - 8 := by
      rcases hdm with h | h
      · exact ⟨d, List.mem_append_left _ h, hd1, hd3, hd4⟩
      · cases post with
        | nil => simp at h
        | cons c0 cs =>
          rcases List.mem_cons.1 h with h1 | h1
          · subst h1
            exact ⟨{ d with palloc := 0 }, List.mem_append_right _
              (List.mem_cons_of_mem _ (List.mem_cons_self _ _)), hd1, hd3, hd4⟩
          · exact ⟨d, List.mem_append_right _
              (List.mem_cons_of_mem _ (List.mem_cons_of_mem _ h1)), hd1, hd3, hd4⟩
    have s1 := c6 c hdm2
    have s2 := fr5 c hdm2
    simp only at s1
    rw [s1, s2]
  · intro q s
    rw [f6]
    simp only [IsAlloc, List.mem_append, List.mem_cons]
    constructor
    · rintro ⟨d, h | h | h, h1, h2, h3⟩
      · refine ⟨⟨d, Or.inl h, h1, h2, h3⟩, ?_⟩
        have := Linked_mem _ _ _ _ hL1 (Nat.le_refl 1) d h
        omega
      · rw [h] at h3; simp at h3
      · obtain ⟨c, hc, hc1, hc2, hc3, _⟩ := mem_setPA 0 post d h
        refine ⟨⟨c, Or.inr (Or.inr hc), by omega, by omega, by omega⟩, ?_⟩
        have := Linked_mem _ _ _ _ hL3 hb5 c hc
        omega
    · rintro ⟨⟨d, h | h | h, h1, h2, h3⟩, hq⟩
      · exact ⟨d, Or.inl h, h1, h2, h3⟩
      · rw [h] at h1; exact absurd h1.symm hq
      · cases post with
        | nil => simp at h
        | cons c0 cs =>
          rcases List.mem_cons.1 h with h4 | h4
          · subst h4
            exact ⟨{ d with palloc := 0 }, Or.inr (Or.inr (List.mem_cons_self _ _)), h1, h2, h3⟩
          · exact ⟨d, Or.inr (Or.inr (List.mem_cons_of_mem _ h4)), h1, h2, h3⟩

/-- The function `free` of an allocated block of the chain. -/
theorem free_spec (m : Nat → Nat) (lo brk hl lh : Nat) (pre post : List Blk) (b : Blk)
    (bk : Nat → List Nat) (hI : Inv ⟨m, lo, brk, hl, lh⟩ (pre ++ b :: post) bk)
    (hal : b.alloc = 1) :
    ∃ m1 bs1 bk1, free ⟨m, lo, brk, hl, lh⟩ b.addr = some ⟨m1, lo, brk, hl, lh⟩ ∧
      Inv ⟨m1, lo, brk, hl, lh⟩ bs1 bk1 ∧
      (∀ c, (∃ d, d ∈ pre ++ b :: post ∧ d.alloc = 1 ∧ d.addr ≠ b.addr ∧ d.addr ≤ c ∧
        c < d.addr + d.size - 8) → m1 c = m c) ∧
      ∀ q s, IsAlloc bs1 q s ↔ IsAlloc (pre ++ b :: post) q s ∧ q ≠ b.addr := by
  obtain ⟨m1, bs1, bk1, h1, h2, h3, h4, _⟩ := free_cover m lo brk hl lh pre post b bk hI hal
  exact ⟨m1, bs1, bk1, h1, h2, h3, h4⟩

theorem nodup_length_le (l : List Nat) (a b : Nat) (hnd : l.Nodup)
    (hb : ∀ x, x ∈ l → a ≤ x ∧ x < b) : l.length ≤ b - a := by
  have h1 : l.toFinset ⊆ Finset.Ico a b := by
    intro x hx
    rw [List.mem_toFinset] at hx
    rw [Finset.mem_Ico]
    exact hb x hx
  have h2 := Finset.card_le_card h1
  rw [List.toFinset_card_of_nodup hnd, Nat.card_Ico] at h2
  exact h2

theorem search_loop_spec (m : Nat → Nat) (lo brk hl lh size : Nat)
    (hb : brk < 9223372036854775808) :
    ∀ (l : List Nat) (fuel p cur : Nat), DLseg m p cur l 0 →
      (∀ x, x ∈ l → lo + 8 ≤ x ∧ x + 8 ≤ brk) → l.length < fuel →
      search_loop ⟨m, lo, brk, hl, lh⟩ size fuel cur = some (firstFit m size l)
  | [], fuel, p, cur, hdl, _, hf => by
    simp only [DLseg] at hdl
    subst hdl
    cases fuel with
    | zero => simp at hf
    | succ f => simp [search_loop, firstFit, NULL]
  | x :: xs, fuel, p, cur, hdl, hbd, hf => by
    simp only [DLseg] at hdl
    obtain ⟨h1, h2, h3, h4⟩ := hdl
    subst h1
    have hx := hbd cur (List.mem_cons_self _ _)
    cases fuel with
    | zero => simp at hf
    | succ f =>
      simp only [List.length_cons] at hf
      rw [search_loop]
      simp only [NULL]
      rw [if_pos h2, HDRP_eq _ (by omega) (by (clear * - hb hx; omega)),
        GET_SIZE_mk _ _ _ _ _ _ (by omega) (by omega), andThen_some]
      simp only [firstFit, hsize]
      by_cases hfit : size ≤ rd64 m (cur - 8) - rd64 m (cur - 8) % 8
      · rw [if_pos hfit, if_pos hfit]
      · rw [if_neg hfit, if_neg hfit, N_ADD_eq, GET_mk _ _ _ _ _ _ (by omega) (by omega),
          andThen_some]
        exact search_loop_spec m lo brk hl lh size hb xs f cur _ h4
          (fun y hy => hbd y (List.mem_cons_of_mem _ hy)) (by omega)

theorem firstFit_spec (m : Nat → Nat) (size : Nat) : ∀ (l : List Nat),
    (∀ x, x ∈ l → x ≠ 0) →
    (firstFit m size l = 0 ∧ ∀ x, x ∈ l → hsize m x < size) ∨
    (firstFit m size l ≠ 0 ∧ ∃ l1 l2, l = l1 ++ firstFit m size l :: l2 ∧
      size ≤ hsize m (firstFit m size l) ∧ ∀ x, x ∈ l1 → hsize m x < size)
  | [], _ => Or.inl ⟨rfl, fun x hx => by simp at hx⟩
  | y :: ys, hnz => by
    simp only [firstFit]
    by_cases hfit : size ≤ hsize m y
    · rw [if_pos hfit]
      exact Or.inr ⟨hnz y (List.mem_cons_self _ _), [], ys, rfl, hfit,
        fun x hx => by simp at hx⟩
    · rw [if_neg hfit]
      rcases firstFit_spec m size ys (fun x hx => hnz x (List.mem_cons_of_mem _ hx)) with
        h | h
      · left
        refine ⟨h.1, ?_⟩
        intro x hx
        rcases List.mem_cons.1 hx with h1 | h1
        · rw [h1]; omega
        · exact h.2 x h1
      · right
        obtain ⟨h1, l1, l2, h2, h3, h4⟩ := h
        refine ⟨h1, y :: l1, l2, by rw [List.cons_append, ← h2], h3, ?_⟩
        intro x hx
        rcases List.mem_cons.1 hx with h5 | h5
        · rw [h5]; omega
        · exact h4 x h5

/-- The function `search` walks list `i` and returns its first fitting member. -/
theorem search_spec (m : Nat → Nat) (lo brk hl lh : Nat) (bs : List Blk)
    (bk : Nat → List Nat) (hC : Core ⟨m, lo, brk, hl, lh⟩ bs bk) (i size : Nat)
    (hi : i < 16) :
    search ⟨m, lo, brk, hl, lh⟩ i size = some (firstFit m size (bk i)) := by
  have htop := hC.top1
  have hlh : lh = lo := hC.lhp
  subst hlh
  have hle := Linked_le _ _ _ _ hC.linked1
  have hbd : ∀ x, x ∈ bk i → lh + 160 ≤ x ∧ x < brk := by
    intro x hx
    obtain ⟨c, hc, h1, h2, h3, h4, h5, h6⟩ := hC.listed hi hx
    omega
  have hlen := nodup_length_le (bk i) (lh + 160) brk (hC.nodup i hi) hbd
  rw [search, root_mk _ _ _ _ _ _ (by omega), GET_mk _ _ _ _ _ _ (by omega) (by omega),
    andThen_some]
  simp only
  exact search_loop_spec m lh brk hl lh size htop (bk i) _ 0 _ (hC.dl1 i hi)
    (fun x hx => by
      obtain ⟨c, hc, h1, h2, h3, h4, h5, h6⟩ := hC.listed hi hx
      omega) (by (clear * - hle hlen; omega))

theorem find_loop_spec (m : Nat → Nat) (lo brk hl lh : Nat) (bs : List Blk)
    (bk : Nat → List Nat) (hC : Core ⟨m, lo, brk, hl, lh⟩ bs bk) (size : Nat) :
    ∀ (n i : Nat), i + n ≤ 16 →
      find_loop ⟨m, lo, brk, hl, lh⟩ size n i = some (findFrom m size bk n i)
  | 0, i, _ => rfl
  | n + 1, i, h => by
    rw [find_loop, search_spec m lo brk hl lh bs bk hC i size (by omega), andThen_some]
    simp only [findFrom, NULL]
    by_cases hz : firstFit m size (bk i) ≠ 0
    · rw [if_pos hz, if_pos hz]
    · rw [if_neg hz, if_neg hz]
      exact find_loop_spec m lo brk hl lh bs bk hC size n (i + 1) (by omega)

theorem findFrom_spec (m : Nat → Nat) (size : Nat) (bk : Nat → List Nat)
    (hnz : ∀ i x, x ∈ bk i → x ≠ 0) : ∀ (n i : Nat),
    (findFrom m size bk n i = 0 ∧ ∀ j, i ≤ j → j < i + n → ∀ x, x ∈ bk j → hsize m x < size) ∨
    (findFrom m size bk n i ≠ 0 ∧ ∃ j, i ≤ j ∧ j < i + n ∧
      findFrom m size bk n i = firstFit m size (bk j) ∧
      (∀ k, i ≤ k → k < j → firstFit m size (bk k) = 0))
  | 0, i => Or.inl ⟨rfl, fun j h1 h2 => by omega⟩
  | n + 1, i => by
    simp only [findFrom]
    by_cases hz : firstFit m size (bk i) ≠ 0
    · rw [if_pos hz]
      exact Or.inr ⟨hz, i, Nat.le_refl _, by omega, rfl, fun k h1 h2 => by omega⟩
    · rw [if_neg hz]
      have hz0 : firstFit m size (bk i) = 0 := by omega
      rcases findFrom_spec m size bk hnz n (i + 1) with h | h
      · left
        refine ⟨h.1, ?_⟩
        intro j h1 h2 x hx
        by_cases hji : j = i
        · subst hji
          rcases firstFit_spec m size (bk j) (fun x hx => hnz j x hx) with h3 | h3
          · exact h3.2 x hx
          · exact absurd hz0 h3.1
        · exact h.2 j (by omega) (by omega) x hx
      · right
        obtain ⟨h1, j, h2, h3, h4, h5⟩ := h
        refine ⟨h1, j, by omega, by omega, h4, ?_⟩
        intro k hk1 hk2
        by_cases hki : k = i
        · rw [hki]; exact hz0
        · exact h5 k (by omega) hk2

theorem le_ite_of {c : Prop} [Decidable c] {k x y : Nat} (h1 : c → k ≤ x)
    (h2 : ¬ c → k ≤ y) : k ≤ (if c then x else y) := by
  by_cases h : c
  · rw [if_pos h]; exact h1 h
  · rw [if_neg h]; exact h2 h

theorem ite_le_of {c : Prop} [Decidable c] {k x y : Nat} (h1 : c → x ≤ k)
    (h2 : ¬ c → y ≤ k) : (if c then x else y) ≤ k := by
  by_cases h : c
  · rw [if_pos h]; exact h1 h
  · rw [if_neg h]; exact h2 h

theorem getlistNum_mono (a b : Nat) (h : a ≤ b) : getlistNum a ≤ getlistNum b := by
  rw [getlistNum]
  repeat' (first | omega | (refine ite_le_of (fun _ => ?_) (fun _ => ?_)))
  all_goals (rw [getlistNum])
  all_goals repeat' (first | omega | (refine le_ite_of (fun _ => ?_) (fun _ => ?_)))


theorem hsize_blk {m : Nat → Nat} {lo brk hl lh : Nat} {bs : List Blk} {bk : Nat → List Nat}
    (hC : Core ⟨m, lo, brk, hl, lh⟩ bs bk) {c : Blk} (hc : c ∈ bs) :
    hsize m c.addr = c.size := by
  have := hC.blk hc
  unfold hsize
  (clear * - this; omega)

/-- The function `find` returns a free block that is large enough, or `NULL` when no free
block of the heap is large enough. -/
theorem find_spec (m : Nat → Nat) (lo brk hl lh : Nat) (bs : List Blk) (bk : Nat → List Nat)
    (hI : Inv ⟨m, lo, brk, hl, lh⟩ bs bk) (size : Nat) :
    ∃ r, find ⟨m, lo, brk, hl, lh⟩ size = some r ∧
      ((r = 0 ∧ ∀ c, c ∈ bs → c.alloc = 0 → c.size < size) ∨
       (r ≠ 0 ∧ ∃ c, c ∈ bs ∧ c.addr = r ∧ c.alloc = 0 ∧ size ≤ c.size)) := by
  have hC := hI.core
  have hs := getlistNum_lt size
  refine ⟨findFrom m size bk (16 - getlistNum size) (getlistNum size), ?_, ?_⟩
  · rw [find]
    simp only [SEGLISTNUM]
    exact find_loop_spec m lo brk hl lh bs bk hC size _ _ (by omega)
  · have hnz : ∀ i x, x ∈ bk i → i < 16 → x ≠ 0 := by
      intro i x hx hi
      obtain ⟨c, hc, h1, h2, h3, h4, h5, h6⟩ := hC.listed hi hx
      omega
    -- lists beyond the table are not visited; use a table cut at 16
    have key := findFrom_spec m size (fun i => if i < 16 then bk i else [])
      (by
        intro i x hx
        by_cases hi : i < 16
        · simp only [if_pos hi] at hx; exact hnz i x hx hi
        · simp only [if_neg hi] at hx; simp at hx)
      (16 - getlistNum size) (getlistNum size)
    have hcut : ∀ n i, i + n ≤ 16 → findFrom m size (fun i => if i < 16 then bk i else []) n i
        = findFrom m size bk n i := by
      intro n
      induction n with
      | zero => intro i _; rfl
      | succ n ih =>
        intro i hi
        simp only [findFrom]
        rw [if_pos (by omega : i < 16), ih (i + 1) (by omega)]
    rw [hcut _ _ (by omega)] at key
    rcases key with ⟨h0, hall⟩ | ⟨hne, j, hj1, hj2, hj3, _⟩
    · left
      refine ⟨h0, ?_⟩
      intro c hc hca
      by_contra hlt
      have hmono := getlistNum_mono size c.size (by omega)
      have hcl := getlistNum_lt c.size
      have hx := hI.full c hc hca
      have := hall (getlistNum c.size) hmono (by omega) c.addr
        (by rw [if_pos (by omega)]; exact hx)
      rw [hsize_blk hC hc] at this
      omega
    · right
      refine ⟨hne, ?_⟩
      have hj16 : j < 16 := by omega
      rw [if_pos hj16] at hj3
      rcases firstFit_spec m size (bk j) (fun x hx => hnz j x hx hj16) with h | h
      · rw [hj3] at hne; exact absurd h.1 hne
      · obtain ⟨_, l1, l2, h2, h3, _⟩ := h
        have hmem0 : ∀ r, bk j = l1 ++ r :: l2 → r ∈ bk j := fun r h => by
          rw [h]; exact List.mem_append_right _ (List.mem_cons_self _ _)
        have hmem := hmem0 _ h2
        obtain ⟨c, hc, hc1, hc2, _⟩ := hC.listed hj16 hmem
        refine ⟨c, hc, by rw [hj3]; exact hc1, hc2, ?_⟩
        rw [← hsize_blk hC hc, hc1]; exact h3

/-- The heap description after the break has moved up by `w` and the new
space has been laid out as one free block. -/
theorem Core_extend (m m1 : Nat → Nat) (lo brk hl lh w : Nat) (bs : List Blk)
    (bk : Nat → List Nat) (hC : Core ⟨m, lo, brk, hl, lh⟩ bs bk)
    (hw1 : 32 ≤ w) (hw2 : w % 16 = 0) (htop : brk + w < 9223372036854775808)
    (hfr : ∀ c, c + 8 < brk → m1 c = m c)
    (hhdr : rd64 m1 (brk - 8) = w + 2 * lastAlloc 1 bs + 0)
    (hftr : rd64 m1 (brk + w - 16) - rd64 m1 (brk + w - 16) % 8 = w) :
    Core ⟨m1, lo, brk + w, hl, lh⟩ (bs ++ [⟨brk, w, 0, lastAlloc 1 bs⟩]) bk := by
  have hle := Linked_le _ _ _ _ hC.linked1
  have hw : ∀ q, q + 16 ≤ brk → rd64 m1 q = rd64 m q := by
    intro q h1
    apply rd64_congr
    intro c hc1 hc2
    apply hfr c (by omega)
  have hpro : rd64 m1 (lo + 128) = 0 ∧ rd64 m1 (lo + 136) = 17 ∧ rd64 m1 (lo + 144) = 17 := by
    have h0 := hC.pro
    simp only at h0
    rw [hw _ (by omega), hw _ (by omega), hw _ (by omega)]
    exact h0
  refine ⟨hC.lhp, hC.hlp, htop, ?_, ?_, ?_, ?_, ?_, hC.nodup, hpro⟩
  · simp only
    rw [Linked_append]
    refine ⟨brk, hC.linked1, ?_⟩
    have := lastAlloc_le _ _ _ _ hC.linked1 (Nat.le_refl 1)
    simp only [Linked, true_and, and_true]
    (clear * - hw1 hw2; omega)
  · intro d hd
    simp only
    rcases List.mem_append.1 hd with h | h
    · have := hC.blk h
      rw [hw _ (by (clear * - this; omega))]
      exact hC.hdr d h
    · rw [List.mem_singleton.1 h]
      simp only [Blk.hdr]
      rw [hhdr]
  · intro d hd hda
    simp only
    rcases List.mem_append.1 hd with h | h
    · have := hC.blk h
      rw [hw _ (by (clear * - this; omega))]
      exact hC.ftr d h hda
    · rw [List.mem_singleton.1 h]
      exact hftr
  · intro i hi
    simp only
    rw [hw _ (by omega)]
    apply DLseg_congr m m1 _ _ _ _ _ (hC.dl i hi)
    intro x hx
    obtain ⟨c, hc, h1, h2, h3, h4, h5, h6⟩ := hC.listed hi hx
    constructor <;> apply hw <;> omega
  · intro i hi x hx
    obtain ⟨c, hc, h1, h2, h3⟩ := hC.mem_bk i hi x hx
    exact ⟨c, List.mem_append_left _ hc, h1, h2, h3⟩


theorem extend_heap_refused (m : Nat → Nat) (lo brk hl lh w : Nat) (g : Bool)
    (h : ¬ (g = true ∧ brk + w < 9223372036854775808)) :
    extend_heap ⟨m, lo, brk, hl, lh⟩ w g = some (0, ⟨m, lo, brk, hl, lh⟩) := by
  have hs : mem_sbrk ⟨m, lo, brk, hl, lh⟩ w g = (W64 - 1, ⟨m, lo, brk, hl, lh⟩) := by
    simp only [mem_sbrk, LONG_LIM]
    rw [if_neg h]
  rw [extend_heap, hs]
  simp [LONG_LIM, W64, NULL]

/-- The function `extend_heap` up to its final call of `coalesce`. -/
theorem extend_heap_pre (m : Nat → Nat) (lo brk hl lh w : Nat) (bs : List Blk)
    (bk : Nat → List Nat) (hI : Inv ⟨m, lo, brk, hl, lh⟩ bs bk)
    (hw1 : 32 ≤ w) (hw2 : w % 16 = 0) (htop : brk + w < 9223372036854775808) :
    ∃ m4 bk4, extend_heap ⟨m, lo, brk, hl, lh⟩ w true
        = coalesce ⟨m4, lo, brk + w, hl, lh⟩ brk ∧
      Core ⟨m4, lo, brk + w, hl, lh⟩ (bs ++ [⟨brk, w, 0, lastAlloc 1 bs⟩]) bk4 ∧
      Epi ⟨m4, lo, brk + w, hl, lh⟩ (bs ++ [⟨brk, w, 0, lastAlloc 1 bs⟩]) ∧
      Full (bs ++ [⟨brk, w, 0, lastAlloc 1 bs⟩]) bk4 ∧
      CFrame bs ⟨m, lo, brk, hl, lh⟩ ⟨m4, lo, brk + w, hl, lh⟩ := by
  have hC := hI.core
  have hE := hI.epi
  rw [Epi_iff] at hE
  have hle := Linked_le _ _ _ _ hC.linked1
  have hla := lastAlloc_le _ _ _ _ hC.linked1 (Nat.le_refl 1)
  have hlh : lh = lo := hC.lhp
  have hs : mem_sbrk ⟨m, lo, brk, hl, lh⟩ w true = (brk, ⟨m, lo, brk + w, hl, lh⟩) := by
    simp only [mem_sbrk, LONG_LIM]
    rw [if_pos ⟨trivial, htop⟩]
  obtain ⟨r1, _, _, _, r5⟩ := hdr_reads m lo (brk + w) hl lh brk 0 (lastAlloc 1 bs) 1
    (by omega) (by omega) htop (by rw [hE]; omega) (by omega) hla (by omega)
  have hh1 : rd64 (wr64 m (brk - 8) (w + 2 * lastAlloc 1 bs)) (brk - 8)
      = w + 2 * lastAlloc 1 bs + 0 := by
    rw [rd64_wr64_at _ _ _ _ rfl (by omega)]; omega
  rw [extend_heap, hs]
  dsimp only
  rw [if_neg (by simp only [LONG_LIM]; omega), r1, r5, andThen_some,
    PACK_eq _ _ (by omega) (by omega), PUT_mk _ _ _ _ _ _ _ (by omega) (by omega), andThen_some,
    FTRP_hdr _ lo (brk + w) hl lh brk w (lastAlloc 1 bs) 0 (by omega) htop hh1 (by omega) hla
      (by omega) (by omega) (by omega), andThen_some,
    GET_mk _ _ _ _ _ _ (by omega) (by (clear * - hw1; omega)), andThen_some, hh1,
    PUT_mk _ _ _ _ _ _ _ (by omega) (by (clear * - hw1; omega)), andThen_some]
  have hC2 := Core_extend m (wr64 (wr64 m (brk - 8) (w + 2 * lastAlloc 1 bs)) (brk + w - 16)
      (w + 2 * lastAlloc 1 bs + 0)) lo brk hl lh w bs bk hC hw1 hw2 htop
    (by
      intro c hc
      rw [wr64_other _ _ _ _ (by (clear * - hw1 hc; omega)), wr64_other _ _ _ _ (by (clear * - hc; omega))])
    (by rw [rd64_wr64_other _ _ _ _ (by (clear * - hw1; omega)), hh1])
    (by rw [rd64_wr64_at _ _ _ _ rfl (by omega)]; (clear * - hw2 hla; omega))
  have hnbm : (⟨brk, w, 0, lastAlloc 1 bs⟩ : Blk) ∈ bs ++ [⟨brk, w, 0, lastAlloc 1 bs⟩] := by
    simp
  have hnotl : ∀ i, i < 16 → brk ∉ bk i := by
    intro i hi hx
    obtain ⟨c, hc, h1, h2, h3, h4, h5, h6⟩ := hC.listed hi hx
    omega
  obtain ⟨m3, bk3, e3, hC3, hF3, hM3, _⟩ := add_step _ lo (brk + w) hl lh _ bk hC2
    ⟨brk, w, 0, lastAlloc 1 bs⟩ hnbm rfl hnotl
  simp only at e3
  have hh3 := hC3.hdr1 _ hnbm
  simp only at hh3
  have hp01 : PACK 0 1 = 1 := by rw [PACK_eq _ _ (by omega) (by omega)]
  rw [e3, andThen_some,
    NEXT_BLK_hdr _ lo (brk + w) hl lh brk w (lastAlloc 1 bs) 0 (by omega) htop hh3 (by omega)
      hla (by omega) (by omega), andThen_some, HDRP_eq _ (by omega) (by omega), hp01,
    PUT_mk _ _ _ _ _ _ _ (by (clear * - hle; omega)) (by (clear * - hw1; omega)), andThen_some]
  refine ⟨_, bk3, rfl, ?_, ?_, ?_, ?_⟩
  · apply Core_frame m3 _ lo (brk + w) hl lh _ bk3 hC3
    intro c hc
    apply wr64_other
    rcases hc with h | ⟨d, hd, h | h⟩
    · (clear * - hle h; omega)
    · have := hC3.blk hd; (clear * - h this; omega)
    · have := hC3.blk hd; (clear * - h this; omega)
  · rw [Epi_iff, rd64_wr64_at _ _ _ _ rfl (by omega), lastAlloc_append]
    simp [lastAlloc]
  · intro d hd hda
    have hidx : getlistNum d.size < 16 := by have := getlistNum_lt d.size; omega
    rw [hM3 _ hidx]
    rcases List.mem_append.1 hd with h | h
    · exact Or.inl (hI.full d h hda)
    · right; rw [List.mem_singleton.1 h]; exact ⟨rfl, rfl⟩
  · intro c hc
    obtain ⟨d, hd, hd1, hd2, hd3⟩ := hc
    have hd4 := hC.blk hd
    have s3 := CFrame_of_LFrame _ m3 lo (brk + w) hl lh _ _ hC2 hF3 c
      ⟨d, List.mem_append_left _ hd, hd1, hd2, hd3⟩
    simp only at s3 ⊢
    rw [wr64_other _ _ _ _ (by (clear * - hd3 hd4; omega)), s3, wr64_other _ _ _ _ (by (clear * - hw1 hd3 hd4; omega)),
      wr64_other _ _ _ _ (by (clear * - hd3 hd4; omega))]

/-- The function `extend_heap` when the provider grants the request. -/
theorem extend_heap_spec (m : Nat → Nat) (lo brk hl lh w : Nat) (bs : List Blk)
    (bk : Nat → List Nat) (hI : Inv ⟨m, lo, brk, hl, lh⟩ bs bk)
    (hw1 : 32 ≤ w) (hw2 : w % 16 = 0) (htop : brk + w < 9223372036854775808) :
    ∃ m5 bs5 bk5 r, extend_heap ⟨m, lo, brk, hl, lh⟩ w true
        = some (r.addr, ⟨m5, lo, brk + w, hl, lh⟩) ∧
      Inv ⟨m5, lo, brk + w, hl, lh⟩ bs5 bk5 ∧ r ∈ bs5 ∧ r.alloc = 0 ∧ w ≤ r.size ∧
      CFrame bs ⟨m, lo, brk, hl, lh⟩ ⟨m5, lo, brk + w, hl, lh⟩ ∧
      (∀ q s, IsAlloc bs5 q s ↔ IsAlloc bs q s) ∧
      (lastAlloc 1 bs = 1 → bs5 = bs ++ [⟨brk, w, 0, 1⟩]) := by
  obtain ⟨m4, bk4, e4, hC4, hE4, hF4, c4⟩ := extend_heap_pre m lo brk hl lh w bs bk hI hw1 hw2
    htop
  have hiff : ∀ q s, IsAlloc (bs ++ [⟨brk, w, 0, lastAlloc 1 bs⟩]) q s ↔ IsAlloc bs q s := by
    intro q s
    simp only [IsAlloc, List.mem_append, List.mem_singleton]
    constructor
    · rintro ⟨d, h | h, h1, h2, h3⟩
      · exact ⟨d, h, h1, h2, h3⟩
      · rw [h] at h3; simp at h3
    · rintro ⟨d, h, h1, h2, h3⟩
      exact ⟨d, Or.inl h, h1, h2, h3⟩
  by_cases hla : lastAlloc 1 bs = 1
  · have e5 := coalesce_none m4 lo (brk + w) hl lh bs [] ⟨brk, w, 0, lastAlloc 1 bs⟩ bk4 hC4 hE4
      rfl hla rfl
    have hL3 : Linked (brk + w) 0 [] (brk + w) := by simp [Linked]
    have hN := NoAdj_none bs [] ⟨brk, w, 0, lastAlloc 1 bs⟩ (brk + w) (brk + w) hL3 hla rfl
      hI.noadj (fun d hd => by simp at hd)
    simp only at e5
    refine ⟨m4, _, bk4, ⟨brk, w, 0, lastAlloc 1 bs⟩, by rw [e4, e5], ⟨hC4, hE4, hF4, hN⟩,
      by simp, rfl, Nat.le_refl _, c4, hiff, ?_⟩
    intro _
    rw [hla]
  · obtain ⟨m5, bs5, bk5, r, e5, hI5, hr1, hr2, hr3, c5, f5⟩ := coalesce_spec m4 lo (brk + w)
      hl lh bs [] ⟨brk, w, 0, lastAlloc 1 bs⟩ bk4 hC4 hE4 hF4 rfl hI.noadj
      (fun d hd => by simp at hd)
    simp only at e5 hr3
    refine ⟨m5, bs5, bk5, r, by rw [e4, e5], hI5, hr1, hr2, hr3, ?_, ?_, ?_⟩
    · apply CFrame_trans _ _ _ _ c4
      exact CFrame_mono _ _ _ _ c5 (fun d hd _ => List.mem_append_left _ hd)
    · intro q s
      rw [f5]
      exact hiff q s
    · intro h; exact absurd h hla


theorem adjust_spec (n : Nat) (h0 : 0 < n) (h : n + 31 < 18446744073709551616) :
    adjust n % 16 = 0 ∧ 32 ≤ adjust n ∧ n + 16 ≤ adjust n ∧ adjust n < n + 32 := by
  unfold adjust DSIZE W64
  (clear * - h0 h; omega)

theorem IsAlloc_setPA (v : Nat) (pre post : List Blk) (q s : Nat) :
    IsAlloc (pre ++ setPA v post) q s ↔ IsAlloc (pre ++ post) q s := by
  cases post with
  | nil => simp [setPA]
  | cons c cs =>
    simp only [setPA, IsAlloc, List.mem_append, List.mem_cons]
    constructor
    · rintro ⟨d, h | h | h, h1, h2, h3⟩
      · exact ⟨d, Or.inl h, h1, h2, h3⟩
      · subst h; exact ⟨c, Or.inr (Or.inl rfl), h1, h2, h3⟩
      · exact ⟨d, Or.inr (Or.inr h), h1, h2, h3⟩
    · rintro ⟨d, h | h | h, h1, h2, h3⟩
      · exact ⟨d, Or.inl h, h1, h2, h3⟩
      · subst h; exact ⟨{ d with palloc := v }, Or.inr (Or.inl rfl), h1, h2, h3⟩
      · exact ⟨d, Or.inr (Or.inr h), h1, h2, h3⟩

theorem IsAlloc_placed (pre post : List Blk) (c : Blk) (asize : Nat) (hc : c.alloc = 0)
    (q s : Nat) :
    IsAlloc (placed pre c post asize) q s ↔
      IsAlloc (pre ++ c :: post) q s ∨ (q = c.addr ∧ s = placedSize c asize) := by
  unfold placed placedSize
  by_cases hsp : 32 ≤ c.size - asize
  · rw [if_pos hsp, if_pos hsp]
    simp only [IsAlloc, List.mem_append, List.mem_cons, List.mem_singleton, List.not_mem_nil,
      or_false]
    constructor
    · rintro ⟨d, (h | h | h) | h, h1, h2, h3⟩
      · exact Or.inl ⟨d, Or.inl h, h1, h2, h3⟩
      · subst h; exact Or.inr ⟨h1.symm, h2.symm⟩
      · subst h; simp at h3
      · exact Or.inl ⟨d, Or.inr (Or.inr h), h1, h2, h3⟩
    · rintro (⟨d, h | h | h, h1, h2, h3⟩ | ⟨h1, h2⟩)
      · exact ⟨d, Or.inl (Or.inl h), h1, h2, h3⟩
      · rw [h, hc] at h3; omega
      · exact ⟨d, Or.inr h, h1, h2, h3⟩
      · exact ⟨_, Or.inl (Or.inr (Or.inl rfl)), h1.symm, h2.symm, rfl⟩
  · rw [if_neg hsp, if_neg hsp, IsAlloc_setPA]
    simp only [IsAlloc, List.mem_append, List.mem_cons, List.mem_singleton, List.not_mem_nil,
      or_false]
    constructor
    · rintro ⟨d, (h | h) | h, h1, h2, h3⟩
      · exact Or.inl ⟨d, Or.inl h, h1, h2, h3⟩
      · subst h; exact Or.inr ⟨h1.symm, h2.symm⟩
      · exact Or.inl ⟨d, Or.inr (Or.inr h), h1, h2, h3⟩
    · rintro (⟨d, h | h | h, h1, h2, h3⟩ | ⟨h1, h2⟩)
      · exact ⟨d, Or.inl (Or.inl h), h1, h2, h3⟩
      · rw [h, hc] at h3; omega
      · exact ⟨d, Or.inr h, h1, h2, h3⟩
      · exact ⟨_, Or.inl (Or.inr rfl), h1.symm, h2.symm, rfl⟩

theorem not_IsAlloc_free {m : Nat → Nat} {lo brk hl lh : Nat} {bs : List Blk}
    {bk : Nat → List Nat} (hC : Core ⟨m, lo, brk, hl, lh⟩ bs bk) {c : Blk} (hc : c ∈ bs)
    (hf : c.alloc = 0) (t : Nat) : ¬ IsAlloc bs c.addr t := by
  rintro ⟨d, hd, h1, h2, h3⟩
  have := Linked_addr_inj bs _ 1 _ hC.linked1 (Nat.le_refl 1) d c hd hc h1
  rw [this, hf] at h3
  omega

/-- The function `malloc` when a free block fits: it is carved by `place`, the break stays. -/
theorem malloc_found (m : Nat → Nat) (lo brk hl lh : Nat) (bs : List Blk)
    (bk : Nat → List Nat) (hI : Inv ⟨m, lo, brk, hl, lh⟩ bs bk) (n : Nat) (g : Bool)
    (h0 : 0 < n) (hn : n + 31 < 18446744073709551616)
    (hfit : ∃ c, c ∈ bs ∧ c.alloc = 0 ∧ adjust n ≤ c.size) :
    ∃ c pre post m1 bk1, bs = pre ++ c :: post ∧ c.alloc = 0 ∧ adjust n ≤ c.size ∧
      malloc ⟨m, lo, brk, hl, lh⟩ n g = some (c.addr, ⟨m1, lo, brk, hl, lh⟩) ∧
      Inv ⟨m1, lo, brk, hl, lh⟩ (placed pre c post (adjust n)) bk1 ∧
      CFrame bs ⟨m, lo, brk, hl, lh⟩ ⟨m1, lo, brk, hl, lh⟩ := by
  obtain ⟨a1, a2, a3, a4⟩ := adjust_spec n h0 hn
  obtain ⟨r, e1, hr⟩ := find_spec m lo brk hl lh bs bk hI (adjust n)
  rcases hr with ⟨_, hnone⟩ | ⟨hr0, c, hc, hc1, hc2, hc3⟩
  · obtain ⟨c, hc, hc1, hc2⟩ := hfit
    have := hnone c hc hc1
    omega
  · obtain ⟨pre, post, hsplit⟩ := List.append_of_mem hc
    subst hsplit
    obtain ⟨m1, bk1, e2, hI1, c1⟩ := place_spec m lo brk hl lh pre post c bk hI hc2 (adjust n)
      a2 a1 hc3
    refine ⟨c, pre, post, m1, bk1, rfl, hc2, hc3, ?_, hI1, c1⟩
    rw [malloc, if_neg (by omega)]
    simp only [NULL]
    rw [e1, andThen_some, if_pos hr0, ← hc1, e2, andThen_some]

/-- The function `malloc` when no free block fits and the provider refuses: `NULL`, nothing changes. -/
theorem malloc_refused (m : Nat → Nat) (lo brk hl lh : Nat) (bs : List Blk)
    (bk : Nat → List Nat) (hI : Inv ⟨m, lo, brk, hl, lh⟩ bs bk) (n : Nat) (g : Bool)
    (h0 : 0 < n)
    (hnofit : ∀ c, c ∈ bs → c.alloc = 0 → c.size < adjust n)
    (href : ¬ (g = true ∧ brk + adjust n < 9223372036854775808)) :
    malloc ⟨m, lo, brk, hl, lh⟩ n g = some (0, ⟨m, lo, brk, hl, lh⟩) := by
  obtain ⟨r, e1, hr⟩ := find_spec m lo brk hl lh bs bk hI (adjust n)
  rcases hr with ⟨hr0, _⟩ | ⟨hr0, c, hc, hc1, hc2, hc3⟩
  · rw [malloc, if_neg (by omega)]
    simp only [NULL]
    rw [e1, andThen_some, if_neg (by omega),
      extend_heap_refused m lo brk hl lh (adjust n) g href, andThen_some, if_pos rfl]
  · have := hnofit c hc hc2
    omega

/-- The function `malloc` when no free block fits and the provider grants `adjust n` bytes. -/
theorem malloc_extended (m : Nat → Nat) (lo brk hl lh : Nat) (bs : List Blk)
    (bk : Nat → List Nat) (hI : Inv ⟨m, lo, brk, hl, lh⟩ bs bk) (n : Nat)
    (h0 : 0 < n) (hn : n + 31 < 18446744073709551616)
    (hnofit : ∀ c, c ∈ bs → c.alloc = 0 → c.size < adjust n)
    (htop : brk + adjust n < 9223372036854775808) :
    ∃ c pre post m1 bk1, c.alloc = 0 ∧ adjust n ≤ c.size ∧ lo + 160 ≤ c.addr ∧
      (∀ q s, IsAlloc (pre ++ c :: post) q s ↔ IsAlloc bs q s) ∧
      (∀ t, ¬ IsAlloc bs c.addr t) ∧
      malloc ⟨m, lo, brk, hl, lh⟩ n true = some (c.addr, ⟨m1, lo, brk + adjust n, hl, lh⟩) ∧
      Inv ⟨m1, lo, brk + adjust n, hl, lh⟩ (placed pre c post (adjust n)) bk1 ∧
      CFrame bs ⟨m, lo, brk, hl, lh⟩ ⟨m1, lo, brk + adjust n, hl, lh⟩ ∧
      ∃ m5 bk5, Inv ⟨m5, lo, brk + adjust n, hl, lh⟩ (pre ++ c :: post) bk5 := by
  obtain ⟨a1, a2, a3, a4⟩ := adjust_spec n h0 hn
  obtain ⟨r, e1, hr⟩ := find_spec m lo brk hl lh bs bk hI (adjust n)
  rcases hr with ⟨hr0, _⟩ | ⟨hr0, c, hc, hc1, hc2, hc3⟩
  · obtain ⟨m5, bs5, bk5, c, e5, hI5, hc1, hc2, hc3, c5, f5, _⟩ := extend_heap_spec m lo brk hl
      lh (adjust n) bs bk hI a2 a1 htop
    obtain ⟨pre, post, hsplit⟩ := List.append_of_mem hc1
    subst hsplit
    obtain ⟨m6, bk6, e6, hI6, c6⟩ := place_spec m5 lo (brk + adjust n) hl lh pre post c bk5 hI5
      hc2 (adjust n) a2 a1 hc3
    have hcb := hI5.core.blk hc1
    refine ⟨c, pre, post, m6, bk6, hc2, hc3, hcb.1, f5, ?_, ?_, hI6, ?_, ⟨m5, bk5, hI5⟩⟩
    · intro t ht
      rw [← f5] at ht
      exact not_IsAlloc_free hI5.core hc1 hc2 t ht
    · rw [malloc, if_neg (by omega)]
      simp only [NULL]
      rw [e1, andThen_some, if_neg (by omega), e5, andThen_some]
      simp only
      rw [if_neg (by omega), e6, andThen_some]
    · apply CFrame_trans _ _ _ _ c5
      intro x hx
      obtain ⟨d, hd, hd1, hd2⟩ := hx
      obtain ⟨d1, hd3, hd4, hd5, hd6⟩ := (f5 d.addr d.size).2 ⟨d, hd, rfl, rfl, hd1⟩
      exact c6 x ⟨d1, hd3, hd6, by omega, by (clear * - hd2 hd4 hd5; omega)⟩
  · have := hnofit c hc hc2
    omega


theorem init_roots_spec (lo brk hl : Nat) (hb : brk < 9223372036854775808) :
    ∀ (n i : Nat) (m : Nat → Nat), lo + 8 * (i + n) ≤ brk →
      ∃ m1, init_roots ⟨m, lo, brk, hl, lo⟩ n i = some ⟨m1, lo, brk, hl, lo⟩ ∧
        (∀ j, i ≤ j → j < i + n → rd64 m1 (lo + 8 * j) = 0) ∧
        (∀ j, j < i → rd64 m1 (lo + 8 * j) = rd64 m (lo + 8 * j)) := by
  intro n
  induction n with
  | zero =>
    intro i m _
    exact ⟨m, rfl, fun j h1 h2 => by omega, fun j _ => rfl⟩
  | succ n ih =>
    intro i m hle
    have e : (lo + i * WSIZE) % W64 = lo + 8 * i := by
      simp only [WSIZE, W64]; (clear * - hb hle; omega)
    obtain ⟨m1, e1, z1, f1⟩ := ih (i + 1) (wr64 m (lo + 8 * i) 0) (by omega)
    refine ⟨m1, ?_, ?_, ?_⟩
    · rw [init_roots]
      simp only [e]
      rw [PUT_ADDRESS_mk m lo brk hl lo (lo + 8 * i) NULL (by omega) (by omega), andThen_some]
      exact e1
    · intro j h1 h2
      by_cases hj : j = i
      · subst hj
        rw [f1 j (by omega), rd64_wr64_eq _ _ _ (by omega)]
      · exact z1 j (by omega) (by omega)
    · intro j hj
      rw [f1 j (by omega), rd64_wr64_other _ _ _ _ (by omega)]

/-- The heap right after the four sentinel words are written satisfies the
invariant with no block at all. -/
theorem Inv_empty (m : Nat → Nat) (base : Nat) (hb : base + 160 < 9223372036854775808)
    (hz : ∀ j, j < 16 → rd64 m (base + 8 * j) = 0) (he : rd64 m (base + 152) = 3)
    (hp : rd64 m (base + 128) = 0 ∧ rd64 m (base + 136) = 17 ∧ rd64 m (base + 144) = 17) :
    Inv ⟨m, base, base + 160, base + 160, base⟩ [] (fun _ => []) := by
  refine ⟨⟨rfl, rfl, hb, ?_, ?_, ?_, ?_, ?_, ?_, hp⟩, ?_, ?_, ?_⟩
  · simp only [Linked]
  · intro b hb1; exact absurd hb1 (List.not_mem_nil b)
  · intro b hb1; exact absurd hb1 (List.not_mem_nil b)
  · intro i hi
    simp only [DLseg]
    exact hz i hi
  · intro i _ x hx; exact absurd hx (List.not_mem_nil x)
  · intro i _; exact List.nodup_nil
  · simp only [Epi, lastAlloc]
    have : base + 160 - 8 = base + 152 := by omega
    rw [this, he]
  · intro b hb1; exact absurd hb1 (List.not_mem_nil b)
  · intro b hb1; exact absurd hb1 (List.not_mem_nil b)

theorem mm_init_spec (base : Nat) (m : Nat → Nat) (hb : base + 4256 < 9223372036854775808) :
    ∃ m1 bk1, mm_init (fresh base m) true true true =
        some (true, ⟨m1, base, base + 4256, base + 160, base⟩) ∧
      Inv ⟨m1, base, base + 4256, base + 160, base⟩ [⟨base + 160, 4096, 0, 1⟩] bk1 := by
  obtain ⟨m1, e1, z1, _⟩ := init_roots_spec base (base + 128) NULL (by omega) 16 0 m (by omega)
  have hI := Inv_empty
    (wr64 (wr64 (wr64 (wr64 m1 (base + 128) 0) (base + 136) 17) (base + 144) 17) (base + 152) 3)
    base (by omega)
    (by
      intro j hj
      simp (disch := omega) only [rd64_wr64_other]
      exact z1 j (by omega) (by omega))
    (rd64_wr64_eq _ _ _ (by omega))
    (by
      simp (disch := omega) only [rd64_wr64_other, rd64_wr64_at]
      exact ⟨trivial, trivial, trivial⟩)
  obtain ⟨m5, bs5, bk5, r, e5, hI5, hr, _, _, _, _, hbs⟩ :=
    extend_heap_spec _ base (base + 160) (base + 160) base 4096 [] _ hI (by omega) (by omega)
      (by omega)
  have hbs5 := hbs rfl
  rw [List.nil_append] at hbs5
  subst hbs5
  have hra : r.addr = base + 160 := by
    rw [List.mem_singleton] at hr
    rw [hr]
  refine ⟨m5, bk5, ?_, hI5⟩
  have p1 : PACK DSIZE 1 = 17 := by decide
  have p3 : PACK 0 (2 ||| 1) = 3 := by decide
  have s1 : mem_sbrk (fresh base m) (SEGLISTNUM * WSIZE) true =
      (base, ⟨m, base, base + 128, NULL, NULL⟩) := by
    unfold mem_sbrk fresh
    rw [if_pos ⟨rfl, by simp only [SEGLISTNUM, WSIZE, LONG_LIM]; omega⟩]
    rfl
  have s2 : mem_sbrk ⟨m1, base, base + 128, NULL, base⟩ (4 * WSIZE) true =
      (base + 128, ⟨m1, base, base + 160, NULL, base⟩) := by
    unfold mem_sbrk
    rw [if_pos ⟨rfl, by simp only [WSIZE, LONG_LIM]; omega⟩]
    rfl
  have a1 : (base + 128 + 1 * WSIZE) % W64 = base + 136 := by
    simp only [WSIZE, W64]; (clear * - hb; omega)
  have a2 : (base + 128 + 2 * WSIZE) % W64 = base + 144 := by
    simp only [WSIZE, W64]; (clear * - hb; omega)
  have a3 : (base + 128 + 3 * WSIZE) % W64 = base + 152 := by
    simp only [WSIZE, W64]; (clear * - hb; omega)
  have a4 : (base + 128 + 4 * WSIZE) % W64 = base + 160 := by
    simp only [WSIZE, W64]; (clear * - hb; omega)
  rw [mm_init]
  simp only [s1]
  rw [if_neg (by simp only [W64]; (clear * - hb; omega))]
  rw [show SEGLISTNUM = 16 from rfl, e1, andThen_some]
  simp only [s2]
  rw [if_neg (by simp only [W64]; (clear * - hb; omega))]
  rw [PUT_mk _ _ _ _ _ _ _ (by omega) (by omega), andThen_some]
  simp only [a1, p1]
  rw [PUT_mk _ _ _ _ _ _ _ (by omega) (by omega), andThen_some]
  simp only [a2, p1]
  rw [PUT_mk _ _ _ _ _ _ _ (by omega) (by omega), andThen_some]
  simp only [a3, p3]
  rw [PUT_mk _ _ _ _ _ _ _ (by omega) (by omega), andThen_some]
  simp only [a4]
  rw [show CHUNKSIZE = 4096 from rfl, e5, andThen_some]
  simp only [NULL]
  rw [if_neg (by (clear * - hra; omega))]


/-- Client writes, which only touch the payload of allocated blocks, keep
the description of the heap. -/
theorem Inv_client (m m1 : Nat → Nat) (lo brk hl lh : Nat) (bs : List Blk)
    (bk : Nat → List Nat) (hI : Inv ⟨m, lo, brk, hl, lh⟩ bs bk)
    (hfr : ∀ c, m1 c ≠ m c → ∃ b, b ∈ bs ∧ b.alloc = 1 ∧ b.addr ≤ c ∧ c < b.addr + b.size - 8) :
    Inv ⟨m1, lo, brk, hl, lh⟩ bs bk := by
  have hC := hI.core
  refine ⟨Core_frame m m1 lo brk hl lh bs bk hC ?_, ?_, hI.full, hI.noadj⟩
  · intro c hc
    by_contra hne
    obtain ⟨b, hb, hb1, hb2, hb3⟩ := hfr c hne
    have hbb := hC.blk hb
    rcases hc with hc | ⟨d, hd, hc⟩
    · omega
    · have hs := hC.sep hb hd
      rcases hc with hc | hc <;> (clear * - hb2 hb3 hs hc hb1; omega)
  · have hE := hI.epi
    rw [Epi_iff] at hE ⊢
    rw [← hE]
    apply rd64_congr
    intro c hc1 hc2
    by_contra hne
    obtain ⟨b, hb, hb1, hb2, hb3⟩ := hfr c hne
    have hbb := hC.blk hb
    (clear * - hc1 hb3 hbb; omega)

/-- What the words around a live allocation say. -/
theorem live_facts (m : Nat → Nat) (lo brk hl lh : Nat) (bs : List Blk)
    (bk : Nat → List Nat) (hI : Inv ⟨m, lo, brk, hl, lh⟩ bs bk) (p s a : Nat)
    (h : ∃ b, b ∈ bs ∧ b.addr = p ∧ b.size = s ∧ b.alloc = a) :
    GET_SIZE ⟨m, lo, brk, hl, lh⟩ (HDRP p) = some s ∧
      GET_ALLOC ⟨m, lo, brk, hl, lh⟩ (HDRP p) = some a ∧
      lo + 160 ≤ p ∧ p + s ≤ brk ∧ 32 ≤ s ∧ brk < 9223372036854775808 := by
  obtain ⟨b, hb, h1, h2, h3⟩ := h
  obtain ⟨b1, b2, b3, b4, b5, b6, b7, b8, b9, b10⟩ := hI.core.blk hb
  obtain ⟨r1, r2, r3, r4, r5⟩ := hdr_reads m lo brk hl lh b.addr b.size b.palloc b.alloc
    (by omega) (by omega) b7 b10 (by (clear * - b4; omega)) b6 b5
  subst h1 h2 h3
  rw [r1]
  exact ⟨r3, r4, b1, b2, b3, b7⟩

theorem Linked_cover : ∀ (bs : List Blk) (a pa e : Nat), Linked a pa bs e →
    ∀ x, a ≤ x → x < e → ∃ d, d ∈ bs ∧ d.addr ≤ x ∧ x < d.addr + d.size
  | [], a, pa, e, h, x, h1, h2 => by
    simp only [Linked] at h; omega
  | c :: bs, a, pa, e, h, x, h1, h2 => by
    simp only [Linked] at h
    obtain ⟨l1, l2, l3, l4, l5, l6⟩ := h
    by_cases hx : x < a + c.size
    · exact ⟨c, List.mem_cons_self _ _, by omega, by omega⟩
    · obtain ⟨d, hd, hd1⟩ := Linked_cover bs _ _ _ l6 x (by omega) h2
      exact ⟨d, List.mem_cons_of_mem _ hd, hd1⟩

theorem Linked_aligned : ∀ (bs : List Blk) (a pa e : Nat), Linked a pa bs e → a % 16 = 0 →
    ∀ d, d ∈ bs → d.addr % 16 = 0
  | [], _, _, _, _, _, d, hd => absurd hd (List.not_mem_nil d)
  | c :: bs, a, pa, e, h, ha, d, hd => by
    simp only [Linked] at h
    obtain ⟨l1, l2, l3, l4, l5, l6⟩ := h
    rcases List.mem_cons.1 hd with h1 | h1
    · rw [h1, l1]; exact ha
    · exact Linked_aligned bs _ _ _ l6 (by (clear * - ha l5; omega)) d h1

theorem malloc_zero (h : Heap) (g : Bool) : malloc h 0 g = some (NULL, h) := by
  rw [malloc, if_pos (Nat.le_refl 0)]

/-- Summary of `malloc` for a request that does not wrap. -/
theorem malloc_sum (m : Nat → Nat) (lo brk hl lh : Nat) (bs : List Blk)
    (bk : Nat → List Nat) (hI : Inv ⟨m, lo, brk, hl, lh⟩ bs bk) (n : Nat) (g : Bool)
    (h0 : 0 < n) (hn : n + 31 < 18446744073709551616) :
    ∃ p m1 brk1, malloc ⟨m, lo, brk, hl, lh⟩ n g = some (p, ⟨m1, lo, brk1, hl, lh⟩) ∧
      (p = 0 → m1 = m ∧ brk1 = brk ∧ ¬ (g = true ∧ brk + adjust n < 9223372036854775808) ∧
        ∀ c, c ∈ bs → c.alloc = 0 → c.size < adjust n) ∧
      (p ≠ 0 → ∃ bs1 bk1 s, Inv ⟨m1, lo, brk1, hl, lh⟩ bs1 bk1 ∧ adjust n ≤ s ∧
        (∀ q t, IsAlloc bs1 q t ↔ IsAlloc bs q t ∨ (q = p ∧ t = s)) ∧
        (∀ t, ¬ IsAlloc bs p t) ∧
        CFrame bs ⟨m, lo, brk, hl, lh⟩ ⟨m1, lo, brk1, hl, lh⟩ ∧
        ((brk1 = brk ∧ ∃ c, c ∈ bs ∧ c.alloc = 0 ∧ c.addr = p ∧ adjust n ≤ c.size ∧
            s = placedSize c (adjust n)) ∨
          (brk1 = brk + adjust n ∧ g = true ∧
            ∀ c, c ∈ bs → c.alloc = 0 → c.size < adjust n))) := by
  have hps : ∀ c : Blk, adjust n ≤ c.size → adjust n ≤ placedSize c (adjust n) := by
    intro c hc
    unfold placedSize
    split <;> omega
  by_cases hfit : ∃ c, c ∈ bs ∧ c.alloc = 0 ∧ adjust n ≤ c.size
  · obtain ⟨c, pre, post, m1, bk1, e1, e2, e3, e4, e5, e6⟩ :=
      malloc_found m lo brk hl lh bs bk hI n g h0 hn hfit
    have hcm : c ∈ bs := by rw [e1]; exact List.mem_append_right _ (List.mem_cons_self _ _)
    have hcb := hI.core.blk hcm
    refine ⟨c.addr, m1, brk, e4, fun h => by omega, fun _ => ?_⟩
    refine ⟨_, bk1, placedSize c (adjust n), e5, hps c e3, ?_,
      fun t => not_IsAlloc_free hI.core hcm e2 t, e6, Or.inl ⟨rfl, c, hcm, e2, rfl, e3, rfl⟩⟩
    intro q t
    rw [IsAlloc_placed pre post c (adjust n) e2 q t, e1]
  · have hnofit : ∀ c, c ∈ bs → c.alloc = 0 → c.size < adjust n := by
      intro c hc hc1
      by_contra hlt
      exact hfit ⟨c, hc, hc1, by omega⟩
    by_cases href : g = true ∧ brk + adjust n < 9223372036854775808
    · obtain ⟨hg, htop⟩ := href
      subst hg
      obtain ⟨c, pre, post, m1, bk1, e2, e3, hcb, e4, e5, e6, e7, e8, _⟩ :=
        malloc_extended m lo brk hl lh bs bk hI n h0 hn hnofit htop
      refine ⟨c.addr, m1, brk + adjust n, e6, fun h => by omega, fun _ => ?_⟩
      refine ⟨_, bk1, placedSize c (adjust n), e7, hps c e3, ?_, e5, e8,
        Or.inr ⟨rfl, rfl, hnofit⟩⟩
      intro q t
      rw [IsAlloc_placed pre post c (adjust n) e2 q t, e4]
    · refine ⟨0, m, brk, malloc_refused m lo brk hl lh bs bk hI n g h0 hnofit href,
        fun _ => ⟨rfl, rfl, href, hnofit⟩, fun h => absurd rfl h⟩

theorem Live_disjoint {m : Nat → Nat} {lo brk hl lh : Nat} {bs : List Blk}
    {bk : Nat → List Nat} (hI : Inv ⟨m, lo, brk, hl, lh⟩ bs bk) {p s q t : Nat}
    (h1 : IsAlloc bs p s) (h2 : IsAlloc bs q t) (hne : p ≠ q) :
    p + s ≤ q ∨ q + t ≤ p := by
  obtain ⟨b, hb, b1, b2, _⟩ := h1
  obtain ⟨d, hd, d1, d2, _⟩ := h2
  have := hI.core.sep hb hd
  (clear * - hne b1 b2 d1 d2 this; omega)

theorem malloc_step (st : Heap) (bs : List Blk) (bk : Nat → List Nat)
    (live : List (Nat × Nat)) (hI : Inv st bs bk) (hL : Live bs live) (n : Nat) (g : Bool)
    (h0 : 0 < n) (hn : n + 31 < 18446744073709551616) :
    ∃ p st1, malloc st n g = some (p, st1) ∧ st1.lo = st.lo ∧ st.brk ≤ st1.brk ∧
      (p = 0 → st1 = st ∧ ¬ (g = true ∧ st.brk + adjust n < 9223372036854775808)) ∧
      (p ≠ 0 → (∃ bs1 bk1, Inv st1 bs1 bk1 ∧ Live bs1 ((p, n) :: live)) ∧
        (∀ q k, (q, k) ∈ live → p + n ≤ q ∨ q + k ≤ p) ∧
        (∀ q k, (q, k) ∈ live → ∀ c, q ≤ c → c < q + k → st1.mem c = st.mem c)) := by
  obtain ⟨m, lo, brk, hl, lh⟩ := st
  obtain ⟨a1, a2, a3, a4⟩ := adjust_spec n h0 hn
  obtain ⟨p, m1, brk1, e, hz, hnz⟩ := malloc_sum m lo brk hl lh bs bk hI n g h0 hn
  refine ⟨p, ⟨m1, lo, brk1, hl, lh⟩, e, rfl, ?_, ?_, ?_⟩
  · by_cases hp : p = 0
    · have := (hz hp).2.1
      simp only; omega
    · obtain ⟨_, _, _, _, _, _, _, _, h | h⟩ := hnz hp
      · simp only; omega
      · simp only; omega
  · intro hp
    obtain ⟨z1, z2, z3, _⟩ := hz hp
    subst z1 z2
    exact ⟨rfl, z3⟩
  · intro hp
    obtain ⟨bs1, bk1, s, hI1, hs, hiff, hnew, hfr, _⟩ := hnz hp
    have hps : IsAlloc bs1 p s := (hiff p s).2 (Or.inr ⟨rfl, rfl⟩)
    refine ⟨⟨bs1, bk1, hI1, ?_⟩, ?_, ?_⟩
    · intro q k hq
      rcases List.mem_cons.1 hq with h | h
      · obtain ⟨rfl, rfl⟩ := Prod.mk.inj h
        exact ⟨s, hps, by omega⟩
      · obtain ⟨t, ht, ht1⟩ := hL q k h
        exact ⟨t, (hiff q t).2 (Or.inl ht), ht1⟩
    · intro q k hq
      obtain ⟨t, ht, ht1⟩ := hL q k hq
      have hne : p ≠ q := by
        intro h
        rw [← h] at ht
        exact hnew t ht
      have := Live_disjoint hI1 hps ((hiff q t).2 (Or.inl ht)) hne
      omega
    · intro q k hq c hc1 hc2
      obtain ⟨t, ⟨b, hb, b1, b2, b3⟩, ht1⟩ := hL q k hq
      exact hfr c ⟨b, hb, b3, by omega, by omega⟩

theorem mem_split {b : Blk} {bs : List Blk} (h : b ∈ bs) : ∃ pre post, bs = pre ++ b :: post :=
  List.append_of_mem h

theorem free_step (st : Heap) (bs : List Blk) (bk : Nat → List Nat)
    (live : List (Nat × Nat)) (hI : Inv st bs bk) (hL : Live bs live) (p n : Nat)
    (hp : (p, n) ∈ live) :
    ∃ st1, free st p = some st1 ∧ st1.lo = st.lo ∧ st1.brk = st.brk ∧
      (∃ bs1 bk1, Inv st1 bs1 bk1 ∧ Live bs1 (live.filter fun e => e.1 ≠ p) ∧
        (∀ q s, IsAlloc bs1 q s ↔ IsAlloc bs q s ∧ q ≠ p)) ∧
      (∀ q k, (q, k) ∈ live → q ≠ p → ∀ c, q ≤ c → c < q + k → st1.mem c = st.mem c) := by
  obtain ⟨m, lo, brk, hl, lh⟩ := st
  obtain ⟨s, ⟨b, hb, b1, b2, b3⟩, hs⟩ := hL p n hp
  obtain ⟨pre, post, hsplit⟩ := mem_split hb
  subst hsplit
  obtain ⟨m1, bs1, bk1, e, hI1, hfr, hiff⟩ := free_spec m lo brk hl lh pre post b bk hI b3
  rw [b1] at e hiff hfr
  refine ⟨⟨m1, lo, brk, hl, lh⟩, e, rfl, rfl, ⟨bs1, bk1, hI1, ?_, hiff⟩, ?_⟩
  · intro q k hq
    rw [List.mem_filter] at hq
    obtain ⟨hq1, hq2⟩ := hq
    obtain ⟨t, ht, ht1⟩ := hL q k hq1
    exact ⟨t, (hiff q t).2 ⟨ht, by simpa using hq2⟩, ht1⟩
  · intro q k hq hne c hc1 hc2
    obtain ⟨t, ⟨d, hd, d1, d2, d3⟩, ht1⟩ := hL q k hq
    exact hfr c ⟨d, hd, d3, by omega, by omega, by (clear * - hc2 ht1 d1 d2; omega)⟩

theorem store_step (st : Heap) (bs : List Blk) (bk : Nat → List Nat)
    (live : List (Nat × Nat)) (hI : Inv st bs bk) (hL : Live bs live) (p n a v : Nat)
    (hp : (p, n) ∈ live) (h1 : p ≤ a) (h2 : a < p + n) : Inv (poke st a v) bs bk := by
  obtain ⟨m, lo, brk, hl, lh⟩ := st
  apply Inv_client m _ lo brk hl lh bs bk hI
  intro c hc
  obtain ⟨s, ⟨b, hb, b1, b2, b3⟩, hs⟩ := hL p n hp
  by_cases hca : c = a
  · exact ⟨b, hb, b3, by omega, by (clear * - h2 hs b1 b2 hca; omega)⟩
  · exact absurd (if_neg hca) hc

/-- The invariant of the reachable states. -/
theorem Reach_inv (st : Heap) (live : List (Nat × Nat)) (hR : Reach st live) :
    ∃ bs bk, Inv st bs bk ∧ Live bs live := by
  induction hR with
  | init base m r st hb hinit =>
    obtain ⟨m1, bk1, e, hI⟩ := mm_init_spec base m hb
    rw [e] at hinit
    have := (Prod.mk.inj (Option.some.inj hinit)).2
    subst this
    exact ⟨_, bk1, hI, fun p n h => absurd h (List.not_mem_nil _)⟩
  | malloc st st1 live n p g _ h0 hn hm hp ih =>
    obtain ⟨bs, bk, hI, hL⟩ := ih
    obtain ⟨p1, st2, e, _, _, _, hnz⟩ := malloc_step st bs bk live hI hL n g h0 hn
    rw [e] at hm
    obtain ⟨rfl, rfl⟩ := Prod.mk.inj (Option.some.inj hm)
    obtain ⟨⟨bs1, bk1, hI1, hL1⟩, _⟩ := hnz hp
    exact ⟨bs1, bk1, hI1, hL1⟩
  | malloc_null st st1 live n g _ hn hm ih =>
    obtain ⟨bs, bk, hI, hL⟩ := ih
    rcases Nat.eq_zero_or_pos n with h0 | h0
    · subst h0
      rw [malloc_zero] at hm
      have := (Prod.mk.inj (Option.some.inj hm)).2
      subst this
      exact ⟨bs, bk, hI, hL⟩
    · obtain ⟨p1, st2, e, _, _, hz, _⟩ := malloc_step st bs bk live hI hL n g h0 hn
      rw [e] at hm
      obtain ⟨rfl, rfl⟩ := Prod.mk.inj (Option.some.inj hm)
      rw [(hz rfl).1]
      exact ⟨bs, bk, hI, hL⟩
  | free st st1 live p n _ hp hf ih =>
    obtain ⟨bs, bk, hI, hL⟩ := ih
    obtain ⟨st2, e, _, _, ⟨bs1, bk1, hI1, hL1, _⟩, _⟩ := free_step st bs bk live hI hL p n hp
    rw [e] at hf
    have := Option.some.inj hf
    subst this
    exact ⟨bs1, bk1, hI1, hL1⟩
  | store st live p n a v _ hp h1 h2 ih =>
    obtain ⟨bs, bk, hI, hL⟩ := ih
    exact ⟨bs, bk, store_step st bs bk live hI hL p n a v hp h1 h2, hL⟩


theorem Linked_length : ∀ (bs : List Blk) (a pa e : Nat), Linked a pa bs e →
    a + 32 * bs.length ≤ e
  | [], a, pa, e, h => by
    simp only [Linked] at h
    simp only [List.length_nil]; omega
  | c :: bs, a, pa, e, h => by
    simp only [Linked] at h
    have := Linked_length bs _ _ _ h.2.2.2.2.2
    simp only [List.length_cons]; omega

theorem chain_loop_spec (m : Nat → Nat) (lo brk hl lh x : Nat)
    (hb : brk < 9223372036854775808) (hx : x ≤ 1) (he : rd64 m (brk - 8) = 2 * x + 1) :
    ∀ (bs : List Blk) (fuel a pa : Nat), Linked a pa bs brk → pa ≤ 1 → lo + 8 ≤ a →
      (∀ b, b ∈ bs → rd64 m (b.addr - 8) = b.size + 2 * b.palloc + b.alloc) →
      bs.length < fuel →
      chain_loop ⟨m, lo, brk, hl, lh⟩ fuel a = some (bs.map Blk.addr)
  | [], fuel, a, pa, hL, _, ha, _, hf => by
    simp only [Linked] at hL
    subst hL
    obtain ⟨r1, _, r3, _, _⟩ := hdr_reads m lo a hl lh a 0 x 1 ha (Nat.le_refl a) hb
      (by rw [he]; omega) rfl hx (Nat.le_refl 1)
    cases fuel with
    | zero => simp at hf
    | succ f =>
      rw [chain_loop, r1, r3, andThen_some, if_neg (by omega)]
      rfl
  | c :: bs, fuel, a, pa, hL, hpa, ha, hh, hf => by
    have hle := Linked_mem _ _ _ _ hL hpa c (List.mem_cons_self _ _)
    simp only [Linked] at hL
    obtain ⟨l1, l2, l3, l4, l5, l6⟩ := hL
    have hc := hh c (List.mem_cons_self _ _)
    obtain ⟨r1, _, r3, _, _⟩ := hdr_reads m lo brk hl lh c.addr c.size c.palloc c.alloc
      (by omega) (by omega) hb hc (by omega) (by omega) l3
    have r6 := NEXT_BLK_hdr m lo brk hl lh c.addr c.size c.palloc c.alloc (by omega) hb hc
      (by omega) (by omega) l3 (by omega)
    cases fuel with
    | zero => simp at hf
    | succ f =>
      simp only [List.length_cons] at hf
      subst l1
      rw [chain_loop, r1, r3, andThen_some, if_pos (by omega), r6, andThen_some,
        chain_loop_spec m lo brk hl lh x hb hx he bs f _ _ l6 l3 (by omega)
          (fun b hb1 => hh b (List.mem_cons_of_mem _ hb1)) (by omega), andThen_some]
      rfl

/-- The block-chain walk visits exactly the blocks of the description. -/
theorem chain_spec (st : Heap) (bs : List Blk) (bk : Nat → List Nat) (hI : Inv st bs bk) :
    chain st = some (bs.map Blk.addr) := by
  obtain ⟨m, lo, brk, hl, lh⟩ := st
  have hC := hI.core
  have hE := hI.epi
  rw [Epi_iff] at hE
  have hhl : hl = lo + 160 := hC.hlp
  subst hhl
  have hlen := Linked_length _ _ _ _ hC.linked1
  have hla := lastAlloc_le _ _ _ _ hC.linked1 (Nat.le_refl 1)
  rw [chain]
  simp only
  exact chain_loop_spec m lo brk _ lh (lastAlloc 1 bs) hC.top1 hla hE bs _ _ 1 hC.linked1
    (Nat.le_refl 1) (by omega) (fun b hb => hC.hdr1 b hb) (by omega)

theorem list_loop_spec (m : Nat → Nat) (lo brk hl lh : Nat)
    (hb : brk < 9223372036854775808) :
    ∀ (l : List Nat) (fuel p cur : Nat), DLseg m p cur l 0 →
      (∀ x, x ∈ l → lo ≤ x ∧ x + 8 ≤ brk) → l.length < fuel →
      list_loop ⟨m, lo, brk, hl, lh⟩ fuel cur = some l
  | [], fuel, p, cur, hdl, _, hf => by
    simp only [DLseg] at hdl
    subst hdl
    cases fuel with
    | zero => simp at hf
    | succ f => simp [list_loop, NULL]
  | x :: xs, fuel, p, cur, hdl, hbd, hf => by
    simp only [DLseg] at hdl
    obtain ⟨h1, h2, h3, h4⟩ := hdl
    subst h1
    have hx := hbd cur (List.mem_cons_self _ _)
    cases fuel with
    | zero => simp at hf
    | succ f =>
      simp only [List.length_cons] at hf
      rw [list_loop]
      simp only [NULL]
      rw [if_pos h2, N_ADD_eq, GET_mk _ _ _ _ _ _ (by omega) (by omega), andThen_some,
        list_loop_spec m lo brk hl lh hb xs f cur _ h4
          (fun y hy => hbd y (List.mem_cons_of_mem _ hy)) (by omega), andThen_some]

/-- The walk of size-class list `i` visits exactly the members of the description. -/
theorem seglist_spec (st : Heap) (bs : List Blk) (bk : Nat → List Nat) (hI : Inv st bs bk)
    (i : Nat) (hi : i < 16) : seglist st i = some (bk i) := by
  obtain ⟨m, lo, brk, hl, lh⟩ := st
  have hC := hI.core
  have htop := hC.top1
  have hlh : lh = lo := hC.lhp
  subst hlh
  have hle := Linked_le _ _ _ _ hC.linked1
  have hbd : ∀ x, x ∈ bk i → lh + 160 ≤ x ∧ x < brk := by
    intro x hx
    obtain ⟨c, hc, h1, h2, h3, h4, h5, h6⟩ := hC.listed hi hx
    omega
  have hlen := nodup_length_le (bk i) (lh + 160) brk (hC.nodup i hi) hbd
  rw [seglist, root_mk _ _ _ _ _ _ (by omega), GET_mk _ _ _ _ _ _ (by omega) (by omega),
    andThen_some]
  simp only
  exact list_loop_spec m lh brk hl lh htop (bk i) _ 0 _ (hC.dl1 i hi)
    (fun x hx => by
      obtain ⟨c, hc, h1, h2, h3, h4, h5, h6⟩ := hC.listed hi hx
      omega) (by (clear * - hle hlen; omega))

theorem seglists_from_spec (st : Heap) (bs : List Blk) (bk : Nat → List Nat)
    (hI : Inv st bs bk) : ∀ (n i : Nat), i + n ≤ 16 →
      seglists_from st n i = some ((List.range n).map fun j => bk (i + j))
  | 0, i, _ => rfl
  | n + 1, i, h => by
    rw [seglists_from, seglist_spec st bs bk hI i (by omega), andThen_some,
      seglists_from_spec st bs bk hI n (i + 1) (by omega), andThen_some,
      List.range_succ_eq_map, List.map_cons, List.map_map]
    simp only [Nat.add_zero]
    congr 2
    apply List.map_congr_left
    intro j _
    simp only [Function.comp, Nat.succ_eq_add_one]
    congr 1
    omega

theorem seglists_spec (st : Heap) (bs : List Blk) (bk : Nat → List Nat)
    (hI : Inv st bs bk) : seglists st = some ((List.range 16).map bk) := by
  rw [seglists, show SEGLISTNUM = 16 from rfl, seglists_from_spec st bs bk hI 16 0 (by omega)]
  congr 2
  funext j
  rw [Nat.zero_add]


theorem PUT_none (m : Nat → Nat) (lo brk hl lh p v : Nat) (h : brk < p + 8) :
    PUT ⟨m, lo, brk, hl, lh⟩ p v = none := by
  unfold PUT
  rw [if_neg]
  simp only; omega

/-- A heap without free blocks: the epilogue says its predecessor is allocated
and the first root slot is empty. -/
theorem no_free_facts (m : Nat → Nat) (lo brk hl lh : Nat) (bs : List Blk)
    (bk : Nat → List Nat) (hI : Inv ⟨m, lo, brk, hl, lh⟩ bs bk)
    (hno : ∀ c, c ∈ bs → c.alloc = 1) :
    rd64 m (brk - 8) = 0 + 2 * 1 + 1 ∧ rd64 m (lo + 8 * 0) = 0 ∧ lo + 160 ≤ brk ∧
      brk < 9223372036854775808 ∧ lh = lo := by
  have hC := hI.core
  have hE := hI.epi
  rw [Epi_iff] at hE
  have hla : lastAlloc 1 bs = 1 := by
    have h1 := lastAlloc_le _ _ _ _ hC.linked1 (Nat.le_refl 1)
    by_contra hne
    obtain ⟨pre1, pb, h2, h3⟩ := lastAlloc_zero bs (by omega)
    have := hno pb (by rw [h2]; simp)
    omega
  have hb0 : bk 0 = [] := by
    rcases List.eq_nil_or_concat (bk 0) with h | ⟨L, x, h⟩
    · exact h
    · exfalso
      obtain ⟨c, hc, _, h2, _⟩ := hC.listed (by omega : 0 < 16)
        (show x ∈ bk 0 by rw [h]; simp)
      have := hno c hc
      omega
  have hd := hC.dl1 0 (by omega)
  rw [hb0] at hd
  simp only [DLseg] at hd
  refine ⟨by rw [hE, hla], hd, Linked_le _ _ _ _ hC.linked1, hC.top1, hC.lhp⟩

theorem extend_heap_zero (m : Nat → Nat) (lo brk hl : Nat)
    (he : rd64 m (brk - 8) = 0 + 2 * 1 + 1) (hr : rd64 m (lo + 8 * 0) = 0)
    (hle : lo + 160 ≤ brk) (htop : brk < 9223372036854775808) :
    extend_heap ⟨m, lo, brk, hl, lo⟩ 0 true = none := by
  have hs : mem_sbrk ⟨m, lo, brk, hl, lo⟩ 0 true = (brk, ⟨m, lo, brk, hl, lo⟩) := by
    simp only [mem_sbrk, LONG_LIM]
    rw [if_pos ⟨trivial, by omega⟩]
    rfl
  obtain ⟨r1, _, _, _, r5⟩ := hdr_reads m lo brk hl lo brk 0 1 1
    (by omega) (by omega) htop he (by omega) (by omega) (by omega)
  have hh1 : rd64 (wr64 m (brk - 8) 2) (brk - 8) = 0 + 2 * 1 + 0 :=
    rd64_wr64_at _ _ _ _ rfl (by omega)
  obtain ⟨_, q2, q3, _, _⟩ := hdr_reads (wr64 m (brk - 8) 2) lo brk hl lo brk 0 1 0
    (by omega) (by omega) htop hh1 (by omega) (by omega) (by omega)
  have hf : FTRP ⟨wr64 m (brk - 8) 2, lo, brk, hl, lo⟩ brk = some (brk - 16) := by
    rw [FTRP, r1, q3]
    simp only [Option.map_some', DSIZE, W64]
    exact congrArg some (by (clear * - hle htop; omega))
  have hp : PACK 0 (2 * 1) = 2 := by decide
  rw [extend_heap, hs]
  dsimp only
  rw [if_neg (by simp only [LONG_LIM]; omega), r1, r5, andThen_some, hp,
    PUT_mk _ _ _ _ _ _ _ (by omega) (by omega), andThen_some, hf, andThen_some, q2,
    andThen_some, PUT_mk _ _ _ _ _ _ _ (by omega) (by omega), andThen_some]
  rw [addtoSeg]
  rw [show getlistNum 0 = 0 from rfl, root_mk _ _ _ _ _ _ (by omega),
    GET_mk _ _ _ _ _ _ (by omega) (by omega), andThen_some]
  simp (disch := omega) only [rd64_wr64_other]
  rw [hr, if_pos (show (0 : Nat) = NULL from rfl), PUT_ADDRESS_mk _ _ _ _ _ _ _ (by omega) (by omega), andThen_some,
    N_ADD_eq, PUT_ADDRESS, PUT_none _ _ _ _ _ _ _ (by omega)]
  rfl

theorem extend_heap_sixteen (m : Nat → Nat) (lo brk hl : Nat)
    (he : rd64 m (brk - 8) = 0 + 2 * 1 + 1) (hr : rd64 m (lo + 8 * 0) = 0)
    (hle : lo + 160 ≤ brk) (htop : brk + 16 < 9223372036854775808) :
    ∃ h1, extend_heap ⟨m, lo, brk, hl, lo⟩ 16 true = some (brk, h1) := by
  have hs : mem_sbrk ⟨m, lo, brk, hl, lo⟩ 16 true = (brk, ⟨m, lo, brk + 16, hl, lo⟩) := by
    simp only [mem_sbrk, LONG_LIM]
    rw [if_pos ⟨trivial, by omega⟩]
  obtain ⟨r1, _, _, _, r5⟩ := hdr_reads m lo (brk + 16) hl lo brk 0 1 1
    (by omega) (by omega) htop he (by omega) (by omega) (by omega)
  have hh1 : rd64 (wr64 m (brk - 8) 18) (brk - 8) = 16 + 2 * 1 + 0 :=
    rd64_wr64_at _ _ _ _ rfl (by omega)
  obtain ⟨_, q2, q3, _, _⟩ := hdr_reads (wr64 m (brk - 8) 18) lo (brk + 16) hl lo brk 16 1 0
    (by omega) (by omega) htop hh1 (by omega) (by omega) (by omega)
  have hf := FTRP_hdr (wr64 m (brk - 8) 18) lo (brk + 16) hl lo brk 16 1 0 (by omega) htop hh1
    (by omega) (by omega) (by omega) (by omega) (by omega)
  have hp : PACK 16 (2 * 1) = 18 := by decide
  have hp01 : PACK 0 1 = 1 := by decide
  rw [extend_heap, hs]
  dsimp only
  rw [if_neg (by simp only [LONG_LIM]; omega), r1, r5, andThen_some, hp,
    PUT_mk _ _ _ _ _ _ _ (by omega) (by omega), andThen_some, hf, andThen_some, q2,
    andThen_some, PUT_mk _ _ _ _ _ _ _ (by omega) (by omega), andThen_some]
  rw [addtoSeg]
  rw [show getlistNum 16 = 0 from rfl, root_mk _ _ _ _ _ _ (by omega),
    GET_mk _ _ _ _ _ _ (by omega) (by omega), andThen_some]
  simp (disch := omega) only [rd64_wr64_other]
  rw [hr, if_pos (show (0 : Nat) = NULL from rfl), PUT_ADDRESS_mk _ _ _ _ _ _ _ (by omega) (by omega), andThen_some,
    N_ADD_eq, PUT_ADDRESS_mk _ _ _ _ _ _ _ (by omega) (by omega), andThen_some,
    P_ADD_eq _ (by omega), PUT_ADDRESS_mk _ _ _ _ _ _ _ (by omega) (by omega), andThen_some]
  simp only [NULL]
  have hh3 : ∀ mm : Nat → Nat, (∀ c, brk - 8 ≤ c → c < brk → mm c = wr64 m (brk - 8) 18 c) →
      rd64 mm (brk - 8) = 16 + 2 * 1 + 0 := by
    intro mm hmm
    rw [rd64_congr _ _ _ (fun c h1 h2 => hmm c h1 (by omega)), hh1]
  have hh4 := hh3 (wr64 (wr64 (wr64 (wr64 (wr64 m (brk - 8) 18) (brk + 16 - 16) (16 + 2 * 1 + 0))
      (lo + 8 * 0) brk) brk 0) (brk + 8) 0) (by
    intro c h1 h2
    rw [wr64_other _ _ _ _ (by omega), wr64_other _ _ _ _ (by omega),
      wr64_other _ _ _ _ (by omega), wr64_other _ _ _ _ (by omega)])
  rw [NEXT_BLK_hdr _ lo (brk + 16) hl lo brk 16 1 0 (by omega) htop hh4 (by omega) (by omega)
    (by omega) (by omega), andThen_some, HDRP_eq _ (by omega) (by omega), hp01,
    PUT_mk _ _ _ _ _ _ _ (by omega) (by omega), andThen_some]
  have hh5 := hh3 (wr64 (wr64 (wr64 (wr64 (wr64 (wr64 m (brk - 8) 18) (brk + 16 - 16)
      (16 + 2 * 1 + 0)) (lo + 8 * 0) brk) brk 0) (brk + 8) 0) (brk + 16 - 8) 1) (by
    intro c h1 h2
    rw [wr64_other _ _ _ _ (by omega), wr64_other _ _ _ _ (by omega),
      wr64_other _ _ _ _ (by omega), wr64_other _ _ _ _ (by (clear * - hle h1; omega)),
      wr64_other _ _ _ _ (by omega)])
  obtain ⟨_, _, s3, _, s5⟩ := hdr_reads _ lo (brk + 16) hl lo brk 16 1 0
    (by omega) (by omega) htop hh5 (by omega) (by omega) (by omega)
  have hh6 : rd64 (wr64 (wr64 (wr64 (wr64 (wr64 (wr64 m (brk - 8) 18) (brk + 16 - 16)
      (16 + 2 * 1 + 0)) (lo + 8 * 0) brk) brk 0) (brk + 8) 0) (brk + 16 - 8) 1)
      (brk + 16 - 8) = 0 + 2 * 0 + 1 := rd64_wr64_at _ _ _ _ rfl (by omega)
  obtain ⟨t1, _, _, t4, _⟩ := hdr_reads _ lo (brk + 16) hl lo (brk + 16) 0 0 1
    (by omega) (by omega) htop hh6 (by omega) (by omega) (by omega)
  rw [coalesce, r1, s5, andThen_some,
    NEXT_BLK_hdr _ lo (brk + 16) hl lo brk 16 1 0 (by omega) htop hh5 (by omega) (by omega)
      (by omega) (by omega), andThen_some, t1, t4, andThen_some, s3, andThen_some,
    if_pos ⟨by omega, by omega⟩]
  exact ⟨_, rfl⟩


theorem adjust_mod (n : Nat) : adjust n % 16 = 0 := by
  unfold adjust DSIZE W64
  omega

/-- For every request size: `malloc` returns `NULL` only when the provider
refuses the extension, and then the state is the one before the call. -/
theorem malloc_null_only (m : Nat → Nat) (lo brk hl lh : Nat) (bs : List Blk)
    (bk : Nat → List Nat) (hI : Inv ⟨m, lo, brk, hl, lh⟩ bs bk) (n : Nat) (g : Bool)
    (st1 : Heap) (h0 : 0 < n) (hm : malloc ⟨m, lo, brk, hl, lh⟩ n g = some (0, st1)) :
    ¬ (g = true ∧ brk + adjust n < 9223372036854775808) ∧ st1 = ⟨m, lo, brk, hl, lh⟩ := by
  have a1 := adjust_mod n
  obtain ⟨r, e1, hr⟩ := find_spec m lo brk hl lh bs bk hI (adjust n)
  rw [malloc, if_neg (by omega)] at hm
  simp only [NULL] at hm
  rw [e1, andThen_some] at hm
  rcases hr with ⟨hr0, hnofit⟩ | ⟨hr0, _⟩
  · rw [if_neg (by omega)] at hm
    by_cases href : g = true ∧ brk + adjust n < 9223372036854775808
    · exfalso
      obtain ⟨hg, htop⟩ := href
      subst hg
      by_cases hbig : 32 ≤ adjust n
      · obtain ⟨m5, bs5, bk5, c, e5, hI5, hc1, _⟩ := extend_heap_spec m lo brk hl lh (adjust n)
          bs bk hI hbig a1 htop
        have hcb := hI5.core.blk hc1
        rw [e5, andThen_some] at hm
        simp only at hm
        rw [if_neg (by omega), andThen_eq_some] at hm
        obtain ⟨a, _, ha⟩ := hm
        have := (Prod.mk.inj (Option.some.inj ha)).1
        omega
      · have hno : ∀ c, c ∈ bs → c.alloc = 1 := by
          intro c hc
          have h1 := hI.core.blk hc
          have h2 := hnofit c hc
          (clear * - hbig h1 h2; omega)
        obtain ⟨f1, f2, f3, f4, f5⟩ := no_free_facts m lo brk hl lh bs bk hI hno
        subst f5
        have hcase : adjust n = 0 ∨ adjust n = 16 := by (clear * - a1 hbig; omega)
        rcases hcase with hz | hz
        · rw [hz, extend_heap_zero m lh brk hl f1 f2 f3 f4] at hm
          simp at hm
        · rw [hz] at hm htop
          obtain ⟨h1, e6⟩ := extend_heap_sixteen m lh brk hl f1 f2 f3 htop
          rw [e6, andThen_some] at hm
          simp only at hm
          rw [if_neg (by omega), andThen_eq_some] at hm
          obtain ⟨a, _, ha⟩ := hm
          have := (Prod.mk.inj (Option.some.inj ha)).1
          omega
    · rw [extend_heap_refused m lo brk hl lh (adjust n) g href, andThen_some] at hm
      simp only at hm
      rw [if_pos trivial] at hm
      exact ⟨href, ((Prod.mk.inj (Option.some.inj hm)).2).symm⟩
  · exfalso
    rw [if_pos hr0, andThen_eq_some] at hm
    obtain ⟨a, _, ha⟩ := hm
    exact hr0 (Prod.mk.inj (Option.some.inj ha)).1


/-! ## A concrete run -/

set_option maxRecDepth 100000 in
theorem reach_run0 : Reach run0 [] :=
  Reach.init 4096 (fun _ => 0) true run0 (by decide) (by rfl)

set_option maxRecDepth 100000 in
theorem malloc_run0 : malloc run0 24 true = some (4256, run1) := by rfl

set_option maxRecDepth 100000 in
theorem reach_run1 : Reach run1 [(4256, 24)] :=
  Reach.malloc run0 run1 [] 24 4256 true reach_run0 (by decide) (by decide) malloc_run0
    (by decide)

set_option maxRecDepth 100000 in
theorem malloc_run1 : malloc run1 100 true = some (4304, run2) := by rfl

set_option maxRecDepth 100000 in
theorem reach_run2 : Reach run2 [(4304, 100), (4256, 24)] :=
  Reach.malloc run1 run2 [(4256, 24)] 100 4304 true reach_run1 (by decide) (by decide)
    malloc_run1 (by decide)

set_option maxRecDepth 100000 in
theorem free_run2 : free run2 4256 = some run3 := by rfl

set_option maxRecDepth 100000 in
theorem reach_run3 : Reach run3 [(4304, 100)] :=
  Reach.free run2 run3 [(4304, 100), (4256, 24)] 4256 24 reach_run2 (by decide) free_run2

theorem reach_fill (live : List (Nat × Nat)) (p n : Nat) (hp : (p, n) ∈ live) :
    ∀ (vs : List Nat) (st : Heap) (a : Nat), p ≤ a → a + vs.length ≤ p + n → Reach st live →
      Reach (fill st a vs) live
  | [], _, _, _, _, h => h
  | v :: vs, st, a, h1, h2, h => by
    simp only [List.length_cons] at h2
    rw [fill]
    exact reach_fill live p n hp vs (poke st a v) (a + 1) (by omega) (by omega)
      (Reach.store st live p n a v h hp h1 (by omega))

set_option maxRecDepth 100000 in
theorem malloc_run20 :
    malloc run0 20 true = some (4256, stateOr run0 (malloc run0 20 true)) := by rfl

set_option maxRecDepth 100000 in
theorem reach_run20 : Reach run20 [(4256, 20)] :=
  reach_fill [(4256, 20)] 4256 20 (by decide) _ _ 4256 (by decide) (by decide)
    (Reach.malloc run0 _ [] 20 4256 true reach_run0 (by decide) (by decide) malloc_run20
      (by decide))


/-- C1: in a state reachable from a successful `mm_init` by valid client calls,
when `malloc (n)` with `n > 0` (and `n + 31` not wrapping) returns a non-null
pointer `p`, the range `[p, p + n)` lies inside the block whose header is at
`p - 8` (of size `s`, so the block is `[p - 8, p - 8 + s)`), lies within the
heap bounds, and is disjoint from the range of every other live allocation. -/
theorem malloc_range (st st1 : Heap) (live : List (Nat × Nat)) (n p : Nat) (g : Bool)
    (hR : Reach st live) (h0 : 0 < n) (hn : n + 31 < W64)
    (hm : malloc st n g = some (p, st1)) (hp : p ≠ NULL) :
    (∃ s, GET_SIZE st1 (HDRP p) = some s ∧ HDRP p + 8 = p ∧ p + n ≤ HDRP p + s) ∧
      st1.lo ≤ p ∧ p + n ≤ st1.brk ∧
      ∀ q k, (q, k) ∈ live → p + n ≤ q ∨ q + k ≤ p := by
  obtain ⟨bs, bk, hI, hL⟩ := Reach_inv st live hR
  obtain ⟨p1, st2, e, _, _, _, hnz⟩ := malloc_step st bs bk live hI hL n g h0 hn
  rw [e] at hm
  obtain ⟨rfl, rfl⟩ := Prod.mk.inj (Option.some.inj hm)
  obtain ⟨⟨bs1, bk1, hI1, hL1⟩, hdis, _⟩ := hnz hp
  obtain ⟨s, ⟨b, hb, b1, b2, b3⟩, hs⟩ := hL1 p1 n (List.mem_cons_self _ _)
  obtain ⟨m1, lo1, brk1, hl1, lh1⟩ := st2
  obtain ⟨f1, _, f3, f4, _, f6⟩ := live_facts m1 lo1 brk1 hl1 lh1 bs1 bk1 hI1 p1 s 1
    ⟨b, hb, b1, b2, b3⟩
  have hh := HDRP_eq p1 (by omega) (by omega)
  refine ⟨⟨s, f1, by (clear * - f3 hh; omega), by (clear * - hs hh; omega)⟩, by simp only; omega, by simp only; omega, hdis⟩

set_option maxRecDepth 100000 in
theorem malloc_range_witness :
    (∃ s, GET_SIZE run2 (HDRP 4304) = some s ∧ HDRP 4304 + 8 = 4304 ∧
        4304 + 100 ≤ HDRP 4304 + s) ∧
      run2.lo ≤ 4304 ∧ 4304 + 100 ≤ run2.brk ∧
      ∀ q k, (q, k) ∈ [(4256, 24)] → 4304 + 100 ≤ q ∨ q + k ≤ 4304 :=
  malloc_range run1 run2 [(4256, 24)] 100 4304 true reach_run1 (by decide) (by decide)
    malloc_run1 (by decide)

/-- C2: for a live allocation `(p, n)` in a reachable state, every call
`malloc (k)` (non-wrapping) and every `free (q)` of another live pointer returns
and leaves every byte of `[p, p + n)` unchanged. -/
theorem live_bytes_kept (st : Heap) (live : List (Nat × Nat)) (p n : Nat)
    (hR : Reach st live) (hp : (p, n) ∈ live) :
    (∀ k g, k + 31 < W64 → ∃ r st1, malloc st k g = some (r, st1) ∧
        ∀ c, p ≤ c → c < p + n → st1.mem c = st.mem c) ∧
      (∀ q k, (q, k) ∈ live → q ≠ p → ∃ st1, free st q = some st1 ∧
        ∀ c, p ≤ c → c < p + n → st1.mem c = st.mem c) := by
  obtain ⟨bs, bk, hI, hL⟩ := Reach_inv st live hR
  constructor
  · intro k g hk
    rcases Nat.eq_zero_or_pos k with h0 | h0
    · subst h0
      exact ⟨NULL, st, malloc_zero st g, fun _ _ _ => rfl⟩
    · obtain ⟨r, st1, e, _, _, hz, hnz⟩ := malloc_step st bs bk live hI hL k g h0 hk
      refine ⟨r, st1, e, ?_⟩
      by_cases hr : r = 0
      · rw [(hz hr).1]
        exact fun _ _ _ => rfl
      · exact (hnz hr).2.2 p n hp
  · intro q k hq hne
    obtain ⟨st1, e, _, _, _, hfr⟩ := free_step st bs bk live hI hL q k hq
    exact ⟨st1, e, hfr p n hp (fun h => hne h.symm)⟩

set_option maxRecDepth 100000 in
theorem live_bytes_kept_witness :
    (∀ k g, k + 31 < W64 → ∃ r st1, malloc run2 k g = some (r, st1) ∧
        ∀ c, 4304 ≤ c → c < 4304 + 100 → st1.mem c = run2.mem c) ∧
      (∀ q k, (q, k) ∈ [(4304, 100), (4256, 24)] → q ≠ 4304 →
        ∃ st1, free run2 q = some st1 ∧
          ∀ c, 4304 ≤ c → c < 4304 + 100 → st1.mem c = run2.mem c) :=
  live_bytes_kept run2 [(4304, 100), (4256, 24)] 4304 100 reach_run2 (by decide)

/-- C3: when the first address granted by the provider (the low bound `lo` of
the heap, which no operation changes) is a multiple of 16, then in every
reachable state every non-null pointer returned by `malloc` (non-wrapping
request) is a multiple of 16, and so is the payload address of every block
visited by the walk of the block chain. -/
theorem payload_aligned (st : Heap) (live : List (Nat × Nat)) (hR : Reach st live)
    (ha : st.lo % 16 = 0) :
    (∀ n g p st1, n + 31 < W64 → malloc st n g = some (p, st1) → p ≠ NULL → p % 16 = 0) ∧
      ∃ l, chain st = some l ∧ ∀ a, a ∈ l → a % 16 = 0 := by
  obtain ⟨bs, bk, hI, hL⟩ := Reach_inv st live hR
  have hal : ∀ (s : Heap) (cs : List Blk) (ck : Nat → List Nat), Inv s cs ck →
      s.lo % 16 = 0 → ∀ d, d ∈ cs → d.addr % 16 = 0 := by
    intro s cs ck hJ hs
    obtain ⟨m, lo, brk, hl, lh⟩ := s
    simp only at hs
    exact Linked_aligned cs _ 1 _ hJ.core.linked1 (by (clear * - hs; omega))
  constructor
  · intro n g p st1 hn hm hp
    rcases Nat.eq_zero_or_pos n with h0 | h0
    · subst h0
      rw [malloc_zero] at hm
      exact absurd (Prod.mk.inj (Option.some.inj hm)).1.symm hp
    · obtain ⟨p1, st2, e, hlo, _, _, hnz⟩ := malloc_step st bs bk live hI hL n g h0 hn
      rw [e] at hm
      obtain ⟨rfl, rfl⟩ := Prod.mk.inj (Option.some.inj hm)
      obtain ⟨⟨bs1, bk1, hI1, hL1⟩, _⟩ := hnz hp
      obtain ⟨s, ⟨b, hb, b1, _⟩, _⟩ := hL1 p1 n (List.mem_cons_self _ _)
      rw [← b1]
      exact hal st2 bs1 bk1 hI1 (by rw [hlo]; exact ha) b hb
  · refine ⟨_, chain_spec st bs bk hI, ?_⟩
    intro a hmem
    obtain ⟨d, hd, rfl⟩ := List.mem_map.1 hmem
    exact hal st bs bk hI ha d hd

set_option maxRecDepth 100000 in
theorem payload_aligned_witness :
    (∀ n g p st1, n + 31 < W64 → malloc run3 n g = some (p, st1) → p ≠ NULL → p % 16 = 0) ∧
      ∃ l, chain run3 = some l ∧ ∀ a, a ∈ l → a % 16 = 0 :=
  payload_aligned run3 [(4304, 100)] reach_run3 (by decide)

/-- C4: `malloc (0)` returns `NULL` and leaves the state unchanged; in a
reachable state, for every `n > 0`, `malloc (n)` returns `NULL` only when the
provider refuses the extension request (`mem_sbrk` answers `(void *)-1`), and
then the whole state (heap contents, list heads, bounds) is the one before the
call; and for a request that does not wrap, `malloc` does return. -/
theorem malloc_null_only_when_refused (st : Heap) (live : List (Nat × Nat))
    (hR : Reach st live) :
    (∀ g, malloc st 0 g = some (NULL, st)) ∧
      (∀ n g st1, 0 < n → malloc st n g = some (NULL, st1) →
        (mem_sbrk st (adjust n) g).1 = W64 - 1 ∧ st1 = st) ∧
      (∀ n g, n + 31 < W64 → ∃ p st1, malloc st n g = some (p, st1)) := by
  obtain ⟨bs, bk, hI, hL⟩ := Reach_inv st live hR
  refine ⟨malloc_zero st, ?_, ?_⟩
  · intro n g st1 h0 hm
    obtain ⟨m, lo, brk, hl, lh⟩ := st
    obtain ⟨h1, h2⟩ := malloc_null_only m lo brk hl lh bs bk hI n g st1 h0 hm
    refine ⟨?_, h2⟩
    simp only [mem_sbrk, LONG_LIM]
    rw [if_neg h1]
  · intro n g hn
    rcases Nat.eq_zero_or_pos n with h0 | h0
    · subst h0
      exact ⟨NULL, st, malloc_zero st g⟩
    · obtain ⟨p, st1, e, _⟩ := malloc_step st bs bk live hI hL n g h0 hn
      exact ⟨p, st1, e⟩

set_option maxRecDepth 100000 in
theorem malloc_null_only_when_refused_witness :
    (∀ g, malloc run2 0 g = some (NULL, run2)) ∧
      (∀ n g st1, 0 < n → malloc run2 n g = some (NULL, st1) →
        (mem_sbrk run2 (adjust n) g).1 = W64 - 1 ∧ st1 = run2) ∧
      (∀ n g, n + 31 < W64 → ∃ p st1, malloc run2 n g = some (p, st1)) :=
  malloc_null_only_when_refused run2 [(4304, 100), (4256, 24)] reach_run2

/-- C5: `free (NULL)` is not a no-op in the code: `NEXT_BLK (ptr)` is evaluated
before the null test, which reads the word at `HDRP NULL`, the address
`2^64 - 8`; on every heap ending below `2^64` this read is outside the heap,
so the checked read fails and `free` has no result. -/
theorem free_null_reads_outside (h : Heap) (hb : h.brk < W64) :
    HDRP NULL = W64 - 8 ∧ GET h (HDRP NULL) = none ∧ free h NULL = none := by
  have h1 : HDRP NULL = W64 - 8 := by decide
  have h2 : GET h (W64 - 8) = none := by
    unfold GET
    rw [if_neg]
    simp only [W64] at hb ⊢
    omega
  refine ⟨h1, by rw [h1]; exact h2, ?_⟩
  have h3 : NEXT_BLK h NULL = none := by
    unfold NEXT_BLK GET_SIZE
    rw [show (NULL + W64 - WSIZE) % W64 = W64 - 8 from by decide, h2]
    rfl
  rw [free, h3]
  rfl

set_option maxRecDepth 100000 in
theorem free_null_reads_outside_witness :
    run0.brk < W64 ∧ HDRP NULL = W64 - 8 ∧ GET run0 (HDRP NULL) = none ∧
      free run0 NULL = none :=
  ⟨by decide, free_null_reads_outside run0 (by decide)⟩

/-- C6: `mm_init` never reports failure: whatever the provider answers, the
value it returns is `true`, because each failure path returns `-1`, which as a
`bool` is `true`. -/
theorem mm_init_never_false (h : Heap) (g1 g2 g3 : Bool) (r : Bool) (st : Heap)
    (hm : mm_init h g1 g2 g3 = some (r, st)) : r = true := by
  have ht : toBool (-1) = true := by decide
  rw [mm_init] at hm
  dsimp only at hm
  split at hm
  · rw [ht] at hm
    exact ((Prod.mk.inj (Option.some.inj hm)).1).symm
  · rw [andThen_eq_some] at hm
    obtain ⟨h1, _, hm⟩ := hm
    split at hm
    · rw [ht] at hm
      exact ((Prod.mk.inj (Option.some.inj hm)).1).symm
    · rw [andThen_eq_some] at hm
      obtain ⟨h2, _, hm⟩ := hm
      rw [andThen_eq_some] at hm
      obtain ⟨h3, _, hm⟩ := hm
      rw [andThen_eq_some] at hm
      obtain ⟨h4, _, hm⟩ := hm
      rw [andThen_eq_some] at hm
      obtain ⟨h5, _, hm⟩ := hm
      rw [andThen_eq_some] at hm
      obtain ⟨h6, _, hm⟩ := hm
      split at hm
      · rw [ht] at hm
        exact ((Prod.mk.inj (Option.some.inj hm)).1).symm
      · exact ((Prod.mk.inj (Option.some.inj hm)).1).symm

set_option maxRecDepth 100000 in
theorem mm_init_never_false_witness :
    mm_init (fresh 4096 (fun _ => 0)) true true false = some initRefused ∧
      initRefused.1 = true :=
  ⟨by rfl, mm_init_never_false (fresh 4096 (fun _ => 0)) true true false initRefused.1
    initRefused.2 (by rfl)⟩

/-- C7 fails for a request size whose adjustment wraps: for `n = 2^64 - 1` the
adjusted size is 16, below 32 and below `n + 16`. -/
theorem adjust_wraps :
    0 < W64 - 1 ∧ W64 - 1 < W64 ∧ adjust (W64 - 1) = 16 ∧ ¬ (32 ≤ adjust (W64 - 1)) ∧
      ¬ (W64 - 1 + 16 ≤ adjust (W64 - 1)) := by
  decide

/-- C7, amended: for every request size `n > 0` with `n + 31 < 2^64`, the
adjusted size that `malloc` computes is the least multiple of 16 that is at
least `n + 16`, and it is never below 32; and after a successful `mm_init`,
`malloc (16)` yields a block whose header size is 32. -/
theorem adjust_rounds_up :
    (∀ n, 0 < n → n + 31 < W64 →
      adjust n % 16 = 0 ∧ n + 16 ≤ adjust n ∧ 32 ≤ adjust n ∧
        ∀ k, k % 16 = 0 → n + 16 ≤ k → adjust n ≤ k) ∧
      (∀ base m r st g, base + 4256 < LONG_LIM →
        mm_init (fresh base m) true true true = some (r, st) →
        ∃ p st1, malloc st 16 g = some (p, st1) ∧ p ≠ NULL ∧
          GET_SIZE st1 (HDRP p) = some 32) := by
  constructor
  · intro n h0 hn
    obtain ⟨a1, a2, a3, a4⟩ := adjust_spec n h0 hn
    exact ⟨a1, a3, a2, fun k hk1 hk2 => by omega⟩
  · intro base m r st g hb hinit
    obtain ⟨m1, bk1, e, hI⟩ := mm_init_spec base m hb
    rw [e] at hinit
    have := (Prod.mk.inj (Option.some.inj hinit)).2
    subst this
    have had : adjust 16 = 32 := by decide
    obtain ⟨p, m2, brk2, e2, hz, hnz⟩ := malloc_sum m1 base (base + 4256) (base + 160) base _
      bk1 hI 16 g (by omega) (by omega)
    have hp : p ≠ 0 := by
      intro hp
      have := (hz hp).2.2.2 ⟨base + 160, 4096, 0, 1⟩ (List.mem_singleton.2 rfl) rfl
      rw [had] at this
      simp only at this
      omega
    obtain ⟨bs2, bk2, s, hI2, _, hiff, _, _, hcase⟩ := hnz hp
    have hs : s = 32 := by
      rcases hcase with ⟨_, c, hc, _, _, _, hs⟩ | ⟨_, _, hno⟩
      · rw [List.mem_singleton.1 hc, had] at hs
        rw [hs]
        rfl
      · have := hno ⟨base + 160, 4096, 0, 1⟩ (List.mem_singleton.2 rfl) rfl
        rw [had] at this
        simp only at this
        omega
    subst hs
    obtain ⟨b, hb1, hb2, hb3, hb4⟩ := (hiff p 32).2 (Or.inr ⟨rfl, rfl⟩)
    obtain ⟨f1, _⟩ := live_facts m2 base brk2 (base + 160) base bs2 bk2 hI2 p 32 1
      ⟨b, hb1, hb2, hb3, hb4⟩
    exact ⟨p, _, e2, hp, f1⟩

set_option maxRecDepth 100000 in
theorem adjust_rounds_up_witness :
    (adjust 16 % 16 = 0 ∧ 16 + 16 ≤ adjust 16 ∧ 32 ≤ adjust 16 ∧
        ∀ k, k % 16 = 0 → 16 + 16 ≤ k → adjust 16 ≤ k) ∧
      ∃ p st1, malloc run0 16 true = some (p, st1) ∧ p ≠ NULL ∧
        GET_SIZE st1 (HDRP p) = some 32 :=
  ⟨adjust_rounds_up.1 16 (by decide) (by decide),
    adjust_rounds_up.2 4096 (fun _ => 0) true run0 true (by decide) (by rfl)⟩


theorem Linked_adjacent : ∀ (bs : List Blk) (a pa e : Nat), Linked a pa bs e →
    ∀ (i : Nat) (x y : Blk), bs[i]? = some x → bs[i + 1]? = some y → y.palloc = x.alloc
  | [], _, _, _, _, i, x, y, hx, _ => by simp at hx
  | [c], _, _, _, _, i, x, y, _, hy => by simp at hy
  | c :: d :: bs, a, pa, e, h, i, x, y, hx, hy => by
    simp only [Linked] at h
    obtain ⟨_, _, _, _, _, l6, l7, l8⟩ := h
    cases i with
    | zero =>
      simp only [List.getElem?_cons_zero, Option.some.injEq, zero_add,
        List.getElem?_cons_succ] at hx hy
      subst hx hy
      exact l7
    | succ k =>
      simp only [List.getElem?_cons_succ] at hx hy
      have hL : Linked (a + c.size) c.alloc (d :: bs) e := by
        simp only [Linked]
        exact ⟨l6, l7, l8⟩
      exact Linked_adjacent (d :: bs) _ _ _ hL k x y hx (by simpa using hy)

theorem Linked_sorted : ∀ (bs : List Blk) (a pa e : Nat), Linked a pa bs e → pa ≤ 1 →
    (bs.map Blk.addr).Pairwise (fun x y => x < y)
  | [], _, _, _, _, _ => List.Pairwise.nil
  | c :: bs, a, pa, e, h, hp => by
    have hm := Linked_mem (c :: bs) a pa e h hp
    simp only [Linked] at h
    obtain ⟨l1, l2, l3, l4, l5, l6⟩ := h
    rw [List.map_cons, List.pairwise_cons]
    refine ⟨?_, Linked_sorted bs _ _ _ l6 l3⟩
    intro x hx
    obtain ⟨d, hd, rfl⟩ := List.mem_map.1 hx
    have := Linked_mem bs _ _ _ l6 l3 d hd
    omega

theorem chain_nodup {m : Nat → Nat} {lo brk hl lh : Nat} {bs : List Blk}
    {bk : Nat → List Nat} (hC : Core ⟨m, lo, brk, hl, lh⟩ bs bk) :
    (bs.map Blk.addr).Nodup :=
  (Linked_sorted bs _ 1 _ hC.linked1 (Nat.le_refl 1)).imp (fun h => Nat.ne_of_lt h)

/-- C8: in every reachable state the walk of the block chain, from the first
block to the epilogue, returns, and no two consecutive blocks it visits both
have the allocated bit of their header clear. -/
theorem no_adjacent_free (st : Heap) (live : List (Nat × Nat)) (hR : Reach st live) :
    ∃ l, chain st = some l ∧
      ∀ i a b, l[i]? = some a → l[i + 1]? = some b →
        ¬ (GET_ALLOC st (HDRP a) = some 0 ∧ GET_ALLOC st (HDRP b) = some 0) := by
  obtain ⟨bs, bk, hI, _⟩ := Reach_inv st live hR
  refine ⟨_, chain_spec st bs bk hI, ?_⟩
  intro i a b ha hb hab
  rw [List.getElem?_map] at ha hb
  obtain ⟨x, hx, rfl⟩ := Option.map_eq_some'.1 ha
  obtain ⟨y, hy, rfl⟩ := Option.map_eq_some'.1 hb
  obtain ⟨m, lo, brk, hl, lh⟩ := st
  have hxm := List.getElem?_mem hx
  have hym := List.getElem?_mem hy
  obtain ⟨_, fx, _⟩ := live_facts m lo brk hl lh bs bk hI x.addr x.size x.alloc
    ⟨x, hxm, rfl, rfl, rfl⟩
  obtain ⟨_, fy, _⟩ := live_facts m lo brk hl lh bs bk hI y.addr y.size y.alloc
    ⟨y, hym, rfl, rfl, rfl⟩
  rw [fx, fy] at hab
  have h1 : x.alloc = 0 := Option.some.inj hab.1
  have h2 : y.alloc = 0 := Option.some.inj hab.2
  have h3 := Linked_adjacent bs _ _ _ hI.core.linked1 i x y hx hy
  have h4 := hI.noadj y hym h2
  omega

set_option maxRecDepth 100000 in
theorem no_adjacent_free_witness :
    ∃ l, chain run3 = some l ∧
      ∀ i a b, l[i]? = some a → l[i + 1]? = some b →
        ¬ (GET_ALLOC run3 (HDRP a) = some 0 ∧ GET_ALLOC run3 (HDRP b) = some 0) :=
  no_adjacent_free run3 [(4304, 100)] reach_run3

/-- C9: in every reachable state the walks of the size-class lists and of the
block chain return, and the list members are exactly the free blocks of the
chain: every block of the chain whose header has the allocated bit clear
occurs exactly once over all lists, in the list with index `getlistNum` of
its header size; every list member is a block of the chain with the allocated
bit clear; hence the two free-block counts are equal. -/
theorem lists_match_chain (st : Heap) (live : List (Nat × Nat)) (hR : Reach st live) :
    ∃ ls l, seglists st = some ls ∧ chain st = some l ∧
      (∀ a, a ∈ l → GET_ALLOC st (HDRP a) = some 0 →
        ∃ s, GET_SIZE st (HDRP a) = some s ∧ ls.flatten.count a = 1 ∧
          a ∈ ls.getD (getlistNum s) []) ∧
      (∀ a, a ∈ ls.flatten → a ∈ l ∧ GET_ALLOC st (HDRP a) = some 0) ∧
      ls.flatten.length = (l.filter fun a => GET_ALLOC st (HDRP a) = some 0).length := by
  obtain ⟨bs, bk, hI, _⟩ := Reach_inv st live hR
  refine ⟨_, _, seglists_spec st bs bk hI, chain_spec st bs bk hI, ?_⟩
  obtain ⟨m, lo, brk, hl, lh⟩ := st
  have hC := hI.core
  have hfacts : ∀ b, b ∈ bs → GET_SIZE ⟨m, lo, brk, hl, lh⟩ (HDRP b.addr) = some b.size ∧
      GET_ALLOC ⟨m, lo, brk, hl, lh⟩ (HDRP b.addr) = some b.alloc := by
    intro b hb
    obtain ⟨f1, f2, _⟩ := live_facts m lo brk hl lh bs bk hI b.addr b.size b.alloc
      ⟨b, hb, rfl, rfl, rfl⟩
    exact ⟨f1, f2⟩
  have hmemj : ∀ a, a ∈ ((List.range 16).map bk).flatten ↔ ∃ i, i < 16 ∧ a ∈ bk i := by
    intro a
    simp only [List.mem_flatten, List.mem_map, List.mem_range]
    constructor
    · rintro ⟨l, ⟨i, hi, rfl⟩, ha⟩
      exact ⟨i, hi, ha⟩
    · rintro ⟨i, hi, ha⟩
      exact ⟨bk i, ⟨i, hi, rfl⟩, ha⟩
  have hnd : (((List.range 16).map bk).flatten).Nodup := by
    rw [List.nodup_flatten]
    constructor
    · intro l hl1
      obtain ⟨i, hi, rfl⟩ := List.mem_map.1 hl1
      exact hC.nodup i (List.mem_range.1 hi)
    · rw [List.pairwise_map]
      have hr : (List.range 16).Pairwise (fun i j => i < 16 ∧ j < 16 ∧ i < j) := by decide
      apply hr.imp
      intro i j ⟨hi, hj, hij⟩ x hx1 hx2
      obtain ⟨c, hc, c1, _, c3, _⟩ := hC.listed hi hx1
      obtain ⟨d, hd, d1, _, d3, _⟩ := hC.listed hj hx2
      have := Linked_addr_inj bs _ 1 _ hC.linked1 (Nat.le_refl 1) c d hc hd (by omega)
      subst this
      omega
  have hto : ∀ a, a ∈ ((List.range 16).map bk).flatten →
      a ∈ bs.map Blk.addr ∧ GET_ALLOC ⟨m, lo, brk, hl, lh⟩ (HDRP a) = some 0 := by
    intro a ha
    obtain ⟨i, hi, hai⟩ := (hmemj a).1 ha
    obtain ⟨c, hc, c1, c2, _⟩ := hC.listed hi hai
    subst c1
    exact ⟨List.mem_map.2 ⟨c, hc, rfl⟩, by rw [(hfacts c hc).2, c2]⟩
  have hfrom : ∀ a, a ∈ bs.map Blk.addr →
      GET_ALLOC ⟨m, lo, brk, hl, lh⟩ (HDRP a) = some 0 →
      ∃ b, b ∈ bs ∧ b.addr = a ∧ b.alloc = 0 ∧ a ∈ bk (getlistNum b.size) := by
    intro a ha h0
    obtain ⟨b, hb, rfl⟩ := List.mem_map.1 ha
    rw [(hfacts b hb).2] at h0
    have hb0 : b.alloc = 0 := Option.some.inj h0
    exact ⟨b, hb, rfl, hb0, hI.full b hb hb0⟩
  refine ⟨?_, hto, ?_⟩
  · intro a ha h0
    obtain ⟨b, hb, rfl, hb0, hin⟩ := hfrom a ha h0
    have hidx : getlistNum b.size < 16 := by have := getlistNum_lt b.size; omega
    refine ⟨b.size, (hfacts b hb).1, ?_, ?_⟩
    · exact List.count_eq_one_of_mem hnd ((hmemj _).2 ⟨_, hidx, hin⟩)
    · rw [List.getD_eq_getElem?_getD, List.getElem?_map, List.getElem?_range hidx]
      exact hin
  · apply List.Perm.length_eq
    rw [List.perm_ext_iff_of_nodup hnd ((chain_nodup hC).filter _)]
    intro a
    rw [List.mem_filter]
    constructor
    · intro ha
      obtain ⟨h1, h2⟩ := hto a ha
      exact ⟨h1, by simpa using h2⟩
    · rintro ⟨h1, h2⟩
      obtain ⟨b, hb, _, _, hin⟩ := hfrom a h1 (by simpa using h2)
      have hidx : getlistNum b.size < 16 := by have := getlistNum_lt b.size; omega
      exact (hmemj a).2 ⟨_, hidx, hin⟩

set_option maxRecDepth 100000 in
theorem lists_match_chain_witness :
    ∃ ls l, seglists run3 = some ls ∧ chain run3 = some l ∧
      (∀ a, a ∈ l → GET_ALLOC run3 (HDRP a) = some 0 →
        ∃ s, GET_SIZE run3 (HDRP a) = some s ∧ ls.flatten.count a = 1 ∧
          a ∈ ls.getD (getlistNum s) []) ∧
      (∀ a, a ∈ ls.flatten → a ∈ l ∧ GET_ALLOC run3 (HDRP a) = some 0) ∧
      ls.flatten.length = (l.filter fun a => GET_ALLOC run3 (HDRP a) = some 0).length :=
  lists_match_chain run3 [(4304, 100)] reach_run3

set_option maxRecDepth 100000 in
theorem malloc_run20_ten : malloc run20 10 true = some (4304, run21) := by rfl

set_option maxRecDepth 100000 in
theorem reach_runR3 : Reach runR3 [(8272, 50)] :=
  Reach.free runR2 runR3 [(8272, 50), (4256, 4000)] 4256 4000
    (Reach.malloc runR1 runR2 _ 50 8272 true
      (Reach.malloc run0 runR1 [] 4000 4256 true reach_run0 (by decide) (by decide) (by rfl)
        (by decide))
      (by decide) (by decide) (by rfl) (by decide))
    (by decide) (by rfl)

set_option maxRecDepth 100000 in
theorem malloc_runR3 : malloc runR3 3000 true = some (4256, runR4) ∧ runR4.brk = 8352 :=
  ⟨by rfl, by decide⟩

set_option maxRecDepth 100000 in
theorem malloc_run20_refused : malloc run20 5000 false = some (NULL, run20) ∧ 0 < run20.lo :=
  ⟨by rfl, by decide⟩

/-- A copy of at least one byte whose source range ends after the heap has no result. -/
theorem mem_memcpy_past (h : Heap) (dst src n : Nat) (h0 : 0 < n) (hs : h.brk < src + n) :
    mem_memcpy h dst src n = none := by
  unfold mem_memcpy
  rw [if_neg]
  intro hc
  rcases hc with hc | hc
  · omega
  · omega

/-- A copy of at least one byte to the null pointer has no result when the
heap does not start at address 0. -/
theorem mem_memcpy_null (h : Heap) (src n : Nat) (h0 : 0 < n) (hlo : 0 < h.lo) :
    mem_memcpy h NULL src n = none := by
  unfold mem_memcpy
  rw [if_neg]
  intro hc
  simp only [NULL] at hc
  rcases hc with hc | hc
  · omega
  · omega

/-- C10 holds only while the copy stays inside the heap: `realloc (p, n)` copies
`n` bytes from `p`, not `min m n`.  In a reachable state with a live
allocation `(p, m)`, let the `malloc (n)` inside `realloc (p, n)` return `p2`
and the heap `st1` (`n > 0`, not wrapping).  When `p2` is not null: if the `n`
bytes from `p` lie in the heap, which is so whenever `n ≤ m`, `realloc`
returns `p2`, the first `min m n` bytes at `p2` are the bytes that were at `p`
before the call, and afterwards, in the walk of the block chain, `p2` is a
block with the allocated bit set and `p` lies in a block with the allocated
bit clear; if they reach past the end of the heap, the copy reads outside the
heap and `realloc` has no result.  When `p2` is null, `realloc` copies to the
null pointer all the same and has no result. -/
theorem realloc_overreads (st st1 : Heap) (live : List (Nat × Nat)) (p m n p2 : Nat)
    (g : Bool) (hR : Reach st live) (hp : (p, m) ∈ live) (h0 : 0 < n) (hn : n + 31 < W64)
    (hm : malloc st n g = some (p2, st1)) :
    (p2 ≠ NULL →
      (n ≤ m → p + n ≤ st1.brk) ∧
      (p + n ≤ st1.brk →
        ∃ st2, realloc st p n g = some (p2, st2) ∧
          (∀ i, i < min m n → st2.mem (p2 + i) = st.mem (p + i)) ∧
          ∃ l, chain st2 = some l ∧ p2 ∈ l ∧ GET_ALLOC st2 (HDRP p2) = some 1 ∧
            ∃ a s, a ∈ l ∧ GET_ALLOC st2 (HDRP a) = some 0 ∧
              GET_SIZE st2 (HDRP a) = some s ∧ a ≤ p ∧ p < a + s) ∧
      (st1.brk < p + n → mem_memcpy st1 p2 p n = none ∧ realloc st p n g = none)) ∧
    (p2 = NULL → 0 < st1.lo → mem_memcpy st1 p2 p n = none ∧ realloc st p n g = none) := by
  obtain ⟨bs, bk, hI, hL⟩ := Reach_inv st live hR
  obtain ⟨mm, lo, brk, hl, lh⟩ := st
  obtain ⟨sp, hpa, hsp⟩ := hL p m hp
  have hpnz : p ≠ NULL := by
    obtain ⟨b0, hb0, c1, _, _⟩ := hpa
    have := hI.core.blk hb0
    simp only [NULL]
    omega
  have hnone : mem_memcpy st1 p2 p n = none → realloc ⟨mm, lo, brk, hl, lh⟩ p n g = none := by
    intro hcp
    rw [realloc, if_neg hpnz, hm, andThen_some]
    simp only
    rw [hcp, andThen_none]
  refine ⟨?_, ?_⟩
  swap
  · intro hz hlo
    have hcp : mem_memcpy st1 p2 p n = none := by
      rw [hz]
      exact mem_memcpy_null st1 p n h0 hlo
    exact ⟨hcp, hnone hcp⟩
  intro hp2
  obtain ⟨a1, a2, a3, a4⟩ := adjust_spec n h0 hn
  obtain ⟨q, m1, brk1, e, _, hnz⟩ := malloc_sum mm lo brk hl lh bs bk hI n g h0 hn
  rw [e] at hm
  obtain ⟨rfl, rfl⟩ := Prod.mk.inj (Option.some.inj hm)
  obtain ⟨bs1, bk1, s, hI1, hs, hiff, hnew, hfr, _⟩ := hnz hp2
  have hpa1 : IsAlloc bs1 p sp := (hiff p sp).2 (Or.inl hpa)
  have hqa1 : IsAlloc bs1 q s := (hiff q s).2 (Or.inr ⟨rfl, rfl⟩)
  have hne : q ≠ p := by
    intro h
    rw [h] at hnew
    exact hnew sp hpa
  have hdis := Live_disjoint hI1 hqa1 hpa1 hne
  obtain ⟨b, hb, b1, b2, b3⟩ := hpa1
  obtain ⟨d, hd, d1, d2, d3⟩ := hqa1
  have hbb := hI1.core.blk hb
  have hdb := hI1.core.blk hd
  refine ⟨fun hle => by simp only; omega, ?_, fun hpast => ?_⟩
  swap
  · have hcp := mem_memcpy_past ⟨m1, lo, brk1, hl, lh⟩ q p n h0 hpast
    exact ⟨hcp, hnone hcp⟩
  intro hin
  simp only at hin
  have hcp : mem_memcpy ⟨m1, lo, brk1, hl, lh⟩ q p n =
      some ⟨fun c => if q ≤ c ∧ c < q + n then m1 (p + (c - q)) else m1 c, lo, brk1, hl, lh⟩ := by
    unfold mem_memcpy
    rw [if_pos (Or.inr ⟨by simp only; omega, by simp only; omega, by simp only; omega,
      by simp only; omega⟩)]
  -- the copy only writes into the new allocation
  have hI2 : Inv ⟨fun c => if q ≤ c ∧ c < q + n then m1 (p + (c - q)) else m1 c, lo, brk1, hl,
      lh⟩ bs1 bk1 := by
    apply Inv_client m1 _ lo brk1 hl lh bs1 bk1 hI1
    intro c hc
    by_cases hin : q ≤ c ∧ c < q + n
    · exact ⟨d, hd, d3, by omega, by (clear * - a3 hs d1 d2 hin; omega)⟩
    · exact absurd (if_neg hin) hc
  obtain ⟨pre, post, hsplit⟩ := mem_split hb
  subst hsplit
  obtain ⟨m3, bs3, bk3, e3, hI3, hfr3, hiff3⟩ := free_spec _ lo brk1 hl lh pre post b bk1 hI2 b3
  rw [b1] at e3 hiff3 hfr3
  refine ⟨⟨m3, lo, brk1, hl, lh⟩, ?_, ?_, ?_⟩
  · rw [realloc, if_neg hpnz, e, andThen_some]
    simp only
    rw [hcp, andThen_some, e3, andThen_some]
  · intro i hi
    have hi1 : i < m := lt_of_lt_of_le hi (Nat.min_le_left m n)
    have hi2 : i < n := lt_of_lt_of_le hi (Nat.min_le_right m n)
    have h1 := hfr3 (q + i) ⟨d, hd, d3, by (clear * - hdis b2 d1 d2 hbb hdb; omega), by omega, by (clear * - a3 hs d1 d2 hi2; omega)⟩
    simp only at h1 ⊢
    rw [h1, if_pos ⟨by omega, by omega⟩, show q + i - q = i from by (clear * -; omega)]
    obtain ⟨b0, hb0, c1, c2, c3⟩ := hpa
    exact hfr (p + i) ⟨b0, hb0, c3, by omega, by (clear * - hsp hi1 c1 c2; omega)⟩
  · refine ⟨_, chain_spec _ bs3 bk3 hI3, ?_, ?_, ?_⟩
    · obtain ⟨x, hx, x1, _⟩ := (hiff3 q s).2 ⟨⟨d, hd, d1, d2, d3⟩, hne⟩
      exact List.mem_map.2 ⟨x, hx, x1⟩
    · obtain ⟨_, f2, _⟩ := live_facts m3 lo brk1 hl lh bs3 bk3 hI3 q s 1
        ((hiff3 q s).2 ⟨⟨d, hd, d1, d2, d3⟩, hne⟩)
      exact f2
    · obtain ⟨x, hx, x1, x2⟩ := Linked_cover bs3 _ 1 _ hI3.core.linked1 p (by omega) (by omega)
      have hxb := hI3.core.blk hx
      have hx0 : x.alloc = 0 := by
        by_contra hx1
        have hxa : IsAlloc bs3 x.addr x.size := ⟨x, hx, rfl, rfl, by (clear * - hxb hx1; omega)⟩
        obtain ⟨hxa1, hxne⟩ := (hiff3 x.addr x.size).1 hxa
        have := Live_disjoint hI2 hxa1 ⟨b, hb, b1, b2, b3⟩ hxne
        (clear * - b2 hbb x1 x2 this; omega)
      obtain ⟨f1, f2, _⟩ := live_facts m3 lo brk1 hl lh bs3 bk3 hI3 x.addr x.size 0
        ⟨x, hx, rfl, rfl, hx0⟩
      exact ⟨x.addr, x.size, List.mem_map.2 ⟨x, hx, rfl⟩, f2, f1, x1, x2⟩

theorem realloc_overreads_witness :
    (∃ st2, realloc run20 4256 10 true = some (4304, st2) ∧
      (∀ i, i < min 20 10 → st2.mem (4304 + i) = run20.mem (4256 + i)) ∧
      ∃ l, chain st2 = some l ∧ 4304 ∈ l ∧ GET_ALLOC st2 (HDRP 4304) = some 1 ∧
        ∃ a s, a ∈ l ∧ GET_ALLOC st2 (HDRP a) = some 0 ∧ GET_SIZE st2 (HDRP a) = some s ∧
          a ≤ 4256 ∧ 4256 < a + s) ∧
    (Reach runR3 [(8272, 50)] ∧ malloc runR3 3000 true = some (4256, runR4) ∧
      runR4.brk < 8272 + 3000 ∧ mem_memcpy runR4 4256 8272 3000 = none ∧
      realloc runR3 8272 3000 true = none) ∧
    (malloc run20 5000 false = some (NULL, run20) ∧
      realloc run20 4256 5000 false = none) := by
  obtain ⟨h1, _⟩ := realloc_overreads run20 run21 [(4256, 20)] 4256 20 10 4304 true
    reach_run20 (by decide) (by decide) (by decide) malloc_run20_ten
  obtain ⟨hle, hok, _⟩ := h1 (by decide)
  obtain ⟨e4, b4⟩ := malloc_runR3
  obtain ⟨h2, _⟩ := realloc_overreads runR3 runR4 [(8272, 50)] 8272 50 3000 4256 true
    reach_runR3 (by decide) (by decide) (by decide) e4
  obtain ⟨_, _, hbad⟩ := h2 (by decide)
  have hpast : runR4.brk < 8272 + 3000 := by rw [b4]; decide
  obtain ⟨e5, hlo⟩ := malloc_run20_refused
  obtain ⟨_, h3⟩ := realloc_overreads run20 run20 [(4256, 20)] 4256 20 5000 NULL false
    reach_run20 (by decide) (by decide) (by decide) e5
  exact ⟨hok (hle (by decide)), ⟨reach_runR3, e4, hpast, hbad hpast⟩, e5, (h3 rfl hlo).2⟩

theorem bucketBounds_vals : bucketBounds.getD 0 0 = 32 ∧ bucketBounds.getD 1 0 = 48 ∧
    bucketBounds.getD 2 0 = 64 ∧ bucketBounds.getD 3 0 = 112 ∧ bucketBounds.getD 4 0 = 160 ∧
    bucketBounds.getD 5 0 = 208 ∧ bucketBounds.getD 6 0 = 512 ∧ bucketBounds.getD 7 0 = 1024 ∧
    bucketBounds.getD 8 0 = 2016 ∧ bucketBounds.getD 9 0 = 4016 ∧
    bucketBounds.getD 10 0 = 8016 ∧ bucketBounds.getD 11 0 = 15360 ∧
    bucketBounds.getD 12 0 = 30720 ∧ bucketBounds.getD 13 0 = 61440 :=
  ⟨rfl, rfl, rfl, rfl, rfl, rfl, rfl, rfl, rfl, rfl, rfl, rfl, rfl, rfl⟩

theorem getlistNum_cases (size : Nat) :
    (size ≤ 32 ∧ getlistNum size = 0) ∨
    (32 < size ∧ size ≤ 48 ∧ getlistNum size = 1) ∨
    (48 < size ∧ size ≤ 64 ∧ getlistNum size = 2) ∨
    (64 < size ∧ size ≤ 112 ∧ getlistNum size = 3) ∨
    (112 < size ∧ size ≤ 160 ∧ getlistNum size = 4) ∨
    (160 < size ∧ size ≤ 208 ∧ getlistNum size = 5) ∨
    (208 < size ∧ size ≤ 512 ∧ getlistNum size = 6) ∨
    (512 < size ∧ size ≤ 1024 ∧ getlistNum size = 7) ∨
    (1024 < size ∧ size ≤ 2016 ∧ getlistNum size = 8) ∨
    (2016 < size ∧ size ≤ 4016 ∧ getlistNum size = 9) ∨
    (4016 < size ∧ size ≤ 8016 ∧ getlistNum size = 10) ∨
    (8016 < size ∧ size ≤ 15360 ∧ getlistNum size = 11) ∨
    (15360 < size ∧ size ≤ 30720 ∧ getlistNum size = 12) ∨
    (30720 < size ∧ size ≤ 61440 ∧ getlistNum size = 13) ∨
    (61440 < size ∧ getlistNum size = 14) := by
  unfold getlistNum
  by_cases h0 : size ≤ 32
  · rw [if_pos h0]
    exact Or.inl ⟨h0, rfl⟩
  rw [if_neg h0]
  by_cases h1 : size ≤ 48
  · rw [if_pos h1]
    exact Or.inr (Or.inl ⟨by omega, h1, rfl⟩)
  rw [if_neg h1]
  by_cases h2 : size ≤ 64
  · rw [if_pos h2]
    exact Or.inr (Or.inr (Or.inl ⟨by omega, h2, rfl⟩))
  rw [if_neg h2]
  by_cases h3 : size ≤ 112
  · rw [if_pos h3]
    exact Or.inr (Or.inr (Or.inr (Or.inl ⟨by omega, h3, rfl⟩)))
  rw [if_neg h3]
  by_cases h4 : size ≤ 160
  · rw [if_pos h4]
    exact Or.inr (Or.inr (Or.inr (Or.inr (Or.inl ⟨by omega, h4, rfl⟩))))
  rw [if_neg h4]
  by_cases h5 : size ≤ 208
  · rw [if_pos h5]
    exact Or.inr (Or.inr (Or.inr (Or.inr (Or.inr (Or.inl ⟨by omega, h5, rfl⟩)))))
  rw [if_neg h5]
  by_cases h6 : size ≤ 512
  · rw [if_pos h6]
    exact Or.inr (Or.inr (Or.inr (Or.inr (Or.inr (Or.inr (Or.inl ⟨by omega, h6, rfl⟩))))))
  rw [if_neg h6]
  by_cases h7 : size ≤ 1024
  · rw [if_pos h7]
    exact Or.inr (Or.inr (Or.inr (Or.inr (Or.inr (Or.inr (Or.inr (Or.inl ⟨by omega, h7, rfl⟩)))))))
  rw [if_neg h7]
  by_cases h8 : size ≤ 2016
  · rw [if_pos h8]
    exact Or.inr (Or.inr (Or.inr (Or.inr (Or.inr (Or.inr (Or.inr (Or.inr (Or.inl ⟨by omega, h8, rfl⟩))))))))
  rw [if_neg h8]
  by_cases h9 : size ≤ 4016
  · rw [if_pos h9]
    exact Or.inr (Or.inr (Or.inr (Or.inr (Or.inr (Or.inr (Or.inr (Or.inr (Or.inr (Or.inl ⟨by omega, h9, rfl⟩)))))))))
  rw [if_neg h9]
  by_cases h10 : size ≤ 8016
  · rw [if_pos h10]
    exact Or.inr (Or.inr (Or.inr (Or.inr (Or.inr (Or.inr (Or.inr (Or.inr (Or.inr (Or.inr (Or.inl ⟨by omega, h10, rfl⟩))))))))))
  rw [if_neg h10]
  by_cases h11 : size ≤ 15360
  · rw [if_pos h11]
    exact Or.inr (Or.inr (Or.inr (Or.inr (Or.inr (Or.inr (Or.inr (Or.inr (Or.inr (Or.inr (Or.inr (Or.inl ⟨by omega, h11, rfl⟩)))))))))))
  rw [if_neg h11]
  by_cases h12 : size ≤ 30720
  · rw [if_pos h12]
    exact Or.inr (Or.inr (Or.inr (Or.inr (Or.inr (Or.inr (Or.inr (Or.inr (Or.inr (Or.inr (Or.inr (Or.inr (Or.inl ⟨by omega, h12, rfl⟩))))))))))))
  rw [if_neg h12]
  by_cases h13 : size ≤ 61440
  · rw [if_pos h13]
    exact Or.inr (Or.inr (Or.inr (Or.inr (Or.inr (Or.inr (Or.inr (Or.inr (Or.inr (Or.inr (Or.inr (Or.inr (Or.inr (Or.inl ⟨by omega, h13, rfl⟩)))))))))))))
  rw [if_neg h13]
  exact Or.inr (Or.inr (Or.inr (Or.inr (Or.inr (Or.inr (Or.inr (Or.inr (Or.inr (Or.inr (Or.inr (Or.inr (Or.inr (Or.inr (⟨by omega, rfl⟩))))))))))))))

theorem getlistNum_eq_bucketFor (size : Nat) : getlistNum size = bucketFor size := by
  unfold getlistNum bucketFor bucketBounds
  by_cases h0 : size ≤ 32
  · rw [if_pos h0, List.findIdx_cons, decide_eq_true h0, cond_true]
  rw [if_neg h0, List.findIdx_cons, decide_eq_false h0, cond_false]
  by_cases h1 : size ≤ 48
  · rw [if_pos h1, List.findIdx_cons, decide_eq_true h1, cond_true]
  rw [if_neg h1, List.findIdx_cons, decide_eq_false h1, cond_false]
  by_cases h2 : size ≤ 64
  · rw [if_pos h2, List.findIdx_cons, decide_eq_true h2, cond_true]
  rw [if_neg h2, List.findIdx_cons, decide_eq_false h2, cond_false]
  by_cases h3 : size ≤ 112
  · rw [if_pos h3, List.findIdx_cons, decide_eq_true h3, cond_true]
  rw [if_neg h3, List.findIdx_cons, decide_eq_false h3, cond_false]
  by_cases h4 : size ≤ 160
  · rw [if_pos h4, List.findIdx_cons, decide_eq_true h4, cond_true]
  rw [if_neg h4, List.findIdx_cons, decide_eq_false h4, cond_false]
  by_cases h5 : size ≤ 208
  · rw [if_pos h5, List.findIdx_cons, decide_eq_true h5, cond_true]
  rw [if_neg h5, List.findIdx_cons, decide_eq_false h5, cond_false]
  by_cases h6 : size ≤ 512
  · rw [if_pos h6, List.findIdx_cons, decide_eq_true h6, cond_true]
  rw [if_neg h6, List.findIdx_cons, decide_eq_false h6, cond_false]
  by_cases h7 : size ≤ 1024
  · rw [if_pos h7, List.findIdx_cons, decide_eq_true h7, cond_true]
  rw [if_neg h7, List.findIdx_cons, decide_eq_false h7, cond_false]
  by_cases h8 : size ≤ 2016
  · rw [if_pos h8, List.findIdx_cons, decide_eq_true h8, cond_true]
  rw [if_neg h8, List.findIdx_cons, decide_eq_false h8, cond_false]
  by_cases h9 : size ≤ 4016
  · rw [if_pos h9, List.findIdx_cons, decide_eq_true h9, cond_true]
  rw [if_neg h9, List.findIdx_cons, decide_eq_false h9, cond_false]
  by_cases h10 : size ≤ 8016
  · rw [if_pos h10, List.findIdx_cons, decide_eq_true h10, cond_true]
  rw [if_neg h10, List.findIdx_cons, decide_eq_false h10, cond_false]
  by_cases h11 : size ≤ 15360
  · rw [if_pos h11, List.findIdx_cons, decide_eq_true h11, cond_true]
  rw [if_neg h11, List.findIdx_cons, decide_eq_false h11, cond_false]
  by_cases h12 : size ≤ 30720
  · rw [if_pos h12, List.findIdx_cons, decide_eq_true h12, cond_true]
  rw [if_neg h12, List.findIdx_cons, decide_eq_false h12, cond_false]
  by_cases h13 : size ≤ 61440
  · rw [if_pos h13, List.findIdx_cons, decide_eq_true h13, cond_true]
  rw [if_neg h13, List.findIdx_cons, decide_eq_false h13, cond_false]
  rw [List.findIdx_nil]

theorem getlistNum_le_iff (size : Nat) :
    ∀ i, i < 14 → (getlistNum size ≤ i ↔ size ≤ bucketBounds.getD i 0) := by
  intro i hi
  have hv := bucketBounds_vals
  rcases getlistNum_cases size with hc | hc | hc | hc | hc | hc | hc | hc | hc | hc | hc | hc |
    hc | hc | hc <;> interval_cases i <;> omega

/-- C19: `getlistNum size` is the least index `i` in `0..14` such that `size`
is at most the `i`-th bound of the table `32, 48, 64, 112, 160, 208, 512, 1024,
2016, 4016, 8016, 15360, 30720, 61440, ∞`: it is the size class of the spec's
table, it is at most `i < 14` exactly when `size` is at most the `i`-th bound,
it is at most 14, and it is monotone in the size. -/
theorem getlistNum_table (size : Nat) :
    getlistNum size = bucketFor size ∧
      (∀ i, i < 14 → (getlistNum size ≤ i ↔ size ≤ bucketBounds.getD i 0)) ∧
      getlistNum size ≤ 14 ∧
      ∀ t, size ≤ t → getlistNum size ≤ getlistNum t :=
  ⟨getlistNum_eq_bucketFor size, getlistNum_le_iff size,
    by have := getlistNum_lt size; omega, fun t h => getlistNum_mono size t h⟩

theorem getlistNum_table_witness :
    (getlistNum 4096 = bucketFor 4096 ∧ getlistNum 4096 = 10) ∧
      (getlistNum 4016 ≤ 9 ↔ 4016 ≤ bucketBounds.getD 9 0) ∧
      getlistNum 100000 ≤ 14 ∧ getlistNum 33 ≤ getlistNum 48 :=
  ⟨⟨(getlistNum_table 4096).1, by decide⟩, (getlistNum_table 4016).2.1 9 (by decide),
    (getlistNum_table 100000).2.2.1, (getlistNum_table 33).2.2.2 48 (by decide)⟩


/-! ## Well-formed lists -/

theorem Core.lists {h : Heap} {bs : List Blk} {bk : Nat → List Nat} (hC : Core h bs bk) :
    Lists h bk := by
  obtain ⟨m, lo, brk, hl, lh⟩ := h
  have hle := Linked_le _ _ _ _ hC.linked1
  refine ⟨hC.lhp, hC.top, by simp only; omega, hC.dl, hC.nodup, ?_, ?_⟩
  · intro i hi x hx
    obtain ⟨c, hc, h1, h2, h3, h4, h5, h6⟩ := hC.listed hi hx
    simp only
    omega
  · intro i j hi hj x y hx hy
    rcases hC.listed_sep hi hj hx hy with h | h | h
    · exact Or.inl h
    · right; left; omega
    · right; right; omega

/-- The states reachable from a successful `mm_init` have well-formed lists. -/
theorem Reach_lists (st : Heap) (live : List (Nat × Nat)) (hR : Reach st live) :
    ∃ bk, Lists st bk := by
  obtain ⟨bs, bk, hI, _⟩ := Reach_inv st live hR
  exact ⟨bk, hI.core.lists⟩

/-- The walk of list `i` from its root visits the members of the list in order. -/
theorem seglist_lists {h : Heap} {bk : Nat → List Nat} (hL : Lists h bk) (i : Nat)
    (hi : i < 16) : seglist h i = some (bk i) := by
  obtain ⟨m, lo, brk, hl, lh⟩ := h
  have hlh : lh = lo := hL.lhp
  subst hlh
  have htop : brk < 9223372036854775808 := hL.top
  have hr : lh + 128 ≤ brk := hL.roots
  have hbd : ∀ x, x ∈ bk i → lh + 128 ≤ x ∧ x < brk := by
    intro x hx
    have := hL.bnd i hi x hx
    simp only at this
    omega
  have hdl : DLseg m 0 (rd64 m (lh + 8 * i)) (bk i) 0 := hL.dl i hi
  have hlen := nodup_length_le (bk i) (lh + 128) brk (hL.nodup i hi) hbd
  rw [seglist, root_mk _ _ _ _ _ _ (by omega), GET_mk _ _ _ _ _ _ (by omega) (by omega),
    andThen_some]
  simp only
  exact list_loop_spec m lh brk hl lh htop (bk i) _ 0 _ hdl
    (fun x hx => by have := hL.bnd i hi x hx; simp only at this; omega) (by omega)

/-- C16: for well-formed doubly-linked lists and every member `bp` of the list
of bucket `getlistNum size` (in any position: sole member, head, tail or
interior), `remfromSeg (bp, size)` succeeds; afterwards the blocks reached from
that bucket's root through the next links are the old list with `bp` erased
and the order of the others kept, the lists are again well formed, and the
roots, the members and the link words of all other buckets are unchanged. -/
theorem remfromSeg_erases (h : Heap) (bk : Nat → List Nat) (bp size : Nat)
    (hL : Lists h bk) (hbp : bp ∈ bk (getlistNum size)) :
    ∃ h1, remfromSeg h bp size = some h1 ∧ h1.lo = h.lo ∧ h1.brk = h.brk ∧
      Lists h1 (Function.update bk (getlistNum size) ((bk (getlistNum size)).erase bp)) ∧
      seglist h (getlistNum size) = some (bk (getlistNum size)) ∧
      seglist h1 (getlistNum size) = some ((bk (getlistNum size)).erase bp) ∧
      bp ∉ (bk (getlistNum size)).erase bp ∧
      ∀ j, j < 16 → j ≠ getlistNum size →
        rd64 h1.mem (h1.lo + 8 * j) = rd64 h.mem (h.lo + 8 * j) ∧
        seglist h j = some (bk j) ∧ seglist h1 j = some (bk j) ∧
        ∀ x, x ∈ bk j → rd64 h1.mem x = rd64 h.mem x ∧
          rd64 h1.mem (x + 8) = rd64 h.mem (x + 8) := by
  have hk : getlistNum size < 16 := by have := getlistNum_lt size; omega
  have hs0 := seglist_lists hL
  obtain ⟨m, lo, brk, hl, lh⟩ := h
  have hlh : lh = lo := hL.lhp
  subst hlh
  have htop : brk < 9223372036854775808 := hL.top
  have hr : lh + 128 ≤ brk := hL.roots
  obtain ⟨m1, e, hfr, hdl1, hnd1, hsub⟩ := remfromSeg_relink m lh brk hl bp size
    (bk (getlistNum size)) htop (hL.dl _ hk) (hL.nodup _ hk) hbp (hL.bnd _ hk)
    (fun y z hy hz => by
      rcases hL.sep _ _ hk hk y z hy hz with h | h | h
      · exact Or.inl h.1
      · exact Or.inr (Or.inl h)
      · exact Or.inr (Or.inr h))
  have hmem : ∀ i x, x ∈ Function.update bk (getlistNum size)
      ((bk (getlistNum size)).erase bp) i → x ∈ bk i := by
    intro i x hx
    by_cases hi : i = getlistNum size
    · subst hi
      rw [Function.update_same] at hx
      exact hsub x hx
    · rw [Function.update_noteq hi] at hx
      exact hx
  have hroot : ∀ j, j < 16 → j ≠ getlistNum size →
      rd64 m1 (lh + 8 * j) = rd64 m (lh + 8 * j) := by
    intro j hj hne
    apply rd64_congr
    intro c hc1 hc2
    apply hfr c (by omega)
    intro y hy
    have := hL.bnd _ hk y hy
    simp only at this
    omega
  have hlink : ∀ j, j < 16 → j ≠ getlistNum size → ∀ x, x ∈ bk j →
      rd64 m1 x = rd64 m x ∧ rd64 m1 (x + 8) = rd64 m (x + 8) := by
    intro j hj hne x hx
    have hb := hL.bnd j hj x hx
    simp only at hb
    have hfar : ∀ y, y ∈ bk (getlistNum size) → x + 16 ≤ y ∨ y + 16 ≤ x := by
      intro y hy
      rcases hL.sep _ _ hj hk x y hx hy with h | h | h
      · exact absurd h.2 hne
      · exact Or.inl h
      · exact Or.inr h
    constructor
    · apply rd64_congr
      intro c hc1 hc2
      apply hfr c (by omega)
      intro y hy
      have := hfar y hy
      omega
    · apply rd64_congr
      intro c hc1 hc2
      apply hfr c (by omega)
      intro y hy
      have := hfar y hy
      omega
  have hL1 : Lists ⟨m1, lh, brk, hl, lh⟩ (Function.update bk (getlistNum size)
      ((bk (getlistNum size)).erase bp)) := by
    refine ⟨rfl, hL.top, hL.roots, ?_, ?_, ?_, ?_⟩
    · intro i hi
      by_cases hik : i = getlistNum size
      · subst hik
        rw [Function.update_same]
        exact hdl1
      · rw [Function.update_noteq hik]
        simp only
        rw [hroot i hi hik]
        exact DLseg_congr m m1 (bk i) _ _ _ (hlink i hi hik) (hL.dl i hi)
    · intro i hi
      by_cases hik : i = getlistNum size
      · subst hik
        rw [Function.update_same]
        exact hnd1
      · rw [Function.update_noteq hik]
        exact hL.nodup i hi
    · intro i hi x hx
      exact hL.bnd i hi x (hmem i x hx)
    · intro i j hi hj x y hx hy
      exact hL.sep i j hi hj x y (hmem i x hx) (hmem j y hy)
  have hs1 := seglist_lists hL1
  refine ⟨_, e, rfl, rfl, hL1, hs0 _ hk, ?_, ?_, ?_⟩
  · have := hs1 _ hk
    rw [Function.update_same] at this
    exact this
  · exact fun hx => (List.Nodup.mem_erase_iff (hL.nodup _ hk)).1 hx |>.1 rfl
  · intro j hj hne
    refine ⟨hroot j hj hne, hs0 j hj, ?_, hlink j hj hne⟩
    have := hs1 j hj
    rw [Function.update_noteq hne] at this
    exact this

/-! ## A run with three free blocks on one list -/

set_option maxRecDepth 100000 in
theorem reach_runA4 : Reach runA4 [(6368, 16), (5328, 1024), (5296, 16), (4256, 1024)] :=
  Reach.malloc runA3 runA4 _ 16 6368 true
    (Reach.malloc runA2 runA3 _ 1024 5328 true
      (Reach.malloc runA1 runA2 _ 16 5296 true
        (Reach.malloc run0 runA1 [] 1024 4256 true reach_run0 (by decide) (by decide)
          (by rfl) (by decide))
        (by decide) (by decide) (by rfl) (by decide))
      (by decide) (by decide) (by rfl) (by decide))
    (by decide) (by decide) (by rfl) (by decide)

set_option maxRecDepth 100000 in
theorem reach_runA6 : Reach runA6 [(6368, 16), (5296, 16)] :=
  Reach.free runA5 runA6 [(6368, 16), (5328, 1024), (5296, 16)] 5328 1024
    (Reach.free runA4 runA5 _ 4256 1024 reach_runA4 (by decide) (by rfl))
    (by decide) (by rfl)

set_option maxRecDepth 100000 in
theorem seglist_runA6 : seglist runA6 8 = some [5328, 4256, 6400] := by decide

theorem remfromSeg_erases_witness :
    ∃ bk, Lists runA6 bk ∧ bk (getlistNum 1040) = [5328, 4256, 6400] ∧
      ∃ h1, remfromSeg runA6 4256 1040 = some h1 ∧
        seglist h1 (getlistNum 1040) = some [5328, 6400] := by
  obtain ⟨bk, hL⟩ := Reach_lists _ _ reach_runA6
  have h8 : getlistNum 1040 = 8 := by decide
  have hbk : bk (getlistNum 1040) = [5328, 4256, 6400] := by
    have := seglist_lists hL 8 (by decide)
    rw [seglist_runA6] at this
    rw [h8]
    exact (Option.some.inj this).symm
  obtain ⟨h1, e, _, _, _, _, hs, _⟩ := remfromSeg_erases runA6 bk 4256 1040 hL
    (by rw [hbk]; decide)
  refine ⟨bk, hL, hbk, h1, e, ?_⟩
  rw [hs, hbk]
  rfl

/-! ## First fit over well-formed lists -/

theorem fits_eq (m : Nat → Nat) (lo brk hl lh size x : Nat) (h1 : lo + 8 ≤ x)
    (h2 : x + 8 ≤ brk) (hb : brk ≤ 18446744073709551616) :
    fits ⟨m, lo, brk, hl, lh⟩ size x = decide (size ≤ hsize m x) := by
  unfold fits
  rw [HDRP_eq x (by omega) (by omega), GET_SIZE_mk _ _ _ _ _ _ (by omega) (by omega)]
  rfl

theorem GET_bounds {h : Heap} {p v : Nat} (e : GET h p = some v) :
    h.lo ≤ p ∧ p + 8 ≤ h.brk ∧ v = rd64 h.mem p := by
  unfold GET at e
  by_cases hc : h.lo ≤ p ∧ p + 8 ≤ h.brk
  · rw [if_pos hc] at e
    exact ⟨hc.1, hc.2, (Option.some.inj e).symm⟩
  · rw [if_neg hc] at e
    exact absurd e (by simp)

/-- When the walk of a list succeeds, `search_loop` returns its first fitting
member, and null when no member fits. -/
theorem search_walk (m : Nat → Nat) (lo brk hl lh size : Nat)
    (hb : brk ≤ 18446744073709551616) :
    ∀ (fuel cur : Nat) (l : List Nat), list_loop ⟨m, lo, brk, hl, lh⟩ fuel cur = some l →
      (∀ x, x ∈ l → lo + 8 ≤ x) →
      ∃ r, search_loop ⟨m, lo, brk, hl, lh⟩ size fuel cur = some r ∧
        ((r = 0 ∧ ∀ x, x ∈ l → fits ⟨m, lo, brk, hl, lh⟩ size x = false) ∨
         (r ≠ 0 ∧ ∃ l1 l2, l = l1 ++ r :: l2 ∧ fits ⟨m, lo, brk, hl, lh⟩ size r = true ∧
            ∀ x, x ∈ l1 → fits ⟨m, lo, brk, hl, lh⟩ size x = false))
  | 0, cur, l, hw, _ => by simp [list_loop] at hw
  | fuel + 1, cur, l, hw, hhd => by
    rw [list_loop] at hw
    rw [search_loop]
    simp only [NULL] at hw ⊢
    by_cases hc : cur ≠ 0
    · rw [if_pos hc] at hw
      rw [if_pos hc]
      obtain ⟨nx, hg, hw2⟩ := andThen_eq_some.1 hw
      obtain ⟨t, ht, hlt⟩ := andThen_eq_some.1 hw2
      have hlt : l = cur :: t := (Option.some.inj hlt).symm
      subst hlt
      have hgb := GET_bounds hg
      simp only [N_ADD_eq] at hgb hg
      have hcur := hhd cur (List.mem_cons_self _ _)
      have hfit := fits_eq m lo brk hl lh size cur hcur hgb.2.1 hb
      rw [HDRP_eq cur (by omega) (by omega), GET_SIZE_mk _ _ _ _ _ _ (by omega) (by omega),
        andThen_some]
      by_cases hs : size ≤ rd64 m (cur - 8) - rd64 m (cur - 8) % 8
      · rw [if_pos hs]
        refine ⟨cur, rfl, Or.inr ⟨hc, [], t, rfl, ?_, fun x hx => by simp at hx⟩⟩
        rw [hfit]
        exact decide_eq_true hs
      · rw [if_neg hs, N_ADD_eq, hg, andThen_some]
        have hcf : fits ⟨m, lo, brk, hl, lh⟩ size cur = false := by
          rw [hfit]
          exact decide_eq_false hs
        obtain ⟨r, hr, hcase⟩ := search_walk m lo brk hl lh size hb fuel nx t ht
          (fun x hx => hhd x (List.mem_cons_of_mem _ hx))
        refine ⟨r, hr, ?_⟩
        rcases hcase with ⟨h1, h2⟩ | ⟨h1, l1, l2, h2, h3, h4⟩
        · left
          refine ⟨h1, ?_⟩
          intro x hx
          rcases List.mem_cons.1 hx with h5 | h5
          · rw [h5]; exact hcf
          · exact h2 x h5
        · right
          refine ⟨h1, cur :: l1, l2, by rw [List.cons_append, ← h2], h3, ?_⟩
          intro x hx
          rcases List.mem_cons.1 hx with h5 | h5
          · rw [h5]; exact hcf
          · exact h4 x h5
    · rw [if_neg hc] at hw
      rw [if_neg hc]
      have hlt : l = [] := (Option.some.inj hw).symm
      subst hlt
      exact ⟨cur, rfl, Or.inl ⟨by omega, fun x hx => by simp at hx⟩⟩

/-- The loop of `find` over lists `i`, ..., `i + n - 1` whose walks succeed. -/
theorem find_loop_walk (m : Nat → Nat) (lo brk hl lh size : Nat) (L : Nat → List Nat)
    (hb : brk ≤ 18446744073709551616)
    (hw : ∀ i, i < 16 → seglist ⟨m, lo, brk, hl, lh⟩ i = some (L i))
    (hhd : ∀ i, i < 16 → ∀ x, x ∈ L i → lo + 8 ≤ x) :
    ∀ (n i : Nat), i + n ≤ 16 →
      ∃ r, find_loop ⟨m, lo, brk, hl, lh⟩ size n i = some r ∧
        ((r = 0 ∧ ∀ j, i ≤ j → j < i + n → ∀ x, x ∈ L j →
            fits ⟨m, lo, brk, hl, lh⟩ size x = false) ∨
         (r ≠ 0 ∧ ∃ j l1 l2, i ≤ j ∧ j < i + n ∧ L j = l1 ++ r :: l2 ∧
            fits ⟨m, lo, brk, hl, lh⟩ size r = true ∧
            (∀ x, x ∈ l1 → fits ⟨m, lo, brk, hl, lh⟩ size x = false) ∧
            ∀ k, i ≤ k → k < j → ∀ x, x ∈ L k →
              fits ⟨m, lo, brk, hl, lh⟩ size x = false))
  | 0, i, _ => ⟨0, rfl, Or.inl ⟨rfl, fun j h1 h2 => by omega⟩⟩
  | n + 1, i, hi => by
    have hwi := hw i (by omega)
    rw [seglist] at hwi
    obtain ⟨cur, hg, hwl⟩ := andThen_eq_some.1 hwi
    obtain ⟨r, hr, hcase⟩ := search_walk m lo brk hl lh size hb _ cur (L i) hwl
      (hhd i (by omega))
    rw [find_loop, search, hg, andThen_some]
    simp only
    rw [hr, andThen_some]
    simp only [NULL]
    rcases hcase with ⟨h1, h2⟩ | ⟨h1, l1, l2, h2, h3, h4⟩
    · rw [if_neg (by omega)]
      obtain ⟨r2, hr2, hcase2⟩ := find_loop_walk m lo brk hl lh size L hb hw hhd n (i + 1)
        (by omega)
      refine ⟨r2, hr2, ?_⟩
      rcases hcase2 with ⟨h5, h6⟩ | ⟨h5, j, k1, k2, h6, h7, h8, h9, h10, h11⟩
      · left
        refine ⟨h5, ?_⟩
        intro j hj1 hj2 x hx
        by_cases hji : j = i
        · subst hji; exact h2 x hx
        · exact h6 j (by omega) (by omega) x hx
      · right
        refine ⟨h5, j, k1, k2, by omega, by omega, h8, h9, h10, ?_⟩
        intro k hk1 hk2 x hx
        by_cases hki : k = i
        · subst hki; exact h2 x hx
        · exact h11 k (by omega) hk2 x hx
    · rw [if_pos h1]
      exact ⟨r, rfl, Or.inr ⟨h1, i, l1, l2, Nat.le_refl _, by omega, h2, h3, h4,
        fun k hk1 hk2 => by omega⟩⟩

/-- C15: in a state whose size-class lists are well formed (the walk of every
list from its root through the next links ends at null, giving `L i`, and
the header of every member lies in the heap), `find (size)` returns the
first block, in the order bucket index ascending from `getlistNum size`, then
list order from the head, whose header size is at least `size`: a block of a
bucket `j` only if no block of the buckets before `j` and no earlier block of
bucket `j` fits, and null exactly when no block of those buckets fits.  The
function only reads the heap: its result carries no state. -/
theorem find_first_fit (h : Heap) (size : Nat) (L : Nat → List Nat)
    (hb : h.brk ≤ W64) (hw : ∀ i, i < 16 → seglist h i = some (L i))
    (hhd : ∀ i, i < 16 → ∀ x, x ∈ L i → h.lo + 8 ≤ x) :
    ∃ r, find h size = some r ∧
      ((r = NULL ∧ ∀ j, getlistNum size ≤ j → j < 16 → ∀ x, x ∈ L j →
          fits h size x = false) ∨
       (r ≠ NULL ∧ ∃ j l1 l2, getlistNum size ≤ j ∧ j < 16 ∧ L j = l1 ++ r :: l2 ∧
          fits h size r = true ∧ (∀ x, x ∈ l1 → fits h size x = false) ∧
          ∀ k, getlistNum size ≤ k → k < j → ∀ x, x ∈ L k → fits h size x = false)) ∧
      (r = NULL ↔ ∀ j, getlistNum size ≤ j → j < 16 → ∀ x, x ∈ L j →
          fits h size x = false) := by
  have hk := getlistNum_lt size
  obtain ⟨m, lo, brk, hl, lh⟩ := h
  obtain ⟨r, hr, hcase⟩ := find_loop_walk m lo brk hl lh size L hb hw hhd
    (16 - getlistNum size) (getlistNum size) (by omega)
  have e16 : getlistNum size + (16 - getlistNum size) = 16 := by omega
  rw [e16] at hcase
  refine ⟨r, hr, hcase, ?_⟩
  simp only [NULL]
  rcases hcase with ⟨h1, h2⟩ | ⟨h1, j, l1, l2, h2, h3, h4, h5, h6, h7⟩
  · exact ⟨fun _ => h2, fun _ => h1⟩
  · constructor
    · intro h0; exact absurd h0 h1
    · intro hall
      have := hall j h2 h3 r (by rw [h4]; simp)
      rw [h5] at this
      exact absurd this (by simp)

set_option maxRecDepth 100000 in
theorem find_run3 : find run3 40 = some 4256 := by decide

theorem find_first_fit_witness :
    run3.brk ≤ W64 ∧ ∃ L : Nat → List Nat, (∀ i, i < 16 → seglist run3 i = some (L i)) ∧
      (∀ i, i < 16 → ∀ x, x ∈ L i → run3.lo + 8 ≤ x) ∧
      find run3 40 = some 4256 ∧
      ∃ j l1 l2, getlistNum 40 ≤ j ∧ j < 16 ∧ L j = l1 ++ 4256 :: l2 ∧
        fits run3 40 4256 = true ∧ (∀ x, x ∈ l1 → fits run3 40 x = false) ∧
        ∀ k, getlistNum 40 ≤ k → k < j → ∀ x, x ∈ L k → fits run3 40 x = false := by
  obtain ⟨bk, hL⟩ := Reach_lists _ _ reach_run3
  have hhd : ∀ i, i < 16 → ∀ x, x ∈ bk i → run3.lo + 8 ≤ x := by
    intro i hi x hx
    have := hL.bnd i hi x hx
    omega
  have hb : run3.brk ≤ W64 := by
    have := hL.top
    unfold LONG_LIM at this
    unfold W64
    omega
  obtain ⟨r, hr, hc, _⟩ := find_first_fit run3 40 bk hb (seglist_lists hL) hhd
  rw [find_run3] at hr
  have hr4 : r = 4256 := (Option.some.inj hr).symm
  subst hr4
  rcases hc with ⟨h1, _⟩ | ⟨_, h2⟩
  · exact absurd h1 (by decide)
  · exact ⟨hb, bk, seglist_lists hL, hhd, find_run3, h2⟩


/-! ## Reading the headers of the chain -/

/-- What the header of a block of the chain reads. -/
theorem blk_reads {st : Heap} {bs : List Blk} {bk : Nat → List Nat} (hC : Core st bs bk)
    {b : Blk} (hb : b ∈ bs) :
    HDRP b.addr = b.addr - 8 ∧ GET st (HDRP b.addr) = some b.hdr ∧
      GET_SIZE st (HDRP b.addr) = some b.size ∧ GET_ALLOC st (HDRP b.addr) = some b.alloc ∧
      PREV_ALLOC st (HDRP b.addr) = some (2 * b.palloc) := by
  obtain ⟨m, lo, brk, hl, lh⟩ := st
  obtain ⟨hb1, hb2, hb3, hb4, hb5, hb6, htop, hlh, hhl, hbh⟩ := hC.blk hb
  obtain ⟨r1, r2, r3, r4, r5⟩ := hdr_reads m lo brk hl lh b.addr b.size b.palloc b.alloc
    (by omega) (by omega) htop hbh (by omega) hb6 hb5
  rw [r1]
  exact ⟨rfl, r2, r3, r4, r5⟩

/-- What the header right after a block of the chain reads: that of the next
block, or the epilogue header after the last block. -/
theorem next_reads {st : Heap} {pre post : List Blk} {b : Blk} {bk : Nat → List Nat}
    (hC : Core st (pre ++ b :: post) bk) (hE : Epi st (pre ++ b :: post)) :
    HDRP (b.addr + b.size) = b.addr + b.size - 8 ∧
      GET_SIZE st (HDRP (b.addr + b.size)) = some (nextSize post) ∧
      GET_ALLOC st (HDRP (b.addr + b.size)) = some (nextAlloc post) ∧
      PREV_ALLOC st (HDRP (b.addr + b.size)) = some (2 * b.alloc) ∧
      (post = [] → b.addr + b.size = st.brk) := by
  obtain ⟨m, lo, brk, hl, lh⟩ := st
  have hbm : b ∈ pre ++ b :: post := List.mem_append_right _ (List.mem_cons_self _ _)
  obtain ⟨hb1, hb2, hb3, hb4, hb5, hb6, htop, hlh, hhl, hbh⟩ := hC.blk hbm
  obtain ⟨hL1, hpa, hL3, hnx⟩ := hC.at_blk hE
  obtain ⟨hn1, hn2, hn3, hn4, hn5⟩ := nextInfo post _ _ _ hL3
  obtain ⟨r1, r2, r3, r4, r5⟩ := hdr_reads m lo brk hl lh (b.addr + b.size) (nextSize post)
    b.alloc (nextAlloc post) (by omega) (by omega) htop hnx (by omega) hb5 hn2
  rw [r1]
  exact ⟨rfl, r3, r4, r5, hn4⟩

theorem inv_run0 : ∃ bk, Inv run0 [⟨4256, 4096, 0, 1⟩] bk := by
  obtain ⟨m1, bk1, e, hI⟩ := mm_init_spec 4096 (fun _ => 0) (by decide)
  refine ⟨bk1, ?_⟩
  have : run0 = ⟨m1, 4096, 4096 + 4256, 4096 + 160, 4096⟩ := by
    unfold run0
    rw [e]
  rw [this]
  exact hI

/-- An allocated block of the chain is on no list. -/
theorem not_listed_alloc {st : Heap} {bs : List Blk} {bk : Nat → List Nat}
    (hC : Core st bs bk) {c : Blk} (hc : c ∈ bs) (ha : c.alloc = 1) (i : Nat) (hi : i < 16) :
    c.addr ∉ bk i := by
  intro hx
  obtain ⟨d, hd, h1, h2, _⟩ := hC.mem_bk i hi _ hx
  have := Linked_addr_inj bs _ 1 _ hC.linked (Nat.le_refl 1) d c hd hc h1
  subst this
  omega

/-- C17: for a free block `bp` of size `r` of a consistent heap (so `bp` is on
the list of its size) and every multiple of 16 `a` with `32 ≤ a ≤ r`,
`place (bp, a)` succeeds, removes `bp` from the lists and marks it allocated,
keeping its previous-allocated bit.  If `r - a ≥ 32`, the header size of `bp`
becomes `a` and the block at `bp + a` is a free block of size `r - a` whose
header equals its footer, with the previous-allocated bit set, and which is
the head of the list of bucket `getlistNum (r - a)`; the two sizes add up to
`r`.  If `r - a < 32`, `bp` keeps the size `r` and the previous-allocated bit
of the following header is set. -/
theorem place_marks (st : Heap) (pre post : List Blk) (b : Blk) (bk : Nat → List Nat)
    (hI : Inv st (pre ++ b :: post) bk) (hfree : b.alloc = 0) (a : Nat) (h32 : 32 ≤ a)
    (h16 : a % 16 = 0) (hle : a ≤ b.size) :
    GET_SIZE st (HDRP b.addr) = some b.size ∧ GET_ALLOC st (HDRP b.addr) = some 0 ∧
    (∃ l, seglist st (getlistNum b.size) = some l ∧ b.addr ∈ l) ∧
    ∃ st1, place st b.addr a = some st1 ∧
      (∀ i, i < 16 → ∃ l, seglist st1 i = some l ∧ b.addr ∉ l) ∧
      GET_ALLOC st1 (HDRP b.addr) = some 1 ∧
      PREV_ALLOC st1 (HDRP b.addr) = PREV_ALLOC st (HDRP b.addr) ∧
      (32 ≤ b.size - a →
        GET_SIZE st1 (HDRP b.addr) = some a ∧
        GET st1 (HDRP (b.addr + a)) = some (b.size - a + 2) ∧
        FTRP st1 (b.addr + a) = some (b.addr + b.size - 16) ∧
        GET st1 (b.addr + b.size - 16) = some (b.size - a + 2) ∧
        GET_SIZE st1 (HDRP (b.addr + a)) = some (b.size - a) ∧
        GET_ALLOC st1 (HDRP (b.addr + a)) = some 0 ∧
        PREV_ALLOC st1 (HDRP (b.addr + a)) = some 2 ∧
        (∃ t, seglist st1 (getlistNum (b.size - a)) = some ((b.addr + a) :: t)) ∧
        a + (b.size - a) = b.size) ∧
      (b.size - a < 32 →
        GET_SIZE st1 (HDRP b.addr) = some b.size ∧
        PREV_ALLOC st1 (HDRP (b.addr + b.size)) = some 2) := by
  have hbm : b ∈ pre ++ b :: post := List.mem_append_right _ (List.mem_cons_self _ _)
  obtain ⟨q1, q2, q3, q4, q5⟩ := blk_reads hI.core hbm
  have hk : getlistNum b.size < 16 := by have := getlistNum_lt b.size; omega
  refine ⟨q3, by rw [q4, hfree], ⟨_, seglist_spec st _ bk hI _ hk, hI.full b hbm hfree⟩, ?_⟩
  obtain ⟨m, lo, brk, hl, lh⟩ := st
  obtain ⟨hb1, hb2, hb3, hb4, hb5, hb6, htop, hlh, hhl, hbh⟩ := hI.core.blk hbm
  by_cases hsp : 32 ≤ b.size - a
  · obtain ⟨m1, bk1, e, hI1, _, hft, t, hhd⟩ := place_split m lo brk hl lh pre post b bk hI
      hfree a h32 h16 hle hsp
    have hA : (⟨b.addr, a, 1, b.palloc⟩ : Blk) ∈
        pre ++ [⟨b.addr, a, 1, b.palloc⟩, ⟨b.addr + a, b.size - a, 0, 1⟩] ++ post := by simp
    have hR : (⟨b.addr + a, b.size - a, 0, 1⟩ : Blk) ∈
        pre ++ [⟨b.addr, a, 1, b.palloc⟩, ⟨b.addr + a, b.size - a, 0, 1⟩] ++ post := by simp
    obtain ⟨a1, a2, a3, a4, a5⟩ := blk_reads hI1.core hA
    obtain ⟨c1, c2, c3, c4, c5⟩ := blk_reads hI1.core hR
    simp only at a1 a2 a3 a4 a5 c1 c2 c3 c4 c5
    have hRh := hI1.core.hdr _ hR
    simp only [Blk.hdr] at hRh c2
    refine ⟨_, e, ?_, a4, by rw [a5, q5], fun _ => ⟨a3, c2, ?_, ?_, c3, c4, c5, ?_, by (clear * - hle; omega)⟩,
      fun h => absurd hsp (by omega)⟩
    · intro i hi
      exact ⟨_, seglist_spec _ _ bk1 hI1 i hi, not_listed_alloc hI1.core hA rfl i hi⟩
    · have := FTRP_hdr m1 lo brk hl lh (b.addr + a) (b.size - a) 1 0 (by omega) htop
        (by rw [hRh]) (by (clear * - h16 hb4; omega)) (by omega) (by omega) (by omega) (by (clear * - hle hb2; omega))
      rw [this]
      exact congrArg some (by (clear * - hle; omega))
    · rw [GET_mk _ _ _ _ _ _ (by omega) (by omega), hft]
    · have hk2 : getlistNum (b.size - a) < 16 := by
        have := getlistNum_lt (b.size - a); omega
      exact ⟨t, by rw [seglist_spec _ _ bk1 hI1 _ hk2, hhd]⟩
  · obtain ⟨m1, bk1, e, hI1, _⟩ := place_nosplit m lo brk hl lh pre post b bk hI hfree a hle
      hsp
    have hform : pre ++ [(⟨b.addr, b.size, 1, b.palloc⟩ : Blk)] ++ setPA 1 post =
        pre ++ ⟨b.addr, b.size, 1, b.palloc⟩ :: setPA 1 post := by simp
    rw [hform] at hI1
    have hA : (⟨b.addr, b.size, 1, b.palloc⟩ : Blk) ∈
        pre ++ ⟨b.addr, b.size, 1, b.palloc⟩ :: setPA 1 post :=
      List.mem_append_right _ (List.mem_cons_self _ _)
    obtain ⟨a1, a2, a3, a4, a5⟩ := blk_reads hI1.core hA
    obtain ⟨n1, n2, n3, n4, n5⟩ := next_reads hI1.core hI1.epi
    simp only at a1 a2 a3 a4 a5 n1 n2 n3 n4 n5
    refine ⟨_, e, ?_, a4, by rw [a5, q5], fun h => absurd h hsp, fun _ => ⟨a3, n4⟩⟩
    intro i hi
    exact ⟨_, seglist_spec _ _ bk1 hI1 i hi, not_listed_alloc hI1.core hA rfl i hi⟩

theorem place_marks_witness :
    ∃ bk, Inv run0 ([] ++ ⟨4256, 4096, 0, 1⟩ :: []) bk ∧
      ∃ st1, place run0 4256 48 = some st1 ∧ GET_ALLOC st1 (HDRP 4256) = some 1 ∧
        GET_SIZE st1 (HDRP 4256) = some 48 ∧
        GET st1 (HDRP (4256 + 48)) = some (4096 - 48 + 2) ∧
        ∃ t, seglist st1 (getlistNum (4096 - 48)) = some ((4256 + 48) :: t) := by
  obtain ⟨bk, hI⟩ := inv_run0
  obtain ⟨_, _, _, st1, e, _, h1, _, h2, _⟩ := place_marks run0 [] [] ⟨4256, 4096, 0, 1⟩ bk hI
    rfl 48 (by decide) (by decide) (by decide)
  obtain ⟨h3, h4, _, _, _, _, _, h5, _⟩ := h2 (by decide)
  exact ⟨bk, hI, st1, e, h1, h3, h4, h5⟩

/-- An address strictly inside a block of the chain is on no list. -/
theorem not_listed_inside {st : Heap} {bs : List Blk} {bk : Nat → List Nat}
    (hC : Core st bs bk) {M : Blk} (hM : M ∈ bs) (x : Nat) (h1 : M.addr < x)
    (h2 : x < M.addr + M.size) (i : Nat) (hi : i < 16) : x ∉ bk i := by
  intro hx
  obtain ⟨d, hd, e1, e2, _⟩ := hC.mem_bk i hi _ hx
  have hd1 := Linked_mem bs _ 1 _ hC.linked (Nat.le_refl 1) d hd
  rcases Linked_disjoint bs _ 1 _ hC.linked (Nat.le_refl 1) M d hM hd with h | h | h
  · subst h; omega
  · omega
  · omega

theorem mergedAt_of_core {st : Heap} {bs : List Blk} {bk : Nat → List Nat}
    (hC : Core st bs bk) {M : Blk} (hM : M ∈ bs) (hMa : M.alloc = 0) (hMp : M.palloc = 1)
    (hon : M.addr ∈ bk (getlistNum M.size))
    (hft : rd64 st.mem (M.addr + M.size - 16) = M.size + 2) (gone : List Nat)
    (hg : ∀ x, x ∈ gone → M.addr < x ∧ x < M.addr + M.size) :
    MergedAt st M.addr M.size gone := by
  have hk : getlistNum M.size < 16 := by have := getlistNum_lt M.size; omega
  obtain ⟨q1, q2, q3, q4, q5⟩ := blk_reads hC hM
  have hs := seglist_lists hC.lists
  refine ⟨by rw [q2, Blk.hdr, hMa, hMp], ?_, ?_, ⟨_, hs _ hk, hon⟩, ?_⟩
  · obtain ⟨m, lo, brk, hl, lh⟩ := st
    obtain ⟨hb1, hb2, hb3, hb4, hb5, hb6, htop, hlh, hhl, hbh⟩ := hC.blk hM
    exact FTRP_hdr m lo brk hl lh M.addr M.size M.palloc M.alloc (by omega) htop hbh
      (by omega) hb6 hb5 (by omega) hb2
  · obtain ⟨m, lo, brk, hl, lh⟩ := st
    obtain ⟨hb1, hb2, hb3, hb4, hb5, hb6, htop, hlh, hhl, hbh⟩ := hC.blk hM
    rw [GET_mk _ _ _ _ _ _ (by (clear * - hb1; omega)) (by omega)]
    exact congrArg some hft
  · intro i hi
    exact ⟨_, hs i hi, fun x hx => not_listed_inside hC hM x (hg x hx).1 (hg x hx).2 i hi⟩

/-- C18: for a free block `bp` (header equal to footer) that is on its list in
a heap that is consistent except that `bp` may be adjacent to free blocks,
`coalesce (bp)` returns `bp` when the previous block is allocated and the
address of the previous block when it is free.  The returned block has the sum
of the sizes of `bp` and of each free neighbour; its header and footer are
equal, with the allocated bit clear and the previous-allocated bit of the
leftmost merged block (which is set); it is on the list of bucket `getlistNum`
of the merged size; and no absorbed block remains on any list.  When both
neighbours are allocated the heap is unchanged. -/
theorem coalesce_merges (st : Heap) (pre post : List Blk) (b : Blk) (bk : Nat → List Nat)
    (hC : Core st (pre ++ b :: post) bk) (hE : Epi st (pre ++ b :: post))
    (hfull : Full (pre ++ b :: post) bk) (hfree : b.alloc = 0)
    (hft : rd64 st.mem (b.addr + b.size - 16) = b.hdr)
    (npre : ∀ d, d ∈ pre → d.alloc = 0 → d.palloc = 1)
    (npost : ∀ d, d ∈ post.tail → d.alloc = 0 → d.palloc = 1) :
    PREV_ALLOC st (HDRP b.addr) = some (2 * b.palloc) ∧
    GET_ALLOC st (HDRP (b.addr + b.size)) = some (nextAlloc post) ∧
    (b.palloc = 0 → ∃ pre1 pb, pre = pre1 ++ [pb] ∧ pb.alloc = 0 ∧
      pb.addr + pb.size = b.addr ∧ PREV_ALLOC st (HDRP pb.addr) = some 2) ∧
    (nextAlloc post = 0 → ∃ nb rest, post = nb :: rest ∧ nb.alloc = 0 ∧
      nb.addr = b.addr + b.size) ∧
    (b.palloc = 1 → nextAlloc post = 1 →
      coalesce st b.addr = some (b.addr, st) ∧ MergedAt st b.addr b.size []) ∧
    (b.palloc = 1 → ∀ nb rest, post = nb :: rest → nb.alloc = 0 →
      ∃ st1, coalesce st b.addr = some (b.addr, st1) ∧
        MergedAt st1 b.addr (b.size + nb.size) [nb.addr]) ∧
    (nextAlloc post = 1 → ∀ pre1 pb, pre = pre1 ++ [pb] → pb.alloc = 0 →
      ∃ st1, coalesce st b.addr = some (pb.addr, st1) ∧
        MergedAt st1 pb.addr (pb.size + b.size) [b.addr]) ∧
    (∀ pre1 pb nb rest, pre = pre1 ++ [pb] → post = nb :: rest → pb.alloc = 0 →
      nb.alloc = 0 →
      ∃ st1, coalesce st b.addr = some (pb.addr, st1) ∧
        MergedAt st1 pb.addr (pb.size + b.size + nb.size) [b.addr, nb.addr]) := by
  have hbm : b ∈ pre ++ b :: post := List.mem_append_right _ (List.mem_cons_self _ _)
  obtain ⟨q1, q2, q3, q4, q5⟩ := blk_reads hC hbm
  obtain ⟨n1, n2, n3, n4, n5⟩ := next_reads hC hE
  obtain ⟨m, lo, brk, hl, lh⟩ := st
  obtain ⟨hb1, hb2, hb3, hb4, hb5, hb6, htop, hlh, hhl, hbh⟩ := hC.blk hbm
  obtain ⟨hL1, hpa1, hL3, hnx⟩ := hC.at_blk hE
  have hprev : ∀ pre1 pb, pre = pre1 ++ [pb] →
      pb.addr + pb.size = b.addr ∧ 32 ≤ pb.size ∧ pb ∈ pre ++ b :: post := by
    intro pre1 pb hp
    subst hp
    rw [Linked_append] at hL1
    obtain ⟨mid, _, h2⟩ := hL1
    simp only [Linked] at h2
    exact ⟨by (clear * - h2; omega), h2.2.2.2.1, by simp⟩
  have hnext : ∀ nb rest, post = nb :: rest →
      nb.addr = b.addr + b.size ∧ 32 ≤ nb.size := by
    intro nb rest hp
    subst hp
    simp only [Linked] at hL3
    exact ⟨hL3.1, hL3.2.2.2.1⟩
  refine ⟨q5, n3, ?_, ?_, ?_, ?_, ?_, ?_⟩
  · intro hp0
    obtain ⟨pre1, pb, hp, hpf⟩ := lastAlloc_zero pre (by omega)
    obtain ⟨h1, h2, h3⟩ := hprev pre1 pb hp
    obtain ⟨_, _, _, _, p5⟩ := blk_reads hC h3
    refine ⟨pre1, pb, hp, hpf, h1, ?_⟩
    rw [p5, npre pb (by rw [hp]; simp) hpf]
  · intro hn0
    obtain ⟨nb, rest, hp, hnf⟩ := nextAlloc_zero post hn0
    exact ⟨nb, rest, hp, hnf, (hnext nb rest hp).1⟩
  · intro hp hn
    refine ⟨coalesce_none m lo brk hl lh pre post b bk hC hE hfree hp hn, ?_⟩
    exact mergedAt_of_core hC hbm hfree hp (hfull b hbm hfree)
      (by rw [hft, Blk.hdr, hfree, hp]) [] (fun x hx => by simp at hx)
  · intro hp nb rest hpost hnf
    obtain ⟨h1, h2⟩ := hnext nb rest hpost
    subst hpost
    obtain ⟨m1, bk1, e1, hI1, ⟨⟨t, hhd⟩, hf1⟩, _⟩ := coalesce_next m lo brk hl lh pre rest b nb
      bk hC hE hfull hfree hp hnf npre npost
    refine ⟨_, e1, ?_⟩
    exact mergedAt_of_core (M := ⟨b.addr, b.size + nb.size, 0, 1⟩) hI1.core (by simp) rfl rfl
      (by simp only; rw [hhd]; exact List.mem_cons_self _ _) hf1 [nb.addr]
      (fun x hx => by
        rw [List.mem_singleton] at hx
        subst hx
        simp only
        (clear * - hb3 h1 h2; omega))
  · intro hn pre1 pb hpre hpf
    obtain ⟨h1, h2, h3⟩ := hprev pre1 pb hpre
    subst hpre
    have hre : pre1 ++ [pb] ++ b :: post = pre1 ++ pb :: b :: post := by simp
    rw [hre] at hC hE hfull
    obtain ⟨m1, bk1, e1, hI1, ⟨⟨t, hhd⟩, hf1⟩, _⟩ := coalesce_prev m lo brk hl lh pre1 post pb b
      bk hC hE hfull hfree hpf (npre pb (by simp) hpf) hn
      (fun d hd => npre d (by simp [hd])) (npost_of_tail post hn npost)
    refine ⟨_, e1, ?_⟩
    rw [Nat.add_comm pb.size b.size]
    exact mergedAt_of_core (M := ⟨pb.addr, b.size + pb.size, 0, 1⟩) hI1.core (by simp) rfl rfl
      (by simp only; rw [hhd]; exact List.mem_cons_self _ _) hf1 [b.addr]
      (fun x hx => by
        rw [List.mem_singleton] at hx
        subst hx
        simp only
        (clear * - hb3 h1 h2; omega))
  · intro pre1 pb nb rest hpre hpost hpf hnf
    obtain ⟨h1, h2, h3⟩ := hprev pre1 pb hpre
    obtain ⟨h4, h5⟩ := hnext nb rest hpost
    subst hpre
    subst hpost
    have hre : pre1 ++ [pb] ++ b :: nb :: rest = pre1 ++ pb :: b :: nb :: rest := by simp
    rw [hre] at hC hE hfull
    obtain ⟨m1, bk1, e1, hI1, ⟨⟨t, hhd⟩, hf1⟩, _⟩ := coalesce_both m lo brk hl lh pre1 rest pb
      b nb bk hC hE hfull hfree hpf (npre pb (by simp) hpf) hnf
      (fun d hd => npre d (by simp [hd])) npost
    refine ⟨_, e1, ?_⟩
    have hsz : pb.size + b.size + nb.size = b.size + (pb.size + nb.size) := by omega
    rw [hsz]
    exact mergedAt_of_core (M := ⟨pb.addr, b.size + (pb.size + nb.size), 0, 1⟩) hI1.core
      (by simp) rfl rfl
      (by simp only; rw [hhd]; exact List.mem_cons_self _ _) hf1 [b.addr, nb.addr]
      (fun x hx => by
        simp only [List.mem_cons, List.mem_singleton, List.not_mem_nil, or_false] at hx
        simp only
        rcases hx with hx | hx
        · subst hx; (clear * - hb3 h1 h2; omega)
        · subst hx; (clear * - hb3 h1 h4 h5; omega))

theorem coalesce_merges_witness :
    ∃ st bk, Core st ([] ++ ⟨4256, 48, 0, 1⟩ :: [⟨4304, 4048, 0, 0⟩]) bk ∧
      Epi st ([] ++ ⟨4256, 48, 0, 1⟩ :: [⟨4304, 4048, 0, 0⟩]) ∧
      Full ([] ++ ⟨4256, 48, 0, 1⟩ :: [⟨4304, 4048, 0, 0⟩]) bk ∧
      rd64 st.mem (4256 + 48 - 16) = 50 ∧
      ∃ st1, coalesce st 4256 = some (4256, st1) ∧ MergedAt st1 4256 (48 + 4048) [4304] := by
  obtain ⟨m1, bk1, _, hI1⟩ := mm_init_spec 4096 (fun _ => 0) (by decide)
  obtain ⟨m2, bk2, _, hI2, _⟩ := place_split m1 4096 (4096 + 4256) (4096 + 160) 4096 [] []
    ⟨4096 + 160, 4096, 0, 1⟩ bk1 hI1 rfl 48 (by decide) (by decide) (by decide) (by decide)
  have hI2a : Inv ⟨m2, 4096, 4096 + 4256, 4096 + 160, 4096⟩
      ([] ++ ⟨4256, 48, 1, 1⟩ :: [⟨4304, 4048, 0, 1⟩]) bk2 := hI2
  obtain ⟨m5, bk5, _, hC5, hE5, hF5, _, _, hft5⟩ := free_marked m2 4096 (4096 + 4256)
    (4096 + 160) 4096 [] [⟨4304, 4048, 0, 1⟩] ⟨4256, 48, 1, 1⟩ bk2 hI2a rfl
  have hC5a : Core ⟨m5, 4096, 4096 + 4256, 4096 + 160, 4096⟩
      ([] ++ ⟨4256, 48, 0, 1⟩ :: [⟨4304, 4048, 0, 0⟩]) bk5 := hC5
  obtain ⟨_, _, _, _, _, hnext, _, _⟩ := coalesce_merges ⟨m5, 4096, 4096 + 4256, 4096 + 160, 4096⟩
    [] [⟨4304, 4048, 0, 0⟩] ⟨4256, 48, 0, 1⟩ bk5 hC5a hE5 hF5 rfl hft5
    (fun d hd => by simp at hd) (fun d hd => by simp at hd)
  exact ⟨_, bk5, hC5a, hE5, hF5, hft5, hnext rfl ⟨4304, 4048, 0, 0⟩ [] rfl rfl⟩


/-! ## The previous-allocated bits of the chain -/

theorem getElem?_split {α : Type} : ∀ (l : List α) (i : Nat) (b : α), l[i]? = some b →
    ∃ pre post, l = pre ++ b :: post ∧ pre.length = i ∧ post[0]? = l[i + 1]?
  | [], i, b, h => by simp at h
  | x :: xs, 0, b, h => by
    simp only [List.getElem?_cons_zero, Option.some.injEq] at h
    subst h
    exact ⟨[], xs, rfl, rfl, by simp⟩
  | x :: xs, i + 1, b, h => by
    simp only [List.getElem?_cons_succ] at h
    obtain ⟨pre, post, h1, h2, h3⟩ := getElem?_split xs i b h
    refine ⟨x :: pre, post, by rw [h1]; rfl, by simp [h2], ?_⟩
    rw [h3]
    simp

/-- The prologue block, found before the first block through its footer, is
allocated. -/
theorem prologue_reads {st : Heap} {bs : List Blk} {bk : Nat → List Nat}
    (hC : Core st bs bk) :
    PREV_BLK st st.heap_listp = some (st.lo + 144) ∧
      GET_SIZE st (HDRP (st.lo + 144)) = some 16 ∧
      GET_ALLOC st (HDRP (st.lo + 144)) = some 1 := by
  obtain ⟨m, lo, brk, hl, lh⟩ := st
  have hle := Linked_le _ _ _ _ hC.linked1
  have htop := hC.top1
  have hhl : hl = lo + 160 := hC.hlp
  obtain ⟨p1, p2, p3⟩ := hC.pro
  simp only at p1 p2 p3 ⊢
  subst hhl
  refine ⟨?_, ?_, ?_⟩
  · unfold PREV_BLK
    have e1 : (lo + 160 + W64 - DSIZE) % W64 = lo + 144 := by unfold W64 DSIZE; (clear * - hle htop; omega)
    rw [e1, GET_SIZE_mk _ _ _ _ _ _ (by omega) (by omega), p3]
    simp only [Option.map_some']
    exact congrArg some (by unfold W64; (clear * - hle htop; omega))
  · rw [HDRP_eq _ (by omega) (by omega), GET_SIZE_mk _ _ _ _ _ _ (by omega) (by omega)]
    exact congrArg some (by
      have : lo + 144 - 8 = lo + 136 := by omega
      rw [this, p2])
  · rw [HDRP_eq _ (by omega) (by omega), GET_ALLOC_mk _ _ _ _ _ _ (by omega) (by omega)]
    exact congrArg some (by
      have : lo + 144 - 8 = lo + 136 := by (clear * -; omega)
      rw [this, p2])

/-- The header found at the start of the chain has the previous-allocated bit set. -/
theorem first_reads {st : Heap} {bs : List Blk} {bk : Nat → List Nat}
    (hC : Core st bs bk) (hE : Epi st bs) :
    ((bs.map Blk.addr)[0]?).getD st.brk = st.heap_listp ∧
      PREV_ALLOC st (HDRP st.heap_listp) = some 2 := by
  cases bs with
  | nil =>
    obtain ⟨m, lo, brk, hl, lh⟩ := st
    have hL := hC.linked1
    have htop := hC.top1
    have hhl : hl = lo + 160 := hC.hlp
    simp only [Linked] at hL
    rw [Epi_iff] at hE
    simp only [lastAlloc] at hE
    subst hhl
    simp only [List.map_nil, List.getElem?_nil, Option.getD_none]
    refine ⟨hL.symm, ?_⟩
    rw [HDRP_eq _ (by omega) (by omega), PREV_ALLOC_mk _ _ _ _ _ _ (by omega) (by omega)]
    have : lo + 160 - 8 = brk - 8 := by (clear * - hL; omega)
    rw [this, hE]
  | cons b bs =>
    obtain ⟨q1, q2, q3, q4, q5⟩ := blk_reads hC (List.mem_cons_self b bs)
    obtain ⟨m, lo, brk, hl, lh⟩ := st
    have hL := hC.linked1
    have hhl : hl = lo + 160 := hC.hlp
    simp only [Linked] at hL
    subst hhl
    simp only [List.map_cons, List.getElem?_cons_zero, Option.getD_some]
    refine ⟨hL.1, ?_⟩
    rw [hL.1] at q5
    rw [q5, hL.2.1]

/-- The block after a block of the chain starts where that block ends; after
the last block comes the end of the heap. -/
theorem next_addr {st : Heap} {pre post : List Blk} {b : Blk} {bk : Nat → List Nat}
    (hC : Core st (pre ++ b :: post) bk) (hE : Epi st (pre ++ b :: post)) :
    ((post.map Blk.addr)[0]?).getD st.brk = b.addr + b.size ∧
      NEXT_BLK st b.addr = some (b.addr + b.size) ∧ b.alloc ≤ 1 := by
  obtain ⟨m, lo, brk, hl, lh⟩ := st
  have hbm : b ∈ pre ++ b :: post := List.mem_append_right _ (List.mem_cons_self _ _)
  obtain ⟨hb1, hb2, hb3, hb4, hb5, hb6, htop, hlh, hhl, hbh⟩ := hC.blk hbm
  obtain ⟨hL1, hpa, hL3, hnx⟩ := hC.at_blk hE
  refine ⟨?_, NEXT_BLK_hdr m lo brk hl lh b.addr b.size b.palloc b.alloc (by omega) htop hbh
    (by (clear * - hb4; omega)) hb6 hb5 hb2, hb5⟩
  cases post with
  | nil =>
    simp only [Linked] at hL3
    simp only [List.map_nil, List.getElem?_nil, Option.getD_none]
    exact hL3.symm
  | cons c cs =>
    simp only [Linked] at hL3
    simp only [List.map_cons, List.getElem?_cons_zero, Option.getD_some]
    exact hL3.1

/-- The epilogue header is the last word of the heap: size 0, allocated. -/
theorem epilogue_reads {st : Heap} {bs : List Blk} {bk : Nat → List Nat}
    (hC : Core st bs bk) (hE : Epi st bs) :
    GET_SIZE st (HDRP st.brk) = some 0 ∧ GET_ALLOC st (HDRP st.brk) = some 1 := by
  obtain ⟨m, lo, brk, hl, lh⟩ := st
  have hle := Linked_le _ _ _ _ hC.linked1
  have htop := hC.top1
  have hla := lastAlloc_le _ _ _ _ hC.linked1 (Nat.le_refl 1)
  rw [Epi_iff] at hE
  simp only
  rw [HDRP_eq _ (by omega) (by omega), GET_SIZE_mk _ _ _ _ _ _ (by omega) (by omega),
    GET_ALLOC_mk _ _ _ _ _ _ (by omega) (by omega), hE]
  exact ⟨congrArg some (by (clear * - hla; omega)), congrArg some (by omega)⟩

/-- C13: in every state reachable from a successful `mm_init` by valid
`malloc`/`free` calls, the chain of blocks can be walked, and the
previous-allocated bit of the header after each block of the chain (the next
block, or the epilogue header after the last one) is set if and only if the
allocated bit of that block is set: it reads `2 * a` where `a` is the allocated
bit of the block.  The header at the start of the chain has the bit set, and
the prologue block before it is allocated.  The epilogue header has size 0 and
is allocated. -/
theorem prev_alloc_matches (st : Heap) (live : List (Nat × Nat)) (hR : Reach st live) :
    ∃ l, chain st = some l ∧
      (∃ pb, PREV_BLK st st.heap_listp = some pb ∧ GET_ALLOC st (HDRP pb) = some 1) ∧
      (l[0]?).getD st.brk = st.heap_listp ∧
      PREV_ALLOC st (HDRP st.heap_listp) = some 2 ∧
      (∀ i x, l[i]? = some x →
        ∃ a, GET_ALLOC st (HDRP x) = some a ∧ a ≤ 1 ∧
          NEXT_BLK st x = some ((l[i + 1]?).getD st.brk) ∧
          PREV_ALLOC st (HDRP ((l[i + 1]?).getD st.brk)) = some (2 * a)) ∧
      GET_SIZE st (HDRP st.brk) = some 0 ∧ GET_ALLOC st (HDRP st.brk) = some 1 := by
  obtain ⟨bs, bk, hI, _⟩ := Reach_inv st live hR
  obtain ⟨p1, p2, p3⟩ := prologue_reads hI.core
  obtain ⟨f1, f2⟩ := first_reads hI.core hI.epi
  refine ⟨_, chain_spec st bs bk hI, ⟨_, p1, p3⟩, f1, f2, ?_, epilogue_reads hI.core hI.epi⟩
  intro i x hx
  rw [List.getElem?_map] at hx
  obtain ⟨b, hb, hbx⟩ := Option.map_eq_some'.1 hx
  obtain ⟨pre, post, hsplit, hlen, hnext⟩ := getElem?_split bs i b hb
  subst hsplit
  have hbm : b ∈ pre ++ b :: post := List.mem_append_right _ (List.mem_cons_self _ _)
  obtain ⟨q1, q2, q3, q4, q5⟩ := blk_reads hI.core hbm
  obtain ⟨n1, n2, n3, n4, n5⟩ := next_reads hI.core hI.epi
  obtain ⟨a1, a2, a3⟩ := next_addr hI.core hI.epi
  have hnx : ((List.map Blk.addr (pre ++ b :: post))[i + 1]?).getD st.brk =
      b.addr + b.size := by
    rw [List.getElem?_map, ← hnext, ← List.getElem?_map]
    exact a1
  rw [hnx, ← hbx]
  exact ⟨b.alloc, q4, a3, a2, n4⟩

theorem prev_alloc_matches_witness :
    Reach run3 [(4304, 100)] ∧ ∃ l, chain run3 = some l ∧
      (∃ pb, PREV_BLK run3 run3.heap_listp = some pb ∧ GET_ALLOC run3 (HDRP pb) = some 1) ∧
      (l[0]?).getD run3.brk = run3.heap_listp ∧
      PREV_ALLOC run3 (HDRP run3.heap_listp) = some 2 ∧
      (∀ i x, l[i]? = some x →
        ∃ a, GET_ALLOC run3 (HDRP x) = some a ∧ a ≤ 1 ∧
          NEXT_BLK run3 x = some ((l[i + 1]?).getD run3.brk) ∧
          PREV_ALLOC run3 (HDRP ((l[i + 1]?).getD run3.brk)) = some (2 * a)) ∧
      GET_SIZE run3 (HDRP run3.brk) = some 0 ∧ GET_ALLOC run3 (HDRP run3.brk) = some 1 :=
  ⟨reach_run3, prev_alloc_matches run3 _ reach_run3⟩


/-! ## The lists are exactly the free blocks -/

theorem mem_bk_iff {st : Heap} {bs : List Blk} {bk : Nat → List Nat} (hI : Inv st bs bk)
    (i : Nat) (hi : i < 16) (x : Nat) :
    x ∈ bk i ↔ ∃ b, b ∈ bs ∧ b.addr = x ∧ b.alloc = 0 ∧ getlistNum b.size = i := by
  constructor
  · exact hI.core.mem_bk i hi x
  · rintro ⟨b, hb, h1, h2, h3⟩
    rw [← h1, ← h3]
    exact hI.full b hb h2

theorem nodup_single : ∀ (l : List Nat) (a : Nat), l.Nodup → a ∈ l → (∀ x, x ∈ l → x = a) →
    l = [a]
  | [], a, _, h, _ => by simp at h
  | x :: xs, a, hnd, _, hall => by
    have hx : x = a := hall x (List.mem_cons_self _ _)
    subst hx
    have hxs : xs = [] := by
      apply List.eq_nil_iff_forall_not_mem.2
      intro y hy
      have := hall y (List.mem_cons_of_mem _ hy)
      subst this
      exact (List.nodup_cons.1 hnd).1 hy
    rw [hxs]

/-- A list that holds no free block of the chain is empty. -/
theorem bk_empty {st : Heap} {bs : List Blk} {bk : Nat → List Nat} (hI : Inv st bs bk)
    (i : Nat) (hi : i < 16)
    (hno : ∀ b, b ∈ bs → b.alloc = 0 → getlistNum b.size ≠ i) : bk i = [] := by
  apply List.eq_nil_iff_forall_not_mem.2
  intro x hx
  obtain ⟨b, hb, _, h2, h3⟩ := (mem_bk_iff hI i hi x).1 hx
  exact hno b hb h2 h3

/-- A list that holds one free block of the chain is that block alone. -/
theorem bk_single {st : Heap} {bs : List Blk} {bk : Nat → List Nat} (hI : Inv st bs bk)
    (i : Nat) (hi : i < 16) (c : Blk) (hc : c ∈ bs) (hca : c.alloc = 0)
    (hci : getlistNum c.size = i)
    (hall : ∀ b, b ∈ bs → b.alloc = 0 → getlistNum b.size = i → b.addr = c.addr) :
    bk i = [c.addr] := by
  apply nodup_single _ _ (hI.core.nodup i hi)
  · exact (mem_bk_iff hI i hi _).2 ⟨c, hc, rfl, hca, hci⟩
  · intro x hx
    obtain ⟨b, hb, h1, h2, h3⟩ := (mem_bk_iff hI i hi x).1 hx
    rw [← h1]
    exact hall b hb h2 h3

/-- The root slot of a list holds its head, null for the empty list. -/
theorem root_reads {st : Heap} {bk : Nat → List Nat} (hL : Lists st bk) (i : Nat)
    (hi : i < 16) : root st i = st.lo + 8 * i ∧ GET st (root st i) = some ((bk i).headD NULL) := by
  obtain ⟨m, lo, brk, hl, lh⟩ := st
  have hlh : lh = lo := hL.lhp
  subst hlh
  have htop : brk < 9223372036854775808 := hL.top
  have hr : lh + 128 ≤ brk := hL.roots
  have hdl : DLseg m 0 (rd64 m (lh + 8 * i)) (bk i) 0 := hL.dl i hi
  rw [root_mk _ _ _ _ _ _ (by omega), GET_mk _ _ _ _ _ _ (by omega) (by omega)]
  refine ⟨rfl, congrArg some ?_⟩
  cases hbk : bk i with
  | nil =>
    rw [hbk] at hdl
    simp only [DLseg] at hdl
    simp only [List.headD_nil, NULL]
    exact hdl
  | cons x xs =>
    rw [hbk] at hdl
    simp only [DLseg] at hdl
    simp only [List.headD_cons]
    exact hdl.1

/-- C20 as the code has it: after a successful `mm_init` on an empty heap at
`base`, the heap holds an array of `SEGLISTNUM = 16` list-head slots, all
empty except slot `10 = getlistNum 4096`, which heads the list of the single
free block; then a zero alignment-pad word; a prologue block whose header and
footer encode the size `DSIZE = 16` with the allocated bit set; one free block
of 4096 bytes; and, as last word of the heap, an epilogue header encoding
size 0 with the allocated bit set. -/
theorem init_layout (base : Nat) (m : Nat → Nat) (hb : base + 4256 < LONG_LIM) :
    ∃ st, mm_init (fresh base m) true true true = some (true, st) ∧
      st.lo = base ∧ st.list_header_ptr = base ∧ st.heap_listp = base + 160 ∧
      st.brk = base + 8 * SEGLISTNUM + 32 + 4096 ∧
      (∀ i, i < 16 → i ≠ 10 →
        root st i = base + 8 * i ∧ GET st (root st i) = some NULL ∧ seglist st i = some []) ∧
      (root st 10 = base + 80 ∧ GET st (root st 10) = some (base + 160) ∧
        seglist st 10 = some [base + 160] ∧ getlistNum 4096 = 10) ∧
      GET st (base + 8 * SEGLISTNUM) = some 0 ∧
      (GET st (base + 8 * SEGLISTNUM + 8) = some (PACK DSIZE 1) ∧
        GET_SIZE st (base + 8 * SEGLISTNUM + 8) = some 16 ∧
        GET_ALLOC st (base + 8 * SEGLISTNUM + 8) = some 1 ∧
        GET st (base + 8 * SEGLISTNUM + 16) = some (PACK DSIZE 1)) ∧
      (chain st = some [base + 160] ∧ HDRP (base + 160) = base + 8 * SEGLISTNUM + 24 ∧
        GET_SIZE st (HDRP (base + 160)) = some 4096 ∧
        GET_ALLOC st (HDRP (base + 160)) = some 0) ∧
      (GET_SIZE st (st.brk - 8) = some 0 ∧ GET_ALLOC st (st.brk - 8) = some 1) := by
  unfold LONG_LIM at hb
  obtain ⟨m1, bk1, e, hI⟩ := mm_init_spec base m hb
  have hB : (⟨base + 160, 4096, 0, 1⟩ : Blk) ∈ [(⟨base + 160, 4096, 0, 1⟩ : Blk)] :=
    List.mem_singleton.2 rfl
  have h10 : getlistNum 4096 = 10 := by decide
  have hL := hI.core.lists
  have hs := seglist_lists hL
  obtain ⟨q1, q2, q3, q4, q5⟩ := blk_reads hI.core hB
  obtain ⟨e1, e2⟩ := epilogue_reads hI.core hI.epi
  obtain ⟨p1, p2, p3⟩ := hI.core.pro
  simp only at q1 q2 q3 q4 q5 e1 e2 p1 p2 p3
  have hp17 : PACK DSIZE 1 = 17 := by decide
  have h16 : SEGLISTNUM = 16 := rfl
  rw [HDRP_eq _ (by omega) (by omega)] at e1 e2
  refine ⟨_, e, rfl, rfl, rfl, by rw [h16], ?_, ?_, ?_, ?_, ?_, ?_⟩
  · intro i hi hne
    have hemp : bk1 i = [] := bk_empty hI i hi (fun b hb _ hg => by
      rw [List.mem_singleton.1 hb] at hg
      simp only at hg
      omega)
    obtain ⟨r1, r2⟩ := root_reads hL i hi
    rw [hemp] at r2
    refine ⟨r1, r2, ?_⟩
    rw [hs i hi, hemp]
  · have hone : bk1 10 = [base + 160] := bk_single hI 10 (by omega) _ hB rfl h10
      (fun b hb _ _ => by rw [List.mem_singleton.1 hb])
    obtain ⟨r1, r2⟩ := root_reads hL 10 (by omega)
    rw [hone] at r2
    refine ⟨r1, r2, ?_, h10⟩
    rw [hs 10 (by omega), hone]
  · rw [h16, GET_mk _ _ _ _ _ _ (by omega) (by omega)]
    exact congrArg some p1
  · rw [h16, hp17, GET_mk _ _ _ _ _ _ (by omega) (by omega),
      GET_mk _ _ _ _ _ _ (by omega) (by omega),
      GET_SIZE_mk _ _ _ _ _ _ (by omega) (by omega),
      GET_ALLOC_mk _ _ _ _ _ _ (by omega) (by omega)]
    have a1 : base + 8 * 16 + 8 = base + 136 := by omega
    have a2 : base + 8 * 16 + 16 = base + 144 := by omega
    rw [a1, a2, p2, p3]
    exact ⟨rfl, rfl, rfl, rfl⟩
  · refine ⟨chain_spec _ _ _ hI, ?_, q3, q4⟩
    rw [q1, h16]
    (clear * -; omega)
  · exact ⟨e1, e2⟩

theorem init_layout_witness :
    4096 + 4256 < LONG_LIM ∧
      ∃ st, mm_init (fresh 4096 (fun _ => 0)) true true true = some (true, st) ∧
        seglist st 10 = some [4096 + 160] ∧ chain st = some [4096 + 160] ∧
        GET_SIZE st (4096 + 8 * SEGLISTNUM + 8) = some 16 := by
  obtain ⟨st, e, _, _, _, _, _, h10, _, hp, hc, _⟩ :=
    init_layout 4096 (fun _ => 0) (by decide)
  exact ⟨by decide, st, e, h10.2.2.1, hc.1, hp.2.1⟩

/-- C20 as the spec has it fails: after a successful `mm_init` on the empty heap
at 4096 the array has 16 slots (the first word after 15 slots is the sixteenth
slot, the pad word comes after it), slot 10 is not empty, and the prologue
header encodes the size 16, not 32. -/
theorem init_layout_differs :
    mm_init (fresh 4096 (fun _ => 0)) true true true = some (true, run0) ∧
      SEGLISTNUM = 16 ∧ root run0 15 = run0.lo + 8 * 15 ∧
      GET run0 (root run0 10) = some 4256 ∧ seglist run0 10 = some [4256] ∧
      GET run0 (run0.lo + 8 * 16) = some 0 ∧
      GET_SIZE run0 (run0.lo + 8 * 16 + 8) = some 16 ∧
      GET_ALLOC run0 (run0.lo + 8 * 16 + 8) = some 1 ∧
      GET_SIZE run0 (HDRP 4256) = some 4096 :=
  ⟨by rfl, rfl, by decide, by decide, by decide, by decide, by decide, by decide, by decide⟩


/-! ## When `malloc` asks the provider -/

/-- When `find` returns a block, `malloc` places it and does not consult the provider. -/
theorem malloc_of_find (st : Heap) (n r : Nat) (h0 : 0 < n) (hf : find st (adjust n) = some r)
    (hr : r ≠ 0) (g : Bool) :
    malloc st n g = andThen (place st r (adjust n)) fun h => some (r, h) := by
  rw [malloc, if_neg (by omega)]
  simp only [NULL]
  rw [hf, andThen_some, if_pos hr]

/-- A free block of the chain as the headers show it. -/
theorem free_of_reads {st : Heap} {bs : List Blk} {bk : Nat → List Nat} (hC : Core st bs bk)
    {x : Nat} (hx : x ∈ bs.map Blk.addr) :
    ∃ b, b ∈ bs ∧ b.addr = x ∧ GET_ALLOC st (HDRP x) = some b.alloc ∧
      GET_SIZE st (HDRP x) = some b.size := by
  obtain ⟨b, hb, hbx⟩ := List.mem_map.1 hx
  obtain ⟨q1, q2, q3, q4, q5⟩ := blk_reads hC hb
  rw [hbx] at q3 q4
  exact ⟨b, hb, hbx, q4, q3⟩

/-- C14: in every state reachable from a successful `mm_init` by valid
`malloc`/`free` calls, `malloc (n)` with `n > 0` that does not wrap asks the
provider if and only if no free block of the chain has a size of at least the
adjusted size.  When a free block fits, the call returns a block whatever the
provider would answer and the heap bounds stay the same; when none fits, the
outcome is the provider's: refused, the call returns null and changes nothing;
granted, the heap grows by exactly the adjusted size. -/
theorem malloc_requests_iff (st : Heap) (live : List (Nat × Nat)) (hR : Reach st live)
    (n : Nat) (h0 : 0 < n) (hn : n + 31 < W64) :
    ∃ l, chain st = some l ∧
      (∀ x, x ∈ l → ∃ a s, GET_ALLOC st (HDRP x) = some a ∧ GET_SIZE st (HDRP x) = some s) ∧
      ((∃ x s, x ∈ l ∧ GET_ALLOC st (HDRP x) = some 0 ∧ GET_SIZE st (HDRP x) = some s ∧
          adjust n ≤ s) →
        ∃ p st1, p ≠ NULL ∧ st1.brk = st.brk ∧ ∀ g, malloc st n g = some (p, st1)) ∧
      ((∀ x s, x ∈ l → GET_ALLOC st (HDRP x) = some 0 → GET_SIZE st (HDRP x) = some s →
          s < adjust n) →
        malloc st n false = some (NULL, st) ∧
        (st.brk + adjust n < LONG_LIM →
          ∃ p st1, malloc st n true = some (p, st1) ∧ p ≠ NULL ∧
            st1.brk = st.brk + adjust n) ∧
        (¬ st.brk + adjust n < LONG_LIM → malloc st n true = some (NULL, st))) := by
  obtain ⟨bs, bk, hI, _⟩ := Reach_inv st live hR
  unfold W64 at hn
  refine ⟨_, chain_spec st bs bk hI, ?_, ?_, ?_⟩
  · intro x hx
    obtain ⟨b, _, _, h1, h2⟩ := free_of_reads hI.core hx
    exact ⟨_, _, h1, h2⟩
  · rintro ⟨x, s, hx, ha, hs, hle⟩
    obtain ⟨b, hb, hbx, h1, h2⟩ := free_of_reads hI.core hx
    rw [ha] at h1
    rw [hs] at h2
    have hb0 : b.alloc = 0 := (Option.some.inj h1).symm
    have hbs : b.size = s := (Option.some.inj h2).symm
    obtain ⟨m, lo, brk, hl, lh⟩ := st
    obtain ⟨r, e1, hr⟩ := find_spec m lo brk hl lh bs bk hI (adjust n)
    have hr0 : r ≠ 0 := by
      rcases hr with ⟨_, hnone⟩ | ⟨hr0, _⟩
      · have := hnone b hb hb0
        omega
      · exact hr0
    obtain ⟨c, pre, post, m1, bk1, hsplit, _, _, e2, hI1, _⟩ := malloc_found m lo brk hl lh bs
      bk hI n false h0 hn ⟨b, hb, hb0, by omega⟩
    have hc := (hI.core.blk (b := c) (by
      rw [hsplit]
      exact List.mem_append_right _ (List.mem_cons_self _ _))).1
    refine ⟨c.addr, ⟨m1, lo, brk, hl, lh⟩, by simp only [NULL]; omega, rfl, ?_⟩
    intro g
    rw [malloc_of_find _ n r h0 e1 hr0 g, ← malloc_of_find _ n r h0 e1 hr0 false, e2]
  · intro hno
    have hnofit : ∀ c, c ∈ bs → c.alloc = 0 → c.size < adjust n := by
      intro c hc hc0
      obtain ⟨q1, q2, q3, q4, q5⟩ := blk_reads hI.core hc
      exact hno c.addr c.size (List.mem_map.2 ⟨c, hc, rfl⟩) (by rw [q4, hc0]) q3
    obtain ⟨m, lo, brk, hl, lh⟩ := st
    refine ⟨malloc_refused m lo brk hl lh bs bk hI n false h0 hnofit (by simp), ?_, ?_⟩
    · intro htop
      unfold LONG_LIM at htop
      obtain ⟨c, pre, post, m1, bk1, _, _, hc, _, _, e, _⟩ := malloc_extended m lo brk hl lh bs
        bk hI n h0 hn hnofit htop
      exact ⟨c.addr, ⟨m1, lo, brk + adjust n, hl, lh⟩, e, by simp only [NULL]; omega, rfl⟩
    · intro htop
      unfold LONG_LIM at htop
      exact malloc_refused m lo brk hl lh bs bk hI n true h0 hnofit (fun h => htop h.2)

set_option maxRecDepth 100000 in
theorem chain_run3 : chain run3 = some [4256, 4304, 4432] ∧
    GET_ALLOC run3 (HDRP 4256) = some 0 ∧ GET_SIZE run3 (HDRP 4256) = some 48 ∧
    GET_SIZE run3 (HDRP 4304) = some 128 ∧ GET_SIZE run3 (HDRP 4432) = some 3920 := by
  decide

theorem malloc_requests_iff_witness :
    Reach run3 [(4304, 100)] ∧
      (∃ p st1, p ≠ NULL ∧ st1.brk = run3.brk ∧ ∀ g, malloc run3 24 g = some (p, st1)) ∧
      malloc run3 5000 false = some (NULL, run3) := by
  obtain ⟨c1, c2, c3, c4, c5⟩ := chain_run3
  refine ⟨reach_run3, ?_, ?_⟩
  · obtain ⟨l, hc, _, hfit, _⟩ := malloc_requests_iff run3 _ reach_run3 24 (by decide)
      (by decide)
    rw [c1] at hc
    have hl := Option.some.inj hc
    subst hl
    exact hfit ⟨4256, 48, by simp, c2, c3, by decide⟩
  · obtain ⟨l, hc, _, _, hno⟩ := malloc_requests_iff run3 _ reach_run3 5000 (by decide)
      (by decide)
    rw [c1] at hc
    have hl := Option.some.inj hc
    subst hl
    have h5 : adjust 5000 = 5024 := by decide
    refine (hno ?_).1
    intro x s hx _ hs
    simp only [List.mem_cons, List.mem_singleton, List.not_mem_nil, or_false] at hx
    rw [h5]
    rcases hx with hx | hx | hx
    · subst hx
      rw [c3] at hs
      have := Option.some.inj hs
      omega
    · subst hx
      rw [c4] at hs
      have := Option.some.inj hs
      omega
    · subst hx
      rw [c5] at hs
      have := Option.some.inj hs
      omega


/-! ## The shape of a chain with few allocated blocks -/

/-- A run of free blocks in which no free block follows a free block has at
most one block. -/
theorem free_run_short (run : List Blk) (a pa e : Nat) (hL : Linked a pa run e)
    (hf : ∀ d, d ∈ run → d.alloc = 0)
    (hn : ∀ d, d ∈ run.tail → d.alloc = 0 → d.palloc = 1) :
    run = [] ∨ run = [⟨a, e - a, 0, pa⟩] := by
  cases run with
  | nil => exact Or.inl rfl
  | cons c rest =>
    right
    have hc0 := hf c (List.mem_cons_self _ _)
    simp only [Linked] at hL
    obtain ⟨h1, h2, h3, h4, h5, h6⟩ := hL
    cases rest with
    | nil =>
      simp only [Linked] at h6
      obtain ⟨ca, cs, cl, cp⟩ := c
      simp only at h1 h2 hc0 h6
      subst h1 h2 hc0
      have : cs = e - ca := by omega
      rw [this]
    | cons d ds =>
      exfalso
      simp only [Linked] at h6
      have hd0 := hf d (List.mem_cons_of_mem _ (List.mem_cons_self _ _))
      have := hn d (by simp) hd0
      omega

/-- A consistent chain without allocated block is empty or one free block. -/
theorem shape_none {m : Nat → Nat} {lo brk hl lh : Nat} {bs : List Blk} {bk : Nat → List Nat}
    (hI : Inv ⟨m, lo, brk, hl, lh⟩ bs bk) (hno : ∀ q s, ¬ IsAlloc bs q s) :
    bs = [] ∨ bs = [⟨lo + 160, brk - (lo + 160), 0, 1⟩] := by
  apply free_run_short bs _ 1 _ hI.core.linked1
  · intro d hd
    have := Linked_mem bs _ 1 _ hI.core.linked1 (Nat.le_refl 1) d hd
    by_cases h1 : d.alloc = 1
    · exact absurd ⟨d, hd, rfl, rfl, h1⟩ (hno d.addr d.size)
    · omega
  · intro d hd
    exact hI.noadj d (List.mem_of_mem_tail hd)

/-- A consistent chain whose only allocated block is the first block is that
block, followed by at most one free block. -/
theorem shape_one {m : Nat → Nat} {lo brk hl lh : Nat} {bs : List Blk} {bk : Nat → List Nat}
    (hI : Inv ⟨m, lo, brk, hl, lh⟩ bs bk) (s1 : Nat)
    (h1 : ∀ q s, IsAlloc bs q s ↔ q = lo + 160 ∧ s = s1) :
    32 ≤ s1 ∧ lo + 160 + s1 ≤ brk ∧
    ∃ tail, bs = ⟨lo + 160, s1, 1, 1⟩ :: tail ∧
      (tail = [] ∨ tail = [⟨lo + 160 + s1, brk - (lo + 160 + s1), 0, 1⟩]) := by
  obtain ⟨d, hd, hd1, hd2, hd3⟩ := (h1 (lo + 160) s1).2 ⟨rfl, rfl⟩
  have hL := hI.core.linked1
  have hdm := Linked_mem bs _ 1 _ hL (Nat.le_refl 1) d hd
  cases bs with
  | nil => simp at hd
  | cons A tail =>
    have hLs := hL
    simp only [Linked] at hLs
    obtain ⟨a1, a2, a3, a4, a5, a6⟩ := hLs
    have hA : d = A := Linked_addr_inj _ _ 1 _ hL (Nat.le_refl 1) d A hd
      (List.mem_cons_self _ _) (by omega)
    subst hA
    have hAeq : d = ⟨lo + 160, s1, 1, 1⟩ := by
      obtain ⟨ca, cs, cl, cp⟩ := d
      simp only at hd1 hd2 hd3 a2
      subst hd1 hd2 hd3 a2
      rfl
    refine ⟨by omega, by omega, tail, by rw [hAeq], ?_⟩
    rw [hd2, hd3] at a6
    apply free_run_short tail _ 1 _ a6
    · intro e he
      have hem := Linked_mem tail _ 1 _ a6 (Nat.le_refl 1) e he
      by_cases he1 : e.alloc = 1
      · have := (h1 e.addr e.size).1 ⟨e, List.mem_cons_of_mem _ he, rfl, rfl, he1⟩
        omega
      · omega
    · intro e he
      exact hI.noadj e (List.mem_cons_of_mem _ (List.mem_of_mem_tail he))

/-- The function `find` returns the head of the first list it visits when
that block is large enough. -/
theorem find_head {m : Nat → Nat} {lo brk hl lh : Nat} {bs : List Blk} {bk : Nat → List Nat}
    (hI : Inv ⟨m, lo, brk, hl, lh⟩ bs bk) (a x : Nat) (t : List Nat)
    (hhd : bk (getlistNum a) = x :: t) (c : Blk) (hc : c ∈ bs) (hcx : c.addr = x)
    (hfit : a ≤ c.size) : find ⟨m, lo, brk, hl, lh⟩ a = some x := by
  have hk := getlistNum_lt a
  have hcb := hI.core.blk hc
  obtain ⟨n, hn⟩ : ∃ n, 16 - getlistNum a = n + 1 := ⟨16 - getlistNum a - 1, by (clear * - hk; omega)⟩
  rw [find]
  simp only [SEGLISTNUM]
  rw [find_loop_spec m lo brk hl lh bs bk hI.core a _ _ (by omega), hn, findFrom, hhd, firstFit,
    ← hcx, hsize_blk hI.core hc, if_pos hfit, if_pos (by omega)]


/-! ## Reuse of a freed block -/

theorem not_IsAlloc_single (c : Blk) (hc : c.alloc = 0) (q s : Nat) : ¬ IsAlloc [c] q s := by
  rintro ⟨d, hd, _, _, h3⟩
  rw [List.mem_singleton.1 hd] at h3
  omega

/-- The first `malloc` after `mm_init`: the block starts the chain. -/
theorem first_malloc (m : Nat → Nat) (lo hl lh : Nat) (bk : Nat → List Nat)
    (hI : Inv ⟨m, lo, lo + 4256, hl, lh⟩ [⟨lo + 160, 4096, 0, 1⟩] bk) (n : Nat) (h0 : 0 < n)
    (hn : n + 31 < 18446744073709551616)
    (htop : 4096 < adjust n → lo + 4256 + adjust n < 9223372036854775808) :
    ∃ m1 brk1 bs1 bk1 s1,
      malloc ⟨m, lo, lo + 4256, hl, lh⟩ n true = some (lo + 160, ⟨m1, lo, brk1, hl, lh⟩) ∧
      Inv ⟨m1, lo, brk1, hl, lh⟩ bs1 bk1 ∧
      (∀ q s, IsAlloc bs1 q s ↔ q = lo + 160 ∧ s = s1) ∧
      adjust n ≤ s1 ∧ getlistNum s1 = getlistNum (adjust n) ∧
      lo + 4256 ≤ brk1 ∧ brk1 ≤ lo + 4256 + adjust n ∧
      (adjust n + 32 ≤ 4096 → brk1 = lo + 4256 ∧ s1 = adjust n) := by
  obtain ⟨a1, a2, a3, a4⟩ := adjust_spec n h0 hn
  by_cases hfit : adjust n ≤ 4096
  · obtain ⟨c, pre, post, m1, bk1, hsplit, hc0, hcs, e, hI1, _⟩ := malloc_found m lo (lo + 4256)
      hl lh _ bk hI n true h0 hn ⟨_, List.mem_singleton.2 rfl, rfl, hfit⟩
    have hcm : c ∈ [(⟨lo + 160, 4096, 0, 1⟩ : Blk)] := by
      rw [hsplit]
      exact List.mem_append_right _ (List.mem_cons_self _ _)
    have hceq := List.mem_singleton.1 hcm
    subst hceq
    refine ⟨m1, _, _, bk1, placedSize ⟨lo + 160, 4096, 0, 1⟩ (adjust n), e, hI1, ?_, ?_, ?_,
      Nat.le_refl _, by omega, ?_⟩
    · intro q s
      rw [IsAlloc_placed pre post _ _ rfl, ← hsplit]
      constructor
      · rintro (h | h)
        · exact absurd h (not_IsAlloc_single _ rfl q s)
        · exact h
      · exact fun h => Or.inr h
    · unfold placedSize
      simp only
      split_ifs <;> omega
    · unfold placedSize
      simp only
      by_cases hsp : 32 ≤ 4096 - adjust n
      · rw [if_pos hsp]
      · rw [if_neg hsp]
        have h1 := (getlistNum_le_iff 4096 9 (by omega)).not
        have h2 := (getlistNum_le_iff 4096 10 (by omega))
        have h3 := (getlistNum_le_iff (adjust n) 9 (by omega)).not
        have h4 := (getlistNum_le_iff (adjust n) 10 (by omega))
        have hv := bucketBounds_vals
        (clear * - hfit hsp h1 h2 h3 h4 hv; omega)
    · intro h
      refine ⟨rfl, ?_⟩
      unfold placedSize
      simp only
      rw [if_pos (by omega)]
  · obtain ⟨c, pre, post, m1, bk1, hc0, hcs, hca, hiff, _, e, hI1, _, m5, bk5, hI5⟩ :=
      malloc_extended m lo (lo + 4256) hl lh _ bk hI n h0 hn
        (fun c hc _ => by rw [List.mem_singleton.1 hc]; simp only; omega) (htop (by omega))
    have hno : ∀ q s, ¬ IsAlloc (pre ++ c :: post) q s := by
      intro q s h
      exact not_IsAlloc_single _ rfl q s ((hiff q s).1 h)
    have hcm : c ∈ pre ++ c :: post := List.mem_append_right _ (List.mem_cons_self _ _)
    have hceq : c = ⟨lo + 160, lo + 4256 + adjust n - (lo + 160), 0, 1⟩ := by
      rcases shape_none hI5 hno with h | h
      · rw [h] at hcm; simp at hcm
      · rw [h] at hcm; exact List.mem_singleton.1 hcm
    have hps : placedSize c (adjust n) = adjust n := by
      unfold placedSize
      rw [hceq]
      simp only
      rw [if_pos (by omega)]
    have hcaddr : c.addr = lo + 160 := by rw [hceq]
    rw [hcaddr] at e
    refine ⟨m1, _, _, bk1, adjust n, e, hI1, ?_, Nat.le_refl _, rfl, by omega, Nat.le_refl _,
      fun h => absurd h (by omega)⟩
    intro q s
    rw [IsAlloc_placed pre post _ _ hc0, hps, hcaddr]
    constructor
    · rintro (h | h)
      · exact absurd h (hno q s)
      · exact h
    · exact fun h => Or.inr h

/-- A free block of a chain whose only allocated block is the first one
comes right after that block and reaches the end of the heap. -/
theorem free_after_one {m : Nat → Nat} {lo brk hl lh : Nat} {bs : List Blk}
    {bk : Nat → List Nat} (hI : Inv ⟨m, lo, brk, hl, lh⟩ bs bk) (s1 : Nat)
    (h1 : ∀ q s, IsAlloc bs q s ↔ q = lo + 160 ∧ s = s1) (c : Blk) (hc : c ∈ bs)
    (hc0 : c.alloc = 0) :
    c = ⟨lo + 160 + s1, brk - (lo + 160 + s1), 0, 1⟩ := by
  obtain ⟨_, _, tail, hbs, ht⟩ := shape_one hI s1 h1
  rw [hbs] at hc
  rcases List.mem_cons.1 hc with h | h
  · rw [h] at hc0; simp at hc0
  · rcases ht with ht | ht
    · rw [ht] at h; simp at h
    · rw [ht] at h; exact List.mem_singleton.1 h

/-- The second `malloc`: the block comes right after the first one. -/
theorem second_malloc (m : Nat → Nat) (lo brk hl lh : Nat) (bs : List Blk)
    (bk : Nat → List Nat) (hI : Inv ⟨m, lo, brk, hl, lh⟩ bs bk) (s1 : Nat)
    (h1 : ∀ q s, IsAlloc bs q s ↔ q = lo + 160 ∧ s = s1) (n : Nat) (h0 : 0 < n)
    (hn : n + 31 < 18446744073709551616)
    (htop : ¬ adjust n ≤ brk - (lo + 160 + s1) → brk + adjust n < 9223372036854775808) :
    ∃ m2 brk2 bs2 bk2 s2,
      malloc ⟨m, lo, brk, hl, lh⟩ n true = some (lo + 160 + s1, ⟨m2, lo, brk2, hl, lh⟩) ∧
      Inv ⟨m2, lo, brk2, hl, lh⟩ bs2 bk2 ∧
      (∀ q s, IsAlloc bs2 q s ↔ (q = lo + 160 ∧ s = s1) ∨ (q = lo + 160 + s1 ∧ s = s2)) ∧
      adjust n ≤ s2 ∧ 32 ≤ s1 ∧ brk ≤ brk2 ∧
      (adjust n ≤ brk - (lo + 160 + s1) → brk2 = brk ∧
        s2 = placedSize ⟨lo + 160 + s1, brk - (lo + 160 + s1), 0, 1⟩ (adjust n)) := by
  obtain ⟨a1, a2, a3, a4⟩ := adjust_spec n h0 hn
  obtain ⟨hs1, hs1b, _⟩ := shape_one hI s1 h1
  by_cases hfit : ∃ c, c ∈ bs ∧ c.alloc = 0 ∧ adjust n ≤ c.size
  · obtain ⟨c, pre, post, m1, bk1, hsplit, hc0, hcs, e, hI1, _⟩ := malloc_found m lo brk hl lh
      bs bk hI n true h0 hn hfit
    have hcm : c ∈ bs := by
      rw [hsplit]
      exact List.mem_append_right _ (List.mem_cons_self _ _)
    have hceq := free_after_one hI s1 h1 c hcm hc0
    have hcaddr : c.addr = lo + 160 + s1 := by rw [hceq]
    rw [hcaddr] at e
    refine ⟨m1, _, _, bk1, placedSize c (adjust n), e, hI1, ?_, ?_, hs1, Nat.le_refl _, ?_⟩
    · intro q s
      rw [IsAlloc_placed pre post _ _ hc0, ← hsplit, h1, hcaddr]
    · unfold placedSize
      split_ifs <;> omega
    · intro _
      exact ⟨rfl, by rw [hceq]⟩
  · have hnofit : ∀ c, c ∈ bs → c.alloc = 0 → c.size < adjust n := by
      intro c hc hc0
      by_contra hlt
      exact hfit ⟨c, hc, hc0, by omega⟩
    have hnle : ¬ adjust n ≤ brk - (lo + 160 + s1) := by
      intro hle
      obtain ⟨_, _, tail, hbs, ht⟩ := shape_one hI s1 h1
      rcases ht with ht | ht
      · have hL := hI.core.linked1
        rw [hbs, ht] at hL
        simp only [Linked] at hL
        (clear * - a3 hle hL; omega)
      · have := hnofit ⟨lo + 160 + s1, brk - (lo + 160 + s1), 0, 1⟩
          (by rw [hbs, ht]; simp) rfl
        simp only at this
        omega
    obtain ⟨c, pre, post, m1, bk1, hc0, hcs, hca, hiff, _, e, hI1, _, m5, bk5, hI5⟩ :=
      malloc_extended m lo brk hl lh bs bk hI n h0 hn hnofit (htop hnle)
    have hcm : c ∈ pre ++ c :: post := List.mem_append_right _ (List.mem_cons_self _ _)
    have h5 : ∀ q s, IsAlloc (pre ++ c :: post) q s ↔ q = lo + 160 ∧ s = s1 := by
      intro q s
      rw [hiff, h1]
    have hceq := free_after_one hI5 s1 h5 c hcm hc0
    have hcaddr : c.addr = lo + 160 + s1 := by rw [hceq]
    rw [hcaddr] at e
    refine ⟨m1, _, _, bk1, placedSize c (adjust n), e, hI1, ?_, ?_, hs1, by omega, ?_⟩
    · intro q s
      rw [IsAlloc_placed pre post _ _ hc0, h5, hcaddr]
    · unfold placedSize
      split_ifs <;> omega
    · intro hle
      exact absurd hle hnle

/-- After `free` of the first of two allocated blocks, the block is a free
block of its old size and heads its list. -/
theorem free_first (m : Nat → Nat) (lo brk hl lh : Nat) (bs : List Blk)
    (bk : Nat → List Nat) (hI : Inv ⟨m, lo, brk, hl, lh⟩ bs bk) (s1 s2 : Nat)
    (h32 : 32 ≤ s1)
    (h2 : ∀ q s, IsAlloc bs q s ↔ (q = lo + 160 ∧ s = s1) ∨ (q = lo + 160 + s1 ∧ s = s2)) :
    ∃ m3 bs3 bk3, free ⟨m, lo, brk, hl, lh⟩ (lo + 160) = some ⟨m3, lo, brk, hl, lh⟩ ∧
      Inv ⟨m3, lo, brk, hl, lh⟩ bs3 bk3 ∧
      (∀ q s, IsAlloc bs3 q s ↔ q = lo + 160 + s1 ∧ s = s2) ∧
      (∃ t, bk3 (getlistNum s1) = (lo + 160) :: t) ∧
      ∃ r, r ∈ bs3 ∧ r.addr = lo + 160 ∧ r.size = s1 ∧ r.alloc = 0 := by
  obtain ⟨d, hd, hd1, hd2, hd3⟩ := (h2 (lo + 160) s1).2 (Or.inl ⟨rfl, rfl⟩)
  obtain ⟨pre, post, hsplit⟩ := List.append_of_mem hd
  subst hsplit
  obtain ⟨m3, bs3, bk3, e, hI3, _, hiff, r, hr, hr0, hr1, hr2, t, hhd⟩ := free_cover m lo brk hl
    lh pre post d bk hI hd3
  rw [hd1] at e
  have h3 : ∀ q s, IsAlloc bs3 q s ↔ q = lo + 160 + s1 ∧ s = s2 := by
    intro q s
    rw [hiff, h2, hd1]
    constructor
    · rintro ⟨h | h, hne⟩
      · exact absurd h.1 hne
      · exact h
    · intro h
      exact ⟨Or.inr h, by omega⟩
  obtain ⟨A, hA, hA1, hA2, hA3⟩ := (h3 (lo + 160 + s1) s2).2 ⟨rfl, rfl⟩
  have hrb := hI3.core.blk hr
  have hAb := hI3.core.blk hA
  have hra : r.addr = lo + 160 := by (clear * - hd1 hr1 hrb; omega)
  have hrs : r.size = s1 := by
    rcases hI3.core.sep hr hA with h | h | h
    · (clear * - h32 hd1 hr1 hA1 h; omega)
    · (clear * - hd2 hr1 hr2 hA1 hrb h; omega)
    · (clear * - h32 hd1 hr1 hA1 h; omega)
  refine ⟨m3, bs3, bk3, e, hI3, h3, ⟨t, ?_⟩, r, hr, hra, hrs, hr0⟩
  rw [← hrs, ← hra]
  exact hhd

/-- The function `malloc` takes the head of the list of its adjusted size when it fits, whatever
the provider would answer. -/
theorem malloc_reuse (m : Nat → Nat) (lo brk hl lh : Nat) (bs : List Blk)
    (bk : Nat → List Nat) (hI : Inv ⟨m, lo, brk, hl, lh⟩ bs bk) (n : Nat) (h0 : 0 < n)
    (hn : n + 31 < 18446744073709551616) (r : Blk) (hr : r ∈ bs) (hr0 : r.alloc = 0)
    (hfit : adjust n ≤ r.size) (t : List Nat)
    (hhd : bk (getlistNum (adjust n)) = r.addr :: t) :
    ∃ m4, ∀ g, malloc ⟨m, lo, brk, hl, lh⟩ n g = some (r.addr, ⟨m4, lo, brk, hl, lh⟩) := by
  have hf := find_head hI (adjust n) r.addr t hhd r hr rfl hfit
  have hrb := hI.core.blk hr
  obtain ⟨c, pre, post, m4, bk4, _, _, _, e, _, _⟩ := malloc_found m lo brk hl lh bs bk hI n
    false h0 hn ⟨r, hr, hr0, hfit⟩
  rw [malloc_of_find _ n r.addr h0 hf (by omega) false] at e
  obtain ⟨h4, e4, e5⟩ := andThen_eq_some.1 e
  have e6 := Option.some.inj e5
  have e7 : r.addr = c.addr := (Prod.mk.inj e6).1
  have e8 : h4 = ⟨m4, lo, brk, hl, lh⟩ := (Prod.mk.inj e6).2
  refine ⟨m4, fun g => ?_⟩
  rw [malloc_of_find _ n r.addr h0 hf (by omega) g, e4, andThen_some, e8]

/-- C11: for every request size `n > 0` that does not wrap, with a provider
that grants every request, the sequence `mm_init`; `p1 = malloc (n)`;
`p2 = malloc (n)`; `free (p1)`; `p3 = malloc (n)` runs through and gives two
distinct pointers `p1` and `p2` whose blocks do not overlap (the block of `p2`
starts at or after the end of the block of `p1`, and both hold `n` bytes),
`p3 = p1`, and the last `malloc` makes no request to the provider: it returns
the same result whatever the provider would answer and the heap bounds are
the same before and after it. -/
theorem freed_block_reused (base : Nat) (m : Nat → Nat) (n : Nat) (h0 : 0 < n)
    (hn : n + 31 < W64) (hb : base + 4256 + 2 * adjust n < LONG_LIM) :
    ∃ st0 p1 st1 p2 st2 st3 st4 s1 s2,
      mm_init (fresh base m) true true true = some (true, st0) ∧
      malloc st0 n true = some (p1, st1) ∧ malloc st1 n true = some (p2, st2) ∧
      free st2 p1 = some st3 ∧ (∀ g, malloc st3 n g = some (p1, st4)) ∧
      p1 ≠ NULL ∧ p2 ≠ NULL ∧ p1 ≠ p2 ∧
      GET_SIZE st2 (HDRP p1) = some s1 ∧ GET_SIZE st2 (HDRP p2) = some s2 ∧
      n + 16 ≤ s1 ∧ n + 16 ≤ s2 ∧ st2.lo + 160 ≤ p1 ∧ p1 + s1 ≤ p2 ∧ p2 + s2 ≤ st2.brk ∧
      st3.lo = st2.lo ∧ st3.brk = st2.brk ∧ st4.lo = st3.lo ∧ st4.brk = st3.brk := by
  unfold W64 at hn
  unfold LONG_LIM at hb
  obtain ⟨a1, a2, a3, a4⟩ := adjust_spec n h0 hn
  obtain ⟨m0, bk0, e0, hI0⟩ := mm_init_spec base m (by omega)
  obtain ⟨m1, brk1, bs1, bk1, s1, e1, hI1, h1, hs1, hg1, hb1, hb2, _⟩ := first_malloc m0 base
    (base + 160) base bk0 hI0 n h0 hn (fun _ => by omega)
  obtain ⟨m2, brk2, bs2, bk2, s2, e2, hI2, h2, hs2, hs32, _, _⟩ := second_malloc m1 base brk1
    (base + 160) base bs1 bk1 hI1 s1 h1 n h0 hn (fun _ => by omega)
  obtain ⟨m3, bs3, bk3, e3, hI3, h3, ⟨t, hhd⟩, r, hr, hra, hrs, hr0⟩ := free_first m2 base brk2
    (base + 160) base bs2 bk2 hI2 s1 s2 hs32 h2
  rw [hg1, ← hra] at hhd
  obtain ⟨m4, e4⟩ := malloc_reuse m3 base brk2 (base + 160) base bs3 bk3 hI3 n h0 hn r hr hr0
    (by omega) t hhd
  rw [hra] at e4
  obtain ⟨d1, hd1, hd1a, hd1s, _⟩ := (h2 (base + 160) s1).2 (Or.inl ⟨rfl, rfl⟩)
  obtain ⟨d2, hd2, hd2a, hd2s, _⟩ := (h2 (base + 160 + s1) s2).2 (Or.inr ⟨rfl, rfl⟩)
  obtain ⟨_, _, q1, _, _⟩ := blk_reads hI2.core hd1
  obtain ⟨_, _, q2, _, _⟩ := blk_reads hI2.core hd2
  have hd2b := hI2.core.blk hd2
  rw [hd1a, hd1s] at q1
  rw [hd2a, hd2s] at q2
  refine ⟨_, base + 160, _, base + 160 + s1, _, _, _, s1, s2, e0, e1, e2, e3, e4, ?_, ?_, ?_,
    q1, q2, by omega, by (clear * - a3 hs2; omega), Nat.le_refl _, Nat.le_refl _, by simp only; (clear * - hd2a hd2s hd2b; omega), rfl, rfl, rfl,
    rfl⟩
  · simp only [NULL]; (clear * -; omega)
  · simp only [NULL]; (clear * -; omega)
  · omega

theorem freed_block_reused_witness :
    (0 < 100 ∧ 100 + 31 < W64 ∧ 4096 + 4256 + 2 * adjust 100 < LONG_LIM) ∧
    ∃ st0 p1 st1 p2 st2 st3 st4 s1 s2,
      mm_init (fresh 4096 (fun _ => 0)) true true true = some (true, st0) ∧
      malloc st0 100 true = some (p1, st1) ∧ malloc st1 100 true = some (p2, st2) ∧
      free st2 p1 = some st3 ∧ (∀ g, malloc st3 100 g = some (p1, st4)) ∧
      p1 ≠ NULL ∧ p2 ≠ NULL ∧ p1 ≠ p2 ∧
      GET_SIZE st2 (HDRP p1) = some s1 ∧ GET_SIZE st2 (HDRP p2) = some s2 ∧
      100 + 16 ≤ s1 ∧ 100 + 16 ≤ s2 ∧ st2.lo + 160 ≤ p1 ∧ p1 + s1 ≤ p2 ∧ p2 + s2 ≤ st2.brk ∧
      st3.lo = st2.lo ∧ st3.brk = st2.brk ∧ st4.lo = st3.lo ∧ st4.brk = st3.brk :=
  ⟨⟨by decide, by decide, by decide⟩,
    freed_block_reused 4096 (fun _ => 0) 100 (by decide) (by decide) (by decide)⟩


/-! ## Coalesced reuse -/

/-- The function `place` with an adjusted size of 0 or 16 (a request size that
wrapped) on a heap whose chain is one free block of 4096 bytes: every access
stays inside the heap. -/
theorem place_tiny (m : Nat → Nat) (lo brk hl lh : Nat) (bk : Nat → List Nat)
    (hI : Inv ⟨m, lo, brk, hl, lh⟩ [⟨lo + 160, 4096, 0, 1⟩] bk) (asz : Nat)
    (hz : asz = 0 ∨ asz = 16) :
    ∃ m1, place ⟨m, lo, brk, hl, lh⟩ (lo + 160) asz = some ⟨m1, lo, brk, hl, lh⟩ := by
  have hbm : (⟨lo + 160, 4096, 0, 1⟩ : Blk) ∈ [(⟨lo + 160, 4096, 0, 1⟩ : Blk)] :=
    List.mem_singleton.2 rfl
  have hC := hI.core
  obtain ⟨hb1, hb2, hb3, hb4, hb5, hb6, htop, hlh, hhl, hbh⟩ := hC.blk hbm
  simp only at hb1 hb2 hb3 hb4 hb5 hb6 hbh
  have hL := hC.linked1
  simp only [Linked] at hL
  have hbrk : brk = lo + 4256 := by omega
  have h10 : getlistNum 4096 = 10 := by decide
  have h10r : getlistNum (4096 - asz) = 10 := by
    rcases hz with h | h <;> subst h <;> decide
  have hone : bk 10 = [lo + 160] := bk_single hI 10 (by omega) _ hbm rfl h10
    (fun b hb _ _ => by rw [List.mem_singleton.1 hb])
  obtain ⟨m1, e1, hC1, hF1⟩ := remfromSeg_spec m lo brk hl lh _ bk hC _ hbm
    (by simp only; rw [h10, hone]; exact List.mem_singleton.2 rfl)
  simp only at e1
  have hroot : rd64 m1 (lo + 80) = 0 := by
    have hdl := hC1.dl1 10 (by omega)
    simp only at hdl
    rw [h10, Function.update_same, hone, List.erase_cons_head] at hdl
    simp only [DLseg] at hdl
    exact hdl
  have hbh1 := hC1.hdr1 _ hbm
  simp only [Blk.hdr] at hbh1
  obtain ⟨r1, r2, r3, r4, r5⟩ := hdr_reads m lo brk hl lh (lo + 160) 4096 1 0
    (by omega) (by omega) htop hbh (by omega) (by omega) (by omega)
  obtain ⟨_, _, _, _, s5⟩ := hdr_reads m1 lo brk hl lh (lo + 160) 4096 1 0
    (by omega) (by omega) htop hbh1 (by omega) (by omega) (by omega)
  have hrem : (4096 + W64 - asz) % W64 = 4096 - asz := by
    simp only [W64]; (clear * - hz; omega)
  rw [place, r1, r3, andThen_some,
    NEXT_BLK_hdr m lo brk hl lh (lo + 160) 4096 1 0 (by omega) htop hbh (by omega)
      (by omega) (by omega) (by omega), andThen_some, e1, andThen_some, hrem]
  simp only [DSIZE]
  rw [if_pos (by (clear * - hz; omega)), s5, andThen_some, two_lor_one 1 (by omega),
    PACK_eq _ _ (by (clear * - hz; omega)) (by omega), PUT_mk _ _ _ _ _ _ _ (by (clear * -; omega)) (by (clear * - hL; omega)), andThen_some]
  have hh2 : rd64 (wr64 m1 (lo + 160 - 8) (asz + (2 * 1 + 1))) (lo + 160 - 8)
      = asz + 2 * 1 + 1 := by
    rw [rd64_wr64_at _ _ _ _ rfl (by (clear * - hz; omega))]
  rw [NEXT_BLK_hdr _ lo brk hl lh (lo + 160) asz 1 1 (by omega) htop hh2 (by (clear * - hz; omega)) (by omega)
      (by omega) (by (clear * - hz hL; omega)), andThen_some, HDRP_eq _ (by omega) (by (clear * - hz htop hL; omega)),
    lor_eq_add _ 2 (by (clear * - hz; omega)) (by omega), PUT_mk _ _ _ _ _ _ _ (by (clear * -; omega)) (by (clear * - hz hL; omega)),
    andThen_some]
  have hh3 : rd64 (wr64 (wr64 m1 (lo + 160 - 8) (asz + (2 * 1 + 1)))
      (lo + 160 + asz - 8) (4096 - asz + 2)) (lo + 160 + asz - 8)
      = (4096 - asz) + 2 * 1 + 0 := by
    rw [rd64_wr64_at _ _ _ _ rfl (by omega)]
  rw [FTRP_hdr _ lo brk hl lh (lo + 160 + asz) (4096 - asz) 1 0 (by omega) htop hh3
      (by (clear * - hz; omega)) (by omega) (by omega) (by (clear * - hz; omega)) (by (clear * - hz hL; omega)), andThen_some,
    PUT_mk _ _ _ _ _ _ _ (by (clear * -; omega)) (by (clear * - hz hL; omega)), andThen_some]
  subst hlh
  rw [addtoSeg]
  simp only [NULL]
  rw [h10r, root_mk _ _ _ _ _ _ (by omega), GET_mk _ _ _ _ _ _ (by omega) (by omega),
    andThen_some]
  have hr4 : rd64 (wr64 (wr64 (wr64 m1 (lh + 160 - 8) (asz + (2 * 1 + 1)))
      (lh + 160 + asz - 8) (4096 - asz + 2)) (lh + 160 + asz + (4096 - asz) - 16)
      (4096 - asz + 2)) (lh + 8 * 10) = 0 := by
    simp (disch := (clear * -; omega)) only [rd64_wr64_other]
    exact hroot
  rw [hr4, if_pos rfl, PUT_ADDRESS_mk _ _ _ _ _ _ _ (by omega) (by omega), andThen_some,
    N_ADD_eq, PUT_ADDRESS_mk _ _ _ _ _ _ _ (by omega) (by (clear * - hz hL; omega)), andThen_some,
    P_ADD_eq _ (by (clear * - hz htop hL; omega)), PUT_ADDRESS_mk _ _ _ _ _ _ _ (by omega) (by (clear * - hz hL; omega))]
  exact ⟨_, rfl⟩

theorem adjust_wrapped (n : Nat) (h1 : n < 18446744073709551616)
    (h2 : 18446744073709551616 ≤ n + 31) : adjust n = 0 ∨ adjust n = 16 := by
  unfold adjust DSIZE W64
  (clear * - h1 h2; omega)

/-- On a heap whose chain is one free block of 4096 bytes, `malloc` returns
that block for every request size whose adjusted size is at most 4096, also
one that wrapped, and does not consult the provider. -/
theorem malloc_whole (m : Nat → Nat) (lo brk hl lh : Nat) (bk : Nat → List Nat)
    (hI : Inv ⟨m, lo, brk, hl, lh⟩ [⟨lo + 160, 4096, 0, 1⟩] bk) (n : Nat) (h0 : 0 < n)
    (hn : n < 18446744073709551616) (hfit : adjust n ≤ 4096) :
    ∃ m1, ∀ g, malloc ⟨m, lo, brk, hl, lh⟩ n g = some (lo + 160, ⟨m1, lo, brk, hl, lh⟩) := by
  have hbm : (⟨lo + 160, 4096, 0, 1⟩ : Blk) ∈ [(⟨lo + 160, 4096, 0, 1⟩ : Blk)] :=
    List.mem_singleton.2 rfl
  obtain ⟨r, e1, hr⟩ := find_spec m lo brk hl lh _ bk hI (adjust n)
  have hr0 : r = lo + 160 := by
    rcases hr with ⟨_, hnone⟩ | ⟨_, c, hc, hc1, _, _⟩
    · have := hnone _ hbm rfl
      simp only at this
      omega
    · rw [List.mem_singleton.1 hc] at hc1
      exact hc1.symm
  subst hr0
  by_cases hw : n + 31 < 18446744073709551616
  · obtain ⟨c, pre, post, m1, bk1, hsplit, _, _, e, _, _⟩ := malloc_found m lo brk hl lh _ bk hI
      n false h0 hw ⟨_, hbm, rfl, hfit⟩
    have hcm : c ∈ [(⟨lo + 160, 4096, 0, 1⟩ : Blk)] := by
      rw [hsplit]
      exact List.mem_append_right _ (List.mem_cons_self _ _)
    rw [List.mem_singleton.1 hcm] at e
    refine ⟨m1, fun g => ?_⟩
    rw [malloc_of_find _ n _ h0 e1 (by omega) g, ← malloc_of_find _ n _ h0 e1 (by omega) false]
    exact e
  · obtain ⟨m1, e2⟩ := place_tiny m lo brk hl lh bk hI (adjust n)
      (adjust_wrapped n hn (by omega))
    refine ⟨m1, fun g => ?_⟩
    rw [malloc_of_find _ n _ h0 e1 (by omega) g, e2, andThen_some]

/-- When a free block fits, `malloc` does not consult the provider. -/
theorem malloc_any (m : Nat → Nat) (lo brk hl lh : Nat) (bs : List Blk) (bk : Nat → List Nat)
    (hI : Inv ⟨m, lo, brk, hl, lh⟩ bs bk) (n : Nat) (h0 : 0 < n)
    (hfit : ∃ c, c ∈ bs ∧ c.alloc = 0 ∧ adjust n ≤ c.size) (g g1 : Bool) :
    malloc ⟨m, lo, brk, hl, lh⟩ n g = malloc ⟨m, lo, brk, hl, lh⟩ n g1 := by
  obtain ⟨r, e1, hr⟩ := find_spec m lo brk hl lh bs bk hI (adjust n)
  have hr0 : r ≠ 0 := by
    rcases hr with ⟨_, hnone⟩ | ⟨hr0, _⟩
    · obtain ⟨c, hc, hc0, hcs⟩ := hfit
      have := hnone c hc hc0
      omega
    · exact hr0
  rw [malloc_of_find _ n r h0 e1 hr0 g, malloc_of_find _ n r h0 e1 hr0 g1]

/-- C12 for request sizes that do not wrap: after `mm_init`, for all `a` and
`b` whose adjusted sizes add up to at most 4096 (so that `p1 = malloc (a)` and
`p2 = malloc (b)` are both carved from the initial chunk: neither consults
the provider and the heap bounds stay the same), `p2` is the block immediately
after `p1` in heap order; after `free (p1)`; `free (p2)` the chain is one free
block starting at `p1` that holds both blocks; and `malloc (m)`, for every
`m > 0` whose adjusted size is at most the sum of the sizes of the two blocks,
returns `p1` without any request to the provider. -/
theorem coalesced_reuse (base : Nat) (m : Nat → Nat) (a b : Nat) (ha0 : 0 < a)
    (ha : a + 31 < W64) (hb0 : 0 < b) (hb : b + 31 < W64) (hsum : adjust a + adjust b ≤ 4096)
    (htop : base + 4256 < LONG_LIM) :
    ∃ st0 p1 st1 p2 st2 st3 st4 s1 s2,
      mm_init (fresh base m) true true true = some (true, st0) ∧
      (∀ g, malloc st0 a g = some (p1, st1)) ∧ (∀ g, malloc st1 b g = some (p2, st2)) ∧
      st1.brk = st0.brk ∧ st2.brk = st0.brk ∧ p1 ≠ NULL ∧
      GET_SIZE st2 (HDRP p1) = some s1 ∧ GET_SIZE st2 (HDRP p2) = some s2 ∧
      NEXT_BLK st2 p1 = some p2 ∧ p2 = p1 + s1 ∧
      free st2 p1 = some st3 ∧ free st3 p2 = some st4 ∧ st4.brk = st0.brk ∧
      chain st4 = some [p1] ∧ GET_ALLOC st4 (HDRP p1) = some 0 ∧
      GET_SIZE st4 (HDRP p1) = some 4096 ∧ s1 + s2 ≤ 4096 ∧
      ∀ n, 0 < n → n < W64 → adjust n ≤ s1 + s2 →
        ∃ st5, st5.brk = st4.brk ∧ ∀ g, malloc st4 n g = some (p1, st5) := by
  unfold W64 at ha hb
  unfold LONG_LIM at htop
  obtain ⟨a1, a2, a3, a4⟩ := adjust_spec a ha0 ha
  obtain ⟨b1, b2, b3, b4⟩ := adjust_spec b hb0 hb
  obtain ⟨m0, bk0, e0, hI0⟩ := mm_init_spec base m htop
  have hB0 : (⟨base + 160, 4096, 0, 1⟩ : Blk) ∈ [(⟨base + 160, 4096, 0, 1⟩ : Blk)] :=
    List.mem_singleton.2 rfl
  obtain ⟨m1, brk1, bs1, bk1, s1, e1, hI1, h1, hs1, _, _, _, hcar⟩ := first_malloc m0 base
    (base + 160) base bk0 hI0 a ha0 ha (fun h => absurd h (by omega))
  obtain ⟨hbrk1, hs1a⟩ := hcar (by omega)
  subst hbrk1
  subst hs1a
  obtain ⟨_, _, tail, hbs1, ht⟩ := shape_one hI1 _ h1
  have hR : (⟨base + 160 + adjust a, base + 4256 - (base + 160 + adjust a), 0, 1⟩ : Blk) ∈ bs1 := by
    rcases ht with ht | ht
    · exfalso
      have hL := hI1.core.linked1
      rw [hbs1, ht] at hL
      simp only [Linked] at hL
      omega
    · rw [hbs1, ht]; simp
  obtain ⟨m2, brk2, bs2, bk2, s2, e2, hI2, h2, hs2, hs32, _, hcar2⟩ := second_malloc m1 base
    (base + 4256) (base + 160) base bs1 bk1 hI1 _ h1 b hb0 hb (fun h => absurd (by (clear * - hsum; omega)) h)
  obtain ⟨hbrk2, hs2p⟩ := hcar2 (by (clear * - hsum; omega))
  subst hbrk2
  have hs2le : s2 ≤ 4096 - adjust a := by
    rw [hs2p]
    unfold placedSize
    simp only
    split_ifs <;> (clear * - hsum; omega)
  obtain ⟨m3, bs3, bk3, e3, hI3, h3, _, _⟩ := free_first m2 base (base + 4256) (base + 160) base
    bs2 bk2 hI2 _ s2 hs32 h2
  obtain ⟨d, hd, hd1, hd2, hd3⟩ := (h3 (base + 160 + adjust a) s2).2 ⟨rfl, rfl⟩
  obtain ⟨pre, post, hsplit⟩ := List.append_of_mem hd
  subst hsplit
  obtain ⟨m4, bs4, bk4, e4, hI4, _, hiff4, _⟩ := free_cover m3 base (base + 4256) (base + 160)
    base pre post d bk3 hI3 hd3
  rw [hd1] at e4
  have hno : ∀ q s, ¬ IsAlloc bs4 q s := by
    intro q s h
    obtain ⟨h5, h6⟩ := (hiff4 q s).1 h
    have := (h3 q s).1 h5
    (clear * - hd1 h6 this; omega)
  have hbs4 : bs4 = [⟨base + 160, 4096, 0, 1⟩] := by
    rcases shape_none hI4 hno with h | h
    · exfalso
      have hL := hI4.core.linked1
      rw [h] at hL
      simp only [Linked] at hL
      omega
    · rw [h]
      have : base + 4256 - (base + 160) = 4096 := by (clear * -; omega)
      rw [this]
  subst hbs4
  obtain ⟨d1, hd1m, hd1a, hd1s, _⟩ := (h2 (base + 160) (adjust a)).2 (Or.inl ⟨rfl, rfl⟩)
  obtain ⟨d2, hd2m, hd2a, hd2s, _⟩ := (h2 (base + 160 + adjust a) s2).2 (Or.inr ⟨rfl, rfl⟩)
  obtain ⟨_, _, q1, _, _⟩ := blk_reads hI2.core hd1m
  obtain ⟨_, _, q2, _, _⟩ := blk_reads hI2.core hd2m
  obtain ⟨_, _, q3, q4, _⟩ := blk_reads hI4.core hB0
  have hd1b := hI2.core.blk hd1m
  have hnx := NEXT_BLK_hdr m2 base (base + 4256) (base + 160) base d1.addr d1.size d1.palloc
    d1.alloc (by omega) htop hd1b.2.2.2.2.2.2.2.2.2 (by (clear * - a1 hd1s; omega)) (by omega) (by omega) (by (clear * - hd1b; omega))
  rw [hd1a, hd1s] at q1 hnx
  rw [hd2a, hd2s] at q2
  simp only at q3 q4
  refine ⟨⟨m0, base, base + 4256, base + 160, base⟩, base + 160,
    ⟨m1, base, base + 4256, base + 160, base⟩, base + 160 + adjust a,
    ⟨m2, base, base + 4256, base + 160, base⟩, ⟨m3, base, base + 4256, base + 160, base⟩,
    ⟨m4, base, base + 4256, base + 160, base⟩, adjust a, s2, e0, ?_, ?_, rfl, rfl,
    by simp only [NULL]; (clear * -; omega), q1, q2, hnx, rfl, e3, e4, rfl, chain_spec _ _ _ hI4, q4, q3,
    by (clear * - hsum hs2le; omega), ?_⟩
  · intro g
    rw [malloc_any m0 base (base + 4256) (base + 160) base _ bk0 hI0 a ha0
      ⟨_, hB0, rfl, by simp only; (clear * - hd1s hd1b; omega)⟩ g true]
    exact e1
  · intro g
    rw [malloc_any m1 base (base + 4256) (base + 160) base _ bk1 hI1 b hb0
      ⟨_, hR, rfl, by simp only; (clear * - hsum; omega)⟩ g true]
    exact e2
  · intro n hn0 hnw hfit
    unfold W64 at hnw
    obtain ⟨m5, e5⟩ := malloc_whole m4 base (base + 4256) (base + 160) base bk4 hI4 n hn0 hnw
      (by (clear * - hsum hs2le hfit; omega))
    exact ⟨⟨m5, base, base + 4256, base + 160, base⟩, rfl, e5⟩

theorem coalesced_reuse_witness :
    (0 < 64 ∧ 64 + 31 < W64 ∧ adjust 64 + adjust 64 ≤ 4096 ∧ 4096 + 4256 < LONG_LIM) ∧
    ∃ st0 p1 st1 p2 st2 st3 st4 s1 s2,
      mm_init (fresh 4096 (fun _ => 0)) true true true = some (true, st0) ∧
      (∀ g, malloc st0 64 g = some (p1, st1)) ∧ (∀ g, malloc st1 64 g = some (p2, st2)) ∧
      st1.brk = st0.brk ∧ st2.brk = st0.brk ∧ p1 ≠ NULL ∧
      GET_SIZE st2 (HDRP p1) = some s1 ∧ GET_SIZE st2 (HDRP p2) = some s2 ∧
      NEXT_BLK st2 p1 = some p2 ∧ p2 = p1 + s1 ∧
      free st2 p1 = some st3 ∧ free st3 p2 = some st4 ∧ st4.brk = st0.brk ∧
      chain st4 = some [p1] ∧ GET_ALLOC st4 (HDRP p1) = some 0 ∧
      GET_SIZE st4 (HDRP p1) = some 4096 ∧ s1 + s2 ≤ 4096 ∧
      ∀ n, 0 < n → n < W64 → adjust n ≤ s1 + s2 →
        ∃ st5, st5.brk = st4.brk ∧ ∀ g, malloc st4 n g = some (p1, st5) :=
  ⟨⟨by decide, by decide, by decide, by decide⟩,
    coalesced_reuse 4096 (fun _ => 0) 64 64 (by decide) (by decide) (by decide) (by decide)
      (by decide) (by decide)⟩

/-- C12 fails for request sizes that wrap.  With `a = 2^64 - 31` (adjusted size
0) and `b = 64`, both calls are served from the initial chunk and return the
same pointer, so `p2` is not the block after `p1`.  With `a = 64` and
`b = 2^64 - 31`, both calls are served from the initial chunk, `free (p1)`
runs through, and `free (p2)` then accesses memory outside the heap. -/
theorem coalesced_reuse_wraps :
    (malloc run0 (W64 - 31) true = some (4256, runU1) ∧ runU1.brk = run0.brk ∧
      malloc runU1 64 true = some (4256, runU2) ∧ runU2.brk = run0.brk) ∧
    (malloc run0 64 true = some (4256, runV1) ∧ runV1.brk = run0.brk ∧
      malloc runV1 (W64 - 31) true = some (4336, runV2) ∧ runV2.brk = run0.brk ∧
      free runV2 4256 = some runV3 ∧ free runV3 4336 = none) :=
  ⟨⟨by rfl, by decide, by rfl, by decide⟩,
    ⟨by rfl, by decide, by rfl, by decide, by rfl, by rfl⟩⟩


/-! ## The consistency checker -/

/-- Both sides of the overlap test are the same address. -/
theorem overlap_sides_eq (h : Heap) (bp : Nat) : overlap_left h bp = overlap_right h bp := by
  unfold overlap_left overlap_right NEXT_BLK HDRP
  rw [Option.map_map]
  rfl

theorem overlap_test_false (h : Heap) (bp : Nat) (r : Bool)
    (e : overlap_test h bp = some r) : r = false := by
  unfold overlap_test at e
  rw [overlap_sides_eq] at e
  obtain ⟨l, hl, e1⟩ := andThen_eq_some.1 e
  rw [hl, andThen_some] at e1
  have := Option.some.inj e1
  rw [← this]
  exact decide_eq_false (Nat.lt_irrefl l)

theorem overlap_loop_never (h : Heap) : ∀ (fuel bp : Nat),
    overlap_loop h fuel bp ≠ some Verdict.overlap
  | 0, _ => by simp [overlap_loop]
  | fuel + 1, bp => by
    intro hc
    rw [overlap_loop] at hc
    obtain ⟨s, _, hc⟩ := andThen_eq_some.1 hc
    by_cases hs : s > 0
    · rw [if_pos hs] at hc
      simp only at hc
      have hrest : ¬ (andThen (overlap_test h bp) fun o =>
          if o = true then some Verdict.overlap
          else andThen (NEXT_BLK h bp) fun nb => overlap_loop h fuel nb)
          = some Verdict.overlap := by
        intro hr
        obtain ⟨o, ho, hr⟩ := andThen_eq_some.1 hr
        have := overlap_test_false h bp o ho
        subst this
        rw [if_neg (by simp)] at hr
        obtain ⟨nb, _, hr⟩ := andThen_eq_some.1 hr
        exact overlap_loop_never h fuel nb hr
      obtain ⟨a, _, hc⟩ := andThen_eq_some.1 hc
      by_cases ha : a = 0
      · rw [if_pos ha] at hc
        obtain ⟨pa, _, hc⟩ := andThen_eq_some.1 hc
        by_cases hp : pa ≠ 2
        · rw [if_pos hp] at hc
          exact absurd (Option.some.inj hc) (by decide)
        · rw [if_neg hp] at hc
          exact hrest hc
      · rw [if_neg ha] at hc
        exact hrest hc
    · rw [if_neg hs] at hc
      exact absurd (Option.some.inj hc) (by decide)

theorem check_list_loop_never (h : Heap) : ∀ (fuel current free_count : Nat),
    check_list_loop h fuel current free_count ≠ some (Except.error Verdict.overlap)
  | 0, _, _ => by simp [check_list_loop]
  | fuel + 1, current, free_count => by
    intro hc
    rw [check_list_loop] at hc
    by_cases hn : current ≠ NULL
    · rw [if_pos hn] at hc
      obtain ⟨a, _, hc⟩ := andThen_eq_some.1 hc
      by_cases ha : a = 1
      · rw [if_pos ha] at hc
        simp at hc
      · rw [if_neg ha] at hc
        obtain ⟨s, _, hc⟩ := andThen_eq_some.1 hc
        by_cases hv : s = 0 ∨ current < mem_heap_lo h ∨ current > mem_heap_hi h
        · rw [if_pos hv] at hc
          simp at hc
        · rw [if_neg hv] at hc
          obtain ⟨nx, _, hc⟩ := andThen_eq_some.1 hc
          exact check_list_loop_never h fuel nx _ hc
    · rw [if_neg hn] at hc
      simp at hc

theorem check_lists_never (h : Heap) (fuel : Nat) : ∀ (n i free_count : Nat),
    check_lists h fuel n i free_count ≠ some (Except.error Verdict.overlap)
  | 0, _, _ => by simp [check_lists]
  | n + 1, i, free_count => by
    intro hc
    rw [check_lists] at hc
    obtain ⟨current, _, hc⟩ := andThen_eq_some.1 hc
    obtain ⟨r, hr, hc⟩ := andThen_eq_some.1 hc
    cases r with
    | error v =>
      simp only at hc
      have hv : v = Verdict.overlap := by
        have := Option.some.inj hc
        exact Except.error.inj this
      rw [hv] at hr
      exact check_list_loop_never h fuel current free_count hr
    | ok c =>
      simp only at hc
      exact check_lists_never h fuel n (i + 1) c hc

theorem count_loop_never (h : Heap) : ∀ (fuel bp free_count_heap : Nat),
    count_loop h fuel bp free_count_heap ≠ some (Except.error Verdict.overlap)
  | 0, _, _ => by simp [count_loop]
  | fuel + 1, bp, free_count_heap => by
    intro hc
    rw [count_loop] at hc
    obtain ⟨s, _, hc⟩ := andThen_eq_some.1 hc
    by_cases hs : s > 0
    · rw [if_pos hs] at hc
      obtain ⟨a, _, hc⟩ := andThen_eq_some.1 hc
      by_cases hv : bp < mem_heap_lo h ∨ bp > mem_heap_hi h ∨ bp = NULL
      · rw [if_pos hv] at hc
        simp at hc
      · rw [if_neg hv] at hc
        obtain ⟨nb, _, hc⟩ := andThen_eq_some.1 hc
        exact count_loop_never h fuel nb _ hc
    · rw [if_neg hs] at hc
      simp at hc

/-- C21: in the consistency checker (body of a `DEBUG` build), both sides of
the overlap test `bp + GET_SIZE(HDRP(bp)) - WSIZE > HDRP(NEXT_BLK(bp))` are the
same address for every heap state and every block `bp`, which is
`bp + size - 8` when the addresses do not wrap; the test is evaluated and
false whenever the header of `bp` can be read; and `mm_checkheap` never returns
false on account of the overlap check, whatever the heap contains and however
long its loops run. -/
theorem checkheap_overlap_never (h : Heap) (bp fuel : Nat) :
    overlap_left h bp = overlap_right h bp ∧
      (∀ r, overlap_test h bp = some r → r = false) ∧
      (∀ s, GET_SIZE h (HDRP bp) = some s →
        overlap_test h bp = some false ∧
        (WSIZE ≤ bp + s → bp + s < W64 →
          overlap_left h bp = some (bp + s - WSIZE) ∧
          overlap_right h bp = some (bp + s - WSIZE))) ∧
      mm_checkheap h fuel ≠ some Verdict.overlap := by
  refine ⟨overlap_sides_eq h bp, overlap_test_false h bp, ?_, ?_⟩
  · intro s hs
    have hl : overlap_left h bp = some (((bp + s) % W64 + W64 - WSIZE) % W64) := by
      unfold overlap_left
      rw [hs]
      rfl
    refine ⟨?_, ?_⟩
    · unfold overlap_test
      rw [← overlap_sides_eq, hl, andThen_some, andThen_some]
      exact congrArg some (decide_eq_false (Nat.lt_irrefl _))
    · intro h1 h2
      have hv : ((bp + s) % W64 + W64 - WSIZE) % W64 = bp + s - WSIZE := by
        unfold W64 WSIZE at *
        (clear * - h1 h2; omega)
      rw [← overlap_sides_eq, hl, hv]
      exact ⟨rfl, rfl⟩
  · intro hc
    unfold mm_checkheap at hc
    obtain ⟨r1, hr1, hc⟩ := andThen_eq_some.1 hc
    cases r1 with
    | error v =>
      simp only at hc
      rw [Option.some.inj hc] at hr1
      exact check_lists_never h fuel _ _ _ hr1
    | ok free_count =>
      simp only at hc
      obtain ⟨r2, hr2, hc⟩ := andThen_eq_some.1 hc
      cases r2 with
      | error v =>
        simp only at hc
        rw [Option.some.inj hc] at hr2
        exact count_loop_never h fuel _ _ hr2
      | ok free_count_heap =>
        simp only at hc
        by_cases hne : free_count ≠ free_count_heap
        · rw [if_pos hne] at hc
          exact absurd (Option.some.inj hc) (by decide)
        · rw [if_neg hne] at hc
          exact overlap_loop_never h fuel _ hc

set_option maxRecDepth 100000 in
theorem checkheap_run3 : mm_checkheap run3 4256 = some Verdict.passed ∧
    GET_SIZE run3 (HDRP 4304) = some 128 ∧ overlap_left run3 4304 = some 4424 := by
  decide

theorem checkheap_overlap_never_witness :
    mm_checkheap run3 4256 = some Verdict.passed ∧
      overlap_test run3 4304 = some false ∧
      overlap_right run3 4304 = some (4304 + 128 - WSIZE) ∧
      mm_checkheap run3 4256 ≠ some Verdict.overlap := by
  obtain ⟨c1, c2, _⟩ := checkheap_run3
  obtain ⟨_, _, h3, h4⟩ := checkheap_overlap_never run3 4304 4256
  obtain ⟨h5, h6⟩ := h3 128 c2
  exact ⟨c1, h5, (h6 (by decide) (by decide)).2, h4⟩

end MallocLab
